import Mathlib

/-!
# MimicDB: a shallow embedding of the LSM-tree key-value engine

The definitions below follow the C++ sources of the repository
(`globals.h`, `memtable`, `page`, `bloomfilter`, `btree`, `sst`, `bufferpool`,
`lsmtree`, `kvstore`).  Machine integers are mathematical integers, reduced
modulo a power of two where the source relies on it.  Byte buffers are total
functions from the byte index to the byte value; a buffer of the source that
has `n` bytes is only ever read below `n`.  Operations that can throw or
dereference a null pointer return `Except Fault _`.
-/

namespace MimicDB

/-! ## `global/globals.h` and the limits of `<climits>` / `<cstdint>` -/

def PAGE_SIZE : Nat := 4096

def SST_METADATA_SIZE : Nat := 24

def BUFFER_POOL_SIZE : Nat := 100

def HASHMAP_SIZE : Nat := 2560

def BTREE_DEGREE : Nat := 128

def INT64_MIN : Int := -9223372036854775808

def INT64_MAX : Int := 9223372036854775807

def INT_MIN : Int := -2147483648

def INT_MAX : Int := 2147483647

def TOMBSTONE : Int := INT64_MIN + 5

def BITS_PER_ENTRY : Int := 12

def NUM_ENTRIES : Int := 340

/-- Ways in which an operation of the engine fails to return normally:
`runtimeError` is a thrown `std::runtime_error` (or another `std::exception`),
`nullDeref`, `outOfBounds`, `uninitialised` and `overflow` are the undefined
behaviours the source can run into (null pointer dereference,
`front`/`back`/indexing outside a vector or an array, use of the bytes of a
stack buffer that were never written, overflow of a signed product),
`outOfFuel` marks a loop bound of this model being exhausted. -/
inductive Fault where
  | runtimeError
  | invalidArgument
  | nullDeref
  | outOfBounds
  | uninitialised
  | overflow
  | outOfFuel
deriving DecidableEq

/-- Whether the fault is a thrown exception that `catch (const std::exception &)`
handles: `std::runtime_error` and `std::invalid_argument` are, undefined
behaviour and an exhausted bound of the model are not. -/
def Fault.isException : Fault → Bool
  | .runtimeError => true
  | .invalidArgument => true
  | _ => false

/-! ## Byte buffers (`std::vector<char>`, `char buf[PAGE_SIZE]`, `memcpy`) -/

/-- A byte buffer: the value of the byte at every index. -/
abbrev Bytes := Nat → Nat

def zeroBytes : Bytes := fun _ => 0

/-- Little-endian value of the `width` bytes starting at `off`. -/
def readLE (d : Bytes) (off : Nat) : Nat → Nat
  | 0 => 0
  | w + 1 => d off % 256 + 256 * readLE d (off + 1) w

/-- The buffer after a `memcpy` of the `width` low bytes of `val` to `off`. -/
def writeLE (d : Bytes) (off width val : Nat) : Bytes :=
  fun i => if off ≤ i ∧ i < off + width then val / 256 ^ (i - off) % 256 else d i

/-- Two's complement bit pattern of a 32-bit `int`. -/
def ofInt32 (x : Int) : Nat := (x % 4294967296).toNat

/-- The `int` a 32-bit pattern stands for. -/
def toInt32 (n : Nat) : Int :=
  if n % 4294967296 < 2147483648 then ((n % 4294967296 : Nat) : Int)
  else ((n % 4294967296 : Nat) : Int) - 4294967296

/-- Two's complement bit pattern of an `int64_t`. -/
def ofInt64 (x : Int) : Nat := (x % 18446744073709551616).toNat

/-- The `int64_t` a 64-bit pattern stands for. -/
def toInt64 (n : Nat) : Int :=
  if n % 18446744073709551616 < 9223372036854775808 then ((n % 18446744073709551616 : Nat) : Int)
  else ((n % 18446744073709551616 : Nat) : Int) - 18446744073709551616

def readInt32 (d : Bytes) (off : Nat) : Int := toInt32 (readLE d off 4)

def readInt64 (d : Bytes) (off : Nat) : Int := toInt64 (readLE d off 8)

def writeInt32 (d : Bytes) (off : Nat) (x : Int) : Bytes := writeLE d off 4 (ofInt32 x)

def writeInt64 (d : Bytes) (off : Nat) (x : Int) : Bytes := writeLE d off 8 (ofInt64 x)

/-- The buffer `dst` after `memcpy(dst + off, src, len)`. -/
def blit (dst : Bytes) (off len : Nat) (src : Bytes) : Bytes :=
  fun i => if off ≤ i ∧ i < off + len then src (i - off) else dst i

/-! ## `memtable/memtable.cpp`: the AVL tree -/

/-- A `Node *` of the memtable: `null` is the null pointer. -/
inductive Node where
  | null : Node
  | mk (key value : Int) (left right : Node) (height : Int) : Node

namespace AVLTree

def height : Node → Int
  | .null => 0
  | .mk _ _ _ _ h => h

def updateHeight : Node → Int
  | .null => 0
  | .mk _ _ l r _ => 1 + max (height l) (height r)

def balanceFactor : Node → Int
  | .null => 0
  | .mk _ _ l r _ => height l - height r

/-- Assignment `node->height = h` (nothing to assign on a null pointer). -/
def setHeight : Node → Int → Node
  | .null, _ => .null
  | .mk k v l r _, h => .mk k v l r h

/-- Right rotation.  The source dereferences `y->left`; `balance` only calls it
when the left subtree is higher than the right one by more than one, so on a
null `y` or `y->left` the model returns its argument. -/
def rotateRight : Node → Node
  | .mk yk yv (.mk xk xv xl t2 xh) yr yh =>
    let y := Node.mk yk yv t2 yr yh
    let y := setHeight y (updateHeight y)
    let x := Node.mk xk xv xl y xh
    setHeight x (updateHeight x)
  | n => n

/-- Left rotation, the mirror image of `rotateRight`. -/
def rotateLeft : Node → Node
  | .mk xk xv xl (.mk yk yv t2 yr yh) xh =>
    let x := Node.mk xk xv xl t2 xh
    let x := setHeight x (updateHeight x)
    let y := Node.mk yk yv x yr yh
    setHeight y (updateHeight y)
  | n => n

def balance (node : Node) : Node :=
  let node := setHeight node (updateHeight node)
  let bal := balanceFactor node
  if bal > 1 then
    match node with
    | .null => .null
    | .mk k v l r h =>
      if balanceFactor l < 0 then rotateRight (.mk k v (rotateLeft l) r h)
      else rotateRight (.mk k v l r h)
  else if bal < -1 then
    match node with
    | .null => .null
    | .mk k v l r h =>
      if balanceFactor r > 0 then rotateLeft (.mk k v l (rotateRight r) h)
      else rotateLeft (.mk k v l r h)
  else node

/-- The recursive `AVLTree::put(Node *, key, value)`. -/
def putNode : Node → Int → Int → Node
  | .null, key, value => .mk key value .null .null 1
  | .mk k v l r h, key, value =>
    if key < k then balance (.mk k v (putNode l key value) r h)
    else if key > k then balance (.mk k v l (putNode r key value) h)
    else balance (.mk k value l r h)

/-- The recursive `AVLTree::get(Node *, key)`. -/
def getNode : Node → Int → Int
  | .null, _ => -1
  | .mk k v l r _, key =>
    if key < k then getNode l key
    else if key > k then getNode r key
    else v

def inOrderTraversal : Node → List (Int × Int) → Int → Int → List (Int × Int)
  | .null, result, _, _ => result
  | .mk k v l r _, result, start, stop =>
    let result := if k > start then inOrderTraversal l result start stop else result
    let result :=
      if k ≥ start ∧ k ≤ stop ∧ v ≠ INT64_MIN then result ++ [(k, v)] else result
    if k < stop then inOrderTraversal r result start stop else result

end AVLTree

/-- The memtable object: root pointer, size threshold and number of `put` calls. -/
structure AVLTree where
  root : Node
  memtable_size : Int
  current_size : Int

namespace AVLTree

/-- Constructor `AVLTree(max_size)`. -/
def new (max_size : Int) : AVLTree :=
  { root := .null, memtable_size := max_size, current_size := 0 }

def put (t : AVLTree) (key value : Int) : AVLTree :=
  { t with current_size := t.current_size + 1, root := putNode t.root key value }

def del (t : AVLTree) (key : Int) : AVLTree := t.put key INT64_MIN

def getCurrentSize (t : AVLTree) : Int := t.current_size

def get (t : AVLTree) (key : Int) : Int :=
  let value := getNode t.root key
  if value = INT64_MIN then -1 else value

def scan (t : AVLTree) (start stop : Int) : List (Int × Int) :=
  inOrderTraversal t.root [] start stop

def clear (t : AVLTree) : AVLTree := { t with root := .null, current_size := 0 }

end AVLTree

/-! ## `page/page.cpp` -/

structure KeyOffset where
  key : Int
  valueOffset : Int
deriving DecidableEq

/-- A page under construction: the object fields and the 4096 serialised bytes. -/
structure Page where
  numEntries : Int
  startingKey : Int
  freeSpace : Int
  keys : List KeyOffset
  data : Bytes

namespace Page

def calculateMetadataSize : Int := 4 + 8 + 4

/-- Constructor `Page()`: 4096 zero bytes, free space behind the metadata. -/
def new : Page :=
  { numEntries := 0, startingKey := 0, freeSpace := (PAGE_SIZE : Int) - calculateMetadataSize,
    keys := [], data := zeroBytes }

/-- The loop of `addEntry` copying the `keys` vector behind the metadata. -/
def writeKeys : List KeyOffset → Nat → Bytes → Bytes
  | [], _, data => data
  | ko :: rest, metadataOffset, data =>
    let data := writeInt64 data metadataOffset ko.key
    let data := writeInt32 data (metadataOffset + 8) ko.valueOffset
    writeKeys rest (metadataOffset + 12) data

def addEntry (p : Page) (key value : Int) : Bool × Page :=
  let entrySize : Int := 8 + 4 + 8
  if entrySize > p.freeSpace then (false, p)
  else
    let startingKey := if p.numEntries = 0 then key else p.startingKey
    let valueOffset : Int := (PAGE_SIZE : Int) - 8 * (p.numEntries + 1)
    let keys := p.keys ++ [{ key := key, valueOffset := valueOffset }]
    let data := writeInt64 p.data valueOffset.toNat value
    let numEntries := p.numEntries + 1
    let freeSpace := p.freeSpace - entrySize
    let data := writeInt32 data 0 numEntries
    let data := writeInt64 data 4 startingKey
    let data := writeInt32 data 12 freeSpace
    let data := writeKeys keys 16 data
    (true, { numEntries := numEntries, startingKey := startingKey, freeSpace := freeSpace,
             keys := keys, data := data })

end Page

/-! ## `bloomfilter/bloomfilter.cpp` -/

/-- The filter: `bitArray` is the `std::vector<bool>` of `numBits` slots, `data`
the byte image produced by `updateData`. -/
structure BloomFilter where
  bitArray : Nat → Bool
  numBits : Nat
  numHashFunctions : Nat
  data : Bytes

namespace BloomFilter

/-- The number of low binary digits to drop from `p` so that at most 53 are
left, the width of the mantissa of a `double`; `fuel` bounds the count. -/
def mantissaShift : Nat → Nat → Nat
  | 0, _ => 0
  | fuel + 1, p => if p < 9007199254740992 then 0 else mantissaShift fuel (p / 2) + 1

/-- The value of `static_cast<int>(std::round(bitsPerEntry * std::log(2)))`.  The
double nearest to ln 2 is 6243314768165359 / 2^53 and the `int` converts to a
`double` exactly, so the exact product is `bitsPerEntry * 6243314768165359 /
2^53`; the `double` product keeps 53 binary digits of it, rounded to the nearest
with ties to the even mantissa (the numerator of an `int` times the mantissa
has fewer than 96 digits), and `std::round` then rounds to the nearest integer
with halves away from zero. -/
def roundLog2 (bitsPerEntry : Int) : Int :=
  let exact := bitsPerEntry.natAbs * 6243314768165359
  let shift := mantissaShift 96 exact
  let mantissa := exact / 2 ^ shift
  let dropped := exact % 2 ^ shift
  let mantissa :=
    if 2 * dropped > 2 ^ shift ∨ (2 * dropped = 2 ^ shift ∧ mantissa % 2 = 1) then mantissa + 1
    else mantissa
  let product := mantissa * 2 ^ shift
  let rounded : Int := ((2 * product + 9007199254740992) / (2 * 9007199254740992) : Nat)
  if 0 ≤ bitsPerEntry then rounded else -rounded

/-- Constructor `BloomFilter(entries, bitsPerEntry)`; `entries` is not used. -/
def new (_entries bitsPerEntry : Int) : BloomFilter :=
  { bitArray := fun _ => false, numBits := PAGE_SIZE,
    numHashFunctions := (max 1 (roundLog2 bitsPerEntry)).toNat, data := zeroBytes }

/-- Two to the 64: the modulus of `size_t` and of wrapped `int64_t` arithmetic. -/
def two64 : Nat := 18446744073709551616

/-- Arithmetic right shift `key >> s` of a 64-bit pattern of a signed value. -/
def sar64 (u s : Nat) : Nat := ofInt64 (toInt64 u / (2 : Int) ^ s)

/-- Left shift `key << s` of a 64-bit pattern. -/
def shl64 (u s : Nat) : Nat := u * 2 ^ s % two64

/-- The primary hash.  `key` is worked on as its 64-bit pattern; sums wrap. -/
def hashFunction (f : BloomFilter) (key : Int) : Nat :=
  let k := ofInt64 key
  let k := ((two64 - 1 - k) + shl64 k 21) % two64
  let k := Nat.xor k (sar64 k 24)
  let k := ((k + shl64 k 3) + shl64 k 8) % two64
  let k := Nat.xor k (sar64 k 14)
  let k := ((k + shl64 k 2) + shl64 k 4) % two64
  let k := Nat.xor k (sar64 k 28)
  let k := (k + shl64 k 31) % two64
  k % f.numBits

/-- The library hash `std::hash<size_t>`, the identity in libstdc++ and libc++. -/
def stdHash (x : Nat) : Nat := x

/-- The slots `(hash1 + i * hash2) % numBits` for `i` below `numHashFunctions`. -/
def getHashValues (f : BloomFilter) (key : Int) : List Nat :=
  let hash1 := f.hashFunction key
  let hash2 := stdHash hash1
  (List.range f.numHashFunctions).map (fun i => (hash1 + i * hash2) % two64 % f.numBits)

def insert (f : BloomFilter) (key : Int) : BloomFilter :=
  (f.getHashValues key).foldl
    (fun g hash => { g with bitArray := fun i => if i = hash then true else g.bitArray i }) f

/-- The loop of `query`: false at the first clear slot. -/
def queryLoop (bits : Nat → Bool) : List Nat → Bool
  | [] => true
  | hash :: rest => if !bits hash then false else queryLoop bits rest

def query (f : BloomFilter) (key : Int) : Bool :=
  queryLoop f.bitArray (f.getHashValues key)

/-- The byte image: 4096 bytes, byte `i` is 1 when slot `i` is set. -/
def updateData (f : BloomFilter) : BloomFilter :=
  { f with data := fun i => if i < PAGE_SIZE ∧ i < f.numBits ∧ f.bitArray i then 1 else 0 }

end BloomFilter

/-! ## `btree/btree.cpp` -/

/-- Element `i` of a vector; reading outside the vector is undefined behaviour. -/
def readAt {α : Type} (l : List α) (i : Nat) : Except Fault α :=
  match l.get? i with
  | some a => .ok a
  | none => .error .outOfBounds

/-- The elements `l[start]`, ..., `l[start + count - 1]`, read one by one. -/
def readRange {α : Type} (l : List α) (start : Nat) : Nat → Except Fault (List α)
  | 0 => .ok []
  | count + 1 =>
    match readAt l start with
    | .error e => .error e
    | .ok a =>
      match readRange l (start + 1) count with
      | .error e => .error e
      | .ok rest => .ok (a :: rest)

/-- The vector after `resize(n)` of a vector of integers (new slots are zero). -/
def resizeInts (l : List Int) (n : Nat) : List Int :=
  l.take n ++ List.replicate (n - l.length) 0

/-- The vector after `insert(begin() + i, a)`. -/
def insertAt {α : Type} (l : List α) (i : Nat) (a : α) : List α :=
  l.take i ++ a :: l.drop i

namespace BTree

/-- A node of the in-file B-tree (`BTree::Node`). -/
inductive Node where
  | mk (isLeaf : Bool) (keys : List Int) (children : List Node) (offsets : List Int)
      (data : Bytes) : Node

namespace Node

def isLeaf : Node → Bool
  | .mk l _ _ _ _ => l

def keys : Node → List Int
  | .mk _ k _ _ _ => k

def children : Node → List Node
  | .mk _ _ c _ _ => c

def offsets : Node → List Int
  | .mk _ _ _ o _ => o

def data : Node → Bytes
  | .mk _ _ _ _ d => d

/-- Constructor `Node(isLeaf)`: all vectors empty. -/
def new (isLeaf : Bool) : Node := .mk isLeaf [] [] [] zeroBytes

/-- The loop of `updateData` writing `(offsets[i], keys[i])` for every key. -/
def writePairs (offsets : List Int) : List Int → Nat → Nat → Bytes → Nat × Bytes
  | [], _, metadataOffset, data => (metadataOffset, data)
  | k :: ks, i, metadataOffset, data =>
    let data := writeInt64 data metadataOffset (offsets.getD i 0)
    let data := writeInt64 data (metadataOffset + 8) k
    writePairs offsets ks (i + 1) (metadataOffset + 16) data

/-- The 4096-byte block of a node: key count, offset count, the pairs and the
trailing offset when there is one more offset than keys. -/
def updateData : Node → Node
  | .mk isLeaf keys children offsets data =>
    let keyCount : Int := keys.length
    let offCount : Int := offsets.length
    let data := writeInt32 data 0 keyCount
    let data := writeInt32 data 4 offCount
    let (metadataOffset, data) := writePairs offsets keys 0 8 data
    let data :=
      if keyCount < offCount then writeInt64 data metadataOffset (offsets.getD keys.length 0)
      else data
    .mk isLeaf keys children offsets data

end Node

end BTree

/-- The tree object: root pointer (null before the first insert) and degree `t`. -/
structure BTree where
  root : Option BTree.Node
  degree : Nat

namespace BTree

/-- Constructor `BTree(degree)`. -/
def new (degree : Nat) : BTree := { root := none, degree := degree }

/-- Function `splitChild(parent, index, parent->children[index])`. -/
def splitChild (degree : Nat) (parent : Node) (index : Nat) : Except Fault Node :=
  match parent with
  | .mk pLeaf pKeys pChildren pOffsets pData =>
    match readAt pChildren index with
    | .error e => .error e
    | .ok (.mk cLeaf cKeys cChildren cOffsets cData) =>
      match readRange cKeys degree (degree - 1) with
      | .error e => .error e
      | .ok newKeys =>
        if cLeaf then
          match readRange cOffsets degree (degree - 1) with
          | .error e => .error e
          | .ok newOffsets =>
            let newNode := Node.mk cLeaf newKeys [] newOffsets zeroBytes
            let cKeys := resizeInts cKeys degree
            let cOffsets := resizeInts cOffsets degree
            match readAt cKeys (degree - 1) with
            | .error e => .error e
            | .ok median =>
              let child := Node.mk cLeaf cKeys cChildren cOffsets cData
              .ok (.mk pLeaf (insertAt pKeys index median)
                (insertAt (pChildren.set index child) (index + 1) newNode) pOffsets pData)
        else
          match readRange cChildren degree degree with
          | .error e => .error e
          | .ok newChildren =>
            let newNode := Node.mk cLeaf newKeys newChildren [] zeroBytes
            let cKeys := resizeInts cKeys (degree - 1)
            let cChildren := cChildren.take degree
            match readAt cKeys (degree - 1) with
            | .error e => .error e
            | .ok median =>
              let child := Node.mk cLeaf cKeys cChildren cOffsets cData
              .ok (.mk pLeaf (insertAt pKeys index median)
                (insertAt (pChildren.set index child) (index + 1) newNode) pOffsets pData)

/-- The loop of the leaf case of `insertNonFull` that moves larger keys one slot
to the right; it returns the final `i`. -/
def shiftLoop (key : Int) : Nat → Int → List Int → List Int → Int × List Int × List Int
  | 0, i, keys, offsets => (i, keys, offsets)
  | fuel + 1, i, keys, offsets =>
    if i ≥ 0 ∧ key < keys.getD i.toNat 0 then
      shiftLoop key fuel (i - 1) (keys.set (i.toNat + 1) (keys.getD i.toNat 0))
        (offsets.set (i.toNat + 1) (offsets.getD i.toNat 0))
    else (i, keys, offsets)

/-- The loop of the internal case of `insertNonFull` looking for the child. -/
def findLoop (key : Int) (keys : List Int) : Nat → Int → Int
  | 0, i => i
  | fuel + 1, i => if i ≥ 0 ∧ key < keys.getD i.toNat 0 then findLoop key keys fuel (i - 1) else i

/-- Function `insertNonFull`; `fuel` bounds the depth of the descent. -/
def insertNonFull (degree : Nat) : Nat → Node → Int → Int → Except Fault Node
  | 0, _, _, _ => .error .outOfFuel
  | fuel + 1, .mk isLeaf keys children offsets data, key, offset =>
    let i : Int := (keys.length : Int) - 1
    if isLeaf then
      let (i, keys, offsets) := shiftLoop key (keys.length + 1) i (keys ++ [0]) (offsets ++ [0])
      .ok (.mk isLeaf (keys.set (i + 1).toNat key) children (offsets.set (i + 1).toNat offset) data)
    else
      let i := (findLoop key keys (keys.length + 1) i + 1).toNat
      match readAt children i with
      | .error e => .error e
      | .ok child =>
        if child.keys.length + 1 = 2 * degree then
          match splitChild degree (.mk isLeaf keys children offsets data) i with
          | .error e => .error e
          | .ok (.mk isLeaf keys children offsets data) =>
            match readAt keys i with
            | .error e => .error e
            | .ok ki =>
              let i := if key > ki then i + 1 else i
              match readAt children i with
              | .error e => .error e
              | .ok child =>
                match insertNonFull degree fuel child key offset with
                | .error e => .error e
                | .ok child => .ok (.mk isLeaf keys (children.set i child) offsets data)
        else
          match insertNonFull degree fuel child key offset with
          | .error e => .error e
          | .ok child => .ok (.mk isLeaf keys (children.set i child) offsets data)

mutual
/-- Number of nodes on the longest path from the node down to a leaf. -/
def Node.depth : Node → Nat
  | .mk _ _ children _ _ => 1 + depthList children
/-- The largest depth among a list of nodes. -/
def depthList : List Node → Nat
  | [] => 0
  | c :: cs => max c.depth (depthList cs)
end

/-- Function `BTree::insert(key, offset)`. -/
def insert (t : BTree) (key offset : Int) : Except Fault BTree :=
  match t.root with
  | none => .ok { t with root := some (.mk true [key] [] [offset] zeroBytes) }
  | some root =>
    if root.keys.length + 1 = 2 * t.degree then
      let newRoot := Node.mk false [] [root] [] zeroBytes
      match splitChild t.degree newRoot 0 with
      | .error e => .error e
      | .ok newRoot =>
        match insertNonFull t.degree (newRoot.depth + 1) newRoot key offset with
        | .error e => .error e
        | .ok r => .ok { t with root := some r }
    else
      match insertNonFull t.degree (root.depth + 1) root key offset with
      | .error e => .error e
      | .ok r => .ok { t with root := some r }

mutual
/-- The helper of `preorderTraversal`: the node, then its subtrees left to right. -/
def preorderTraversalHelper : Node → List Node → List Node
  | .mk isLeaf keys children offsets data, nodes =>
    let nodes := nodes ++ [.mk isLeaf keys children offsets data]
    if !isLeaf then preorderChildren children nodes else nodes
/-- The loop over the children in `preorderTraversalHelper`. -/
def preorderChildren : List Node → List Node → List Node
  | [], nodes => nodes
  | c :: cs, nodes => preorderChildren cs (preorderTraversalHelper c nodes)
end

mutual
/-- The helper of `postorderTraversal`: the subtrees left to right, then the node. -/
def postorderTraversalHelper : Node → List Node → List Node
  | .mk isLeaf keys children offsets data, nodes =>
    let nodes := if !isLeaf then postorderChildren children nodes else nodes
    nodes ++ [.mk isLeaf keys children offsets data]
/-- The loop over the children in `postorderTraversalHelper`. -/
def postorderChildren : List Node → List Node → List Node
  | [], nodes => nodes
  | c :: cs, nodes => postorderChildren cs (postorderTraversalHelper c nodes)
end

def preorderTraversal (t : BTree) : List Node :=
  match t.root with
  | none => []
  | some root => preorderTraversalHelper root []

def postorderTraversal (t : BTree) : List Node :=
  match t.root with
  | none => []
  | some root => postorderTraversalHelper root []

def getRoot (t : BTree) : Option Node := t.root

end BTree

/-! ## Files (`open`, `pread`, `pwrite`, `lseek`, `std::remove`, the metadata log) -/

/-- A binary file: its size and its bytes. -/
structure File where
  size : Nat
  bytes : Bytes

namespace File

def empty : File := { size := 0, bytes := zeroBytes }

/-- The file after `pwrite(fd, src, len, offset)`. -/
def pwrite (f : File) (src : Bytes) (len offset : Nat) : File :=
  { size := max f.size (offset + len), bytes := blit f.bytes offset len src }

/-- Result of `pread(fd, buf, count, offset)`: the return value (-1 for a
negative offset, otherwise the number of bytes available) and the buffer,
of which only the bytes read are overwritten. -/
def pread (f : File) (buf : Bytes) (count : Nat) (offset : Int) : Int × Bytes :=
  if offset < 0 then (-1, buf)
  else
    let n := min count (f.size - offset.toNat)
    ((n : Int), fun i => if i < n then f.bytes (offset.toNat + i) else buf i)

end File

/-- The disk: the binary files by name (first binding wins), the text of the
metadata logs by name, and the directories that exist. -/
structure FileSystem where
  files : List (String × File)
  logs : List (String × String)
  dirs : List String

namespace FileSystem

def empty : FileSystem := { files := [], logs := [], dirs := [] }

/-- The file opened by `open(name, O_RDONLY)`, none when the call returns -1. -/
def openRead (fs : FileSystem) (name : String) : Option File :=
  match fs.files.find? (fun p => p.1 == name) with
  | some p => some p.2
  | none => none

/-- The disk after a file was created or truncated and written as `f`. -/
def writeFile (fs : FileSystem) (name : String) (f : File) : FileSystem :=
  { fs with files := (name, f) :: fs.files.filter (fun p => !(p.1 == name)) }

/-- The disk after `std::remove(name)`. -/
def remove (fs : FileSystem) (name : String) : FileSystem :=
  { fs with files := fs.files.filter (fun p => !(p.1 == name)) }

end FileSystem

/-! ## `sst/sst.cpp` -/

structure SST where
  startingKey : Int
  endingKey : Int
  numEntries : Int
  numPages : Int
  pages : List Page
  pageOffsets : List Int
  btree : Option BTree
  bloomFilter : BloomFilter

namespace SST

/-- Constructor `SST()`. -/
def new : SST :=
  { startingKey := 0, endingKey := 0, numEntries := 0, numPages := 0, pages := [],
    pageOffsets := [], btree := none, bloomFilter := BloomFilter.new NUM_ENTRIES BITS_PER_ENTRY }

def addPage (s : SST) (page : Page) : Except Fault SST :=
  let startingKey := if s.numPages = 0 then page.startingKey else s.startingKey
  match page.keys.getLast? with
  | none => .error .outOfBounds
  | some last =>
    let endingKey := last.key
    let numEntries := s.numEntries + page.numEntries
    let numPages := s.numPages + 1
    let pages := s.pages ++ [page]
    let bloomFilter := page.keys.foldl (fun f entry => f.insert entry.key) s.bloomFilter
    let bloomFilter := bloomFilter.updateData
    let pageOffset : Int := (SST_METADATA_SIZE : Int) + PAGE_SIZE + (numPages - 1) * PAGE_SIZE
    let pageOffsets := s.pageOffsets ++ [pageOffset]
    let btree := match s.btree with
      | none => BTree.new BTREE_DEGREE
      | some t => t
    match btree.insert endingKey pageOffset with
    | .error e => .error e
    | .ok btree =>
      .ok { startingKey := startingKey, endingKey := endingKey, numEntries := numEntries,
            numPages := numPages, pages := pages, pageOffsets := pageOffsets,
            btree := some btree, bloomFilter := bloomFilter }

mutual
/-- Function `postorderTraversalWrite`: it returns the node as left behind (its
recorded offsets and block), the next file offset and the file. -/
def postorderTraversalWrite : BTree.Node → Nat → File → BTree.Node × Nat × File
  | .mk isLeaf keys children offsets data, currentOffset, fd =>
    let r :=
      if !isLeaf then postorderWriteChildren children offsets currentOffset fd
      else (children, offsets, currentOffset, fd)
    let node := BTree.Node.updateData (.mk isLeaf keys r.1 r.2.1 data)
    (node, r.2.2.1 + PAGE_SIZE, r.2.2.2.pwrite node.data PAGE_SIZE r.2.2.1)
/-- The loop over the children: the current offset is pushed to the parent's
`offsets` before the child is visited. -/
def postorderWriteChildren :
    List BTree.Node → List Int → Nat → File → List BTree.Node × List Int × Nat × File
  | [], offsets, currentOffset, fd => ([], offsets, currentOffset, fd)
  | c :: cs, offsets, currentOffset, fd =>
    let offsets := offsets ++ [(currentOffset : Int)]
    let r := postorderTraversalWrite c currentOffset fd
    let rs := postorderWriteChildren cs offsets r.2.1 r.2.2
    (r.1 :: rs.1, rs.2.1, rs.2.2.1, rs.2.2.2)
end

/-- The loop of `writeToFile` over the pages. -/
def writePages : List Page → Nat → File → Nat × File
  | [], offset, fd => (offset, fd)
  | page :: rest, offset, fd => writePages rest (offset + PAGE_SIZE) (fd.pwrite page.data PAGE_SIZE offset)

/-- Function `writeToFile`: the bytes of the new file.  A null `btree` is
dereferenced by the source. -/
def writeToFile (s : SST) : Except Fault File :=
  let fd := File.empty
  let fd := fd.pwrite (writeInt32 zeroBytes 0 s.numEntries) 4 0
  let fd := fd.pwrite (writeInt32 zeroBytes 0 s.numPages) 4 4
  let fd := fd.pwrite (writeInt64 zeroBytes 0 s.startingKey) 8 8
  let fd := fd.pwrite (writeInt64 zeroBytes 0 s.endingKey) 8 16
  let bloomFilter := s.bloomFilter.updateData
  let fd := fd.pwrite bloomFilter.data PAGE_SIZE 24
  let r := writePages s.pages (24 + PAGE_SIZE) fd
  match s.btree with
  | none => .error .nullDeref
  | some btree =>
    match btree.getRoot with
    | none => .ok r.2
    | some root => .ok (postorderTraversalWrite root r.1 r.2).2.2

def mightContain (s : SST) (key : Int) : Bool := s.bloomFilter.query key

end SST

/-! ## `bufferpool/HashMap.tpp` and `bufferpool/bufferpool.cpp` -/

/-- The chained hash table with `std::string` keys.  `table i` is the chain of
bucket `i`, front first.  `hash` stands for `MurmurHash3_x86_32(key, len, 0)`,
whose source (`murmur3.h`) is not part of the repository sources modelled here. -/
structure HashMap (V : Type) where
  table : Nat → List (String × V)
  capacity : Nat
  size : Nat
  hash : String → Nat

namespace HashMap

/-- Constructor `HashMap(capacity)`: every bucket is empty. -/
def new {V : Type} (hash : String → Nat) (capacity : Nat) : HashMap V :=
  { table := fun _ => [], capacity := capacity, size := 0, hash := hash }

def hashFunction {V : Type} (m : HashMap V) (key : String) : Nat := m.hash key % m.capacity

/-- The walk of `insert` along a non-empty chain: the value is replaced when
the key is met, otherwise the new node is appended; the flag tells whether a
node was added. -/
def insertChain {V : Type} (key : String) (value : V) : List (String × V) → List (String × V) × Bool
  | [] => ([(key, value)], true)
  | (k, v) :: rest =>
    if k = key then ((k, value) :: rest, false)
    else
      let r := insertChain key value rest
      ((k, v) :: r.1, r.2)

def insert {V : Type} (m : HashMap V) (key : String) (value : V) : HashMap V :=
  let index := m.hashFunction key
  let r := insertChain key value (m.table index)
  { m with table := fun i => if i = index then r.1 else m.table i,
           size := if r.2 then m.size + 1 else m.size }

/-- The walk of `get` along a chain. -/
def getChain {V : Type} (key : String) : List (String × V) → Option V
  | [] => none
  | (k, v) :: rest => if k = key then some v else getChain key rest

def get {V : Type} (m : HashMap V) (key : String) : Option V :=
  getChain key (m.table (m.hashFunction key))

/-- The walk of `remove` along a chain: the first node with the key is unlinked;
the flag tells whether a node was removed. -/
def removeChain {V : Type} (key : String) : List (String × V) → List (String × V) × Bool
  | [] => ([], false)
  | (k, v) :: rest =>
    if k = key then (rest, true)
    else
      let r := removeChain key rest
      ((k, v) :: r.1, r.2)

def remove {V : Type} (m : HashMap V) (key : String) : HashMap V :=
  let index := m.hashFunction key
  let r := removeChain key (m.table index)
  { m with table := fun i => if i = index then r.1 else m.table i,
           size := if r.2 then m.size - 1 else m.size }

end HashMap

structure ClockNode where
  pageID : String
  referenceBit : Int
deriving DecidableEq

/-- The page cache.  `ring` lists the circular list from `head` along `next`;
`clockHand` is the position of the hand in it (none for a null hand).  The
`ClockNode *` stored with a cached page is the ring node with the same page ID. -/
structure BufferPool where
  pageMap : HashMap Page
  ring : List ClockNode
  clockHand : Option Nat
  capacity : Nat
  currentSize : Nat

namespace BufferPool

/-- Constructor `BufferPool(capacity)`. -/
def new (hash : String → Nat) (capacity : Nat) : BufferPool :=
  { pageMap := HashMap.new hash capacity, ring := [], clockHand := none,
    capacity := capacity, currentSize := 0 }

/-- Assignment `node->referenceBit = bit` on the ring node of `pageID`. -/
def setReferenceBit (ring : List ClockNode) (pageID : String) (bit : Int) : List ClockNode :=
  match ring with
  | [] => []
  | n :: rest =>
    if n.pageID = pageID then { n with referenceBit := bit } :: rest
    else n :: setReferenceBit rest pageID bit

def getPage (p : BufferPool) (pageID : String) : Option Page × BufferPool :=
  match p.pageMap.get pageID with
  | none => (none, p)
  | some page => (some page, { p with ring := setReferenceBit p.ring pageID 1 })

/-- The loop of `evictPage`.  `fuel` bounds the number of iterations; a sweep
clears every bit it passes, so the ring length plus one is enough.  With a null
hand (which the source would dereference) the pool is returned as it is. -/
def evictLoop : Nat → BufferPool → BufferPool
  | 0, p => p
  | fuel + 1, p =>
    match p.clockHand with
    | none => p
    | some hand =>
      match p.ring.get? hand with
      | none => p
      | some node =>
        if node.referenceBit = 0 then
          let pageMap := p.pageMap.remove node.pageID
          if p.ring.length = 1 then
            { p with pageMap := pageMap, ring := [], clockHand := none,
                     currentSize := p.currentSize - 1 }
          else
            let ring := p.ring.eraseIdx hand
            { p with pageMap := pageMap, ring := ring,
                     clockHand := some (if hand + 1 = p.ring.length then 0 else hand),
                     currentSize := p.currentSize - 1 }
        else
          evictLoop fuel
            { p with ring := p.ring.set hand { node with referenceBit := 0 },
                     clockHand := some (if hand + 1 = p.ring.length then 0 else hand + 1) }

def evictPage (p : BufferPool) : BufferPool := evictLoop (p.ring.length + 1) p

def insertPage (p : BufferPool) (pageID : String) (page : Page) : BufferPool :=
  match p.pageMap.get pageID with
  | some _ => { p with ring := setReferenceBit p.ring pageID 1 }
  | none =>
    let p := if p.currentSize = p.capacity then p.evictPage else p
    let newNode : ClockNode := { pageID := pageID, referenceBit := 0 }
    let pageMap := p.pageMap.insert pageID page
    let ring := p.ring ++ [newNode]
    let clockHand := match p.clockHand with
      | none => some 0
      | some h => some h
    { p with pageMap := pageMap, ring := ring, clockHand := clockHand,
             currentSize := p.currentSize + 1 }

end BufferPool

/-! ## Strings (`std::to_string`, `std::stoi`, `std::stoul`, `std::getline`) -/

/-- The decimal text `std::to_string(n)` of an integer. -/
def to_string (n : Int) : String :=
  if n < 0 then String.mk ('-' :: Nat.toDigits 10 n.natAbs) else String.mk (Nat.toDigits 10 n.natAbs)

/-- The value of a run of decimal digits read left to right from `acc`, with
the number of digits read. -/
def readDigits : List Char → Nat → Nat → Nat × Nat
  | [], acc, n => (acc, n)
  | c :: rest, acc, n =>
    if c.isDigit then readDigits rest (10 * acc + (c.toNat - 48)) (n + 1) else (acc, n)

/-- The characters for which `isspace` holds in the C locale: space, `\t`,
`\n`, vertical tab, form feed and `\r`. -/
def isspace (c : Char) : Bool :=
  c = ' ' || (9 ≤ c.toNat && c.toNat ≤ 13)

/-- White space skipped by the `std::sto*` conversions. -/
def skipSpace : List Char → List Char
  | [] => []
  | c :: rest => if isspace c then skipSpace rest else c :: rest

/-- The integer read by `strtol`-style conversions: optional white space, an
optional sign, then digits; `invalid_argument` is thrown without a digit. -/
def parseInteger (s : String) : Except Fault Int :=
  match skipSpace s.data with
  | '-' :: rest =>
    let r := readDigits rest 0 0
    if r.2 = 0 then .error .invalidArgument else .ok (-(r.1 : Int))
  | '+' :: rest =>
    let r := readDigits rest 0 0
    if r.2 = 0 then .error .invalidArgument else .ok (r.1 : Int)
  | cs =>
    let r := readDigits cs 0 0
    if r.2 = 0 then .error .invalidArgument else .ok (r.1 : Int)

/-- Function `std::stoi`: `out_of_range` is thrown outside the range of `int`. -/
def stoi (s : String) : Except Fault Int :=
  match parseInteger s with
  | .error e => .error e
  | .ok v => if v < INT_MIN ∨ v > INT_MAX then .error .invalidArgument else .ok v

/-- Function `std::stoul`, as the `unsigned long` pattern of the value read. -/
def stoul (s : String) : Except Fault Nat :=
  match parseInteger s with
  | .error e => .error e
  | .ok v =>
    if v < -18446744073709551615 ∨ v > 18446744073709551615 then .error .invalidArgument
    else .ok (ofInt64 v)

/-- One `std::getline(stream, field, delim)` on the unread characters: none
when nothing at all could be extracted, otherwise the field and the characters
left unread (the delimiter is consumed). -/
def getline (unread : List Char) (delim : Char) : Option (List Char × List Char) :=
  match unread with
  | [] => none
  | _ => some (unread.takeWhile (fun c => c != delim), (unread.dropWhile (fun c => c != delim)).drop 1)

/-- Position of the last occurrence of `c` (`find_last_of`), none for `npos`. -/
def findLastOf (s : List Char) (c : Char) : Option Nat :=
  match (s.reverse).indexOf? c with
  | none => none
  | some i => some (s.length - 1 - i)

/-! ## `lsmtree/lsmtree.cpp` -/

structure LSMTree where
  levelSizeRatio : Nat
  db_name : String
  levels : List (List String)

namespace LSMTree

def ensureLevelExists (t : LSMTree) (level : Nat) : LSMTree :=
  { t with levels := t.levels ++ List.replicate (level + 1 - t.levels.length) [] }

/-- Constructor `LSMTree(db_name, levelSizeRatio)`. -/
def new (db_name : String) (levelSizeRatio : Nat) : LSMTree :=
  ensureLevelExists { levelSizeRatio := levelSizeRatio, db_name := db_name, levels := [] } 0

def clearLevels (t : LSMTree) : LSMTree := { t with levels := [] }

def getNumLevels (t : LSMTree) : Nat := t.levels.length

def getSSTFilesByLevel (t : LSMTree) (level : Nat) : List String :=
  if level < t.levels.length then t.levels.getD level [] else []

def addSSTToLevel (t : LSMTree) (sst_filename : String) (level : Nat) : LSMTree :=
  let t := t.ensureLevelExists level
  { t with levels := t.levels.modify (fun l => l ++ [sst_filename]) level }

/-- The loops of `mergeTwoSSTs` reading the `numEntries` key-offset pairs of a
page buffer, with the check against the page size. -/
def readKeyOffsets (buffer : Bytes) : Nat → Nat → Except Fault (List KeyOffset)
  | 0, _ => .ok []
  | n + 1, keyOffsetPos =>
    if keyOffsetPos + 8 + 4 > PAGE_SIZE then .error .runtimeError
    else
      match readKeyOffsets buffer n (keyOffsetPos + 12) with
      | .error e => .error e
      | .ok rest =>
        .ok ({ key := readInt64 buffer keyOffsetPos,
               valueOffset := readInt32 buffer (keyOffsetPos + 8) } :: rest)

/-- The local variables of the merge loop of `mergeTwoSSTs`. -/
structure MergeState where
  offset1 : Nat
  offset2 : Nat
  buffer1 : Bytes
  buffer2 : Bytes
  currentPage1 : Int
  currentPage2 : Int
  keys1 : List KeyOffset
  keys2 : List KeyOffset
  keyIndex1 : Nat
  keyIndex2 : Nat
  outputPage : Page
  mergedSST : SST

/-- The repeated block `if (!outputPage.addEntry(k, v)) { addPage; new page; addEntry }`. -/
def emit (outputPage : Page) (mergedSST : SST) (key value : Int) : Except Fault (Page × SST) :=
  let r := outputPage.addEntry key value
  if r.1 then .ok (r.2, mergedSST)
  else
    match mergedSST.addPage outputPage with
    | .error e => .error e
    | .ok mergedSST => .ok ((Page.new.addEntry key value).2, mergedSST)

/-- The reload of the next page of the first input at the top of the loop. -/
def reload1 (sst1 : File) (numpages1 : Int) (st : MergeState) : Except Fault MergeState :=
  if st.keyIndex1 ≥ st.keys1.length ∧ st.currentPage1 + 1 < numpages1 then
    let offset1 := st.offset1 + PAGE_SIZE
    let r := sst1.pread st.buffer1 PAGE_SIZE offset1
    if r.1 ≠ PAGE_SIZE then .error .runtimeError
    else
      match readKeyOffsets r.2 (readInt32 r.2 0).toNat 16 with
      | .error e => .error e
      | .ok keys1 =>
        .ok { st with offset1 := offset1, buffer1 := r.2, keys1 := keys1, keyIndex1 := 0,
                      currentPage1 := st.currentPage1 + 1 }
  else .ok st

/-- The reload of the next page of the second input at the top of the loop. -/
def reload2 (sst2 : File) (numpages2 : Int) (st : MergeState) : Except Fault MergeState :=
  if st.keyIndex2 ≥ st.keys2.length ∧ st.currentPage2 + 1 < numpages2 then
    let offset2 := st.offset2 + PAGE_SIZE
    let r := sst2.pread st.buffer2 PAGE_SIZE offset2
    if r.1 ≠ PAGE_SIZE then .error .runtimeError
    else
      match readKeyOffsets r.2 (readInt32 r.2 0).toNat 16 with
      | .error e => .error e
      | .ok keys2 =>
        .ok { st with offset2 := offset2, buffer2 := r.2, keys2 := keys2, keyIndex2 := 0,
                      currentPage2 := st.currentPage2 + 1 }
  else .ok st

/-- The merge loop `while (currentPage1 < numpages1 || currentPage2 < numpages2)`;
`fuel` bounds the number of iterations. -/
def mergeLoop (sst1 sst2 : File) (numpages1 numpages2 : Int) (isLargestLevel : Bool) :
    Nat → MergeState → Except Fault MergeState
  | 0, _ => .error .outOfFuel
  | fuel + 1, st =>
    if st.currentPage1 < numpages1 ∨ st.currentPage2 < numpages2 then
      match reload1 sst1 numpages1 st with
      | .error e => .error e
      | .ok st =>
        match reload2 sst2 numpages2 st with
        | .error e => .error e
        | .ok st =>
          let key1 := match st.keys1.get? st.keyIndex1 with
            | some ko => ko.key
            | none => INT64_MAX
          let key2 := match st.keys2.get? st.keyIndex2 with
            | some ko => ko.key
            | none => INT64_MAX
          if key1 < key2 then
            match st.keys1.get? st.keyIndex1 with
            | none => .ok st
            | some ko =>
              if ko.valueOffset < 0 ∨ ko.valueOffset + 8 > PAGE_SIZE then .error .runtimeError
              else
                match emit st.outputPage st.mergedSST key1 (readInt64 st.buffer1 ko.valueOffset.toNat) with
                | .error e => .error e
                | .ok r =>
                  mergeLoop sst1 sst2 numpages1 numpages2 isLargestLevel fuel
                    { st with outputPage := r.1, mergedSST := r.2, keyIndex1 := st.keyIndex1 + 1 }
          else if key1 > key2 then
            match st.keys2.get? st.keyIndex2 with
            | none => .ok st
            | some ko =>
              if ko.valueOffset < 0 ∨ ko.valueOffset + 8 > PAGE_SIZE then .error .runtimeError
              else
                match emit st.outputPage st.mergedSST key2 (readInt64 st.buffer2 ko.valueOffset.toNat) with
                | .error e => .error e
                | .ok r =>
                  mergeLoop sst1 sst2 numpages1 numpages2 isLargestLevel fuel
                    { st with outputPage := r.1, mergedSST := r.2, keyIndex2 := st.keyIndex2 + 1 }
          else
            match st.keys1.get? st.keyIndex1, st.keys2.get? st.keyIndex2 with
            | some _, some ko2 =>
              let value2 := readInt64 st.buffer2 ko2.valueOffset.toNat
              if !isLargestLevel ∨ (isLargestLevel ∧ value2 ≠ TOMBSTONE) then
                match emit st.outputPage st.mergedSST key1 value2 with
                | .error e => .error e
                | .ok r =>
                  mergeLoop sst1 sst2 numpages1 numpages2 isLargestLevel fuel
                    { st with outputPage := r.1, mergedSST := r.2, keyIndex1 := st.keyIndex1 + 1,
                              keyIndex2 := st.keyIndex2 + 1 }
              else
                mergeLoop sst1 sst2 numpages1 numpages2 isLargestLevel fuel
                  { st with keyIndex1 := st.keyIndex1 + 1, keyIndex2 := st.keyIndex2 + 1 }
            | _, _ => .ok st
    else .ok st

/-- Function `mergeTwoSSTs` on the two opened input files (none: `open` failed).
Every iteration of the loop that goes on consumes a directory entry of a loaded
page, so the total size of the inputs bounds the number of iterations. -/
def mergeTwoSSTs (sst1 sst2 : Option File) (isLargestLevel : Bool) : Except Fault SST :=
  match sst1, sst2 with
  | some sst1, some sst2 =>
    let n1 := sst1.pread zeroBytes 4 4
    let n2 := sst2.pread zeroBytes 4 4
    if n1.1 ≠ 4 ∨ n2.1 ≠ 4 then .error .runtimeError
    else
      let numpages1 := readInt32 n1.2 0
      let numpages2 := readInt32 n2.2 0
      let offset1 := SST_METADATA_SIZE + PAGE_SIZE
      let offset2 := SST_METADATA_SIZE + PAGE_SIZE
      let r1 := sst1.pread zeroBytes PAGE_SIZE offset1
      let r2 := sst2.pread zeroBytes PAGE_SIZE offset2
      if r1.1 ≠ PAGE_SIZE ∨ r2.1 ≠ PAGE_SIZE then .error .runtimeError
      else
        match readKeyOffsets r1.2 (readInt32 r1.2 0).toNat 16 with
        | .error e => .error e
        | .ok keys1 =>
          match readKeyOffsets r2.2 (readInt32 r2.2 0).toNat 16 with
          | .error e => .error e
          | .ok keys2 =>
            let st : MergeState :=
              { offset1 := offset1, offset2 := offset2, buffer1 := r1.2, buffer2 := r2.2,
                currentPage1 := 0, currentPage2 := 0, keys1 := keys1, keys2 := keys2,
                keyIndex1 := 0, keyIndex2 := 0, outputPage := Page.new, mergedSST := SST.new }
            match mergeLoop sst1 sst2 numpages1 numpages2 isLargestLevel
                (sst1.size + sst2.size + 1) st with
            | .error e => .error e
            | .ok st =>
              if st.outputPage.numEntries > 0 then st.mergedSST.addPage st.outputPage
              else .ok st.mergedSST
  | _, _ => .error .runtimeError

/-- The lambda `extractNumericSuffix` of `mergeLevels`. -/
def extractNumericSuffix (filename : String) : Except Fault Int :=
  let cs := filename.data
  let start := match findLastOf cs '_' with
    | some i => i + 1
    | none => 0
  let count := match findLastOf cs '.' with
    | some e => if start ≤ e then e - start else cs.length
    | none => cs.length
  if start > cs.length then .error .invalidArgument
  else stoi (String.mk ((cs.drop start).take count))

/-- Function `mergeLevels(level)` on the disk `fs`; `fuel` bounds the cascade,
which climbs one level per call. -/
def mergeLevels : Nat → LSMTree → FileSystem → Nat → Except Fault (LSMTree × FileSystem)
  | 0, _, _, _ => .error .outOfFuel
  | fuel + 1, t, fs, level =>
    let t := t.ensureLevelExists (level + 1)
    if (t.levels.getD level []).length ≠ t.levelSizeRatio then .ok (t, fs)
    else
      match readAt (t.levels.getD level []) 0, readAt (t.levels.getD level []) 1 with
      | .ok sst1_filename, .ok sst2_filename =>
        let isLargestLevel : Bool := level + 1 = t.getNumLevels - 1
        match mergeTwoSSTs (fs.openRead sst1_filename) (fs.openRead sst2_filename) isLargestLevel with
        | .error e => .error e
        | .ok mergedSST =>
          match extractNumericSuffix sst1_filename, extractNumericSuffix sst2_filename with
          | .ok suffix1, .ok suffix2 =>
            let merged_suffix :=
              if suffix1 < suffix2 then to_string suffix1 ++ "_" ++ to_string suffix2
              else to_string suffix2 ++ "_" ++ to_string suffix1
            let merged_filename := t.db_name ++ "/sst_" ++ merged_suffix ++ ".sst"
            match mergedSST.writeToFile with
            | .error e => .error e
            | .ok file =>
              let fs := fs.writeFile merged_filename file
              let fs := fs.remove sst1_filename
              let fs := fs.remove sst2_filename
              let levels := t.levels.set level []
              let levels := levels.modify (fun l => l ++ [merged_filename]) (level + 1)
              let t := { t with levels := levels }
              if (t.levels.getD (level + 1) []).length = t.levelSizeRatio then
                mergeLevels fuel t fs (level + 1)
              else .ok (t, fs)
          | .error e, _ => .error e
          | _, .error e => .error e
      | .error e, _ => .error e
      | _, .error e => .error e

/-- Function `compact()`.  A cascade started at level 0 ends at the first level
that does not fill up, at the latest one level above the allocated ones. -/
def compact (t : LSMTree) (fs : FileSystem) : Except Fault (LSMTree × FileSystem) :=
  mergeLevels (t.levels.length + 2) t fs 0

def addSST (t : LSMTree) (fs : FileSystem) (sstFileName : String) :
    Except Fault (LSMTree × FileSystem) :=
  let t := t.ensureLevelExists 0
  let t := { t with levels := t.levels.modify (fun l => l ++ [sstFileName]) 0 }
  if (t.levels.getD 0 []).length = t.levelSizeRatio then t.compact fs
  else .ok (t, fs)

end LSMTree

/-! ## `kvstore.cpp` -/

structure KVStore where
  memtable : AVLTree
  lsmTree : Option LSMTree
  db_name : String
  memtable_size : Int
  sst_counter : Int
  useBTree : Bool

namespace KVStore

/-- Constructor `KVStore(memtable_size, levelSizeRatio)`; the ratio is not used. -/
def new (memtable_size : Int) : KVStore :=
  { memtable := AVLTree.new memtable_size, lsmTree := none, db_name := "",
    memtable_size := memtable_size, sst_counter := 0, useBTree := false }

def SetUseBTree (s : KVStore) (flag : Bool) : KVStore := { s with useBTree := flag }

/-- The block that every read path repeats: look the 4096-byte block at `offset`
up in the buffer pool under the ID `<file>:<offset>`; on a miss read it from the
file and cache it.  With `strict` a short read throws, as in `binarySearchSST`;
without it only a return value of -1 throws, as in `followOffset` and `scanNode`.
A short read that does not throw leaves the rest of the stack buffer unwritten;
the source copies the whole buffer into the cache and goes on to use it, which
is the fault `uninitialised` here. -/
def readBlock (strict : Bool) (pool : BufferPool) (fd : File) (sst_filename : String)
    (offset : Int) : Except Fault Bytes × BufferPool :=
  let pageID := sst_filename ++ ":" ++ to_string offset
  match pool.getPage pageID with
  | (some cachedPage, pool) => (.ok (blit zeroBytes 0 PAGE_SIZE cachedPage.data), pool)
  | (none, pool) =>
    let r := fd.pread zeroBytes PAGE_SIZE offset
    if r.1 = -1 ∨ (strict ∧ r.1 ≠ PAGE_SIZE) then (.error .runtimeError, pool)
    else if r.1 ≠ PAGE_SIZE then (.error .uninitialised, pool)
    else (.ok r.2, pool.insertPage pageID { Page.new with data := r.2 })

/-- The binary search over the directory of a page buffer shared by
`binarySearchSST` (which starts with `high = numEntries`) and `searchInPage`
(which starts with `high = numEntries - 1`). -/
def directorySearch (page_buffer : Bytes) (target_key : Int) : Nat → Int → Int → Except Fault Int
  | 0, _, _ => .error .outOfFuel
  | fuel + 1, low, high =>
    if low ≤ high then
      let mid := low + (high - low) / 2
      let key_offset_position := 16 + mid.toNat * 12
      let key := readInt64 page_buffer key_offset_position
      let valueOffset := readInt32 page_buffer (key_offset_position + 8)
      if key = target_key then
        if valueOffset ≥ 0 ∧ valueOffset + 8 ≤ PAGE_SIZE then
          .ok (readInt64 page_buffer valueOffset.toNat)
        else .error .runtimeError
      else if key < target_key then directorySearch page_buffer target_key fuel (mid + 1) high
      else directorySearch page_buffer target_key fuel low (mid - 1)
    else .ok (-1)

/-- The outer loop of `binarySearchSST` over the pages. -/
def pageSearch (fd : File) (sst_filename : String) (target_key num_pages : Int) :
    Nat → Int → Int → BufferPool → Except Fault Int × BufferPool
  | 0, _, _, pool => (.error .outOfFuel, pool)
  | fuel + 1, left, right, pool =>
    if left ≤ right then
      let mid := left + (right - left) / 2
      let page_offset : Int := (SST_METADATA_SIZE : Int) + PAGE_SIZE + mid * PAGE_SIZE
      match readBlock true pool fd sst_filename page_offset with
      | (.error e, pool) => (.error e, pool)
      | (.ok page_buffer, pool) =>
        let page_num_entries := readInt32 page_buffer 0
        let page_starting_key := readInt64 page_buffer 4
        let next_page_starting_key :=
          if mid < num_pages - 1 then
            readInt64 (fd.pread (writeInt64 zeroBytes 0 INT64_MAX) 8
              ((SST_METADATA_SIZE : Int) + PAGE_SIZE + (mid + 1) * PAGE_SIZE + 4)).2 0
          else INT64_MAX
        if target_key < page_starting_key then
          pageSearch fd sst_filename target_key num_pages fuel left (mid - 1) pool
        else if target_key < next_page_starting_key then
          (directorySearch page_buffer target_key (page_num_entries.toNat + 2) 0 page_num_entries, pool)
        else pageSearch fd sst_filename target_key num_pages fuel (mid + 1) right pool
    else (.ok (-1), pool)

def binarySearchSST (fd : File) (sst_filename : String) (target_key : Int) (pool : BufferPool) :
    Except Fault Int × BufferPool :=
  let num_pages := readInt32 (fd.pread zeroBytes 4 4).2 0
  if num_pages ≤ 0 then (.error .runtimeError, pool)
  else pageSearch fd sst_filename target_key num_pages (num_pages.toNat + 1) 0 (num_pages - 1) pool

def searchInPage (pageBuffer : Bytes) (target_key : Int) : Except Fault Int :=
  let page_num_entries := readInt32 pageBuffer 0
  if page_num_entries ≤ 0 then .error .runtimeError
  else directorySearch pageBuffer target_key (page_num_entries.toNat + 2) 0 (page_num_entries - 1)

/-- The loop over the `(offset, key)` pairs of a node block in
`btreeSearchSST` and `searchInNode`: the first offset whose key is at least the
target, if any, and the position behind the pairs read. -/
def nodeLoop (buffer : Bytes) (target_key : Int) : Nat → Nat → Option Int × Nat
  | 0, metadataOffset => (none, metadataOffset)
  | n + 1, metadataOffset =>
    let currentOffset := readInt64 buffer metadataOffset
    let currentKey := readInt64 buffer (metadataOffset + 8)
    if target_key ≤ currentKey then (some currentOffset, metadataOffset + 16)
    else nodeLoop buffer target_key n (metadataOffset + 16)

/-- The offset that `searchInNode` follows in a node block: none when it
returns -1 without following one. -/
def nodeChoice (buffer : Bytes) (target_key : Int) : Except Fault (Option Int) :=
  let keyCount := readInt32 buffer 0
  if keyCount ≤ 0 then .error .runtimeError
  else
    let offCount := readInt32 buffer 4
    if offCount ≤ 0 then .error .runtimeError
    else
      match nodeLoop buffer target_key keyCount.toNat 8 with
      | (some currentOffset, _) => .ok (some currentOffset)
      | (none, metadataOffset) =>
        if keyCount < offCount then .ok (some (readInt64 buffer metadataOffset)) else .ok none

/-- Function `followOffset`, with the body of `searchInNode` unfolded at the
place where it is called; `fuel` bounds the number of blocks visited. -/
def followOffset (fd : File) (sst_filename : String) (target_key pageStartOffset pageEndOffset : Int) :
    Nat → Int → BufferPool → Except Fault Int × BufferPool
  | 0, _, pool => (.error .outOfFuel, pool)
  | fuel + 1, offset, pool =>
    match readBlock false pool fd sst_filename offset with
    | (.error e, pool) => (.error e, pool)
    | (.ok buffer, pool) =>
      if offset ≥ pageStartOffset ∧ offset < pageEndOffset then (searchInPage buffer target_key, pool)
      else
        match nodeChoice buffer target_key with
        | .error e => (.error e, pool)
        | .ok none => (.ok (-1), pool)
        | .ok (some currentOffset) =>
          followOffset fd sst_filename target_key pageStartOffset pageEndOffset fuel currentOffset pool

def searchInNode (fd : File) (sst_filename : String) (target_key pageStartOffset pageEndOffset : Int)
    (fuel : Nat) (nodeBuffer : Bytes) (pool : BufferPool) : Except Fault Int × BufferPool :=
  match nodeChoice nodeBuffer target_key with
  | .error e => (.error e, pool)
  | .ok none => (.ok (-1), pool)
  | .ok (some currentOffset) =>
    followOffset fd sst_filename target_key pageStartOffset pageEndOffset fuel currentOffset pool

/-- Function `btreeSearchSST`.  The root is the last 4096 bytes of the file
(`lseek(fd, -PAGE_SIZE, SEEK_END)` fails on a shorter file); the loop over the
pairs of the root is, statement for statement, the one of `searchInNode`.  A
descent through a file written by `SST::writeToFile` only moves to smaller
offsets, so the number of blocks of the file bounds its length. -/
def btreeSearchSST (fd : File) (target_key : Int) (sst_filename : String) (pool : BufferPool) :
    Except Fault Int × BufferPool :=
  let numPages := readInt32 (fd.pread zeroBytes 4 4).2 0
  if numPages ≤ 0 then (.error .runtimeError, pool)
  else
    let pageStartOffset : Int := (SST_METADATA_SIZE : Int) + PAGE_SIZE
    let pageEndOffset : Int := pageStartOffset + numPages * PAGE_SIZE
    if fd.size < PAGE_SIZE then (.error .runtimeError, pool)
    else
      let rootOffset : Int := (fd.size : Int) - PAGE_SIZE
      match readBlock false pool fd sst_filename rootOffset with
      | (.error e, pool) => (.error e, pool)
      | (.ok buffer, pool) =>
        searchInNode fd sst_filename target_key pageStartOffset pageEndOffset
          (fd.size / PAGE_SIZE + 1) buffer pool

/-- The loop of `scanPage` over the directory.  The buffer has 4096 bytes; a
slot of the directory that does not lie inside it is read outside the array. -/
def scanPageLoop (pageBuffer : Bytes) (start stop : Int) :
    Nat → Nat → List (Int × Int) → Except Fault (List (Int × Int))
  | 0, _, result => .ok result
  | n + 1, i, result =>
    let key_offset_position := 16 + i * 12
    if key_offset_position + 12 > PAGE_SIZE then .error .outOfBounds
    else
      let key := readInt64 pageBuffer key_offset_position
      let valueOffset := readInt32 pageBuffer (key_offset_position + 8)
      if key ≥ start ∧ key ≤ stop then
        if valueOffset ≥ 0 ∧ valueOffset + 8 ≤ PAGE_SIZE then
          let result := result ++ [(key, readInt64 pageBuffer valueOffset.toNat)]
          if key > stop then .ok result else scanPageLoop pageBuffer start stop n (i + 1) result
        else .error .runtimeError
      else if key > stop then .ok result
      else scanPageLoop pageBuffer start stop n (i + 1) result

def scanPage (pageBuffer : Bytes) (start stop : Int) (result : List (Int × Int)) :
    Except Fault (List (Int × Int)) :=
  let page_num_entries := readInt32 pageBuffer 0
  if page_num_entries ≤ 0 then .error .runtimeError
  else scanPageLoop pageBuffer start stop page_num_entries.toNat 0 result

/-- What `scanNode` does with one offset of a node: scan the data page it points
at, or scan the node it points at (`recurse`). -/
def scanOffset (recurse : Int → List (Int × Int) → BufferPool → Except Fault (List (Int × Int)) × BufferPool)
    (fd : File) (sst_filename : String) (start stop pageStartOffset pageEndOffset : Int)
    (currentOffset : Int) (result : List (Int × Int)) (pool : BufferPool) :
    Except Fault (List (Int × Int)) × BufferPool :=
  if currentOffset ≥ pageStartOffset ∧ currentOffset < pageEndOffset then
    match readBlock false pool fd sst_filename currentOffset with
    | (.error e, pool) => (.error e, pool)
    | (.ok pageBuffer, pool) => (scanPage pageBuffer start stop result, pool)
  else recurse currentOffset result pool

/-- The loop of `scanNode` over the `(offset, key)` pairs; the flag of the
result tells whether the function returned from inside the loop.  The buffer
has 4096 bytes; a pair that does not lie inside it is read outside the array. -/
def scanNodeLoop (recurse : Int → List (Int × Int) → BufferPool → Except Fault (List (Int × Int)) × BufferPool)
    (fd : File) (sst_filename : String) (start stop pageStartOffset pageEndOffset : Int)
    (buffer : Bytes) :
    Nat → Nat → List (Int × Int) → BufferPool →
      Except Fault (List (Int × Int) × Nat × Bool) × BufferPool
  | 0, metadataOffset, result, pool => (.ok (result, metadataOffset, false), pool)
  | n + 1, metadataOffset, result, pool =>
    if metadataOffset + 16 > PAGE_SIZE then (.error .outOfBounds, pool)
    else
      let currentOffset := readInt64 buffer metadataOffset
      let currentKey := readInt64 buffer (metadataOffset + 8)
      let r :=
        if currentKey ≥ start then
          scanOffset recurse fd sst_filename start stop pageStartOffset pageEndOffset
            currentOffset result pool
        else (.ok result, pool)
      match r with
      | (.error e, pool) => (.error e, pool)
      | (.ok result, pool) =>
        if currentKey > stop then (.ok (result, metadataOffset + 16, true), pool)
        else
          scanNodeLoop recurse fd sst_filename start stop pageStartOffset pageEndOffset buffer
            n (metadataOffset + 16) result pool

/-- Function `scanNode`; `fuel` bounds the depth of the recursion. -/
def scanNode (fd : File) (sst_filename : String) (start stop pageStartOffset pageEndOffset : Int) :
    Nat → Int → List (Int × Int) → BufferPool → Except Fault (List (Int × Int)) × BufferPool
  | 0, _, _, pool => (.error .outOfFuel, pool)
  | fuel + 1, offset, result, pool =>
    match readBlock false pool fd sst_filename offset with
    | (.error e, pool) => (.error e, pool)
    | (.ok buffer, pool) =>
      let keyCount := readInt32 buffer 0
      if keyCount ≤ 0 then (.error .runtimeError, pool)
      else
        let offCount := readInt32 buffer 4
        if offCount ≤ 0 then (.error .runtimeError, pool)
        else
          match scanNodeLoop
              (scanNode fd sst_filename start stop pageStartOffset pageEndOffset fuel)
              fd sst_filename start stop pageStartOffset pageEndOffset buffer
              keyCount.toNat 8 result pool with
          | (.error e, pool) => (.error e, pool)
          | (.ok (result, _, true), pool) => (.ok result, pool)
          | (.ok (result, metadataOffset, false), pool) =>
            if keyCount < offCount then
              if metadataOffset + 8 > PAGE_SIZE then (.error .outOfBounds, pool)
              else
                scanOffset (scanNode fd sst_filename start stop pageStartOffset pageEndOffset fuel)
                  fd sst_filename start stop pageStartOffset pageEndOffset
                  (readInt64 buffer metadataOffset) result pool
            else (.ok result, pool)

/-- Function `scanBtree`.  The source does not bound the depth of the recursion
of `scanNode`; the bound here is the size of the file plus one, and a descent
that exhausts it stops with `outOfFuel`.  Every block that `scanNode` reads
from the file lies inside the file, so where the page cache holds what was read
from the file a descent that deep has read some offset twice and goes on as it
did from there.  The product `numPages * PAGE_SIZE` is a product of two `int`. -/
def scanBtree (fd : File) (sst_filename : String) (start stop : Int) (pool : BufferPool) :
    Except Fault (List (Int × Int)) × BufferPool :=
  let numPages := readInt32 (fd.pread zeroBytes 4 4).2 0
  if numPages ≤ 0 then (.error .runtimeError, pool)
  else if numPages * PAGE_SIZE > INT_MAX then (.error .overflow, pool)
  else
    let pageStartOffset : Int := (SST_METADATA_SIZE : Int) + PAGE_SIZE
    let pageEndOffset : Int := pageStartOffset + numPages * PAGE_SIZE
    if fd.size < PAGE_SIZE then (.error .runtimeError, pool)
    else
      scanNode fd sst_filename start stop pageStartOffset pageEndOffset
        (fd.size + 1) ((fd.size : Int) - PAGE_SIZE) [] pool

/-- The Bloom-filter test of `Get` on the 4096 bytes read at offset 24. -/
def bloomCheck (bloom_buffer : Bytes) : List Nat → Bool
  | [] => true
  | hash :: rest => if bloom_buffer hash = 0 then false else bloomCheck bloom_buffer rest

/-- The loop of `Get` over the SST files of one level: some value when the
function returns from inside the loop, none when the loop runs to its end. -/
def getInFiles (s : KVStore) (fs : FileSystem) (key : Int) :
    List String → BufferPool → Except Fault (Option Int) × BufferPool
  | [], pool => (.ok none, pool)
  | sst_filename :: rest, pool =>
    match fs.openRead sst_filename with
    | none => getInFiles s fs key rest pool
    | some fd =>
      let bloom := BloomFilter.new NUM_ENTRIES BITS_PER_ENTRY
      let r := fd.pread zeroBytes PAGE_SIZE SST_METADATA_SIZE
      if r.1 = -1 ∨ r.1 ≠ PAGE_SIZE then (.error .runtimeError, pool)
      else if !bloomCheck r.2 (bloom.getHashValues key) then getInFiles s fs key rest pool
      else
        let found :=
          if s.useBTree then btreeSearchSST fd key sst_filename pool
          else binarySearchSST fd sst_filename key pool
        match found with
        | (.error e, pool) => (.error e, pool)
        | (.ok result, pool) =>
          if result ≠ -1 then
            if result = TOMBSTONE then (.ok (some (-1)), pool) else (.ok (some result), pool)
          else getInFiles s fs key rest pool

/-- The loop of `Get` over the levels. -/
def getInLevels (s : KVStore) (fs : FileSystem) (key : Int) :
    List (List String) → BufferPool → Except Fault Int × BufferPool
  | [], pool => (.ok (-1), pool)
  | sstFiles :: rest, pool =>
    match getInFiles s fs key sstFiles pool with
    | (.error e, pool) => (.error e, pool)
    | (.ok (some v), pool) => (.ok v, pool)
    | (.ok none, pool) => getInLevels s fs key rest pool

def Get (s : KVStore) (fs : FileSystem) (pool : BufferPool) (key : Int) :
    Except Fault Int × BufferPool :=
  let result := s.memtable.get key
  if result ≠ -1 then
    if result = TOMBSTONE then (.ok (-1), pool) else (.ok result, pool)
  else
    match s.lsmTree with
    | none => (.error .nullDeref, pool)
    | some lsmTree => getInLevels s fs key lsmTree.levels pool

/-- The first loop of `mergedScan`, over the memtable results. -/
def mergeMemtable : List (Int × Int) → List (Int × Int) → List Int → List (Int × Int) × List Int
  | [], final_results, seen_keys => (final_results, seen_keys)
  | kv :: rest, final_results, seen_keys =>
    if kv.2 = TOMBSTONE then mergeMemtable rest final_results (kv.1 :: seen_keys)
    else mergeMemtable rest (final_results ++ [kv]) (kv.1 :: seen_keys)

/-- The loop of `mergedScan` over the results of one SST. -/
def mergeResults : List (Int × Int) → List (Int × Int) → List Int → List (Int × Int) × List Int
  | [], final_results, seen_keys => (final_results, seen_keys)
  | kv :: rest, final_results, seen_keys =>
    if kv.1 ∈ seen_keys then mergeResults rest final_results seen_keys
    else if kv.2 = TOMBSTONE then mergeResults rest final_results (kv.1 :: seen_keys)
    else mergeResults rest (final_results ++ [kv]) (kv.1 :: seen_keys)

/-- The loop of `mergedScan` over the SST files of one level.  A file that does
not open is skipped, and so is a file whose scan throws an exception, which the
`catch (const std::exception &)` of the loop body handles; a scan that stops in
another way (undefined behaviour, a recursion that does not end) is not
handled there and ends the call. -/
def scanFiles (fs : FileSystem) (start stop : Int) :
    List String → List (Int × Int) → List Int → BufferPool →
      Except Fault (List (Int × Int) × List Int) × BufferPool
  | [], final_results, seen_keys, pool => (.ok (final_results, seen_keys), pool)
  | sst_filename :: rest, final_results, seen_keys, pool =>
    match fs.openRead sst_filename with
    | none => scanFiles fs start stop rest final_results seen_keys pool
    | some fd =>
      match scanBtree fd sst_filename start stop pool with
      | (.error e, pool) =>
        if e.isException then scanFiles fs start stop rest final_results seen_keys pool
        else (.error e, pool)
      | (.ok sst_results, pool) =>
        let r := mergeResults sst_results final_results seen_keys
        scanFiles fs start stop rest r.1 r.2 pool

/-- The loop of `mergedScan` over the levels. -/
def scanLevels (fs : FileSystem) (start stop : Int) :
    List (List String) → List (Int × Int) → List Int → BufferPool →
      Except Fault (List (Int × Int) × List Int) × BufferPool
  | [], final_results, seen_keys, pool => (.ok (final_results, seen_keys), pool)
  | sstFiles :: rest, final_results, seen_keys, pool =>
    match scanFiles fs start stop sstFiles final_results seen_keys pool with
    | (.error e, pool) => (.error e, pool)
    | (.ok (final_results, seen_keys), pool) =>
      scanLevels fs start stop rest final_results seen_keys pool

/-- Function `mergedScan`.  The final `std::sort` by key is an insertion sort
here; the keys it sorts are pairwise distinct whenever the memtable is a search
tree, so the order of the result does not depend on the sorting algorithm. -/
def mergedScan (s : KVStore) (fs : FileSystem) (pool : BufferPool) (start stop : Int) :
    Except Fault (List (Int × Int)) × BufferPool :=
  let memtable_results := s.memtable.scan start stop
  let r := mergeMemtable memtable_results [] []
  match s.lsmTree with
  | none => (.error .nullDeref, pool)
  | some lsmTree =>
    match scanLevels fs start stop lsmTree.levels r.1 r.2 pool with
    | (.error e, pool) => (.error e, pool)
    | (.ok (final_results, _), pool) =>
      (.ok (final_results.insertionSort (fun a b => a.1 ≤ b.1)), pool)

/-- Function `Scan`: the result array (empty for the null pointer) and
`result_count`. -/
def Scan (s : KVStore) (fs : FileSystem) (pool : BufferPool) (start stop : Int) :
    Except Fault (List (Int × Int) × Int) × BufferPool :=
  match mergedScan s fs pool start stop with
  | (.error e, pool) => (.error e, pool)
  | (.ok scan_results, pool) => (.ok (scan_results, (scan_results.length : Int)), pool)

/-- The loop of `flushMemtableToSST` filling pages. -/
def fillPages : List (Int × Int) → Page → SST → Except Fault (Page × SST)
  | [], currentPage, sst => .ok (currentPage, sst)
  | kv :: rest, currentPage, sst =>
    let r := currentPage.addEntry kv.1 kv.2
    if r.1 then fillPages rest r.2 sst
    else
      match sst.addPage currentPage with
      | .error e => .error e
      | .ok sst => fillPages rest (Page.new.addEntry kv.1 kv.2).2 sst

def flushMemtableToSST (s : KVStore) (fs : FileSystem) : Except Fault (KVStore × FileSystem) :=
  let sst := SST.new
  let kv_pairs := s.memtable.scan INT_MIN INT_MAX
  match kv_pairs.head?, kv_pairs.getLast? with
  | some front, some back =>
    let sst := { sst with startingKey := front.1, endingKey := back.1 }
    match fillPages kv_pairs Page.new sst with
    | .error e => .error e
    | .ok (currentPage, sst) =>
      let sst := if currentPage.numEntries > 0 then sst.addPage currentPage else .ok sst
      match sst with
      | .error e => .error e
      | .ok sst =>
        let sst_counter := s.sst_counter + 1
        let sst_filename := s.db_name ++ "/sst_" ++ to_string sst_counter ++ ".sst"
        match sst.writeToFile with
        | .error e => .error e
        | .ok file =>
          let fs := fs.writeFile sst_filename file
          match s.lsmTree with
          | none => .error .nullDeref
          | some lsmTree =>
            match lsmTree.addSST fs sst_filename with
            | .error e => .error e
            | .ok (lsmTree, fs) =>
              .ok ({ s with sst_counter := sst_counter, lsmTree := some lsmTree,
                            memtable := s.memtable.clear }, fs)
  | _, _ => .error .outOfBounds

def Put (s : KVStore) (fs : FileSystem) (key value : Int) : Except Fault (KVStore × FileSystem) :=
  let s := { s with memtable := s.memtable.put key value }
  if s.memtable.getCurrentSize ≥ s.memtable_size then
    match flushMemtableToSST s fs with
    | .error e => .error e
    | .ok (s, fs) => .ok ({ s with memtable := s.memtable.clear }, fs)
  else .ok (s, fs)

def Del (s : KVStore) (fs : FileSystem) (key : Int) : Except Fault (KVStore × FileSystem) :=
  Put s fs key TOMBSTONE

/-- The lines `<level>,<filename>` of the metadata log for one level. -/
def logLevel (level : Nat) : List String → String
  | [] => ""
  | sst_filename :: rest => to_string level ++ "," ++ sst_filename ++ "\n" ++ logLevel level rest

/-- The lines of the metadata log for the levels from `level` on. -/
def logLevels : Nat → List (List String) → String
  | _, [] => ""
  | level, files :: rest => logLevel level files ++ logLevels (level + 1) rest

def Close (s : KVStore) (fs : FileSystem) : Except Fault (KVStore × FileSystem) :=
  let flushed :=
    if s.memtable.getCurrentSize > 0 then flushMemtableToSST s fs else .ok (s, fs)
  match flushed with
  | .error e => .error e
  | .ok (s, fs) =>
    match s.lsmTree with
    | none => .error .nullDeref
    | some lsmTree =>
      let metadata_path := s.db_name ++ "/lsmtree.log"
      let text := "counter," ++ to_string s.sst_counter ++ "\n" ++ logLevels 0 lsmTree.levels
      let fs := { fs with logs := (metadata_path, text) :: fs.logs.filter (fun p => !(p.1 == metadata_path)) }
      .ok ({ s with memtable := s.memtable.clear, lsmTree := some lsmTree.clearLevels }, fs)

/-- The lines that `std::getline(meta_file, line)` yields one after the other. -/
def readLines : Nat → List Char → List (List Char)
  | 0, _ => []
  | fuel + 1, unread =>
    match getline unread '\n' with
    | none => []
    | some (line, rest) => line :: readLines fuel rest

/-- The body of the `while` loop of `Open` for one line of the log, on the
variables `counter_read`, `sst_counter` and the LSM tree. -/
def openLine (line : List Char) (st : Bool × Int × LSMTree) : Except Fault (Bool × Int × LSMTree) :=
  match getline line ',' with
  | none => .ok st
  | some (first_field, unread) =>
    if !st.1 ∧ String.mk first_field = "counter" then
      match getline unread ',' with
      | none => .ok st
      | some (second_field, _) =>
        match stoul (String.mk second_field) with
        | .error e => .error e
        | .ok n => .ok (true, toInt32 n, st.2.2)
    else
      match getline unread ',' with
      | none => .ok st
      | some (second_field, _) =>
        match stoul (String.mk first_field) with
        | .error e => .error e
        | .ok level => .ok (st.1, st.2.1, st.2.2.addSSTToLevel (String.mk second_field) level)

/-- The `while` loop of `Open` over the lines of the log. -/
def openLines : List (List Char) → Bool × Int × LSMTree → Except Fault (Bool × Int × LSMTree)
  | [], st => .ok st
  | line :: rest, st =>
    match openLine line st with
    | .error e => .error e
    | .ok st => openLines rest st

def Open (s : KVStore) (fs : FileSystem) (database_name : String) : Except Fault (KVStore × FileSystem) :=
  let db_name := "../" ++ database_name
  let lsmTree := LSMTree.new db_name 2
  let sst_counter : Int := 0
  if !fs.dirs.contains db_name then
    .ok ({ s with db_name := db_name, lsmTree := some (LSMTree.new db_name 2),
                  sst_counter := sst_counter, memtable := s.memtable.clear },
         { fs with dirs := db_name :: fs.dirs })
  else
    let metadata_path := db_name ++ "/lsmtree.log"
    match fs.logs.find? (fun p => p.1 == metadata_path) with
    | some (_, text) =>
      match openLines (readLines (text.data.length + 1) text.data) (false, sst_counter, lsmTree) with
      | .error e => .error e
      | .ok (_, sst_counter, lsmTree) =>
        .ok ({ s with db_name := db_name, lsmTree := some lsmTree, sst_counter := sst_counter,
                      memtable := s.memtable.clear }, fs)
    | none =>
      .ok ({ s with db_name := db_name, lsmTree := some lsmTree, sst_counter := sst_counter,
                    memtable := s.memtable.clear }, fs)

end KVStore

/-! ## Call sequences and observations used to state the properties -/

deriving instance DecidableEq for Except

/-- A write call of the public interface. -/
inductive Op where
  | put (key value : Int)
  | del (key : Int)
deriving DecidableEq

/-- What the last write to `key` in a sequence of calls stored: the value of a
`Put`, or none when the key was never written or was last deleted. -/
def lastWrite (key : Int) (ops : List Op) : Option Int :=
  ops.foldl (fun acc op =>
    match op with
    | .put k v => if k = key then some v else acc
    | .del k => if k = key then none else acc) none

namespace AVLTree

/-- The entries of a tree in in-order. -/
def toList : Node → List (Int × Int)
  | .null => []
  | .mk k v l r _ => toList l ++ (k, v) :: toList r

/-- The tree that a sequence of `put` calls builds from the empty tree. -/
def ofWrites (writes : List (Int × Int)) : Node :=
  writes.foldl (fun n w => putNode n w.1 w.2) .null

end AVLTree

namespace SST

/-- A sequence of `addPage` calls. -/
def addPages : List Page → SST → Except Fault SST
  | [], s => .ok s
  | page :: rest, s =>
    match s.addPage page with
    | .error e => .error e
    | .ok s => addPages rest s

/-- The entries `(key, value)` of the pages of an SST, page by page. -/
def entries (s : SST) : List (Int × Int) :=
  s.pages.flatMap (fun p => p.keys.map (fun ko => (ko.key, readInt64 p.data ko.valueOffset.toNat)))

/-- The file of an SST holding the given entries, cut into pages the way
`flushMemtableToSST` does. -/
def fileOf (kvs : List (Int × Int)) : Option File :=
  match KVStore.fillPages kvs Page.new SST.new with
  | .error _ => none
  | .ok (currentPage, sst) =>
    match (if currentPage.numEntries > 0 then sst.addPage currentPage else .ok sst) with
    | .error _ => none
    | .ok sst =>
      match sst.writeToFile with
      | .error _ => none
      | .ok file => some file

end SST

namespace BufferPoolManager

/-- The process-wide pool of `BufferPoolManager::getInstance()`, empty, for a
given bucket function of its hash map. -/
def getInstance (hash : String → Nat) : BufferPool := BufferPool.new hash 1024

end BufferPoolManager

namespace KVStore

def step (s : KVStore) (fs : FileSystem) : Op → Except Fault (KVStore × FileSystem)
  | .put key value => Put s fs key value
  | .del key => Del s fs key

/-- A sequence of `Put` / `Del` calls, stopping at the first one that fails. -/
def run : List Op → KVStore → FileSystem → Except Fault (KVStore × FileSystem)
  | [], s, fs => .ok (s, fs)
  | op :: rest, s, fs =>
    match step s fs op with
    | .error e => .error e
    | .ok (s, fs) => run rest s fs

/-- A new store of the given threshold, opened under `database_name` on an
empty disk, after a sequence of calls. -/
def openAndRun (memtable_size : Int) (database_name : String) (ops : List Op) :
    Except Fault (KVStore × FileSystem) :=
  match Open (new memtable_size) FileSystem.empty database_name with
  | .error e => .error e
  | .ok (s, fs) => run ops s fs

/-- The result of `Get(key)` in the state an earlier computation left. -/
def getAfter (r : Except Fault (KVStore × FileSystem)) (pool : BufferPool) (key : Int) :
    Except Fault Int :=
  match r with
  | .error e => .error e
  | .ok (s, fs) => (Get s fs pool key).1

/-- The result of `Scan(start, stop)` in the state an earlier computation left. -/
def scanAfter (r : Except Fault (KVStore × FileSystem)) (pool : BufferPool) (start stop : Int) :
    Except Fault (List (Int × Int) × Int) :=
  match r with
  | .error e => .error e
  | .ok (s, fs) => (Scan s fs pool start stop).1

/-- The SST suffix counter and the per-level filename lists an earlier
computation left. -/
def indexAfter (r : Except Fault (KVStore × FileSystem)) : Option (Int × List (List String)) :=
  match r with
  | .error _ => none
  | .ok (s, _) =>
    match s.lsmTree with
    | none => none
    | some t => some (s.sst_counter, t.levels)

/-- The calls `Close()` then `Open(database_name)` after an earlier computation. -/
def closeAndOpen (r : Except Fault (KVStore × FileSystem)) (database_name : String) :
    Except Fault (KVStore × FileSystem) :=
  match r with
  | .error e => .error e
  | .ok (s, fs) =>
    match Close s fs with
    | .error e => .error e
    | .ok (s, fs) => Open s fs database_name

/-- The state right after the memtable flush with which `Close()` begins. -/
def finalFlush (r : Except Fault (KVStore × FileSystem)) : Except Fault (KVStore × FileSystem) :=
  match r with
  | .error e => .error e
  | .ok (s, fs) => if s.memtable.getCurrentSize > 0 then flushMemtableToSST s fs else .ok (s, fs)

end KVStore

deriving instance DecidableEq for Node

/-- Scenario A of the specification, the calls of the unit test `testKVStore`. -/
def scenarioA : List Op :=
  [.put 10 10010, .put 20 10020, .put 25 10025, .put 30 10030, .put 10 10011, .put 15 10015,
   .del 25, .put 30 10031, .put 12 10012, .put 100 10100]

/-- Whether a computation returned normally. -/
def succeeded {α : Type} : Except Fault α → Bool
  | .ok _ => true
  | .error _ => false

/-- The root of the memtable an earlier computation left. -/
def memtableAfter (r : Except Fault (KVStore × FileSystem)) : Option Node :=
  match r with
  | .error _ => none
  | .ok (s, _) => some s.memtable.root

/-- The empty process-wide pool used to evaluate calls; its hash map puts every
page ID in bucket 0. -/
def pool0 : BufferPool := BufferPoolManager.getInstance (fun _ => 0)

namespace LSMTree

/-- The entries of the SST that `mergeTwoSSTs` returns for the files of two
lists of entries. -/
def mergedEntries (first second : List (Int × Int)) (isLargestLevel : Bool) :
    Except Fault (List (Int × Int)) :=
  match mergeTwoSSTs (SST.fileOf first) (SST.fileOf second) isLargestLevel with
  | .error e => .error e
  | .ok s => .ok s.entries

end LSMTree

namespace KVStore

/-- The call `SetUseBTree(true)` after an earlier computation. -/
def useBTreeAfter (r : Except Fault (KVStore × FileSystem)) : Except Fault (KVStore × FileSystem) :=
  match r with
  | .error e => .error e
  | .ok (s, fs) => .ok (s.SetUseBTree true, fs)

end KVStore

/-- The store that `Open("test_db")` leaves on an empty disk for threshold 3. -/
def store0 : KVStore :=
  { KVStore.new 3 with db_name := "../test_db", lsmTree := some (LSMTree.new "../test_db" 2) }

/-- The disk that `Open("test_db")` leaves when it started empty. -/
def disk0 : FileSystem := { FileSystem.empty with dirs := ["../test_db"] }

namespace AVLTree

/-- The keys of a tree in in-order. -/
def keys (t : Node) : List Int := (toList t).map Prod.fst

/-- A search tree: the in-order keys are strictly ascending. -/
def Ordered (t : Node) : Prop := (keys t).Pairwise (· < ·)

end AVLTree

/-- Every key of the list lies in `[start, stop]`. -/
def InRange (start stop : Int) (l : List (Int × Int)) : Prop :=
  ∀ kv ∈ l, start ≤ kv.1 ∧ kv.1 ≤ stop

namespace KVStore

/-- The property of a scanning function that it only adds keys of the range. -/
def KeepsRange (start stop : Int)
    (f : Int → List (Int × Int) → BufferPool → Except Fault (List (Int × Int)) × BufferPool) :
    Prop :=
  ∀ offset result pool r pool', InRange start stop result →
    f offset result pool = (.ok r, pool') → InRange start stop r

/-- The ways in which the scan of one SST file stops without a result: a thrown
`std::runtime_error`, undefined behaviour in the reading of a block, or a
descent that exhausts the bound; it throws no `std::invalid_argument` and
dereferences no null pointer. -/
def ScanFault (e : Fault) : Prop := e ≠ .invalidArgument ∧ e ≠ .nullDeref

/-- The property of a scanning function that it stops in these ways only. -/
def StopsAsScan
    (f : Int → List (Int × Int) → BufferPool → Except Fault (List (Int × Int)) × BufferPool) :
    Prop :=
  ∀ offset result pool e pool', f offset result pool = (.error e, pool') → ScanFault e

/-- What `mergedScan` keeps true of `final_results` and `seen_keys`: every
result key was marked as seen, no key occurs twice, every key is in the range
and no value is the tombstone. -/
def ScanInv (start stop : Int) (final_results : List (Int × Int)) (seen_keys : List Int) : Prop :=
  (∀ kv ∈ final_results, kv.1 ∈ seen_keys) ∧ (final_results.map Prod.fst).Nodup ∧
    InRange start stop final_results ∧ ∀ kv ∈ final_results, kv.2 ≠ TOMBSTONE

/-- The relation by which `mergedScan` sorts is a total preorder. -/
instance keyLe_total : IsTotal (Int × Int) (fun a b => a.1 ≤ b.1) :=
  ⟨fun a b => le_total a.1 b.1⟩

instance keyLe_trans : IsTrans (Int × Int) (fun a b => a.1 ≤ b.1) :=
  ⟨fun _ _ _ h1 h2 => le_trans h1 h2⟩

end KVStore

/-- The calls at which tombstone shadowing fails, with threshold 2: key 7 is
written and compacted into level 1, then written again and deleted in the next
two flushes, with writes to other keys around. -/
def resurrection : List Op :=
  [.put 7 1, .put 8 1, .put 9 1, .put 10 1, .put 7 2, .put 11 1, .del 7, .put 12 1]

/-! ## Call sequences and observations for the memtable, the page, the page cache and the LSM manager -/

namespace AVLTree

/-- A call of the memtable interface that changes the memtable. -/
inductive Call where
  | put (key value : Int)
  | del (key : Int)
  | clear
deriving DecidableEq

def call (t : AVLTree) : Call → AVLTree
  | .put key value => t.put key value
  | .del key => t.del key
  | .clear => t.clear

/-- The memtable after a sequence of calls. -/
def calls (cs : List Call) (t : AVLTree) : AVLTree := cs.foldl call t

/-- The memtable after a sequence of `put` calls. -/
def putAll (writes : List (Int × Int)) (t : AVLTree) : AVLTree :=
  writes.foldl (fun t w => t.put w.1 w.2) t

/-- The value of the most recent `put(key, v)` in a sequence of `put` calls,
none when the sequence has no `put` for `key`. -/
def latest (key : Int) (writes : List (Int × Int)) : Option Int :=
  writes.foldl (fun acc w => if w.1 = key then some w.2 else acc) none

end AVLTree

namespace Page

/-- A sequence of `addEntry` calls: the return values in call order and the
page they leave. -/
def addEntries : List (Int × Int) → Page → List Bool × Page
  | [], p => ([], p)
  | kv :: rest, p =>
    let r := p.addEntry kv.1 kv.2
    let rs := addEntries rest r.2
    (r.1 :: rs.1, rs.2)

end Page

namespace SST

/-- The entries `(key, value)` of a 4096-byte data page, read through its
directory the way `mergeTwoSSTs` reads it. -/
def pageEntries (buffer : Bytes) : List (Int × Int) :=
  match LSMTree.readKeyOffsets buffer (readInt32 buffer 0).toNat 16 with
  | .error _ => []
  | .ok keys => keys.map (fun ko => (ko.key, readInt64 buffer ko.valueOffset.toNat))

/-- The entries of the data pages of an SST file, page by page: `numPages` is
read at offset 4 and page `i` at offset `SST_METADATA_SIZE + PAGE_SIZE + i * PAGE_SIZE`. -/
def fileEntries (f : File) : List (Int × Int) :=
  (List.range (readInt32 (f.pread zeroBytes 4 4).2 0).toNat).flatMap (fun i =>
    pageEntries (f.pread zeroBytes PAGE_SIZE
      ((SST_METADATA_SIZE + PAGE_SIZE + i * PAGE_SIZE : Nat) : Int)).2)

end SST

namespace KVStore

/-- The entries of the data pages of a file on the disk an earlier computation
left, none when there is no such file. -/
def fileEntriesAfter (r : Except Fault (KVStore × FileSystem)) (name : String) :
    Option (List (Int × Int)) :=
  match r with
  | .error _ => none
  | .ok (_, fs) => (fs.openRead name).map SST.fileEntries

end KVStore

/-- The entries of the memtable an earlier computation left, in key order. -/
def memtableEntriesAfter (r : Except Fault (KVStore × FileSystem)) : Option (List (Int × Int)) :=
  (memtableAfter r).map AVLTree.toList

namespace BufferPool

/-- A call of the page cache interface. -/
inductive Call where
  | insertPage (pageID : String) (page : Page)
  | getPage (pageID : String)

def call (p : BufferPool) : Call → BufferPool
  | .insertPage pageID page => p.insertPage pageID page
  | .getPage pageID => (p.getPage pageID).2

/-- The pool after a sequence of calls. -/
def calls (cs : List Call) (p : BufferPool) : BufferPool := cs.foldl call p

/-- The entries in circular list order, starting at the clock hand. -/
def fromHand (p : BufferPool) : List ClockNode :=
  match p.clockHand with
  | none => p.ring
  | some h => p.ring.drop h ++ p.ring.take h

/-- The page IDs of the circular list. -/
def pageIDs (p : BufferPool) : List String := p.ring.map (fun n => n.pageID)

/-- An entry with its reference bit cleared. -/
def cleared (n : ClockNode) : ClockNode := { n with referenceBit := 0 }

/-- The victim as the eviction rule words it: the first entry, in the given
circular order, whose reference bit is clear; when every bit is set, the entry
the order starts with. -/
def victimOf (order : List ClockNode) : Option ClockNode :=
  match order.find? (fun n => n.referenceBit = 0) with
  | some v => some v
  | none => order.head?

/-- The entries the eviction rule leaves, in circular order from the entry after
the victim: the entries behind the victim untouched, then the entries the hand
passed, their bits cleared; when every bit was set, all entries but the first,
their bits cleared. -/
def survivorsOf (order : List ClockNode) : List ClockNode :=
  match order.dropWhile (fun n => n.referenceBit ≠ 0) with
  | _ :: post => post ++ (order.takeWhile (fun n => n.referenceBit ≠ 0)).map cleared
  | [] => (order.map cleared).tail

/-- A pool together with the record the lookup rule speaks of: for each page ID
that was added and not evicted since, the payload of the `insertPage` call that
added it. -/
structure Tracked where
  pool : BufferPool
  held : String → Option Page

namespace Tracked

/-- The record of an empty pool. -/
def new (hash : String → Nat) (capacity : Nat) : Tracked :=
  { pool := BufferPool.new hash capacity, held := fun _ => none }

/-- One call: `getPage` leaves the record alone; `insertPage` of a recorded ID
leaves it alone too; `insertPage` of another ID records the payload, after
dropping the victim of the eviction rule when the pool is full. -/
def call (t : Tracked) : Call → Tracked
  | .getPage pageID => { pool := (t.pool.getPage pageID).2, held := t.held }
  | .insertPage pageID page =>
    { pool := t.pool.insertPage pageID page,
      held :=
        match t.held pageID with
        | some _ => t.held
        | none => fun x =>
          if x = pageID then some page
          else if t.pool.currentSize = t.pool.capacity ∧
              (victimOf t.pool.fromHand).map (fun n => n.pageID) = some x then none
          else t.held x }

def calls (cs : List Call) (t : Tracked) : Tracked := cs.foldl call t

end Tracked

end BufferPool

namespace HashMap

/-- No key occurs twice in a bucket. -/
def Chained {V : Type} (m : HashMap V) : Prop := ∀ i, ((m.table i).map Prod.fst).Nodup

end HashMap

namespace BufferPool

/-- The clock hand points at an entry of the list, and is null only when the
list is empty. -/
def HandOk (p : BufferPool) : Prop :=
  match p.clockHand with
  | none => p.ring = []
  | some h => h < p.ring.length

/-- What every pool built by `insertPage` and `getPage` calls satisfies: the
list has `currentSize` entries, at most `capacity`; so has the hash map; no page
ID occurs twice in the list; the hash map holds exactly the page IDs of the
list; and the hand is in the list. -/
structure Inv (p : BufferPool) : Prop where
  size_eq : p.ring.length = p.currentSize
  size_le : p.currentSize ≤ p.capacity
  map_size : p.pageMap.size = p.currentSize
  nodup : p.pageIDs.Nodup
  cached : ∀ pageID, (p.pageMap.get pageID).isSome = true ↔ pageID ∈ p.pageIDs
  hand : HandOk p
  chained : p.pageMap.Chained
  capacity_pos : 1 ≤ p.capacity

end BufferPool

/-- The pool of the unit test `testBufferPoolEviction` before its last
`insertPage`: capacity 2, `page1` and `page2` inserted, then `page1` read. -/
def poolOfTest : BufferPool :=
  BufferPool.calls [.insertPage "page1" Page.new, .insertPage "page2" Page.new, .getPage "page1"]
    (BufferPool.new (fun _ => 0) 2)

namespace LSMTree

/-- A bound on the number of iterations the merge loop still makes: the
directory entries not yet consumed of the two loaded pages, and 340 entries (as
many as a directory can hold) for each page that can still be read from the two
files behind the current offsets. -/
def budget (sst1 sst2 : File) (st : MergeState) : Nat :=
  (st.keys1.length - st.keyIndex1) + (st.keys2.length - st.keyIndex2) +
    340 * ((sst1.size - st.offset1) / 4096) + 340 * ((sst2.size - st.offset2) / 4096)

end LSMTree

namespace LSMTree

/-- The per-level filename lists a call of the LSM manager left, none when it failed. -/
def levelsAfter (r : Except Fault (LSMTree × FileSystem)) : Option (List (List String)) :=
  match r with
  | .error _ => none
  | .ok (t, _) => some t.levels

end LSMTree

/-- An index of ratio 2 with one file in level 0 and one in level 1, as three
flushes leave it. -/
def cascadeIndex : LSMTree :=
  { levelSizeRatio := 2, db_name := "../db",
    levels := [["../db/sst_3.sst"], ["../db/sst_1_2.sst"]] }

/-- A disk holding the files of `cascadeIndex` and a fourth flushed file. -/
def cascadeDisk : FileSystem :=
  { files := [("../db/sst_4.sst", (SST.fileOf [(4, 40)]).getD File.empty),
              ("../db/sst_3.sst", (SST.fileOf [(3, 30)]).getD File.empty),
              ("../db/sst_1_2.sst", (SST.fileOf [(1, 10), (2, 20)]).getD File.empty)],
    logs := [], dirs := ["../db"] }

/-! ## Observations for the page layout, the tree of an SST and its blocks in the file -/

/-- The values of `int64_t`. -/
def IsInt64 (x : Int) : Prop := INT64_MIN ≤ x ∧ x ≤ INT64_MAX

instance decIsInt64 (x : Int) : Decidable (IsInt64 x) := inferInstanceAs (Decidable (INT64_MIN ≤ x ∧ x ≤ INT64_MAX))

namespace Page

/-- What a page holds after the entries `es` were accepted by `addEntry`, in
this order: the fields, the vector `keys`, and the serialised bytes (header,
directory from byte 16 upwards, values from byte 4096 downwards, zeros in
between and behind the page). -/
structure Holds (p : Page) (es : List (Int × Int)) : Prop where
  len : es.length ≤ 204
  numEntries : p.numEntries = (es.length : Int)
  freeSpace : p.freeSpace = 4080 - 20 * (es.length : Int)
  startingKey : p.startingKey = match es.head? with
    | some kv => kv.1
    | none => 0
  keysKey : p.keys.map (fun ko => ko.key) = es.map Prod.fst
  keysOffset : p.keys.map (fun ko => ko.valueOffset) =
    (List.range es.length).map (fun (i : Nat) => (4096 : Int) - 8 * ((i : Int) + 1))
  header : es ≠ [] → readInt32 p.data 0 = p.numEntries ∧ readInt64 p.data 4 = p.startingKey ∧
    readInt32 p.data 12 = p.freeSpace
  dir : ∀ i kv, es[i]? = some kv → readInt64 p.data (16 + 12 * i) = kv.1 ∧
    readInt32 p.data (16 + 12 * i + 8) = (4096 : Int) - 8 * ((i : Int) + 1)
  vals : ∀ i kv, es[i]? = some kv → readInt64 p.data (4096 - 8 * (i + 1)) = kv.2
  blank : ∀ i, (16 + 12 * es.length ≤ i ∧ i < 4096 - 8 * es.length) ∨ 4096 ≤ i → p.data i = 0

/-- The value stored with `target` in a list of entries, -1 when there is none. -/
def lookup (target : Int) (es : List (Int × Int)) : Int :=
  match es.find? (fun kv => kv.1 = target) with
  | some kv => kv.2
  | none => -1

end Page

namespace BTree

namespace Node

/-- Decoding a node block at the positions where `searchInNode` reads: the
counts at bytes 0 and 4, offset `i` at byte `8 + 16i` and key `i` eight bytes
behind it, the trailing offset (read when there are more offsets than keys) at
the position behind the last pair. -/
def decode (buffer : Bytes) : List Int × List Int :=
  let keyCount := readInt32 buffer 0
  let offCount := readInt32 buffer 4
  let keys := (List.range keyCount.toNat).map (fun (i : Nat) => readInt64 buffer (8 + 16 * i + 8))
  let offsets := (List.range (if keyCount < offCount then keyCount.toNat + 1 else keyCount.toNat)).map
    (fun (i : Nat) => readInt64 buffer (8 + 16 * i))
  (keys, offsets)

/-- The offset to follow for a target: the offset paired with the first key that
is at least the target, else the offset behind the last pair if there is one. -/
def firstAtLeast (target : Int) : List Int → List Int → Option Int
  | [], os => os.head?
  | k :: ks, o :: os => if target ≤ k then some o else firstAtLeast target ks os
  | _ :: _, [] => none

end Node

end BTree

namespace BTree

/-- A sequence of `insert(key, offset)` calls. -/
def insertAll : List (Int × Int) → BTree → Except Fault BTree
  | [], t => .ok t
  | ko :: rest, t =>
    match t.insert ko.1 ko.2 with
    | .error e => .error e
    | .ok t => insertAll rest t

end BTree

namespace SST

/-- The file offsets at which the blocks of the subtrees of the children start
when the subtrees are written one behind the other from `start`. -/
def subtreeStarts : List BTree.Node → Nat → List Int
  | [], _ => []
  | c :: cs, start =>
    (start : Int) :: subtreeStarts cs (start + PAGE_SIZE * (BTree.postorderTraversalHelper c []).length)

/-- The file offsets of the blocks of the children themselves when their
subtrees are written one behind the other from `start`: the block of a child
is the last block of its subtree. -/
def blockOffsets : List BTree.Node → Nat → List Int
  | [], _ => []
  | c :: cs, start =>
    ((start + PAGE_SIZE * ((BTree.postorderTraversalHelper c []).length - 1) : Nat) : Int) ::
      blockOffsets cs (start + PAGE_SIZE * (BTree.postorderTraversalHelper c []).length)

/-- What `postorderTraversalWrite` did when it returns `(w, s1, f1)` after it
was called on `n` at offset `s` of the file `f`. -/
structure Wrote (n : BTree.Node) (s : Nat) (f : File) (w : BTree.Node) (s1 : Nat) (f1 : File) : Prop where
  next : s1 = s + PAGE_SIZE * (BTree.postorderTraversalHelper n []).length
  size : f.size = s → f1.size = s1
  below : ∀ j, j < s → f1.bytes j = f.bytes j
  above : ∀ j, s1 ≤ j → f1.bytes j = f.bytes j
  count : (BTree.postorderTraversalHelper w []).length = (BTree.postorderTraversalHelper n []).length
  keys : w.keys = n.keys
  isLeaf : w.isLeaf = n.isLeaf
  nodes : (BTree.postorderTraversalHelper w []).map BTree.Node.keys =
    (BTree.postorderTraversalHelper n []).map BTree.Node.keys
  blocks : ∀ (i : Nat) (x : BTree.Node), (BTree.postorderTraversalHelper w [])[i]? = some x →
    ∀ j, j < PAGE_SIZE → f1.bytes (s + PAGE_SIZE * i + j) = x.data j

/-- The same for the loop over the children. -/
structure WroteChildren (cs : List BTree.Node) (os : List Int) (s : Nat) (f : File)
    (ws : List BTree.Node) (os1 : List Int) (s1 : Nat) (f1 : File) : Prop where
  next : s1 = s + PAGE_SIZE * (BTree.postorderChildren cs []).length
  size : f.size = s → f1.size = s1
  below : ∀ j, j < s → f1.bytes j = f.bytes j
  above : ∀ j, s1 ≤ j → f1.bytes j = f.bytes j
  count : (BTree.postorderChildren ws []).length = (BTree.postorderChildren cs []).length
  length : ws.length = cs.length
  keys : ws.map BTree.Node.keys = cs.map BTree.Node.keys
  isLeaf : ws.map BTree.Node.isLeaf = cs.map BTree.Node.isLeaf
  offsets : os1 = os ++ subtreeStarts cs s
  nodes : (BTree.postorderChildren ws []).map BTree.Node.keys =
    (BTree.postorderChildren cs []).map BTree.Node.keys
  blocks : ∀ (i : Nat) (x : BTree.Node), (BTree.postorderChildren ws [])[i]? = some x →
    ∀ j, j < PAGE_SIZE → f1.bytes (s + PAGE_SIZE * i + j) = x.data j
  child : ∀ (i : Nat) (x : BTree.Node) (b : Int), ws[i]? = some x → (blockOffsets cs s)[i]? = some b →
    ∀ j, j < PAGE_SIZE → f1.bytes (b.toNat + j) = x.data j

end SST

namespace SST

/-- The pages built by `addEntry` from lists of entries, one page per list. -/
def pagesOf (ess : List (List (Int × Int))) : List Page :=
  ess.map (fun es => (Page.addEntries es Page.new).2)

/-- For pages number `k`, `k + 1`, ... holding the given entries: the pairs
(largest key of the page, `24 + 4096 + 4096 * ` number of the page). -/
def treePairs : List (List (Int × Int)) → Nat → List (Int × Int)
  | [], _ => []
  | es :: rest, k =>
    ((es.getLast?.map Prod.fst).getD 0, (24 : Int) + 4096 + 4096 * (k : Int)) :: treePairs rest (k + 1)

end SST

/-- Pages with one entry each: page `i` holds `(i + 1, 10 * (i + 1))`. -/
def onePages (n : Nat) : List Page :=
  (List.range n).map (fun (i : Nat) => (Page.addEntries [((i : Int) + 1, 10 * ((i : Int) + 1))] Page.new).2)

/-- The pairs `(largest key, page offset)` that `SST::addPage` passes to the
tree for the pages of `onePages n`. -/
def onePairs (n : Nat) : List (Int × Int) :=
  (List.range n).map (fun (i : Nat) => ((i : Int) + 1, (SST_METADATA_SIZE : Int) + PAGE_SIZE + PAGE_SIZE * (i : Int)))

/-- A tree of degree 2 and height 3 over the pairs of `onePairs 9`: the tree of
the classical insertion algorithm, in which the split of the full root
`[2, 4, 6]` promotes the key 4. -/
def tallTree : BTree.Node :=
  .mk false [4]
    [.mk false [2]
        [.mk true [1, 2] [] [4120, 8216] zeroBytes,
         .mk true [3, 4] [] [12312, 16408] zeroBytes] [] zeroBytes,
     .mk false [6]
        [.mk true [5, 6] [] [20504, 24600] zeroBytes,
         .mk true [7, 8, 9] [] [28696, 32792, 36888] zeroBytes] [] zeroBytes]
    [] zeroBytes

/-- The SST of the pages of `onePages n` with a given tree. -/
def onePageSST (n : Nat) (tree : BTree) : SST :=
  SST.mk 1 (n : Int) (n : Int) (n : Int) (onePages n) ((onePairs n).map Prod.snd) (some tree)
    (BloomFilter.new NUM_ENTRIES BITS_PER_ENTRY)

/-- The SST of the nine pages of `onePages 9` with the tree `tallTree`. -/
def tallSST : SST := onePageSST 9 (BTree.mk (some tallTree) 2)

/-- The 4096 bytes of a file from `offset` on. -/
def File.block (f : File) (offset : Nat) : Bytes := fun i => f.bytes (offset + i)

/-- The result of `btreeSearchSST` on the file that `writeToFile` returns for an
SST, through an empty page cache. -/
def SST.searchWritten (s : SST) (key : Int) : Except Fault Int :=
  match s.writeToFile with
  | .error e => .error e
  | .ok f => (KVStore.btreeSearchSST f key "sst" pool0).1

/-- The results of `btreeSearchSST` for the keys 0 to `n + 1` on the written SST
of the pages of `onePages n` whose tree is built by `insert` with degree `t`. -/
def searchAllWritten (t n : Nat) : Except Fault (List (Except Fault Int)) :=
  match BTree.insertAll (onePairs n) (BTree.new t) with
  | .error e => .error e
  | .ok tree => .ok ((List.range (n + 2)).map (fun (k : Nat) => (onePageSST n tree).searchWritten (k : Int)))

/-- The nodes of a tree in pre-order, each with its leaf flag, keys and offsets. -/
def BTree.outline (t : BTree) : List (Bool × List Int × List Int) :=
  t.preorderTraversal.map (fun n => (n.isLeaf, n.keys, n.offsets))

/-! ## Observations for the lookups, the merge, the clock sweep, the hash map, the levels and the order of the pages -/

/-- The fault with which a computation stopped, none when it returned. -/
def faultOf {α : Type} : Except Fault α → Option Fault
  | .ok _ => none
  | .error e => some e

namespace LSMTree

/-- The number of pages of the SST that `mergeTwoSSTs` returns for the files of
two lists of entries, and whether its B-tree pointer is set. -/
def mergedShape (first second : List (Int × Int)) (isLargestLevel : Bool) :
    Except Fault (Nat × Bool) :=
  match mergeTwoSSTs (SST.fileOf first) (SST.fileOf second) isLargestLevel with
  | .error e => .error e
  | .ok s => .ok (s.pages.length, s.btree.isSome)

/-- The size of the file that `writeToFile` produces for the SST that
`mergeTwoSSTs` returns, the two calls that `mergeLevels` makes in a row. -/
def mergedWrite (first second : List (Int × Int)) (isLargestLevel : Bool) : Except Fault Nat :=
  match mergeTwoSSTs (SST.fileOf first) (SST.fileOf second) isLargestLevel with
  | .error e => .error e
  | .ok s =>
    match s.writeToFile with
    | .error e => .error e
    | .ok file => .ok file.size

end LSMTree

namespace KVStore

/-- The results of `binarySearchSST` and of `btreeSearchSST` for one target key
on the file of an SST holding the given entries, each started on an empty page
cache. -/
def searchBoth (kvs : List (Int × Int)) (target_key : Int) :
    Option (Except Fault Int × Except Fault Int) :=
  match SST.fileOf kvs with
  | none => none
  | some fd =>
    some ((binarySearchSST fd "sst" target_key pool0).1, (btreeSearchSST fd target_key "sst" pool0).1)

end KVStore

/-- A store over `cascadeIndex` whose memtable holds the key 1 with the value 9;
on `cascadeDisk` the file of level 1 holds the older value 10 for this key. -/
def heldStore : KVStore :=
  { KVStore.new 3 with db_name := "../db", lsmTree := some cascadeIndex,
                       memtable := (AVLTree.new 3).put 1 9 }

/-- The entries of a page that is full: the keys 1 to 204, each with the value
16, but for the last one, which has the value 1000. -/
def fullPage : List (Int × Int) :=
  (List.range 204).map (fun i => ((i : Int) + 1, if i = 203 then 1000 else 16))

namespace BufferPool

/-- The number of times the loop of `evictPage` takes its `else` branch
(clearing a bit and moving the hand to the next entry) before it reaches an
entry whose bit is clear and evicts it; none when `fuel` iterations do not get
there or the hand is not on an entry. -/
def sweepLength : Nat → BufferPool → Option Nat
  | 0, _ => none
  | fuel + 1, p =>
    match p.clockHand with
    | none => none
    | some hand =>
      match p.ring.get? hand with
      | none => none
      | some node =>
        if node.referenceBit = 0 then some 0
        else
          (sweepLength fuel
            { p with ring := p.ring.set hand { node with referenceBit := 0 },
                     clockHand := some (if hand + 1 = p.ring.length then 0 else hand + 1) }).map
            (fun k => k + 1)

end BufferPool

namespace HashMap

/-- A call that changes the hash map. -/
inductive Call (V : Type) where
  | insert (key : String) (value : V)
  | remove (key : String)

/-- The key a call names. -/
def Call.key {V : Type} : Call V → String
  | .insert key _ => key
  | .remove key => key

def call {V : Type} (m : HashMap V) : Call V → HashMap V
  | .insert key value => m.insert key value
  | .remove key => m.remove key

/-- The hash map after a sequence of calls. -/
def calls {V : Type} (cs : List (Call V)) (m : HashMap V) : HashMap V := cs.foldl call m

/-- The finite map the hash map is compared with, as a function of the key:
the value of the last `insert` of the key when no `remove` of the key came
after it, none when the key was never inserted or was removed since. -/
def bound {V : Type} (k : String) (cs : List (Call V)) : Option V :=
  cs.foldl (fun acc c =>
    match c with
    | .insert key value => if k = key then some value else acc
    | .remove key => if k = key then none else acc) none

end HashMap

deriving instance DecidableEq for LSMTree

namespace LSMTree

/-- A sequence of `addSST` calls, each on the disk it finds (the files are
written between the calls), stopping at the first call that fails. -/
def addSSTs : List (FileSystem × String) → LSMTree → Except Fault LSMTree
  | [], t => .ok t
  | (fs, sstFileName) :: rest, t =>
    match t.addSST fs sstFileName with
    | .error e => .error e
    | .ok (t, _) => addSSTs rest t

/-- The number that the level lists spell when level `i` counts `2 ^ i` for
each of its files. -/
def weight : List (List String) → Nat
  | [] => 0
  | l :: rest => l.length + 2 * weight rest

/-- The disk holding one-entry files under the given names. -/
def diskOf (names : List (String × Int)) : FileSystem :=
  { files := names.map (fun nk => (nk.1, (SST.fileOf [(nk.2, 10 * nk.2)]).getD File.empty)),
    logs := [], dirs := ["../db"] }

end LSMTree

namespace AVLTree

/-- The nodes of a tree: every non-null pointer reachable from the root, each
given as the subtree it is the root of. -/
def subtrees : Node → List Node
  | .null => []
  | .mk k v l r h => .mk k v l r h :: (subtrees l ++ subtrees r)

/-- The invariant of the heights, node by node: the stored height is one more
than the larger of the heights of the two subtrees, which differ by at most
one. -/
def Avl : Node → Prop
  | .null => True
  | .mk _ _ l r h => Avl l ∧ Avl r ∧ h = 1 + max (height l) (height r) ∧
      -1 ≤ height l - height r ∧ height l - height r ≤ 1

end AVLTree

namespace SST

/-- The keys of the directories of a list of pages, page after page. -/
def dirKeys (pages : List Page) : List Int :=
  pages.flatMap (fun p => p.keys.map (fun ko => ko.key))

/-- Page ordering for the pages of an SST object: no page is empty and the keys
of the directories, read page after page, are strictly ascending. -/
structure PageOrdered (pages : List Page) : Prop where
  nonempty : ∀ p ∈ pages, p.keys ≠ []
  ascending : (dirKeys pages).Pairwise (fun a b => a < b)

end SST

namespace File

/-- The page count in the header of an SST file, as `mergeTwoSSTs` reads it. -/
def numPages (f : File) : Int := readInt32 (f.pread zeroBytes 4 4).2 0

/-- The directory of page number `i` of an SST file, as `mergeTwoSSTs` reads
it: the entry count from the first four bytes of the block, the key-offset
pairs from byte 16 on. -/
def directory (f : File) (i : Nat) : List KeyOffset :=
  match LSMTree.readKeyOffsets
      (f.pread zeroBytes PAGE_SIZE ((SST_METADATA_SIZE + PAGE_SIZE + PAGE_SIZE * i : Nat) : Int)).2
      (readInt32
        (f.pread zeroBytes PAGE_SIZE ((SST_METADATA_SIZE + PAGE_SIZE + PAGE_SIZE * i : Nat) : Int)).2
        0).toNat 16 with
  | .ok keys => keys
  | .error _ => []

/-- The keys of the directories of the pages from number `i` on. -/
def keysFrom (f : File) (i : Nat) : List Int :=
  ((List.range f.numPages.toNat).drop i).flatMap (fun j => (f.directory j).map (fun ko => ko.key))

/-- Page ordering for an SST file: it has a page, no page is empty, and the
keys of the directories, read page after page, are strictly ascending. -/
structure PageOrdered (f : File) : Prop where
  pages : 1 ≤ f.numPages
  nonempty : ∀ i, i < f.numPages.toNat → f.directory i ≠ []
  ascending : (f.keysFrom 0).Pairwise (fun a b => a < b)

end File

namespace LSMTree

/-- The keys the merge loop has not consumed yet from its first input: those of
the loaded directory from `keyIndex1` on, then those of the pages behind. -/
def rest1 (sst1 : File) (st : MergeState) : List Int :=
  (st.keys1.drop st.keyIndex1).map (fun ko => ko.key) ++ sst1.keysFrom (st.currentPage1.toNat + 1)

/-- The same for the second input. -/
def rest2 (sst2 : File) (st : MergeState) : List Int :=
  (st.keys2.drop st.keyIndex2).map (fun ko => ko.key) ++ sst2.keysFrom (st.currentPage2.toNat + 1)

/-- What every iteration of the merge loop finds and leaves: the loaded
directories are those of the current pages, the keys written so far are
strictly ascending and below every key not consumed yet, and the keys not
consumed yet are strictly ascending in each input. -/
structure MergeInv (sst1 sst2 : File) (st : MergeState) : Prop where
  page1 : 0 ≤ st.currentPage1 ∧ st.currentPage1 < sst1.numPages
  page2 : 0 ≤ st.currentPage2 ∧ st.currentPage2 < sst2.numPages
  offset1 : st.offset1 = SST_METADATA_SIZE + PAGE_SIZE + PAGE_SIZE * st.currentPage1.toNat
  offset2 : st.offset2 = SST_METADATA_SIZE + PAGE_SIZE + PAGE_SIZE * st.currentPage2.toNat
  keys1 : st.keys1 = sst1.directory st.currentPage1.toNat
  keys2 : st.keys2 = sst2.directory st.currentPage2.toNat
  pagesNonempty : ∀ p ∈ st.mergedSST.pages, p.keys ≠ []
  out : (SST.dirKeys (st.mergedSST.pages ++ [st.outputPage])).Pairwise (fun a b => a < b)
  sorted1 : (rest1 sst1 st).Pairwise (fun a b => a < b)
  sorted2 : (rest2 sst2 st).Pairwise (fun a b => a < b)
  below1 : ∀ a ∈ SST.dirKeys (st.mergedSST.pages ++ [st.outputPage]), ∀ b ∈ rest1 sst1 st, a < b
  below2 : ∀ a ∈ SST.dirKeys (st.mergedSST.pages ++ [st.outputPage]), ∀ b ∈ rest2 sst2 st, a < b

end LSMTree

namespace KVStore

/-- The SST object that `flushMemtableToSST` builds from the memtable before it
writes it: the first and last key of the scan, the pages filled by the loop
and the last page when it holds entries. -/
def flushedSST (memtable : AVLTree) : Except Fault SST :=
  let sst := SST.new
  let kv_pairs := memtable.scan INT_MIN INT_MAX
  match kv_pairs.head?, kv_pairs.getLast? with
  | some front, some back =>
    let sst := { sst with startingKey := front.1, endingKey := back.1 }
    match fillPages kv_pairs Page.new sst with
    | .error e => .error e
    | .ok (currentPage, sst) =>
      if currentPage.numEntries > 0 then sst.addPage currentPage else .ok sst
  | _, _ => .error .outOfBounds

end KVStore

namespace SST

/-- Page ordering read page by page: the keys of every directory are strictly
ascending, every key of a page is smaller than every key of the next page,
and the starting keys of the pages are strictly ascending. -/
structure PagesSorted (pages : List Page) : Prop where
  within : ∀ p ∈ pages, (p.keys.map (fun ko => ko.key)).Pairwise (fun a b => a < b)
  across : ∀ (i : Nat) (p q : Page), pages[i]? = some p → pages[i + 1]? = some q →
    ∀ a ∈ p.keys, ∀ b ∈ q.keys, a.key < b.key
  starts : (pages.map (fun p => p.startingKey)).Pairwise (fun a b => a < b)

/-- The file of `writeToFile` when the header and the filter are written and
the pages are not yet. -/
def headed (s : SST) : File :=
  ((((File.empty.pwrite (writeInt32 zeroBytes 0 s.numEntries) 4 0).pwrite
    (writeInt32 zeroBytes 0 s.numPages) 4 4).pwrite (writeInt64 zeroBytes 0 s.startingKey) 8 8).pwrite
    (writeInt64 zeroBytes 0 s.endingKey) 8 16).pwrite s.bloomFilter.updateData.data PAGE_SIZE 24

/-- What holds of an SST object built by `addPage` calls from pages filled by
`addEntry`: `numPages` counts the pages, the tree pointer is set only when
there is a page, and every page holds the entries it accepted, with
64-bit keys. -/
structure Built (s : SST) : Prop where
  numPages : s.numPages = (s.pages.length : Int)
  tree : s.btree.isSome = true → s.pages ≠ []
  holds : ∀ p ∈ s.pages, ∃ es, Page.Holds p es ∧ ∀ kv ∈ es, IsInt64 kv.1

end SST

/-- The file of an SST holding the entries (1, 4) and (3, 6). -/
def mergeInput1 : File := (SST.fileOf [(1, 4), (3, 6)]).getD File.empty

/-- The file of an SST holding the entries (1, 9) and (2, 5). -/
def mergeInput2 : File := (SST.fileOf [(1, 9), (2, 5)]).getD File.empty

namespace LSMTree

/-- The keys of the directories of the SST that `mergeTwoSSTs` returns for two
files, page after page. -/
def mergedKeys (sst1 sst2 : File) (isLargestLevel : Bool) : Except Fault (List Int) :=
  match mergeTwoSSTs (some sst1) (some sst2) isLargestLevel with
  | .error e => .error e
  | .ok s => .ok (SST.dirKeys s.pages)

/-- What the merge loop keeps true of the pages it fills and of the keys it
loaded. -/
structure BuiltInv (st : MergeState) : Prop where
  built : SST.Built st.mergedSST
  page : ∃ es, Page.Holds st.outputPage es ∧ ∀ kv ∈ es, IsInt64 kv.1
  ints1 : ∀ ko ∈ st.keys1, IsInt64 ko.key
  ints2 : ∀ ko ∈ st.keys2, IsInt64 ko.key

end LSMTree

/-! ## The tree when a shrunk vector keeps its buffer, and observations for the flush -/

/-- Element `i` of a vector of integers that `resize` shrank from `before`:
inside the vector the element, behind its end the value that the slot held
before the `resize`.  Shrinking a vector keeps its buffer and writes nothing to
the slots it gives up, so this is the value the memory holds there; the C++
standard leaves the read behind the end undefined, and `readAt` stops at it. -/
def readShrunk (before l : List Int) (i : Nat) : Except Fault Int :=
  match l.get? i with
  | some a => .ok a
  | none => readAt before i

namespace BTree

/-- Function `splitChild(parent, index, parent->children[index])` with the read
`child->keys[degree - 1]` of the key to promote taken from the buffer of the
vector (`readShrunk`); everything else is as in `splitChild`. -/
def splitChildKept (degree : Nat) (parent : Node) (index : Nat) : Except Fault Node :=
  match parent with
  | .mk pLeaf pKeys pChildren pOffsets pData =>
    match readAt pChildren index with
    | .error e => .error e
    | .ok (.mk cLeaf cKeys cChildren cOffsets cData) =>
      match readRange cKeys degree (degree - 1) with
      | .error e => .error e
      | .ok newKeys =>
        if cLeaf then
          match readRange cOffsets degree (degree - 1) with
          | .error e => .error e
          | .ok newOffsets =>
            let newNode := Node.mk cLeaf newKeys [] newOffsets zeroBytes
            let before := cKeys
            let cKeys := resizeInts cKeys degree
            let cOffsets := resizeInts cOffsets degree
            match readShrunk before cKeys (degree - 1) with
            | .error e => .error e
            | .ok median =>
              let child := Node.mk cLeaf cKeys cChildren cOffsets cData
              .ok (.mk pLeaf (insertAt pKeys index median)
                (insertAt (pChildren.set index child) (index + 1) newNode) pOffsets pData)
        else
          match readRange cChildren degree degree with
          | .error e => .error e
          | .ok newChildren =>
            let newNode := Node.mk cLeaf newKeys newChildren [] zeroBytes
            let before := cKeys
            let cKeys := resizeInts cKeys (degree - 1)
            let cChildren := cChildren.take degree
            match readShrunk before cKeys (degree - 1) with
            | .error e => .error e
            | .ok median =>
              let child := Node.mk cLeaf cKeys cChildren cOffsets cData
              .ok (.mk pLeaf (insertAt pKeys index median)
                (insertAt (pChildren.set index child) (index + 1) newNode) pOffsets pData)

/-- Function `insertNonFull` over `splitChildKept`; `fuel` bounds the depth of
the descent. -/
def insertNonFullKept (degree : Nat) : Nat → Node → Int → Int → Except Fault Node
  | 0, _, _, _ => .error .outOfFuel
  | fuel + 1, .mk isLeaf keys children offsets data, key, offset =>
    let i : Int := (keys.length : Int) - 1
    if isLeaf then
      let (i, keys, offsets) := shiftLoop key (keys.length + 1) i (keys ++ [0]) (offsets ++ [0])
      .ok (.mk isLeaf (keys.set (i + 1).toNat key) children (offsets.set (i + 1).toNat offset) data)
    else
      let i := (findLoop key keys (keys.length + 1) i + 1).toNat
      match readAt children i with
      | .error e => .error e
      | .ok child =>
        if child.keys.length + 1 = 2 * degree then
          match splitChildKept degree (.mk isLeaf keys children offsets data) i with
          | .error e => .error e
          | .ok (.mk isLeaf keys children offsets data) =>
            match readAt keys i with
            | .error e => .error e
            | .ok ki =>
              let i := if key > ki then i + 1 else i
              match readAt children i with
              | .error e => .error e
              | .ok child =>
                match insertNonFullKept degree fuel child key offset with
                | .error e => .error e
                | .ok child => .ok (.mk isLeaf keys (children.set i child) offsets data)
        else
          match insertNonFullKept degree fuel child key offset with
          | .error e => .error e
          | .ok child => .ok (.mk isLeaf keys (children.set i child) offsets data)

/-- Function `BTree::insert(key, offset)` over `splitChildKept`. -/
def insertKept (t : BTree) (key offset : Int) : Except Fault BTree :=
  match t.root with
  | none => .ok { t with root := some (.mk true [key] [] [offset] zeroBytes) }
  | some root =>
    if root.keys.length + 1 = 2 * t.degree then
      let newRoot := Node.mk false [] [root] [] zeroBytes
      match splitChildKept t.degree newRoot 0 with
      | .error e => .error e
      | .ok newRoot =>
        match insertNonFullKept t.degree (newRoot.depth + 1) newRoot key offset with
        | .error e => .error e
        | .ok r => .ok { t with root := some r }
    else
      match insertNonFullKept t.degree (root.depth + 1) root key offset with
      | .error e => .error e
      | .ok r => .ok { t with root := some r }

/-- A sequence of `insert(key, offset)` calls over `splitChildKept`, stopping at
the first one that fails. -/
def insertAllKept : List (Int × Int) → BTree → Except Fault BTree
  | [], t => .ok t
  | ko :: rest, t =>
    match t.insertKept ko.1 ko.2 with
    | .error e => .error e
    | .ok t => insertAllKept rest t

mutual
/-- Whether the subtree of a node other than the root is within the bounds of a
B-tree of minimum degree `t` whose leaves are all `height` nodes down from the
node, the node counted: between `t - 1` and `2t - 1` keys; in a leaf as many
offsets as keys; in an internal node one more child than keys, and every child
within the bounds with the leaves one node less far. -/
def Node.bounded (t height : Nat) : Node → Bool
  | .mk isLeaf keys children offsets _ =>
    decide (t - 1 ≤ keys.length ∧ keys.length ≤ 2 * t - 1) &&
      (if isLeaf then decide (height = 1 ∧ offsets.length = keys.length)
       else decide (2 ≤ height ∧ children.length = keys.length + 1) &&
         boundedList t (height - 1) children)
/-- Whether every node of the list is within the bounds at the same height. -/
def boundedList (t height : Nat) : List Node → Bool
  | [] => true
  | c :: cs => c.bounded t height && boundedList t height cs
end

/-- The bounds for the root: as for the other nodes, without the lower bound on
the number of keys. -/
def Node.rootBounded (t height : Nat) : Node → Bool
  | .mk isLeaf keys children offsets _ =>
    decide (keys.length ≤ 2 * t - 1) &&
      (if isLeaf then decide (height = 1 ∧ offsets.length = keys.length)
       else decide (2 ≤ height ∧ children.length = keys.length + 1) &&
         boundedList t (height - 1) children)

/-- The node bounds of a tree: its root, when it has one, is within the bounds
for the root at some height. -/
def Bounded (tree : BTree) : Prop :=
  ∀ root, tree.root = some root → ∃ height, root.rootBounded tree.degree height = true

end BTree

/-- The key that a write call writes. -/
def Op.key : Op → Int
  | .put key _ => key
  | .del key => key

/-- The value that a write call stores under its key: the tombstone for `Del`. -/
def Op.value : Op → Int
  | .put _ value => value
  | .del _ => TOMBSTONE

namespace KVStore

/-- The name of the file that the next flush of the store writes. -/
def nextSSTName (s : KVStore) : String :=
  s.db_name ++ "/sst_" ++ to_string (s.sst_counter + 1) ++ ".sst"

/-- The number of blocks that the page cache holds after `Scan(start, stop)` in
the state an earlier computation left. -/
def cachedAfter (r : Except Fault (KVStore × FileSystem)) (pool : BufferPool)
    (start stop : Int) : Option Nat :=
  match r with
  | .error _ => none
  | .ok (s, fs) => some (Scan s fs pool start stop).2.currentSize

/-- The entries of the data pages of the file `name` on the disk an earlier
computation left, none when the computation failed or there is no such file. -/
def entriesAfter (r : Except Fault (KVStore × FileSystem)) (name : String) :
    Option (List (Int × Int)) :=
  match r with
  | .error _ => none
  | .ok (_, fs) =>
    match fs.openRead name with
    | none => none
    | some fd => some (SST.fileEntries fd)

end KVStore

/-! # Properties -/

/-! ## Bloom filter -/

namespace BloomFilter

/-- Setting a list of slots one after the other. -/
theorem setSlots_spec (hs : List Nat) (f : BloomFilter) :
    let g := hs.foldl
      (fun g hash => { g with bitArray := fun i => if i = hash then true else g.bitArray i }) f
    g.numBits = f.numBits ∧ g.numHashFunctions = f.numHashFunctions ∧
      ∀ i, g.bitArray i = true ↔ (i ∈ hs ∨ f.bitArray i = true) := by
  induction hs generalizing f with
  | nil => simp
  | cons h hs ih =>
    have := ih { f with bitArray := fun i => if i = h then true else f.bitArray i }
    simp only [List.foldl_cons]
    refine ⟨this.1, this.2.1, fun i => ?_⟩
    rw [this.2.2 i]
    by_cases hi : i = h
    · simp [hi]
    · simp [hi]

theorem insert_numBits (f : BloomFilter) (key : Int) : (f.insert key).numBits = f.numBits :=
  (setSlots_spec (f.getHashValues key) f).1

theorem insert_numHashFunctions (f : BloomFilter) (key : Int) :
    (f.insert key).numHashFunctions = f.numHashFunctions :=
  (setSlots_spec (f.getHashValues key) f).2.1

theorem insert_bitArray (f : BloomFilter) (key : Int) (i : Nat) :
    (f.insert key).bitArray i = true ↔ (i ∈ f.getHashValues key ∨ f.bitArray i = true) :=
  (setSlots_spec (f.getHashValues key) f).2.2 i

theorem getHashValues_congr (f g : BloomFilter) (h1 : g.numBits = f.numBits)
    (h2 : g.numHashFunctions = f.numHashFunctions) (key : Int) :
    g.getHashValues key = f.getHashValues key := by
  simp [getHashValues, hashFunction, h1, h2]

theorem queryLoop_eq_true (bits : Nat → Bool) (hs : List Nat) :
    queryLoop bits hs = true ↔ ∀ h ∈ hs, bits h = true := by
  induction hs with
  | nil => simp [queryLoop]
  | cons h hs ih =>
    by_cases hb : bits h = true
    · simp [queryLoop, hb, ih]
    · simp [queryLoop, hb]

/-- Inserting a list of keys keeps the parameters and only sets slots. -/
theorem insertAll_spec (keys : List Int) (f : BloomFilter) :
    let g := keys.foldl (fun g k => g.insert k) f
    g.numBits = f.numBits ∧ g.numHashFunctions = f.numHashFunctions ∧
      (∀ i, f.bitArray i = true → g.bitArray i = true) ∧
      ∀ k ∈ keys, ∀ i ∈ f.getHashValues k, g.bitArray i = true := by
  induction keys generalizing f with
  | nil => simp
  | cons a keys ih =>
    have h := ih (f.insert a)
    simp only [List.foldl_cons]
    have e1 := insert_numBits f a
    have e2 := insert_numHashFunctions f a
    refine ⟨h.1.trans e1, h.2.1.trans e2, fun i hi => ?_, fun k hk i hi => ?_⟩
    · exact h.2.2.1 i ((insert_bitArray f a i).2 (Or.inr hi))
    · rcases List.mem_cons.1 hk with rfl | hk
      · exact h.2.2.1 i ((insert_bitArray f k i).2 (Or.inl hi))
      · exact h.2.2.2 k hk i (by rw [getHashValues_congr f (f.insert a) e1 e2]; exact hi)

theorem query_eq_true (f : BloomFilter) (key : Int) :
    f.query key = true ↔ ∀ i ∈ f.getHashValues key, f.bitArray i = true :=
  queryLoop_eq_true _ _

end BloomFilter


namespace SST

theorem addPage_bloomFilter (s s' : SST) (page : Page) (h : s.addPage page = .ok s') :
    s'.bloomFilter =
      (page.keys.foldl (fun f entry => f.insert entry.key) s.bloomFilter).updateData := by
  unfold addPage at h
  cases hl : page.keys.getLast? with
  | none => rw [hl] at h; cases h
  | some last =>
    rw [hl] at h
    dsimp only at h
    split at h
    · cases h
    · cases h; rfl

theorem foldl_insert_keys (keys : List KeyOffset) (f : BloomFilter) :
    keys.foldl (fun f entry => f.insert entry.key) f =
      (keys.map (fun ko => ko.key)).foldl (fun g k => g.insert k) f := by
  induction keys generalizing f with
  | nil => rfl
  | cons a keys ih => simp [List.foldl_cons, ih]

/-- One `addPage` keeps the parameters of the filter, keeps every set slot and
sets the slots of the keys of the page. -/
theorem addPage_filter (s s' : SST) (page : Page) (h : s.addPage page = .ok s') :
    s'.bloomFilter.numBits = s.bloomFilter.numBits ∧
    s'.bloomFilter.numHashFunctions = s.bloomFilter.numHashFunctions ∧
    (∀ i, s.bloomFilter.bitArray i = true → s'.bloomFilter.bitArray i = true) ∧
    ∀ ko ∈ page.keys, ∀ i ∈ s.bloomFilter.getHashValues ko.key, s'.bloomFilter.bitArray i = true := by
  rw [addPage_bloomFilter s s' page h, foldl_insert_keys]
  have := BloomFilter.insertAll_spec (page.keys.map (fun ko => ko.key)) s.bloomFilter
  refine ⟨this.1, this.2.1, this.2.2.1, fun ko hko i hi => ?_⟩
  exact this.2.2.2 ko.key (List.mem_map.2 ⟨ko, hko, rfl⟩) i hi

theorem addPages_filter (pages : List Page) (s s' : SST) (h : addPages pages s = .ok s') :
    s'.bloomFilter.numBits = s.bloomFilter.numBits ∧
    s'.bloomFilter.numHashFunctions = s.bloomFilter.numHashFunctions ∧
    (∀ i, s.bloomFilter.bitArray i = true → s'.bloomFilter.bitArray i = true) ∧
    ∀ p ∈ pages, ∀ ko ∈ p.keys, ∀ i ∈ s.bloomFilter.getHashValues ko.key,
      s'.bloomFilter.bitArray i = true := by
  induction pages generalizing s with
  | nil =>
    simp only [addPages, Except.ok.injEq] at h
    subst h
    simp
  | cons page pages ih =>
    simp only [addPages] at h
    split at h
    · cases h
    · rename_i s1 h1
      have a := addPage_filter s s1 page h1
      have b := ih s1 h
      refine ⟨b.1.trans a.1, b.2.1.trans a.2.1, fun i hi => b.2.2.1 i (a.2.2.1 i hi), ?_⟩
      intro p hp ko hko i hi
      rcases List.mem_cons.1 hp with rfl | hp
      · exact b.2.2.1 i (a.2.2.2 ko hko i hi)
      · exact b.2.2.2 p hp ko hko i
          (by rw [BloomFilter.getHashValues_congr s.bloomFilter s1.bloomFilter a.1 a.2.1]; exact hi)

end SST

/-! ## Flush cadence -/

namespace KVStore

/-- A flush that returns has advanced the counter by one and cleared the
memtable; the threshold is untouched. -/
theorem flushMemtableToSST_ok (s s' : KVStore) (fs fs' : FileSystem)
    (h : flushMemtableToSST s fs = .ok (s', fs')) :
    s'.sst_counter = s.sst_counter + 1 ∧ s'.memtable_size = s.memtable_size ∧
      s'.memtable = s.memtable.clear := by
  unfold flushMemtableToSST at h
  dsimp only at h
  repeat' split at h
  all_goals first
    | (cases h; done)
    | (cases h; exact ⟨rfl, rfl, rfl⟩)

/-- The effect of one `Put` that returns on the size of the memtable and on the
SST counter. -/
theorem Put_ok (s s' : KVStore) (fs fs' : FileSystem) (key value : Int)
    (h : Put s fs key value = .ok (s', fs')) :
    s'.memtable_size = s.memtable_size ∧
    ((s.memtable.current_size + 1 ≥ s.memtable_size ∧ s'.memtable.current_size = 0 ∧
        s'.memtable.root = Node.null ∧ s'.sst_counter = s.sst_counter + 1) ∨
     (s.memtable.current_size + 1 < s.memtable_size ∧
        s'.memtable.current_size = s.memtable.current_size + 1 ∧
        s'.memtable.root = AVLTree.putNode s.memtable.root key value ∧
        s'.sst_counter = s.sst_counter)) := by
  unfold Put at h
  dsimp only at h
  split at h
  · rename_i hge
    split at h
    · cases h
    · rename_i s1 fs1 hf
      have hs := flushMemtableToSST_ok _ _ _ _ hf
      simp only [Except.ok.injEq, Prod.mk.injEq] at h
      obtain ⟨h1, -⟩ := h
      subst h1
      refine ⟨hs.2.1, Or.inl ⟨?_, rfl, rfl, hs.1⟩⟩
      simpa [AVLTree.getCurrentSize, AVLTree.put] using hge
  · rename_i hlt
    simp only [Except.ok.injEq, Prod.mk.injEq] at h
    obtain ⟨h1, -⟩ := h
    subst h1
    refine ⟨rfl, Or.inr ⟨?_, rfl, rfl, rfl⟩⟩
    simpa [AVLTree.getCurrentSize, AVLTree.put] using hlt


/-- Below the threshold a `Put` returns without touching the disk. -/
theorem Put_below (s : KVStore) (fs : FileSystem) (key value : Int)
    (h : s.memtable.current_size + 1 < s.memtable_size) :
    Put s fs key value = .ok ({ s with memtable := s.memtable.put key value }, fs) := by
  unfold Put
  dsimp only
  rw [if_neg]
  simpa [AVLTree.getCurrentSize, AVLTree.put] using h

/-- `Del` is `Put` of the tombstone, so both calls step the memtable alike. -/
theorem step_ok (s s' : KVStore) (fs fs' : FileSystem) (op : Op)
    (h : step s fs op = .ok (s', fs')) :
    s'.memtable_size = s.memtable_size ∧
    ((s.memtable.current_size + 1 ≥ s.memtable_size ∧ s'.memtable.current_size = 0 ∧
        s'.memtable.root = Node.null ∧ s'.sst_counter = s.sst_counter + 1) ∨
     (s.memtable.current_size + 1 < s.memtable_size ∧
        s'.memtable.current_size = s.memtable.current_size + 1 ∧
        s'.sst_counter = s.sst_counter)) := by
  cases op with
  | put key value =>
    have := Put_ok s s' fs fs' key value h
    refine ⟨this.1, ?_⟩
    rcases this.2 with a | a
    · exact Or.inl a
    · exact Or.inr ⟨a.1, a.2.1, a.2.2.2⟩
  | del key =>
    have := Put_ok s s' fs fs' key TOMBSTONE h
    refine ⟨this.1, ?_⟩
    rcases this.2 with a | a
    · exact Or.inl a
    · exact Or.inr ⟨a.1, a.2.1, a.2.2.2⟩

/-- The cadence from any fill level `c` below the threshold. -/
theorem run_cadence (n : Nat) (ops : List Op) :
    ∀ (s s' : KVStore) (fs fs' : FileSystem) (c : Nat),
      s.memtable_size = (n : Int) → s.memtable.current_size = (c : Int) → c < n →
      run ops s fs = .ok (s', fs') →
      s'.memtable_size = (n : Int) ∧
      s'.memtable.current_size = (((c + ops.length) % n : Nat) : Int) ∧
      s'.sst_counter = s.sst_counter + (((c + ops.length) / n : Nat) : Int) ∧
      ((c + ops.length) % n = 0 → ops ≠ [] → s'.memtable.root = Node.null) := by
  induction ops with
  | nil =>
    intro s s' fs fs' c hsize hc hlt hrun
    simp only [run, Except.ok.injEq, Prod.mk.injEq] at hrun
    obtain ⟨rfl, -⟩ := hrun
    simp [hsize, hc, Nat.mod_eq_of_lt hlt, Nat.div_eq_of_lt hlt]
  | cons op rest ih =>
    intro s s' fs fs' c hsize hc hlt hrun
    simp only [run] at hrun
    split at hrun
    · cases hrun
    · rename_i s1 fs1 hstep
      have hs := step_ok s s1 fs fs1 op hstep
      rw [hsize, hc] at hs
      rcases hs.2 with ⟨hge, h0, hroot, hctr⟩ | ⟨hl, h1, hctr⟩
      · have hcn : c + 1 = n := by omega
        have hpos : 0 < n := by omega
        have := ih s1 s' fs1 fs' 0 hs.1 (by simpa using h0) hpos hrun
        have e : c + (op :: rest).length = n + rest.length := by
          simp only [List.length_cons]; omega
        rw [e, Nat.add_mod_left, Nat.add_div_left _ hpos]
        simp only [Nat.zero_add] at this
        refine ⟨this.1, this.2.1, ?_, ?_⟩
        · rw [this.2.2.1, hctr]; push_cast; ring
        · intro hm _
          by_cases hr : rest = []
          · subst hr
            simp only [run, Except.ok.injEq, Prod.mk.injEq] at hrun
            obtain ⟨rfl, -⟩ := hrun
            exact hroot
          · exact this.2.2.2 hm hr
      · have hcn : c + 1 < n := by omega
        have := ih s1 s' fs1 fs' (c + 1) hs.1 (by rw [h1]; push_cast; ring) hcn hrun
        have e : c + (op :: rest).length = c + 1 + rest.length := by
          simp only [List.length_cons]; omega
        rw [e]
        refine ⟨this.1, this.2.1, ?_, ?_⟩
        · rw [this.2.2.1, hctr]
        · intro hm _
          by_cases hr : rest = []
          · subst hr
            simp only [List.length_nil, Nat.add_zero, Nat.mod_eq_of_lt hcn] at hm
            omega
          · exact this.2.2.2 hm hr

end KVStore

/-! ## The memtable as a search tree -/

namespace AVLTree

theorem toList_setHeight (t : Node) (h : Int) : toList (setHeight t h) = toList t := by
  cases t <;> rfl

theorem toList_rotateRight (t : Node) : toList (rotateRight t) = toList t := by
  unfold rotateRight
  split
  · simp [toList_setHeight, toList, List.append_assoc]
  · rfl

theorem toList_rotateLeft (t : Node) : toList (rotateLeft t) = toList t := by
  unfold rotateLeft
  split
  · simp [toList_setHeight, toList, List.append_assoc]
  · rfl

theorem toList_balance (t : Node) : toList (balance t) = toList t := by
  unfold balance
  dsimp only
  split
  · split
    · rename_i heq
      cases t <;> simp [setHeight] at heq
      rfl
    · rename_i k v l r h heq
      cases t with
      | null => simp [setHeight] at heq
      | mk k0 v0 l0 r0 h0 =>
        simp only [setHeight, Node.mk.injEq] at heq
        obtain ⟨rfl, rfl, rfl, rfl, -⟩ := heq
        split <;> simp [toList_rotateRight, toList_rotateLeft, toList]
  · split
    · split
      · rename_i heq
        cases t <;> simp [setHeight] at heq
        rfl
      · rename_i k v l r h heq
        cases t with
        | null => simp [setHeight] at heq
        | mk k0 v0 l0 r0 h0 =>
          simp only [setHeight, Node.mk.injEq] at heq
          obtain ⟨rfl, rfl, rfl, rfl, -⟩ := heq
          split <;> simp [toList_rotateRight, toList_rotateLeft, toList]
    · exact toList_setHeight _ _

theorem toList_putNode_mk (k v : Int) (l r : Node) (h : Int) (key value : Int) :
    toList (putNode (.mk k v l r h) key value) =
      if key < k then toList (putNode l key value) ++ (k, v) :: toList r
      else if key > k then toList l ++ (k, v) :: toList (putNode r key value)
      else toList l ++ (k, value) :: toList r := by
  simp only [putNode]
  split
  · simp [toList_balance, toList]
  · split <;> simp [toList_balance, toList]

theorem mem_keys_putNode (t : Node) (key value x : Int) :
    x ∈ keys (putNode t key value) ↔ x = key ∨ x ∈ keys t := by
  induction t with
  | null => simp [keys, putNode, toList]
  | mk k v l r h ihl ihr =>
    simp only [keys] at ihl ihr ⊢
    rw [toList_putNode_mk]
    split
    · simp only [List.map_append, List.map_cons, List.mem_append, List.mem_cons, ihl, toList]
      tauto
    · split
      · simp only [List.map_append, List.map_cons, List.mem_append, List.mem_cons, ihr, toList]
        tauto
      · have : key = k := by omega
        subst this
        simp only [List.map_append, List.map_cons, List.mem_append, List.mem_cons, toList]
        tauto

theorem ordered_putNode (t : Node) (key value : Int) (h : Ordered t) :
    Ordered (putNode t key value) := by
  induction t with
  | null => simp [Ordered, keys, putNode, toList]
  | mk k v l r ht ihl ihr =>
    have hl : Ordered l := by
      simp only [Ordered, keys, toList, List.map_append, List.map_cons] at h
      exact (List.pairwise_append.1 h).1
    have hr : Ordered r := by
      simp only [Ordered, keys, toList, List.map_append, List.map_cons] at h
      exact (List.pairwise_cons.1 (List.pairwise_append.1 h).2.1).2
    simp only [Ordered, keys, toList, List.map_append, List.map_cons, List.pairwise_append,
      List.pairwise_cons, List.mem_cons] at h
    have ml := mem_keys_putNode l key value
    have mr := mem_keys_putNode r key value
    simp only [keys] at ml mr
    simp only [Ordered, keys]
    rw [toList_putNode_mk]
    split
    · rename_i hlt
      simp only [List.map_append, List.map_cons, List.pairwise_append, List.pairwise_cons,
        List.mem_cons]
      refine ⟨ihl hl, ⟨h.2.1.1, h.2.1.2⟩, ?_⟩
      intro a ha b hb
      rcases (ml a).1 ha with rfl | ha
      · rcases hb with rfl | hb
        · exact hlt
        · exact lt_trans hlt (h.2.1.1 b hb)
      · exact h.2.2 a ha b hb
    · split
      · rename_i hgt
        simp only [List.map_append, List.map_cons, List.pairwise_append, List.pairwise_cons,
          List.mem_cons]
        refine ⟨h.1, ⟨?_, ihr hr⟩, ?_⟩
        · intro b hb
          rcases (mr b).1 hb with rfl | hb
          · exact hgt
          · exact h.2.1.1 b hb
        · intro a ha b hb
          rcases hb with rfl | hb
          · exact h.2.2 a ha b (Or.inl rfl)
          · rcases (mr b).1 hb with rfl | hb
            · exact lt_trans (h.2.2 a ha k (Or.inl rfl)) hgt
            · exact h.2.2 a ha b (Or.inr hb)
      · simp only [List.map_append, List.map_cons, List.pairwise_append, List.pairwise_cons,
          List.mem_cons]
        exact h

theorem ordered_ofWrites (writes : List (Int × Int)) : Ordered (ofWrites writes) := by
  have : ∀ (ws : List (Int × Int)) (t : Node), Ordered t →
      Ordered (ws.foldl (fun n w => putNode n w.1 w.2) t) := by
    intro ws
    induction ws with
    | nil => intro t h; exact h
    | cons w ws ih => intro t h; exact ih _ (ordered_putNode t w.1 w.2 h)
  exact this writes .null (by simp [Ordered, keys, toList])

/-- The traversal appends to `result` a sublist of the in-order entries, all of
them with a key in `[start, stop]`. -/
theorem inOrderTraversal_spec (start stop : Int) (t : Node) :
    ∀ result, ∃ l, inOrderTraversal t result start stop = result ++ l ∧
      l.Sublist (toList t) ∧ ∀ kv ∈ l, start ≤ kv.1 ∧ kv.1 ≤ stop := by
  induction t with
  | null => intro result; exact ⟨[], by simp [inOrderTraversal], List.Sublist.refl _, by simp⟩
  | mk k v l r h ihl ihr =>
    intro result
    simp only [inOrderTraversal]
    have h1 : ∃ l1, (if k > start then inOrderTraversal l result start stop else result)
        = result ++ l1 ∧ l1.Sublist (toList l) ∧ ∀ kv ∈ l1, start ≤ kv.1 ∧ kv.1 ≤ stop := by
      split
      · exact ihl result
      · exact ⟨[], by simp, List.nil_sublist _, by simp⟩
    obtain ⟨l1, e1, s1, r1⟩ := h1
    rw [e1]
    have h2 : ∃ m, (if k ≥ start ∧ k ≤ stop ∧ v ≠ INT64_MIN then result ++ l1 ++ [(k, v)]
        else result ++ l1) = result ++ l1 ++ m ∧ m.Sublist [(k, v)] ∧
        ∀ kv ∈ m, start ≤ kv.1 ∧ kv.1 ≤ stop := by
      split
      · rename_i hc
        exact ⟨[(k, v)], rfl, List.Sublist.refl _, by simpa using ⟨hc.1, hc.2.1⟩⟩
      · exact ⟨[], by simp, List.nil_sublist _, by simp⟩
    obtain ⟨m, e2, s2, r2⟩ := h2
    rw [e2]
    have h3 : ∃ l3, (if k < stop then inOrderTraversal r (result ++ l1 ++ m) start stop
        else result ++ l1 ++ m) = result ++ l1 ++ m ++ l3 ∧ l3.Sublist (toList r) ∧
        ∀ kv ∈ l3, start ≤ kv.1 ∧ kv.1 ≤ stop := by
      split
      · exact ihr _
      · exact ⟨[], by simp, List.nil_sublist _, by simp⟩
    obtain ⟨l3, e3, s3, r3⟩ := h3
    rw [e3]
    refine ⟨l1 ++ (m ++ l3), by simp [List.append_assoc], ?_, ?_⟩
    · have : toList (.mk k v l r h) = toList l ++ ([(k, v)] ++ toList r) := by simp [toList]
      rw [this]
      exact s1.append (s2.append s3)
    · intro kv hkv
      simp only [List.mem_append] at hkv
      rcases hkv with hkv | hkv | hkv
      · exact r1 kv hkv
      · exact r2 kv hkv
      · exact r3 kv hkv

/-- The result of `scan` on a search tree: keys strictly ascending and within
the range asked for. -/
theorem scan_spec (t : AVLTree) (start stop : Int) (h : Ordered t.root) :
    ((t.scan start stop).map Prod.fst).Pairwise (· < ·) ∧
      ∀ kv ∈ t.scan start stop, start ≤ kv.1 ∧ kv.1 ≤ stop := by
  obtain ⟨l, e, s, r⟩ := inOrderTraversal_spec start stop t.root []
  simp only [scan, e, List.nil_append]
  exact ⟨List.Pairwise.sublist (s.map Prod.fst) h, r⟩

end AVLTree

/-! ## What a scan of an SST file can return -/

namespace KVStore

theorem scanPageLoop_inRange (pageBuffer : Bytes) (start stop : Int) (n : Nat) :
    ∀ (i : Nat) (result r : List (Int × Int)), InRange start stop result →
      scanPageLoop pageBuffer start stop n i result = .ok r → InRange start stop r := by
  induction n with
  | zero =>
    intro i result r hres h
    simp only [scanPageLoop, Except.ok.injEq] at h
    exact h ▸ hres
  | succ n ih =>
    intro i result r hres h
    simp only [scanPageLoop] at h
    split at h
    · cases h
    · split at h
      · rename_i hin
        split at h
        · have hres2 : ∀ k v : Int, k ≥ start ∧ k ≤ stop →
              InRange start stop (result ++ [(k, v)]) := by
            intro k v h2 kv hkv
            rcases List.mem_append.1 hkv with hkv | hkv
            · exact hres kv hkv
            · simp only [List.mem_singleton] at hkv
              subst hkv
              exact h2
          split at h
          · simp only [Except.ok.injEq] at h
            exact h ▸ hres2 _ _ hin
          · exact ih _ _ _ (hres2 _ _ hin) h
        · cases h
      · split at h
        · simp only [Except.ok.injEq] at h
          exact h ▸ hres
        · exact ih _ _ _ hres h

theorem scanPage_inRange (pageBuffer : Bytes) (start stop : Int) (result r : List (Int × Int))
    (hres : InRange start stop result) (h : scanPage pageBuffer start stop result = .ok r) :
    InRange start stop r := by
  unfold scanPage at h
  dsimp only at h
  split at h
  · cases h
  · exact scanPageLoop_inRange _ _ _ _ _ _ _ hres h

theorem scanOffset_inRange
    (recurse : Int → List (Int × Int) → BufferPool → Except Fault (List (Int × Int)) × BufferPool)
    (fd : File) (sst_filename : String) (start stop pageStartOffset pageEndOffset : Int)
    (hrec : KeepsRange start stop recurse) :
    KeepsRange start stop
      (scanOffset recurse fd sst_filename start stop pageStartOffset pageEndOffset) := by
  intro offset result pool r pool' hres h
  unfold scanOffset at h
  split at h
  · split at h
    · cases h
    · simp only [Prod.mk.injEq] at h
      exact scanPage_inRange _ _ _ _ _ hres h.1
  · exact hrec _ _ _ _ _ hres h

theorem scanNodeLoop_inRange
    (recurse : Int → List (Int × Int) → BufferPool → Except Fault (List (Int × Int)) × BufferPool)
    (fd : File) (sst_filename : String) (start stop pageStartOffset pageEndOffset : Int)
    (buffer : Bytes) (hrec : KeepsRange start stop recurse) (n : Nat) :
    ∀ (metadataOffset : Nat) (result : List (Int × Int)) (pool : BufferPool)
      (r : List (Int × Int)) (m : Nat) (b : Bool) (pool' : BufferPool),
      InRange start stop result →
      scanNodeLoop recurse fd sst_filename start stop pageStartOffset pageEndOffset buffer
        n metadataOffset result pool = (.ok (r, m, b), pool') →
      InRange start stop r := by
  induction n with
  | zero =>
    intro metadataOffset result pool r m b pool' hres h
    simp only [scanNodeLoop, Prod.mk.injEq, Except.ok.injEq] at h
    exact h.1.1 ▸ hres
  | succ n ih =>
    intro metadataOffset result pool r m b pool' hres h
    rw [scanNodeLoop] at h
    split at h
    · cases h
    · dsimp only at h
      split at h
      · cases h
      · rename_i result1 pool1 heq
        have hres1 : InRange start stop result1 := by
          split at heq
          · exact scanOffset_inRange recurse fd sst_filename start stop pageStartOffset
              pageEndOffset hrec _ _ _ _ _ hres heq
          · simp only [Prod.mk.injEq, Except.ok.injEq] at heq
            exact heq.1 ▸ hres
        split at h
        · simp only [Prod.mk.injEq, Except.ok.injEq] at h
          exact h.1.1 ▸ hres1
        · exact ih _ _ _ _ _ _ _ hres1 h

theorem scanNode_inRange (fd : File) (sst_filename : String)
    (start stop pageStartOffset pageEndOffset : Int) (fuel : Nat) :
    KeepsRange start stop
      (scanNode fd sst_filename start stop pageStartOffset pageEndOffset fuel) := by
  induction fuel with
  | zero =>
    intro offset result pool r pool' _ h
    simp [scanNode] at h
  | succ fuel ih =>
    intro offset result pool r pool' hres h
    simp only [scanNode] at h
    split at h
    · cases h
    · split at h
      · cases h
      · split at h
        · cases h
        · split at h
          · cases h
          · rename_i result1 _ pool1 heq
            simp only [Prod.mk.injEq, Except.ok.injEq] at h
            exact h.1 ▸ scanNodeLoop_inRange _ fd sst_filename start stop pageStartOffset
              pageEndOffset _ ih _ _ _ _ _ _ _ _ hres heq
          · rename_i result1 metadataOffset pool1 heq
            have hres1 := scanNodeLoop_inRange _ fd sst_filename start stop pageStartOffset
              pageEndOffset _ ih _ _ _ _ _ _ _ _ hres heq
            split at h
            · split at h
              · cases h
              · exact scanOffset_inRange _ fd sst_filename start stop pageStartOffset
                  pageEndOffset ih _ _ _ _ _ hres1 h
            · simp only [Prod.mk.injEq, Except.ok.injEq] at h
              exact h.1 ▸ hres1

theorem scanBtree_inRange (fd : File) (sst_filename : String) (start stop : Int)
    (pool pool' : BufferPool) (r : List (Int × Int))
    (h : scanBtree fd sst_filename start stop pool = (.ok r, pool')) : InRange start stop r := by
  unfold scanBtree at h
  dsimp only at h
  split at h
  · cases h
  · split at h
    · cases h
    · split at h
      · cases h
      · exact scanNode_inRange _ _ _ _ _ _ _ _ _ _ _ _ (by intro kv hkv; cases hkv) h

end KVStore

/-! ## The merge of `mergedScan` -/

namespace KVStore

theorem ScanInv.nil (start stop : Int) : ScanInv start stop [] [] := by
  refine ⟨?_, ?_, ?_, ?_⟩
  · intro kv hkv; cases hkv
  · exact List.nodup_nil
  · intro kv hkv; cases hkv
  · intro kv hkv; cases hkv

theorem ScanInv.skip {start stop : Int} {fr : List (Int × Int)} {seen : List Int}
    (h : ScanInv start stop fr seen) (k : Int) : ScanInv start stop fr (k :: seen) :=
  ⟨fun kv hkv => List.mem_cons_of_mem _ (h.1 kv hkv), h.2.1, h.2.2.1, h.2.2.2⟩

theorem ScanInv.push {start stop : Int} {fr : List (Int × Int)} {seen : List Int}
    (h : ScanInv start stop fr seen) (kv : Int × Int) (hnew : kv.1 ∉ seen)
    (hr : start ≤ kv.1 ∧ kv.1 ≤ stop) (hv : kv.2 ≠ TOMBSTONE) :
    ScanInv start stop (fr ++ [kv]) (kv.1 :: seen) := by
  refine ⟨?_, ?_, ?_, ?_⟩
  · intro x hx
    rcases List.mem_append.1 hx with hx | hx
    · exact List.mem_cons_of_mem _ (h.1 x hx)
    · simp only [List.mem_singleton] at hx
      subst hx
      exact List.mem_cons_self _ _
  · rw [List.map_append, List.nodup_append]
    refine ⟨h.2.1, by simp, ?_⟩
    intro a ha hb
    simp only [List.map_cons, List.map_nil, List.mem_singleton] at hb
    subst hb
    obtain ⟨x, hx, hxa⟩ := List.mem_map.1 ha
    exact hnew (hxa ▸ h.1 x hx)
  · intro x hx
    rcases List.mem_append.1 hx with hx | hx
    · exact h.2.2.1 x hx
    · simp only [List.mem_singleton] at hx
      subst hx
      exact hr
  · intro x hx
    rcases List.mem_append.1 hx with hx | hx
    · exact h.2.2.2 x hx
    · simp only [List.mem_singleton] at hx
      subst hx
      exact hv

theorem mergeResults_inv (start stop : Int) (l : List (Int × Int)) :
    ∀ (fr : List (Int × Int)) (seen : List Int), InRange start stop l →
      ScanInv start stop fr seen →
      ScanInv start stop (mergeResults l fr seen).1 (mergeResults l fr seen).2 := by
  induction l with
  | nil => intro fr seen _ h; exact h
  | cons kv rest ih =>
    intro fr seen hl h
    have hrest : InRange start stop rest := fun x hx => hl x (List.mem_cons_of_mem _ hx)
    simp only [mergeResults]
    split
    · exact ih _ _ hrest h
    · rename_i hnew
      split
      · exact ih _ _ hrest (h.skip _)
      · rename_i hv
        exact ih _ _ hrest (h.push kv hnew (hl kv (List.mem_cons_self _ _)) hv)

theorem mergeMemtable_inv (start stop : Int) (l : List (Int × Int)) :
    ∀ (fr : List (Int × Int)) (seen : List Int), InRange start stop l →
      (l.map Prod.fst).Nodup → (∀ kv ∈ l, kv.1 ∉ seen) →
      ScanInv start stop fr seen →
      ScanInv start stop (mergeMemtable l fr seen).1 (mergeMemtable l fr seen).2 := by
  induction l with
  | nil => intro fr seen _ _ _ h; exact h
  | cons kv rest ih =>
    intro fr seen hl hnd hns h
    have hrest : InRange start stop rest := fun x hx => hl x (List.mem_cons_of_mem _ hx)
    simp only [List.map_cons, List.nodup_cons] at hnd
    have hns2 : ∀ x ∈ rest, x.1 ∉ kv.1 :: seen := by
      intro x hx hmem
      rcases List.mem_cons.1 hmem with heq | hmem
      · exact hnd.1 (heq ▸ List.mem_map_of_mem Prod.fst hx)
      · exact hns x (List.mem_cons_of_mem _ hx) hmem
    simp only [mergeMemtable]
    split
    · exact ih _ _ hrest hnd.2 hns2 (h.skip _)
    · rename_i hv
      exact ih _ _ hrest hnd.2 hns2
        (h.push kv (hns kv (List.mem_cons_self _ _)) (hl kv (List.mem_cons_self _ _)) hv)

theorem scanFiles_nil (fs : FileSystem) (start stop : Int) (final_results : List (Int × Int))
    (seen_keys : List Int) (pool : BufferPool) :
    scanFiles fs start stop [] final_results seen_keys pool =
      (.ok (final_results, seen_keys), pool) :=
  rfl

theorem scanFiles_cons (fs : FileSystem) (start stop : Int) (sst_filename : String)
    (rest : List String) (final_results : List (Int × Int)) (seen_keys : List Int)
    (pool : BufferPool) :
  scanFiles fs start stop (sst_filename :: rest) final_results seen_keys pool =
    match fs.openRead sst_filename with
    | none => scanFiles fs start stop rest final_results seen_keys pool
    | some fd =>
      match scanBtree fd sst_filename start stop pool with
      | (.error e, pool) =>
        if e.isException then scanFiles fs start stop rest final_results seen_keys pool
        else (.error e, pool)
      | (.ok sst_results, pool) =>
        scanFiles fs start stop rest (mergeResults sst_results final_results seen_keys).1
          (mergeResults sst_results final_results seen_keys).2 pool :=
  rfl

theorem scanFiles_inv (fs : FileSystem) (start stop : Int) (files : List String) :
    ∀ (fr : List (Int × Int)) (seen : List Int) (pool : BufferPool)
      (fr' : List (Int × Int)) (seen' : List Int) (pool' : BufferPool),
      ScanInv start stop fr seen →
      scanFiles fs start stop files fr seen pool = (.ok (fr', seen'), pool') →
      ScanInv start stop fr' seen' := by
  induction files with
  | nil =>
    intro fr seen pool fr' seen' pool' h hrun
    rw [scanFiles_nil] at hrun
    simp only [Prod.mk.injEq, Except.ok.injEq] at hrun
    obtain ⟨⟨rfl, rfl⟩, -⟩ := hrun
    exact h
  | cons f rest ih =>
    intro fr seen pool fr' seen' pool' h hrun
    rw [scanFiles_cons] at hrun
    cases hopen : fs.openRead f with
    | none =>
      rw [hopen] at hrun
      exact ih _ _ _ _ _ _ h hrun
    | some fd =>
      rw [hopen] at hrun
      dsimp only at hrun
      cases hsb : scanBtree fd f start stop pool with
      | mk res pool1 =>
        rw [hsb] at hrun
        cases res with
        | error e =>
          dsimp only at hrun
          split at hrun
          · exact ih _ _ _ _ _ _ h hrun
          · cases hrun
        | ok sst_results =>
          have hr : InRange start stop sst_results :=
            scanBtree_inRange fd f start stop pool pool1 sst_results hsb
          have h2 := mergeResults_inv start stop sst_results fr seen hr h
          exact ih _ _ _ _ _ _ h2 hrun

theorem scanLevels_inv (fs : FileSystem) (start stop : Int) (levels : List (List String)) :
    ∀ (fr : List (Int × Int)) (seen : List Int) (pool : BufferPool)
      (fr' : List (Int × Int)) (seen' : List Int) (pool' : BufferPool),
      ScanInv start stop fr seen →
      scanLevels fs start stop levels fr seen pool = (.ok (fr', seen'), pool') →
      ScanInv start stop fr' seen' := by
  induction levels with
  | nil =>
    intro fr seen pool fr' seen' pool' h hrun
    simp only [scanLevels, Prod.mk.injEq, Except.ok.injEq] at hrun
    obtain ⟨⟨rfl, rfl⟩, -⟩ := hrun
    exact h
  | cons files rest ih =>
    intro fr seen pool fr' seen' pool' h hrun
    rw [scanLevels] at hrun
    cases hsf : scanFiles fs start stop files fr seen pool with
    | mk a pool1 =>
      rw [hsf] at hrun
      cases a with
      | error e => cases hrun
      | ok a =>
        obtain ⟨fr1, seen1⟩ := a
        exact ih _ _ _ _ _ _ (scanFiles_inv fs start stop files _ _ _ _ _ _ h hsf) hrun

/-! ## How a scan can stop without a result -/

theorem readBlock_fault (strict : Bool) (pool pool' : BufferPool) (fd : File)
    (sst_filename : String) (offset : Int) (e : Fault)
    (h : readBlock strict pool fd sst_filename offset = (.error e, pool')) : ScanFault e := by
  unfold readBlock at h
  dsimp only at h
  split at h
  · cases h
  · split at h
    · simp only [Prod.mk.injEq, Except.error.injEq] at h
      rw [← h.1]
      exact ⟨by decide, by decide⟩
    · split at h
      · simp only [Prod.mk.injEq, Except.error.injEq] at h
        rw [← h.1]
        exact ⟨by decide, by decide⟩
      · cases h

theorem scanPageLoop_fault (pageBuffer : Bytes) (start stop : Int) (n : Nat) :
    ∀ (i : Nat) (result : List (Int × Int)) (e : Fault),
      scanPageLoop pageBuffer start stop n i result = .error e → ScanFault e := by
  induction n with
  | zero =>
    intro i result e h
    simp only [scanPageLoop] at h
    cases h
  | succ n ih =>
    intro i result e h
    simp only [scanPageLoop] at h
    split at h
    · simp only [Except.error.injEq] at h
      rw [← h]
      exact ⟨by decide, by decide⟩
    · split at h
      · split at h
        · split at h
          · cases h
          · exact ih _ _ _ h
        · simp only [Except.error.injEq] at h
          rw [← h]
          exact ⟨by decide, by decide⟩
      · split at h
        · cases h
        · exact ih _ _ _ h

theorem scanPage_fault (pageBuffer : Bytes) (start stop : Int) (result : List (Int × Int))
    (e : Fault) (h : scanPage pageBuffer start stop result = .error e) : ScanFault e := by
  unfold scanPage at h
  dsimp only at h
  split at h
  · simp only [Except.error.injEq] at h
    rw [← h]
    exact ⟨by decide, by decide⟩
  · exact scanPageLoop_fault _ _ _ _ _ _ _ h

theorem scanOffset_fault
    (recurse : Int → List (Int × Int) → BufferPool → Except Fault (List (Int × Int)) × BufferPool)
    (fd : File) (sst_filename : String) (start stop pageStartOffset pageEndOffset : Int)
    (hrec : StopsAsScan recurse) :
    StopsAsScan (scanOffset recurse fd sst_filename start stop pageStartOffset pageEndOffset) := by
  intro offset result pool e pool' h
  unfold scanOffset at h
  split at h
  · split at h
    · rename_i e1 pool1 hrb
      simp only [Prod.mk.injEq, Except.error.injEq] at h
      rw [← h.1]
      exact readBlock_fault _ _ _ _ _ _ _ hrb
    · simp only [Prod.mk.injEq] at h
      exact scanPage_fault _ _ _ _ _ h.1
  · exact hrec _ _ _ _ _ h

theorem scanNodeLoop_fault
    (recurse : Int → List (Int × Int) → BufferPool → Except Fault (List (Int × Int)) × BufferPool)
    (fd : File) (sst_filename : String) (start stop pageStartOffset pageEndOffset : Int)
    (buffer : Bytes) (hrec : StopsAsScan recurse) (n : Nat) :
    ∀ (metadataOffset : Nat) (result : List (Int × Int)) (pool : BufferPool)
      (e : Fault) (pool' : BufferPool),
      scanNodeLoop recurse fd sst_filename start stop pageStartOffset pageEndOffset buffer
        n metadataOffset result pool = (.error e, pool') →
      ScanFault e := by
  induction n with
  | zero =>
    intro metadataOffset result pool e pool' h
    simp only [scanNodeLoop, Prod.mk.injEq] at h
    cases h.1
  | succ n ih =>
    intro metadataOffset result pool e pool' h
    rw [scanNodeLoop] at h
    split at h
    · simp only [Prod.mk.injEq, Except.error.injEq] at h
      rw [← h.1]
      exact ⟨by decide, by decide⟩
    · dsimp only at h
      split at h
      · rename_i e1 pool1 heq
        simp only [Prod.mk.injEq, Except.error.injEq] at h
        rw [← h.1]
        split at heq
        · exact scanOffset_fault recurse fd sst_filename start stop pageStartOffset
            pageEndOffset hrec _ _ _ _ _ heq
        · cases heq
      · split at h
        · cases h
        · exact ih _ _ _ _ _ h

theorem scanNode_fault (fd : File) (sst_filename : String)
    (start stop pageStartOffset pageEndOffset : Int) (fuel : Nat) :
    StopsAsScan (scanNode fd sst_filename start stop pageStartOffset pageEndOffset fuel) := by
  induction fuel with
  | zero =>
    intro offset result pool e pool' h
    simp only [scanNode, Prod.mk.injEq, Except.error.injEq] at h
    rw [← h.1]
    exact ⟨by decide, by decide⟩
  | succ fuel ih =>
    intro offset result pool e pool' h
    simp only [scanNode] at h
    split at h
    · rename_i e1 pool1 hrb
      simp only [Prod.mk.injEq, Except.error.injEq] at h
      rw [← h.1]
      exact readBlock_fault _ _ _ _ _ _ _ hrb
    · split at h
      · simp only [Prod.mk.injEq, Except.error.injEq] at h
        rw [← h.1]
        exact ⟨by decide, by decide⟩
      · split at h
        · simp only [Prod.mk.injEq, Except.error.injEq] at h
          rw [← h.1]
          exact ⟨by decide, by decide⟩
        · split at h
          · rename_i e1 pool1 heq
            simp only [Prod.mk.injEq, Except.error.injEq] at h
            rw [← h.1]
            exact scanNodeLoop_fault _ fd sst_filename start stop pageStartOffset
              pageEndOffset _ ih _ _ _ _ _ _ heq
          · cases h
          · split at h
            · split at h
              · simp only [Prod.mk.injEq, Except.error.injEq] at h
                rw [← h.1]
                exact ⟨by decide, by decide⟩
              · exact scanOffset_fault _ fd sst_filename start stop pageStartOffset
                  pageEndOffset ih _ _ _ _ _ h
            · cases h

theorem scanBtree_fault (fd : File) (sst_filename : String) (start stop : Int)
    (pool pool' : BufferPool) (e : Fault)
    (h : scanBtree fd sst_filename start stop pool = (.error e, pool')) : ScanFault e := by
  unfold scanBtree at h
  dsimp only at h
  split at h
  · simp only [Prod.mk.injEq, Except.error.injEq] at h
    rw [← h.1]
    exact ⟨by decide, by decide⟩
  · split at h
    · simp only [Prod.mk.injEq, Except.error.injEq] at h
      rw [← h.1]
      exact ⟨by decide, by decide⟩
    · split at h
      · simp only [Prod.mk.injEq, Except.error.injEq] at h
        rw [← h.1]
        exact ⟨by decide, by decide⟩
      · exact scanNode_fault _ _ _ _ _ _ _ _ _ _ _ _ h

/-- The loop over the files of a level stops only when the scan of a file
stops in a way that is not an exception. -/
theorem scanFiles_fault (fs : FileSystem) (start stop : Int) (files : List String) :
    ∀ (fr : List (Int × Int)) (seen : List Int) (pool : BufferPool) (e : Fault)
      (pool' : BufferPool),
      scanFiles fs start stop files fr seen pool = (.error e, pool') →
      e.isException = false ∧ e ≠ .nullDeref := by
  induction files with
  | nil =>
    intro fr seen pool e pool' hrun
    rw [scanFiles_nil] at hrun
    simp only [Prod.mk.injEq] at hrun
    cases hrun.1
  | cons f rest ih =>
    intro fr seen pool e pool' hrun
    rw [scanFiles_cons] at hrun
    cases hopen : fs.openRead f with
    | none =>
      rw [hopen] at hrun
      exact ih _ _ _ _ _ hrun
    | some fd =>
      rw [hopen] at hrun
      dsimp only at hrun
      cases hsb : scanBtree fd f start stop pool with
      | mk res pool1 =>
        rw [hsb] at hrun
        cases res with
        | error e1 =>
          dsimp only at hrun
          split at hrun
          · exact ih _ _ _ _ _ hrun
          · rename_i hne
            simp only [Prod.mk.injEq, Except.error.injEq] at hrun
            rw [← hrun.1]
            exact ⟨by simpa using hne, (scanBtree_fault fd f start stop pool pool1 e1 hsb).2⟩
        | ok sst_results => exact ih _ _ _ _ _ hrun

theorem scanLevels_fault (fs : FileSystem) (start stop : Int) (levels : List (List String)) :
    ∀ (fr : List (Int × Int)) (seen : List Int) (pool : BufferPool) (e : Fault)
      (pool' : BufferPool),
      scanLevels fs start stop levels fr seen pool = (.error e, pool') →
      e.isException = false ∧ e ≠ .nullDeref := by
  induction levels with
  | nil =>
    intro fr seen pool e pool' hrun
    simp only [scanLevels, Prod.mk.injEq] at hrun
    cases hrun.1
  | cons files rest ih =>
    intro fr seen pool e pool' hrun
    rw [scanLevels] at hrun
    cases hsf : scanFiles fs start stop files fr seen pool with
    | mk a pool1 =>
      rw [hsf] at hrun
      cases a with
      | error e1 =>
        simp only [Prod.mk.injEq, Except.error.injEq] at hrun
        rw [← hrun.1]
        exact scanFiles_fault fs start stop files _ _ _ _ _ hsf
      | ok a =>
        obtain ⟨fr1, seen1⟩ := a
        exact ih _ _ _ _ _ hrun

/-- Sorting by key a list without repeated keys gives strictly ascending keys. -/
theorem sorted_keys_of_nodup (l : List (Int × Int)) (h : (l.map Prod.fst).Nodup) :
    ((l.insertionSort (fun a b => a.1 ≤ b.1)).map Prod.fst).Pairwise (· < ·) := by
  have hs : (l.insertionSort (fun a b => a.1 ≤ b.1)).Sorted (fun a b => a.1 ≤ b.1) :=
    List.sorted_insertionSort _ l
  have hp : (l.insertionSort (fun a b => a.1 ≤ b.1)).Perm l := List.perm_insertionSort _ l
  have hnd : ((l.insertionSort (fun a b => a.1 ≤ b.1)).map Prod.fst).Nodup :=
    (hp.map Prod.fst).nodup_iff.2 h
  have hle : ((l.insertionSort (fun a b => a.1 ≤ b.1)).map Prod.fst).Pairwise (· ≤ ·) :=
    List.pairwise_map.2 hs
  exact List.Pairwise.imp₂ (fun a b hab hne => lt_of_le_of_ne hab hne) hle hnd

/-- The result of `mergedScan` on a store whose memtable is a search tree: a
list that it returns has strictly ascending keys, all in the range, and no
tombstone value. -/
theorem mergedScan_spec (s : KVStore) (fs : FileSystem) (pool pool' : BufferPool)
    (start stop : Int) (r : List (Int × Int)) (hmem : AVLTree.Ordered s.memtable.root)
    (hrun : mergedScan s fs pool start stop = (.ok r, pool')) :
    (r.map Prod.fst).Pairwise (· < ·) ∧
      ∀ kv ∈ r, start ≤ kv.1 ∧ kv.1 ≤ stop ∧ kv.2 ≠ TOMBSTONE := by
  have hscan := AVLTree.scan_spec s.memtable start stop hmem
  have h0 : ScanInv start stop [] [] := ScanInv.nil start stop
  have h1 := mergeMemtable_inv start stop (s.memtable.scan start stop) [] [] hscan.2
    (hscan.1.imp (fun h => ne_of_lt h)) (by simp) h0
  unfold mergedScan at hrun
  dsimp only at hrun
  cases hopen : s.lsmTree with
  | none =>
    rw [hopen] at hrun
    cases hrun
  | some t =>
    rw [hopen] at hrun
    dsimp only at hrun
    cases hsl : scanLevels fs start stop t.levels
        (mergeMemtable (s.memtable.scan start stop) [] []).1
        (mergeMemtable (s.memtable.scan start stop) [] []).2 pool with
    | mk a pool1 =>
      rw [hsl] at hrun
      cases a with
      | error e => cases hrun
      | ok a =>
        obtain ⟨fr, seen⟩ := a
        have h2 := scanLevels_inv fs start stop t.levels _ _ pool _ _ _ h1 hsl
        simp only [Prod.mk.injEq, Except.ok.injEq] at hrun
        rw [← hrun.1]
        refine ⟨sorted_keys_of_nodup _ h2.2.1, ?_⟩
        intro kv hkv
        have hmemb := (List.perm_insertionSort _ _).subset hkv
        exact ⟨(h2.2.2.1 kv hmemb).1, (h2.2.2.1 kv hmemb).2, h2.2.2.2 kv hmemb⟩

/-- With `start > stop` a list that the merged scan returns is empty, whatever
the memtable and the files hold. -/
theorem mergedScan_reversed (s : KVStore) (fs : FileSystem) (pool pool' : BufferPool)
    (start stop : Int) (r : List (Int × Int)) (hrev : start > stop)
    (hrun : mergedScan s fs pool start stop = (.ok r, pool')) : r = [] := by
  have hempty : ∀ l : List (Int × Int), InRange start stop l → l = [] := by
    intro l hl
    apply List.eq_nil_iff_forall_not_mem.2
    intro kv hkv
    have := hl kv hkv
    omega
  obtain ⟨l, e, -, hr⟩ := AVLTree.inOrderTraversal_spec start stop s.memtable.root []
  have hscan : s.memtable.scan start stop = [] := by
    simp only [AVLTree.scan, e, List.nil_append]
    exact hempty l hr
  have h0 : ScanInv start stop [] [] := ScanInv.nil start stop
  unfold mergedScan at hrun
  dsimp only at hrun
  cases hopen : s.lsmTree with
  | none =>
    rw [hopen] at hrun
    cases hrun
  | some t =>
    rw [hopen, hscan] at hrun
    dsimp only [mergeMemtable] at hrun
    cases hsl : scanLevels fs start stop t.levels [] [] pool with
    | mk a pool1 =>
      rw [hsl] at hrun
      cases a with
      | error e => cases hrun
      | ok a =>
        obtain ⟨fr, seen⟩ := a
        have h2 := scanLevels_inv fs start stop t.levels _ _ pool _ _ _ h0 hsl
        have hfr : fr = [] := hempty fr h2.2.2.1
        subst hfr
        simp only [Prod.mk.injEq, Except.ok.injEq] at hrun
        rw [← hrun.1]
        rfl

/-- The merged scan stops without a result only on a store that was not opened
(the null `lsmTree` pointer) or where the scan of a file runs into undefined
behaviour or exhausts the bound of the descent; no exception leaves it. -/
theorem mergedScan_fault (s : KVStore) (fs : FileSystem) (pool pool' : BufferPool)
    (start stop : Int) (e : Fault)
    (hrun : mergedScan s fs pool start stop = (.error e, pool')) :
    (e = .nullDeref ∧ s.lsmTree = none) ∨ e = .uninitialised ∨ e = .outOfBounds ∨
      e = .overflow ∨ e = .outOfFuel := by
  unfold mergedScan at hrun
  dsimp only at hrun
  cases hopen : s.lsmTree with
  | none =>
    rw [hopen] at hrun
    simp only [Prod.mk.injEq, Except.error.injEq] at hrun
    exact Or.inl ⟨hrun.1.symm, rfl⟩
  | some t =>
    rw [hopen] at hrun
    dsimp only at hrun
    cases hsl : scanLevels fs start stop t.levels
        (mergeMemtable (s.memtable.scan start stop) [] []).1
        (mergeMemtable (s.memtable.scan start stop) [] []).2 pool with
    | mk a pool1 =>
      rw [hsl] at hrun
      cases a with
      | error e1 =>
        simp only [Prod.mk.injEq, Except.error.injEq] at hrun
        rw [← hrun.1]
        have := scanLevels_fault fs start stop t.levels _ _ _ _ _ hsl
        revert this
        cases e1 <;> simp [Fault.isException]
      | ok a => cases hrun

end KVStore

/-! ## The memtable as a map -/

namespace AVLTree

theorem putAll_current_size (writes : List (Int × Int)) (t : AVLTree) :
    (putAll writes t).current_size = t.current_size + writes.length := by
  induction writes generalizing t with
  | nil => simp [putAll]
  | cons w ws ih =>
    have := ih (t.put w.1 w.2)
    simp only [putAll, List.foldl_cons] at this ⊢
    rw [this]
    simp only [put, List.length_cons, Nat.cast_add, Nat.cast_one]
    omega

theorem putAll_root (writes : List (Int × Int)) (t : AVLTree) :
    (putAll writes t).root = writes.foldl (fun n w => putNode n w.1 w.2) t.root := by
  induction writes generalizing t with
  | nil => rfl
  | cons w ws ih =>
    have := ih (t.put w.1 w.2)
    simp only [putAll, List.foldl_cons] at this ⊢
    rw [this]
    rfl

theorem ordered_null : Ordered .null := by simp [Ordered, keys, toList]

theorem ordered_calls (cs : List Call) (t : AVLTree) (h : Ordered t.root) :
    Ordered (calls cs t).root := by
  induction cs generalizing t with
  | nil => exact h
  | cons c cs ih =>
    simp only [calls, List.foldl_cons]
    apply ih
    cases c with
    | put key value => exact ordered_putNode _ _ _ h
    | del key => exact ordered_putNode _ _ _ h
    | clear => exact ordered_null

/-- On a search tree, `get(Node *, key)` finds the value stored with the key. -/
theorem getNode_of_mem (t : Node) (key value : Int) (h : Ordered t)
    (hm : (key, value) ∈ toList t) : getNode t key = value := by
  induction t with
  | null => simp [toList] at hm
  | mk k v l r ht ihl ihr =>
    have hl : Ordered l := by
      simp only [Ordered, keys, toList, List.map_append, List.map_cons] at h
      exact (List.pairwise_append.1 h).1
    have hr : Ordered r := by
      simp only [Ordered, keys, toList, List.map_append, List.map_cons] at h
      exact (List.pairwise_cons.1 (List.pairwise_append.1 h).2.1).2
    simp only [Ordered, keys, toList, List.map_append, List.map_cons, List.pairwise_append,
      List.pairwise_cons, List.mem_cons, List.mem_map] at h
    simp only [toList, List.mem_append, List.mem_cons, Prod.mk.injEq] at hm
    simp only [getNode]
    rcases hm with hm | ⟨rfl, rfl⟩ | hm
    · have : key < k := h.2.2 key ⟨(key, value), hm, rfl⟩ k (Or.inl rfl)
      rw [if_pos this]
      exact ihl hl hm
    · simp
    · have : k < key := h.2.1.1 key ⟨(key, value), hm, rfl⟩
      rw [if_neg (by omega), if_pos (by omega)]
      exact ihr hr hm

/-- A key that is not in the tree is not found. -/
theorem getNode_of_not_mem (t : Node) (key : Int) (hm : key ∉ keys t) : getNode t key = -1 := by
  induction t with
  | null => rfl
  | mk k v l r ht ihl ihr =>
    simp only [keys, toList, List.map_append, List.map_cons, List.mem_append, List.mem_cons,
      not_or] at hm
    simp only [getNode]
    split
    · exact ihl hm.1
    · split
      · exact ihr hm.2.2
      · exfalso; apply hm.2.1; omega

/-- The entries of a search tree after `put(key, value)`. -/
theorem mem_toList_putNode (t : Node) (key value a b : Int) (h : Ordered t) :
    (a, b) ∈ toList (putNode t key value) ↔
      (a = key ∧ b = value) ∨ (a ≠ key ∧ (a, b) ∈ toList t) := by
  induction t with
  | null => simp [putNode, toList]
  | mk k v l r ht ihl ihr =>
    have hl : Ordered l := by
      simp only [Ordered, keys, toList, List.map_append, List.map_cons] at h
      exact (List.pairwise_append.1 h).1
    have hr : Ordered r := by
      simp only [Ordered, keys, toList, List.map_append, List.map_cons] at h
      exact (List.pairwise_cons.1 (List.pairwise_append.1 h).2.1).2
    simp only [Ordered, keys, toList, List.map_append, List.map_cons, List.pairwise_append,
      List.pairwise_cons, List.mem_cons, List.mem_map] at h
    have hlk : ∀ b, (a, b) ∈ toList l → a < k := fun b hb =>
      h.2.2 a ⟨(a, b), hb, rfl⟩ k (Or.inl rfl)
    have hrk : ∀ b, (a, b) ∈ toList r → k < a := fun b hb => h.2.1.1 a ⟨(a, b), hb, rfl⟩
    rw [toList_putNode_mk]
    split
    · rename_i hlt
      simp only [List.mem_append, List.mem_cons, Prod.mk.injEq, ihl hl, toList]
      constructor
      · rintro ((h1 | h1) | h1 | h1)
        · exact Or.inl h1
        · exact Or.inr ⟨h1.1, Or.inl h1.2⟩
        · exact Or.inr ⟨by omega, Or.inr (Or.inl h1)⟩
        · exact Or.inr ⟨by have := hrk b h1; omega, Or.inr (Or.inr h1)⟩
      · rintro (h1 | ⟨h1, h2 | h2 | h2⟩)
        · exact Or.inl (Or.inl h1)
        · exact Or.inl (Or.inr ⟨h1, h2⟩)
        · exact Or.inr (Or.inl h2)
        · exact Or.inr (Or.inr h2)
    · split
      · rename_i hgt
        simp only [List.mem_append, List.mem_cons, Prod.mk.injEq, ihr hr, toList]
        constructor
        · rintro (h1 | h1 | h1 | h1)
          · exact Or.inr ⟨by have := hlk b h1; omega, Or.inl h1⟩
          · exact Or.inr ⟨by omega, Or.inr (Or.inl h1)⟩
          · exact Or.inl h1
          · exact Or.inr ⟨h1.1, Or.inr (Or.inr h1.2)⟩
        · rintro (h1 | ⟨h1, h2 | h2 | h2⟩)
          · exact Or.inr (Or.inr (Or.inl h1))
          · exact Or.inl h2
          · exact Or.inr (Or.inl h2)
          · exact Or.inr (Or.inr (Or.inr ⟨h1, h2⟩))
      · have hk : key = k := by omega
        subst hk
        simp only [List.mem_append, List.mem_cons, Prod.mk.injEq, toList]
        constructor
        · rintro (h1 | h1 | h1)
          · exact Or.inr ⟨by have := hlk b h1; omega, Or.inl h1⟩
          · exact Or.inl h1
          · exact Or.inr ⟨by have := hrk b h1; omega, Or.inr (Or.inr h1)⟩
        · rintro (h1 | ⟨h1, h2 | h2 | h2⟩)
          · exact Or.inr (Or.inl h1)
          · exact Or.inl h2
          · exact absurd h2.1 h1
          · exact Or.inr (Or.inr h2)

theorem latest_concat (key : Int) (writes : List (Int × Int)) (w : Int × Int) :
    latest key (writes ++ [w]) = if w.1 = key then some w.2 else latest key writes := by
  simp [latest, List.foldl_append]

theorem ofWrites_concat (writes : List (Int × Int)) (w : Int × Int) :
    ofWrites (writes ++ [w]) = putNode (ofWrites writes) w.1 w.2 := by
  simp [ofWrites, List.foldl_append]

/-- The tree built by a sequence of `put` calls holds, for every key written,
the value of the most recent call. -/
theorem mem_toList_ofWrites (writes : List (Int × Int)) (a b : Int) :
    (a, b) ∈ toList (ofWrites writes) ↔ latest a writes = some b := by
  induction writes using List.reverseRecOn with
  | nil => simp [ofWrites, latest, toList]
  | append_singleton ws w ih =>
    rw [ofWrites_concat, latest_concat, mem_toList_putNode _ _ _ _ _ (ordered_ofWrites ws), ih]
    split
    · rename_i hk
      constructor
      · rintro (h1 | h1)
        · rw [h1.2]
        · exact absurd hk.symm h1.1
      · intro h1
        exact Or.inl ⟨hk.symm, (Option.some.inj h1).symm⟩
    · rename_i hk
      constructor
      · rintro (h1 | h1)
        · exact absurd h1.1.symm hk
        · exact h1.2
      · intro h1
        exact Or.inr ⟨fun e => hk e.symm, h1⟩

theorem putAll_new_root (n : Int) (writes : List (Int × Int)) :
    (putAll writes (new n)).root = ofWrites writes := by
  rw [putAll_root]; rfl

theorem not_mem_keys_of_latest_none (writes : List (Int × Int)) (key : Int)
    (h : latest key writes = none) : key ∉ keys (ofWrites writes) := by
  intro hm
  simp only [keys, List.mem_map] at hm
  obtain ⟨⟨a, b⟩, hab, rfl⟩ := hm
  rw [mem_toList_ofWrites] at hab
  simp only at h
  rw [h] at hab
  cases hab

/-- What `get` returns after a sequence of `put` calls. -/
theorem get_putAll (n : Int) (writes : List (Int × Int)) (key : Int) :
    (putAll writes (new n)).get key =
      match latest key writes with
      | some v => if v = INT64_MIN then -1 else v
      | none => -1 := by
  simp only [get, putAll_new_root]
  cases hl : latest key writes with
  | none =>
    rw [getNode_of_not_mem _ _ (not_mem_keys_of_latest_none writes key hl)]
    simp [INT64_MIN]
  | some v =>
    rw [getNode_of_mem _ key v (ordered_ofWrites writes) ((mem_toList_ofWrites writes key v).2 hl)]

end AVLTree

namespace AVLTree

/-- On a search tree the traversal appends exactly the in-order entries with a
key in `[start, stop]` and a value other than `INT64_MIN`. -/
theorem inOrderTraversal_eq_filter (start stop : Int) (t : Node) (h : Ordered t) :
    ∀ result, inOrderTraversal t result start stop =
      result ++ (toList t).filter
        (fun kv => decide (kv.1 ≥ start ∧ kv.1 ≤ stop ∧ kv.2 ≠ INT64_MIN)) := by
  induction t with
  | null => intro result; simp [inOrderTraversal, toList]
  | mk k v l r ht ihl ihr =>
    intro result
    have hl : Ordered l := by
      simp only [Ordered, keys, toList, List.map_append, List.map_cons] at h
      exact (List.pairwise_append.1 h).1
    have hr : Ordered r := by
      simp only [Ordered, keys, toList, List.map_append, List.map_cons] at h
      exact (List.pairwise_cons.1 (List.pairwise_append.1 h).2.1).2
    simp only [Ordered, keys, toList, List.map_append, List.map_cons, List.pairwise_append,
      List.pairwise_cons, List.mem_cons, List.mem_map] at h
    have hlk : ∀ kv ∈ toList l, kv.1 < k := fun kv hkv =>
      h.2.2 kv.1 ⟨kv, hkv, rfl⟩ k (Or.inl rfl)
    have hrk : ∀ kv ∈ toList r, k < kv.1 := fun kv hkv => h.2.1.1 kv.1 ⟨kv, hkv, rfl⟩
    have e1 : (if k > start then inOrderTraversal l result start stop else result) =
        result ++ (toList l).filter
          (fun kv => decide (kv.1 ≥ start ∧ kv.1 ≤ stop ∧ kv.2 ≠ INT64_MIN)) := by
      split
      · exact ihl hl result
      · rename_i hk
        have : (toList l).filter
            (fun kv => decide (kv.1 ≥ start ∧ kv.1 ≤ stop ∧ kv.2 ≠ INT64_MIN)) = [] := by
          rw [List.filter_eq_nil_iff]
          intro kv hkv
          have := hlk kv hkv
          simp only [decide_eq_true_eq, not_and]
          intro h1; omega
        rw [this, List.append_nil]
    have e3 : ∀ res, (if k < stop then inOrderTraversal r res start stop else res) =
        res ++ (toList r).filter
          (fun kv => decide (kv.1 ≥ start ∧ kv.1 ≤ stop ∧ kv.2 ≠ INT64_MIN)) := by
      intro res
      split
      · exact ihr hr res
      · rename_i hk
        have : (toList r).filter
            (fun kv => decide (kv.1 ≥ start ∧ kv.1 ≤ stop ∧ kv.2 ≠ INT64_MIN)) = [] := by
          rw [List.filter_eq_nil_iff]
          intro kv hkv
          have := hrk kv hkv
          simp only [decide_eq_true_eq, not_and]
          intro h1 h2; omega
        rw [this, List.append_nil]
    simp only [inOrderTraversal]
    rw [e1, e3]
    simp only [toList, List.filter_append, List.filter_cons, List.append_assoc]
    by_cases hc : k ≥ start ∧ k ≤ stop ∧ v ≠ INT64_MIN
    · simp [hc]
    · simp [hc]

theorem scan_eq_filter (t : AVLTree) (start stop : Int) (h : Ordered t.root) :
    t.scan start stop = (toList t.root).filter
      (fun kv => decide (kv.1 ≥ start ∧ kv.1 ≤ stop ∧ kv.2 ≠ INT64_MIN)) := by
  simp [scan, inOrderTraversal_eq_filter start stop t.root h []]

/-- What `scan` returns after a sequence of `put` calls. -/
theorem mem_scan_putAll (n : Int) (writes : List (Int × Int)) (start stop k v : Int) :
    (k, v) ∈ (putAll writes (new n)).scan start stop ↔
      start ≤ k ∧ k ≤ stop ∧ latest k writes = some v ∧ v ≠ INT64_MIN := by
  have ho : Ordered (putAll writes (new n)).root := by
    rw [putAll_new_root]; exact ordered_ofWrites writes
  rw [scan_eq_filter _ _ _ ho, putAll_new_root, List.mem_filter, mem_toList_ofWrites]
  simp only [decide_eq_true_eq, ge_iff_le]
  tauto

end AVLTree

namespace Page

theorem addEntry_accepts_iff (p : Page) (key value : Int) :
    (p.addEntry key value).1 = true ↔ p.freeSpace ≥ 20 := by
  simp only [addEntry]
  split
  · simp only [Bool.false_eq_true, false_iff]; omega
  · simp only [true_iff]; omega

theorem addEntry_freeSpace (p : Page) (key value : Int) (h : p.freeSpace ≥ 20) :
    (p.addEntry key value).2.freeSpace = p.freeSpace - 20 ∧
      (p.addEntry key value).2.numEntries = p.numEntries + 1 := by
  simp only [addEntry]
  rw [if_neg (by omega)]
  constructor <;> simp

theorem addEntry_rejected (p : Page) (key value : Int) (h : ¬ p.freeSpace ≥ 20) :
    p.addEntry key value = (false, p) := by
  simp only [addEntry]
  rw [if_pos (by omega)]

/-- The return values of a sequence of `addEntry` calls: call number `i + 1`
is accepted when `20 * (i + 1)` bytes fit in the free space of the first page. -/
theorem addEntries_results (kvs : List (Int × Int)) (p : Page) :
    (addEntries kvs p).1 =
      (List.range kvs.length).map (fun (i : Nat) => decide (20 * ((i : Int) + 1) ≤ p.freeSpace)) := by
  induction kvs generalizing p with
  | nil => rfl
  | cons kv rest ih =>
    simp only [addEntries, List.length_cons, List.range_succ_eq_map, List.map_cons,
      List.map_map, ih]
    by_cases h : p.freeSpace ≥ 20
    · congr 1
      · have := (addEntry_accepts_iff p kv.1 kv.2).2 h
        rw [this]; simp; omega
      · apply List.map_congr_left
        intro i _
        simp only [Function.comp, (addEntry_freeSpace p kv.1 kv.2 h).1, Nat.cast_succ]
        congr 1
        apply propext
        constructor <;> intro _ <;> omega
    · rw [addEntry_rejected p kv.1 kv.2 h]
      congr 1
      · simp; omega
      · apply List.map_congr_left
        intro i _
        simp only [Function.comp, Nat.cast_succ]
        congr 1
        apply propext
        constructor <;> intro _ <;> omega

end Page

/-! ## The hash map of the page cache -/

namespace HashMap

variable {V : Type}

theorem getChain_insertChain (key : String) (value : V) (chain : List (String × V))
    (k : String) :
    getChain k (insertChain key value chain).1 =
      if k = key then some value else getChain k chain := by
  induction chain with
  | nil =>
    simp only [insertChain, getChain]
    by_cases h : key = k
    · simp [h]
    · have h2 : ¬ k = key := fun e => h e.symm
      simp [h, h2]
  | cons kv rest ih =>
    obtain ⟨k0, v0⟩ := kv
    simp only [insertChain]
    by_cases h0 : k0 = key
    · subst h0
      simp only [if_true, getChain]
      by_cases h : k0 = k
      · subst h; simp
      · have h2 : ¬ k = k0 := fun e => h e.symm
        simp [h, h2]
    · simp only [if_neg h0, getChain, ih]
      by_cases h : k0 = k
      · subst h
        simp [h0]
      · simp [h]

theorem insertChain_flag (key : String) (value : V) (chain : List (String × V)) :
    (insertChain key value chain).2 = (getChain key chain).isNone := by
  induction chain with
  | nil => rfl
  | cons kv rest ih =>
    obtain ⟨k0, v0⟩ := kv
    simp only [insertChain, getChain]
    by_cases h0 : k0 = key
    · simp [h0]
    · simp [h0, ih]

theorem keys_insertChain (key : String) (value : V) (chain : List (String × V)) (k : String) :
    k ∈ (insertChain key value chain).1.map Prod.fst ↔ k = key ∨ k ∈ chain.map Prod.fst := by
  induction chain with
  | nil => simp [insertChain]
  | cons kv rest ih =>
    obtain ⟨k0, v0⟩ := kv
    simp only [insertChain]
    by_cases h0 : k0 = key
    · subst h0
      simp only [if_true, List.map_cons, List.mem_cons]
      tauto
    · simp only [if_neg h0, List.map_cons, List.mem_cons, ih]
      tauto

theorem nodup_insertChain (key : String) (value : V) (chain : List (String × V))
    (h : (chain.map Prod.fst).Nodup) : ((insertChain key value chain).1.map Prod.fst).Nodup := by
  induction chain with
  | nil => simp [insertChain]
  | cons kv rest ih =>
    obtain ⟨k0, v0⟩ := kv
    simp only [List.map_cons, List.nodup_cons] at h
    simp only [insertChain]
    by_cases h0 : k0 = key
    · simp only [if_pos h0, List.map_cons, List.nodup_cons]
      exact h
    · simp only [if_neg h0, List.map_cons, List.nodup_cons]
      refine ⟨?_, ih h.2⟩
      rw [keys_insertChain]
      rintro (e | e)
      · exact h0 e
      · exact h.1 e

theorem getChain_eq_none (key : String) (chain : List (String × V)) :
    getChain key chain = none ↔ key ∉ chain.map Prod.fst := by
  induction chain with
  | nil => simp [getChain]
  | cons kv rest ih =>
    obtain ⟨k0, v0⟩ := kv
    simp only [getChain, List.map_cons, List.mem_cons, not_or]
    by_cases h0 : k0 = key
    · simp [h0]
    · have : ¬ key = k0 := fun e => h0 e.symm
      simp [h0, ih, this]

theorem keys_removeChain (key : String) (chain : List (String × V)) (k : String)
    (h : k ∈ (removeChain key chain).1.map Prod.fst) : k ∈ chain.map Prod.fst := by
  induction chain with
  | nil => simp [removeChain] at h
  | cons kv rest ih =>
    obtain ⟨k0, v0⟩ := kv
    simp only [removeChain] at h
    by_cases h0 : k0 = key
    · simp only [if_pos h0] at h
      simp only [List.map_cons, List.mem_cons]
      exact Or.inr h
    · simp only [if_neg h0, List.map_cons, List.mem_cons] at h
      simp only [List.map_cons, List.mem_cons]
      rcases h with h | h
      · exact Or.inl h
      · exact Or.inr (ih h)

theorem nodup_removeChain (key : String) (chain : List (String × V))
    (h : (chain.map Prod.fst).Nodup) : ((removeChain key chain).1.map Prod.fst).Nodup := by
  induction chain with
  | nil => simp [removeChain]
  | cons kv rest ih =>
    obtain ⟨k0, v0⟩ := kv
    simp only [List.map_cons, List.nodup_cons] at h
    simp only [removeChain]
    by_cases h0 : k0 = key
    · simp only [if_pos h0]
      exact h.2
    · simp only [if_neg h0, List.map_cons, List.nodup_cons]
      exact ⟨fun e => h.1 (keys_removeChain key rest k0 e), ih h.2⟩

theorem getChain_removeChain (key : String) (chain : List (String × V)) (k : String)
    (h : (chain.map Prod.fst).Nodup) :
    getChain k (removeChain key chain).1 = if k = key then none else getChain k chain := by
  induction chain with
  | nil => simp [removeChain, getChain]
  | cons kv rest ih =>
    obtain ⟨k0, v0⟩ := kv
    simp only [List.map_cons, List.nodup_cons] at h
    simp only [removeChain]
    by_cases h0 : k0 = key
    · subst h0
      simp only [if_true, getChain]
      by_cases hk : k = k0
      · subst hk
        simp only [if_true]
        exact (getChain_eq_none k rest).2 h.1
      · have : ¬ k0 = k := fun e => hk e.symm
        simp [hk, this]
    · simp only [if_neg h0, getChain, ih h.2]
      by_cases hk : k0 = k
      · subst hk
        simp [h0]
      · simp [hk]

theorem removeChain_flag (key : String) (chain : List (String × V)) :
    (removeChain key chain).2 = (getChain key chain).isSome := by
  induction chain with
  | nil => rfl
  | cons kv rest ih =>
    obtain ⟨k0, v0⟩ := kv
    simp only [removeChain, getChain]
    by_cases h0 : k0 = key
    · simp [h0]
    · simp [h0, ih]


theorem chained_new (hash : String → Nat) (capacity : Nat) :
    Chained (HashMap.new hash capacity : HashMap V) := by
  intro i; simp [HashMap.new]

theorem chained_insert (m : HashMap V) (key : String) (value : V) (h : Chained m) :
    Chained (m.insert key value) := by
  intro i
  simp only [insert]
  split
  · exact nodup_insertChain _ _ _ (h _)
  · exact h i

theorem chained_remove (m : HashMap V) (key : String) (h : Chained m) :
    Chained (m.remove key) := by
  intro i
  simp only [remove]
  split
  · exact nodup_removeChain _ _ (h _)
  · exact h i

theorem get_new (hash : String → Nat) (capacity : Nat) (k : String) :
    (HashMap.new hash capacity : HashMap V).get k = none := rfl

theorem get_insert (m : HashMap V) (key : String) (value : V) (k : String) :
    (m.insert key value).get k = if k = key then some value else m.get k := by
  simp only [get, insert, hashFunction]
  by_cases hi : m.hash k % m.capacity = m.hash key % m.capacity
  · rw [if_pos hi, getChain_insertChain, hi]
  · rw [if_neg hi]
    have : ¬ k = key := fun e => hi (by rw [e])
    rw [if_neg this]

theorem get_remove (m : HashMap V) (key : String) (k : String) (h : Chained m) :
    (m.remove key).get k = if k = key then none else m.get k := by
  simp only [get, remove, hashFunction]
  by_cases hi : m.hash k % m.capacity = m.hash key % m.capacity
  · rw [if_pos hi, getChain_removeChain _ _ _ (h _), hi]
  · rw [if_neg hi]
    have : ¬ k = key := fun e => hi (by rw [e])
    rw [if_neg this]

theorem size_insert (m : HashMap V) (key : String) (value : V) (h : m.get key = none) :
    (m.insert key value).size = m.size + 1 := by
  simp only [insert, insertChain_flag]
  simp only [get] at h
  rw [h]
  rfl

theorem size_remove (m : HashMap V) (key : String) (v : V) (h : m.get key = some v) :
    (m.remove key).size = m.size - 1 := by
  simp only [remove, removeChain_flag]
  simp only [get] at h
  rw [h]
  rfl

theorem capacity_insert (m : HashMap V) (key : String) (value : V) :
    (m.insert key value).capacity = m.capacity := rfl

theorem capacity_remove (m : HashMap V) (key : String) :
    (m.remove key).capacity = m.capacity := rfl

end HashMap

/-! ## The clock sweep of `evictPage` -/

namespace BufferPool

theorem get?_append_length {α : Type} (A : List α) (a : α) (B : List α) :
    (A ++ a :: B).get? A.length = some a := by
  induction A with
  | nil => rfl
  | cons x A ih => simpa using ih

theorem set_append_length {α : Type} (A : List α) (a x : α) (B : List α) :
    (A ++ a :: B).set A.length x = A ++ x :: B := by
  induction A with
  | nil => rfl
  | cons y A ih => simp [ih]

theorem eraseIdx_append_length {α : Type} (A : List α) (a : α) (B : List α) :
    (A ++ a :: B).eraseIdx A.length = A ++ B := by
  induction A with
  | nil => rfl
  | cons y A ih => simp [ih]

theorem split_at_hand {α : Type} (l : List α) (h : Nat) (hlt : h < l.length) :
    ∃ A a B, l = A ++ a :: B ∧ A.length = h := by
  refine ⟨l.take h, l.get ⟨h, hlt⟩, l.drop (h + 1), ?_, ?_⟩
  · have := List.take_append_drop h l
    rw [List.drop_eq_getElem_cons hlt] at this
    exact this.symm
  · simp [List.length_take]; omega

theorem fromHand_split (p : BufferPool) (A : List ClockNode) (a : ClockNode) (B : List ClockNode)
    (hr : p.ring = A ++ a :: B) (hh : p.clockHand = some A.length) :
    p.fromHand = a :: B ++ A := by
  simp only [fromHand, hh, hr]
  rw [List.drop_left, List.take_left]

/-- The circular order from the hand lists the entries of the list. -/
theorem fromHand_perm (p : BufferPool) : p.fromHand.Perm p.ring := by
  unfold fromHand
  cases p.clockHand with
  | none => exact List.Perm.refl _
  | some h =>
    have := List.take_append_drop h p.ring
    exact (List.perm_append_comm).trans (by rw [this])

/-- One iteration of the loop of `evictPage` at an entry whose bit is set. -/
theorem evictLoop_pass_one (fuel : Nat) (p : BufferPool) (a : ClockNode) (rest : List ClockNode)
    (hh : ∃ h, p.clockHand = some h ∧ h < p.ring.length) (hv : p.fromHand = a :: rest)
    (hbit : a.referenceBit ≠ 0) :
    ∃ p1, evictLoop (fuel + 1) p = evictLoop fuel p1 ∧
      (∃ h, p1.clockHand = some h ∧ h < p1.ring.length) ∧
      p1.fromHand = rest ++ [cleared a] ∧ p1.pageMap = p.pageMap ∧
      p1.currentSize = p.currentSize ∧ p1.capacity = p.capacity ∧
      p1.ring.length = p.ring.length := by
  obtain ⟨h, hh, hlt⟩ := hh
  obtain ⟨A, a0, B, hr, hA⟩ := split_at_hand p.ring h hlt
  subst hA
  have hf := fromHand_split p A a0 B hr hh
  rw [hv] at hf
  simp only [List.cons_append, List.cons.injEq] at hf
  obtain ⟨rfl, rfl⟩ := hf
  refine ⟨{ p with ring := p.ring.set A.length { a with referenceBit := 0 },
                   clockHand := some (if A.length + 1 = p.ring.length then 0 else A.length + 1) },
    ?_, ?_, ?_, rfl, rfl, rfl, ?_⟩
  · simp only [evictLoop, hh, hr, get?_append_length, if_neg hbit]
  · by_cases hB : B = []
    · subst hB
      refine ⟨0, ?_, ?_⟩
      · simp [hr]
      · simp [hr]
    · have hBl : 0 < B.length := List.length_pos.2 hB
      refine ⟨A.length + 1, ?_, ?_⟩
      · simp only [hr, List.length_append, List.length_cons]
        rw [if_neg (by omega)]
      · simp only [hr, List.length_set, List.length_append, List.length_cons]
        omega
  · by_cases hB : B = []
    · subst hB
      simp only [fromHand, hr, set_append_length, List.length_append, List.length_cons,
        List.length_nil, if_true, List.drop_zero, List.take_zero, List.append_nil,
        List.nil_append, cleared]
    · have hBl : 0 < B.length := List.length_pos.2 hB
      simp only [fromHand, hr, set_append_length, List.length_append, List.length_cons]
      rw [if_neg (by omega)]
      have e : A ++ { a with referenceBit := 0 } :: B = (A ++ [{ a with referenceBit := 0 }]) ++ B := by
        simp
      have l : (A ++ [{ a with referenceBit := 0 }]).length = A.length + 1 := by simp
      rw [e, ← l, List.drop_left, List.take_left]
      simp [cleared]
  · simp

/-- The loop of `evictPage` over a run of entries whose bits are set. -/
theorem evictLoop_pass (pre : List ClockNode) :
    ∀ (p : BufferPool) (suffix : List ClockNode) (fuel : Nat),
      (∃ h, p.clockHand = some h ∧ h < p.ring.length) → p.fromHand = pre ++ suffix →
      (∀ n ∈ pre, n.referenceBit ≠ 0) →
      ∃ p1, evictLoop (pre.length + fuel) p = evictLoop fuel p1 ∧
        (∃ h, p1.clockHand = some h ∧ h < p1.ring.length) ∧
        p1.fromHand = suffix ++ pre.map cleared ∧ p1.pageMap = p.pageMap ∧
        p1.currentSize = p.currentSize ∧ p1.capacity = p.capacity ∧
        p1.ring.length = p.ring.length := by
  induction pre with
  | nil =>
    intro p suffix fuel hh hv _
    exact ⟨p, by simp, hh, by simpa using hv, rfl, rfl, rfl, rfl⟩
  | cons a pre ih =>
    intro p suffix fuel hh hv hbits
    obtain ⟨p1, e1, hh1, hv1, m1, s1, c1, l1⟩ :=
      evictLoop_pass_one (pre.length + fuel) p a (pre ++ suffix) hh (by simpa using hv)
        (hbits a (List.mem_cons_self _ _))
    obtain ⟨p2, e2, hh2, hv2, m2, s2, c2, l2⟩ :=
      ih p1 (suffix ++ [cleared a]) fuel hh1 (by simpa using hv1)
        (fun n hn => hbits n (List.mem_cons_of_mem _ hn))
    refine ⟨p2, ?_, hh2, ?_, m2.trans m1, s2.trans s1, c2.trans c1, l2.trans l1⟩
    · have : (a :: pre).length + fuel = pre.length + fuel + 1 := by simp; omega
      rw [this, e1, e2]
    · simp [hv2]

/-- The iteration of the loop of `evictPage` at an entry whose bit is clear. -/
theorem evictLoop_evict (fuel : Nat) (p : BufferPool) (v : ClockNode) (post : List ClockNode)
    (hh : ∃ h, p.clockHand = some h ∧ h < p.ring.length) (hv : p.fromHand = v :: post)
    (hbit : v.referenceBit = 0) :
    (evictLoop (fuel + 1) p).fromHand = post ∧
      (evictLoop (fuel + 1) p).pageMap = p.pageMap.remove v.pageID ∧
      (evictLoop (fuel + 1) p).currentSize = p.currentSize - 1 ∧
      (evictLoop (fuel + 1) p).capacity = p.capacity ∧
      (evictLoop (fuel + 1) p).ring.length = p.ring.length - 1 ∧
      HandOk (evictLoop (fuel + 1) p) := by
  obtain ⟨h, hh, hlt⟩ := hh
  obtain ⟨A, a0, B, hr, hA⟩ := split_at_hand p.ring h hlt
  subst hA
  have hf := fromHand_split p A a0 B hr hh
  rw [hv] at hf
  simp only [List.cons_append, List.cons.injEq] at hf
  obtain ⟨rfl, rfl⟩ := hf
  by_cases h1 : p.ring.length = 1
  · have hAB : A = [] ∧ B = [] := by
      rw [hr] at h1
      simp only [List.length_append, List.length_cons] at h1
      constructor
      · exact List.length_eq_zero.1 (by omega)
      · exact List.length_eq_zero.1 (by omega)
    obtain ⟨rfl, rfl⟩ := hAB
    have e : evictLoop (fuel + 1) p =
        { p with pageMap := p.pageMap.remove v.pageID, ring := [], clockHand := none,
                 currentSize := p.currentSize - 1 } := by
      simp only [evictLoop, hh, hr, List.length_nil, List.get?_cons_zero, if_pos hbit,
        List.nil_append, List.length_singleton, if_true]
    rw [e]
    refine ⟨by simp [fromHand], rfl, rfl, rfl, by simp [hr], by simp [HandOk]⟩
  · have e : evictLoop (fuel + 1) p =
        { p with pageMap := p.pageMap.remove v.pageID, ring := p.ring.eraseIdx A.length,
                 clockHand := some (if A.length + 1 = p.ring.length then 0 else A.length),
                 currentSize := p.currentSize - 1 } := by
      simp only [evictLoop, hh, hr, get?_append_length, if_pos hbit]
      rw [if_neg (by rw [← hr]; exact h1)]
    rw [e]
    have hlen : (A ++ B).length = p.ring.length - 1 := by
      rw [hr]; simp
    have hpos : 0 < (A ++ B).length := by
      rw [hlen]; omega
    refine ⟨?_, rfl, rfl, rfl, ?_, ?_⟩
    · by_cases hB : B = []
      · subst hB
        simp only [fromHand, hr, eraseIdx_append_length, List.length_append, List.length_cons,
          List.length_nil, if_true, List.drop_zero, List.take_zero, List.append_nil,
          List.nil_append]
      · have hBl : 0 < B.length := List.length_pos.2 hB
        simp only [fromHand, hr, eraseIdx_append_length, List.length_append, List.length_cons]
        rw [if_neg (by omega), List.drop_left, List.take_left]
    · simp only [hr, eraseIdx_append_length]
      rw [hlen, hr]
    · show (if A.length + 1 = p.ring.length then 0 else A.length) <
          (p.ring.eraseIdx A.length).length
      rw [hr, eraseIdx_append_length]
      rw [hr] at h1
      simp only [List.length_append, List.length_cons] at h1 ⊢
      split <;> omega

end BufferPool

namespace BufferPool

theorem cleared_pageID (n : ClockNode) : (cleared n).pageID = n.pageID := rfl

theorem cleared_referenceBit (n : ClockNode) : (cleared n).referenceBit = 0 := rfl

theorem map_cleared_pageID (l : List ClockNode) :
    (l.map cleared).map (fun n => n.pageID) = l.map (fun n => n.pageID) := by
  simp [List.map_map, Function.comp, cleared_pageID]

/-- How the eviction rule splits a circular order: either at its first clear
bit, or every bit is set. -/
theorem order_cases (order : List ClockNode) :
    (∃ pre v post, order = pre ++ v :: post ∧ (∀ n ∈ pre, n.referenceBit ≠ 0) ∧
        v.referenceBit = 0 ∧ victimOf order = some v ∧
        survivorsOf order = post ++ pre.map cleared) ∨
    ((∀ n ∈ order, n.referenceBit ≠ 0) ∧ victimOf order = order.head? ∧
        survivorsOf order = (order.map cleared).tail) := by
  have key : ∀ l : List ClockNode,
      (∃ pre v post, l = pre ++ v :: post ∧ (∀ n ∈ pre, n.referenceBit ≠ 0) ∧
          v.referenceBit = 0 ∧ l.find? (fun n => n.referenceBit = 0) = some v ∧
          l.dropWhile (fun n => n.referenceBit ≠ 0) = v :: post ∧
          l.takeWhile (fun n => n.referenceBit ≠ 0) = pre) ∨
      ((∀ n ∈ l, n.referenceBit ≠ 0) ∧ l.find? (fun n => n.referenceBit = 0) = none ∧
          l.dropWhile (fun n => n.referenceBit ≠ 0) = []) := by
    intro l
    induction l with
    | nil => right; simp
    | cons a l ih =>
      by_cases ha : a.referenceBit = 0
      · left
        refine ⟨[], a, l, rfl, by simp, ha, ?_, ?_, ?_⟩
        · simp [List.find?, ha]
        · simp [List.dropWhile, ha]
        · simp [List.takeWhile, ha]
      · rcases ih with ⟨pre, v, post, e, hpre, hv, hf, hd, ht⟩ | ⟨hall, hf, hd⟩
        · left
          refine ⟨a :: pre, v, post, by simp [e], ?_, hv, ?_, ?_, ?_⟩
          · intro n hn
            rcases List.mem_cons.1 hn with rfl | hn
            · exact ha
            · exact hpre n hn
          · simp [List.find?, ha, hf]
          · simpa [List.dropWhile, ha] using hd
          · simpa [List.takeWhile, ha] using ht
        · right
          refine ⟨?_, ?_, ?_⟩
          · intro n hn
            rcases List.mem_cons.1 hn with rfl | hn
            · exact ha
            · exact hall n hn
          · simpa [List.find?, ha] using hf
          · simpa [List.dropWhile, ha] using hd
  rcases key order with ⟨pre, v, post, e, hpre, hv, hf, hd, ht⟩ | ⟨hall, hf, hd⟩
  · left
    refine ⟨pre, v, post, e, hpre, hv, ?_, ?_⟩
    · simp only [victimOf, hf]
    · simp only [survivorsOf, hd, ht]
  · right
    refine ⟨hall, ?_, ?_⟩
    · simp only [victimOf, hf]
    · simp only [survivorsOf, hd]

/-- The page IDs before an eviction are the victim's and the survivors'. -/
theorem victim_perm (order : List ClockNode) (v : ClockNode) (h : victimOf order = some v) :
    (order.map (fun n => n.pageID)).Perm
      (v.pageID :: (survivorsOf order).map (fun n => n.pageID)) := by
  rcases order_cases order with ⟨pre, v', post, e, -, -, hv, hs⟩ | ⟨-, hv, hs⟩
  · rw [h] at hv
    cases hv
    rw [hs, e]
    simp only [List.map_append, List.map_cons, map_cleared_pageID]
    exact List.perm_middle.trans (List.Perm.cons _ List.perm_append_comm)
  · rw [h] at hv
    cases order with
    | nil => cases hv
    | cons a rest =>
      simp only [List.head?_cons, Option.some.injEq] at hv
      subst hv
      rw [hs]
      simp only [List.map_cons, List.tail_cons, map_cleared_pageID]
      exact List.Perm.refl _

theorem length_fromHand (p : BufferPool) : p.fromHand.length = p.ring.length :=
  (fromHand_perm p).length_eq

/-- Function `evictPage` on a pool whose hand points into the list: it removes
the victim of the eviction rule from the hash map and leaves the survivors. -/
theorem evictPage_spec (p : BufferPool) (hh : ∃ h, p.clockHand = some h ∧ h < p.ring.length) :
    ∃ v, victimOf p.fromHand = some v ∧
      p.evictPage.fromHand = survivorsOf p.fromHand ∧
      p.evictPage.pageMap = p.pageMap.remove v.pageID ∧
      p.evictPage.currentSize = p.currentSize - 1 ∧
      p.evictPage.capacity = p.capacity ∧
      p.evictPage.ring.length = p.ring.length - 1 ∧
      HandOk p.evictPage := by
  have hlen := length_fromHand p
  rcases order_cases p.fromHand with ⟨pre, v, post, e, hpre, hv, hvic, hs⟩ | ⟨hall, hvic, hs⟩
  · have hle : pre.length + 1 ≤ p.ring.length := by
      rw [← hlen, e]; simp
    obtain ⟨k, hk⟩ : ∃ k, p.ring.length + 1 = pre.length + (k + 1) :=
      ⟨p.ring.length - pre.length, by omega⟩
    obtain ⟨p1, e1, hh1, hv1, m1, s1, c1, l1⟩ :=
      evictLoop_pass pre p (v :: post) (k + 1) hh e hpre
    obtain ⟨t1, t2, t3, t4, t5, t6⟩ :=
      evictLoop_evict k p1 v (post ++ pre.map cleared) hh1 (by simpa using hv1) hv
    refine ⟨v, hvic, ?_⟩
    unfold evictPage
    rw [hk, e1]
    exact ⟨by rw [t1, hs], by rw [t2, m1], by rw [t3, s1], by rw [t4, c1], by rw [t5, l1], t6⟩
  · obtain ⟨h, hh0, hlt⟩ := hh
    cases ho : p.fromHand with
    | nil => rw [ho] at hlen; simp at hlen; omega
    | cons a rest =>
      rw [ho] at hall hvic hs hlen
      obtain ⟨p1, e1, hh1, hv1, m1, s1, c1, l1⟩ :=
        evictLoop_pass (a :: rest) p [] 1 ⟨h, hh0, hlt⟩ (by simpa using ho) hall
      obtain ⟨t1, t2, t3, t4, t5, t6⟩ :=
        evictLoop_evict 0 p1 (cleared a) (rest.map cleared) hh1 (by simpa using hv1) rfl
      refine ⟨a, by simpa using hvic, ?_⟩
      unfold evictPage
      rw [← hlen, e1]
      exact ⟨by rw [t1, hs]; rfl, by rw [t2, m1]; rfl, by rw [t3, s1], by rw [t4, c1],
        by rw [t5, l1, hlen], t6⟩

end BufferPool

/-! ## The invariant of the page cache -/

namespace BufferPool

theorem map_setReferenceBit (ring : List ClockNode) (pageID : String) (bit : Int) :
    (setReferenceBit ring pageID bit).map (fun n => n.pageID) = ring.map (fun n => n.pageID) := by
  induction ring with
  | nil => rfl
  | cons n rest ih =>
    simp only [setReferenceBit]
    split
    · rfl
    · simp only [List.map_cons, ih]

theorem length_setReferenceBit (ring : List ClockNode) (pageID : String) (bit : Int) :
    (setReferenceBit ring pageID bit).length = ring.length := by
  have := congrArg List.length (map_setReferenceBit ring pageID bit)
  simpa using this

theorem getPage_fst (p : BufferPool) (pageID : String) :
    (p.getPage pageID).1 = p.pageMap.get pageID := by
  unfold getPage
  cases p.pageMap.get pageID <;> rfl

theorem getPage_pageMap (p : BufferPool) (pageID : String) :
    (p.getPage pageID).2.pageMap = p.pageMap := by
  unfold getPage
  cases p.pageMap.get pageID <;> rfl

theorem getPage_capacity (p : BufferPool) (pageID : String) :
    (p.getPage pageID).2.capacity = p.capacity := by
  unfold getPage
  cases p.pageMap.get pageID <;> rfl

theorem getPage_clockHand (p : BufferPool) (pageID : String) :
    (p.getPage pageID).2.clockHand = p.clockHand := by
  unfold getPage
  cases p.pageMap.get pageID <;> rfl

theorem getPage_currentSize (p : BufferPool) (pageID : String) :
    (p.getPage pageID).2.currentSize = p.currentSize := by
  unfold getPage
  cases p.pageMap.get pageID <;> rfl

theorem getPage_pageIDs (p : BufferPool) (pageID : String) :
    (p.getPage pageID).2.pageIDs = p.pageIDs := by
  unfold getPage pageIDs
  cases p.pageMap.get pageID with
  | none => rfl
  | some page => exact map_setReferenceBit _ _ _

theorem insertPage_present (p : BufferPool) (pageID : String) (page held : Page)
    (h : p.pageMap.get pageID = some held) :
    p.insertPage pageID page = { p with ring := setReferenceBit p.ring pageID 1 } := by
  unfold insertPage
  rw [h]

theorem insertPage_absent (p : BufferPool) (pageID : String) (page : Page)
    (h : p.pageMap.get pageID = none) :
    p.insertPage pageID page =
      { (if p.currentSize = p.capacity then p.evictPage else p) with
        pageMap := (if p.currentSize = p.capacity then p.evictPage else p).pageMap.insert
          pageID page,
        ring := (if p.currentSize = p.capacity then p.evictPage else p).ring ++
          [{ pageID := pageID, referenceBit := 0 }],
        clockHand :=
          match (if p.currentSize = p.capacity then p.evictPage else p).clockHand with
          | none => some 0
          | some h => some h,
        currentSize := (if p.currentSize = p.capacity then p.evictPage else p).currentSize + 1 } := by
  unfold insertPage
  rw [h]

theorem inv_new (hash : String → Nat) (capacity : Nat) (hc : 1 ≤ capacity) :
    Inv (BufferPool.new hash capacity) where
  size_eq := rfl
  size_le := Nat.zero_le _
  map_size := rfl
  nodup := List.nodup_nil
  cached := by intro pageID; simp [BufferPool.new, HashMap.get_new, pageIDs]
  hand := rfl
  chained := HashMap.chained_new hash capacity
  capacity_pos := hc

theorem inv_getPage (p : BufferPool) (pageID : String) (h : Inv p) : Inv (p.getPage pageID).2 where
  size_eq := by
    have := congrArg List.length (getPage_pageIDs p pageID)
    simp only [pageIDs, List.length_map] at this
    rw [this, getPage_currentSize]
    exact h.size_eq
  size_le := by rw [getPage_currentSize, getPage_capacity]; exact h.size_le
  map_size := by rw [getPage_currentSize, getPage_pageMap]; exact h.map_size
  nodup := by rw [getPage_pageIDs]; exact h.nodup
  cached := by rw [getPage_pageIDs, getPage_pageMap]; exact h.cached
  hand := by
    have hl : (p.getPage pageID).2.ring.length = p.ring.length := by
      have := congrArg List.length (getPage_pageIDs p pageID)
      simpa only [pageIDs, List.length_map] using this
    have hh := h.hand
    unfold HandOk at hh ⊢
    rw [getPage_clockHand]
    cases hc : p.clockHand with
    | none =>
      rw [hc] at hh
      simp only
      apply List.length_eq_zero.1
      rw [hl, hh]; rfl
    | some k =>
      rw [hc] at hh
      simp only at hh ⊢
      rw [hl]; exact hh
  chained := by rw [getPage_pageMap]; exact h.chained
  capacity_pos := by rw [getPage_capacity]; exact h.capacity_pos

/-- A full pool that satisfies the invariant has its hand in the list. -/
theorem hand_of_full (p : BufferPool) (h : Inv p) (hfull : p.currentSize = p.capacity) :
    ∃ k, p.clockHand = some k ∧ k < p.ring.length := by
  have hpos : 0 < p.ring.length := by
    rw [h.size_eq, hfull]; exact h.capacity_pos
  have hh := h.hand
  unfold HandOk at hh
  cases hc : p.clockHand with
  | none =>
    rw [hc] at hh
    simp only at hh
    rw [hh] at hpos
    simp at hpos
  | some k =>
    rw [hc] at hh
    exact ⟨k, rfl, hh⟩

/-- The page IDs of a full pool are the victim's and those `evictPage` leaves. -/
theorem evictPage_pageIDs (p : BufferPool) (v : ClockNode)
    (hh : ∃ k, p.clockHand = some k ∧ k < p.ring.length) (hv : victimOf p.fromHand = some v) :
    p.pageIDs.Perm (v.pageID :: p.evictPage.pageIDs) := by
  obtain ⟨v', hv', hs, -⟩ := evictPage_spec p hh
  rw [hv] at hv'
  cases hv'
  have h1 : p.pageIDs.Perm (p.fromHand.map (fun n => n.pageID)) :=
    ((fromHand_perm p).map _).symm
  have h2 := victim_perm p.fromHand v hv
  have h3 : (p.evictPage.fromHand.map (fun n => n.pageID)).Perm p.evictPage.pageIDs :=
    (fromHand_perm p.evictPage).map _
  rw [hs] at h3
  exact h1.trans (h2.trans (List.Perm.cons _ h3))

theorem inv_evictPage (p : BufferPool) (h : Inv p) (hfull : p.currentSize = p.capacity) :
    p.evictPage.ring.length = p.evictPage.currentSize ∧
      p.evictPage.currentSize + 1 = p.capacity ∧
      p.evictPage.pageMap.size = p.evictPage.currentSize ∧
      p.evictPage.pageIDs.Nodup ∧
      (∀ pageID, (p.evictPage.pageMap.get pageID).isSome = true ↔ pageID ∈ p.evictPage.pageIDs) ∧
      HandOk p.evictPage ∧ p.evictPage.pageMap.Chained ∧ p.evictPage.capacity = p.capacity ∧
      ∀ pageID, pageID ∈ p.evictPage.pageIDs → pageID ∈ p.pageIDs := by
  have hh := hand_of_full p h hfull
  obtain ⟨v, hv, hs, hm, hsz, hcap, hlen, hhand⟩ := evictPage_spec p hh
  have hperm := evictPage_pageIDs p v hh hv
  have hnd : (v.pageID :: p.evictPage.pageIDs).Nodup := hperm.nodup_iff.1 h.nodup
  have hvin : v.pageID ∈ p.pageIDs := hperm.mem_iff.2 (List.mem_cons_self _ _)
  have hpos : 1 ≤ p.currentSize := by rw [hfull]; exact h.capacity_pos
  obtain ⟨pg, hpg⟩ := Option.isSome_iff_exists.1 ((h.cached v.pageID).2 hvin)
  refine ⟨?_, ?_, ?_, (List.nodup_cons.1 hnd).2, ?_, hhand, ?_, hcap, ?_⟩
  · rw [hlen, hsz, h.size_eq]
  · rw [hsz, ← hfull]; omega
  · rw [hm, HashMap.size_remove _ _ pg hpg, hsz, h.map_size]
  · intro pageID
    rw [hm, HashMap.get_remove _ _ _ h.chained]
    by_cases hx : pageID = v.pageID
    · subst hx
      simp only [if_true, Option.isSome_none, Bool.false_eq_true, false_iff]
      exact (List.nodup_cons.1 hnd).1
    · rw [if_neg hx, h.cached, hperm.mem_iff, List.mem_cons]
      constructor
      · rintro (e | e)
        · exact absurd e hx
        · exact e
      · exact Or.inr
  · rw [hm]; exact HashMap.chained_remove _ _ h.chained
  · intro pageID hx
    exact hperm.mem_iff.2 (List.mem_cons_of_mem _ hx)

theorem inv_insertPage (p : BufferPool) (pageID : String) (page : Page) (h : Inv p) :
    Inv (p.insertPage pageID page) := by
  cases hg : p.pageMap.get pageID with
  | some held =>
    rw [insertPage_present p pageID page held hg]
    have hids : (setReferenceBit p.ring pageID 1).map (fun n => n.pageID) = p.pageIDs :=
      map_setReferenceBit _ _ _
    have hl := length_setReferenceBit p.ring pageID 1
    refine ⟨?_, h.size_le, h.map_size, ?_, ?_, ?_, h.chained, h.capacity_pos⟩
    · show (setReferenceBit p.ring pageID 1).length = p.currentSize
      rw [hl]; exact h.size_eq
    · show ((setReferenceBit p.ring pageID 1).map (fun n => n.pageID)).Nodup
      rw [hids]; exact h.nodup
    · intro x
      show (p.pageMap.get x).isSome = true ↔ x ∈ (setReferenceBit p.ring pageID 1).map _
      rw [hids]; exact h.cached x
    · have hh := h.hand
      unfold HandOk at hh ⊢
      cases hc : p.clockHand with
      | none =>
        rw [hc] at hh
        simp only at hh
        simp only [hc]
        apply List.length_eq_zero.1
        rw [hl, hh]; rfl
      | some k =>
        rw [hc] at hh
        simp only at hh
        simp only [hc]
        rw [hl]; exact hh
  | none =>
    rw [insertPage_absent p pageID page hg]
    have hnot : pageID ∉ p.pageIDs := by
      intro hin
      have := (h.cached pageID).2 hin
      rw [hg] at this
      cases this
    -- the pool the new entry is appended to
    have key : ∀ q : BufferPool, q.ring.length = q.currentSize → q.currentSize + 1 ≤ p.capacity →
        q.pageMap.size = q.currentSize → q.pageIDs.Nodup →
        (∀ x, (q.pageMap.get x).isSome = true ↔ x ∈ q.pageIDs) → HandOk q →
        q.pageMap.Chained → q.capacity = p.capacity → (∀ x, x ∈ q.pageIDs → x ∈ p.pageIDs) →
        Inv { q with pageMap := q.pageMap.insert pageID page,
                     ring := q.ring ++ [{ pageID := pageID, referenceBit := 0 }],
                     clockHand := (match q.clockHand with
                       | none => some 0
                       | some h => some h),
                     currentSize := q.currentSize + 1 } := by
      intro q q1 q2 q3 q4 q5 q6 q7 q8 q9
      have hq : pageID ∉ q.pageIDs := fun hin => hnot (q9 _ hin)
      have hqg : q.pageMap.get pageID = none := by
        cases hx : q.pageMap.get pageID with
        | none => rfl
        | some pg =>
          exfalso
          apply hq
          rw [← q5, hx]; rfl
      refine ⟨?_, ?_, ?_, ?_, ?_, ?_, HashMap.chained_insert _ _ _ q7, ?_⟩
      · simp [q1]
      · show q.currentSize + 1 ≤ q.capacity
        rw [q8]; exact q2
      · show (q.pageMap.insert pageID page).size = q.currentSize + 1
        rw [HashMap.size_insert _ _ _ hqg, q3]
      · show ((q.ring ++ [({ pageID := pageID, referenceBit := 0 } : ClockNode)]).map
            (fun n => n.pageID)).Nodup
        rw [List.map_append, List.nodup_append]
        refine ⟨q4, by simp, ?_⟩
        intro a ha hb
        simp only [List.map_cons, List.map_nil, List.mem_singleton] at hb
        subst hb
        exact hq ha
      · intro x
        show ((q.pageMap.insert pageID page).get x).isSome = true ↔
          x ∈ (q.ring ++ [({ pageID := pageID, referenceBit := 0 } : ClockNode)]).map
            (fun n => n.pageID)
        rw [HashMap.get_insert, List.map_append, List.mem_append]
        by_cases hx : x = pageID
        · simp [hx]
        · rw [if_neg hx, q5]
          simp [hx, pageIDs]
      · unfold HandOk at q6 ⊢
        cases hc : q.clockHand with
        | none => simp
        | some k =>
          rw [hc] at q6
          simp only at q6 ⊢
          rw [List.length_append]
          omega
      · show 1 ≤ q.capacity
        rw [q8]; exact h.capacity_pos
    by_cases hfull : p.currentSize = p.capacity
    · simp only [if_pos hfull]
      obtain ⟨e1, e2, e3, e4, e5, e6, e7, e8, e9⟩ := inv_evictPage p h hfull
      exact key p.evictPage e1 (by omega) e3 e4 e5 e6 e7 e8 e9
    · simp only [if_neg hfull]
      have := h.size_le
      exact key p h.size_eq (by omega) h.map_size h.nodup h.cached h.hand h.chained rfl
        (fun _ hx => hx)

theorem inv_call (p : BufferPool) (c : Call) (h : Inv p) : Inv (p.call c) := by
  cases c with
  | insertPage pageID page => exact inv_insertPage p pageID page h
  | getPage pageID => exact inv_getPage p pageID h

theorem inv_calls (cs : List Call) (p : BufferPool) (h : Inv p) : Inv (calls cs p) := by
  induction cs generalizing p with
  | nil => exact h
  | cons c cs ih => exact ih _ (inv_call p c h)

theorem insertPage_capacity (p : BufferPool) (pageID : String) (page : Page) (h : Inv p) :
    (p.insertPage pageID page).capacity = p.capacity := by
  cases hg : p.pageMap.get pageID with
  | some held => rw [insertPage_present p pageID page held hg]
  | none =>
    rw [insertPage_absent p pageID page hg]
    by_cases hfull : p.currentSize = p.capacity
    · simp only [if_pos hfull]
      exact (inv_evictPage p h hfull).2.2.2.2.2.2.2.1
    · simp only [if_neg hfull]

theorem capacity_calls (cs : List Call) (p : BufferPool) (h : Inv p) :
    (calls cs p).capacity = p.capacity := by
  induction cs generalizing p with
  | nil => rfl
  | cons c cs ih =>
    have := ih (p.call c) (inv_call p c h)
    simp only [calls, List.foldl_cons] at this ⊢
    rw [this]
    cases c with
    | insertPage pageID page => exact insertPage_capacity p pageID page h
    | getPage pageID => exact getPage_capacity p pageID

end BufferPool

namespace BufferPool

theorem tracked_call (t : Tracked) (c : Call) (h : Inv t.pool)
    (hheld : ∀ x, t.pool.pageMap.get x = t.held x) :
    (t.call c).pool = t.pool.call c ∧ ∀ x, (t.call c).pool.pageMap.get x = (t.call c).held x := by
  cases c with
  | getPage pageID =>
    refine ⟨rfl, fun x => ?_⟩
    show (t.pool.getPage pageID).2.pageMap.get x = t.held x
    rw [getPage_pageMap]; exact hheld x
  | insertPage pageID page =>
    refine ⟨rfl, fun x => ?_⟩
    show (t.pool.insertPage pageID page).pageMap.get x = (t.call (.insertPage pageID page)).held x
    cases hg : t.pool.pageMap.get pageID with
    | some pg =>
      have hh : t.held pageID = some pg := by rw [← hheld, hg]
      simp only [Tracked.call, hh]
      rw [insertPage_present _ _ _ pg hg]
      exact hheld x
    | none =>
      have hh : t.held pageID = none := by rw [← hheld, hg]
      simp only [Tracked.call, hh]
      rw [insertPage_absent _ _ _ hg]
      by_cases hfull : t.pool.currentSize = t.pool.capacity
      · obtain ⟨v, hv, -, hm, -⟩ := evictPage_spec t.pool (hand_of_full t.pool h hfull)
        simp only [if_pos hfull, HashMap.get_insert, hm, HashMap.get_remove _ _ _ h.chained, hv,
          Option.map_some', Option.some.injEq, true_and]
        by_cases hx : x = pageID
        · simp [hx]
        · simp only [if_neg hx]
          by_cases hxv : x = v.pageID
          · simp [hxv, hfull]
          · have : ¬ (t.pool.currentSize = t.pool.capacity ∧ v.pageID = x) :=
              fun e => hxv e.2.symm
            simp only [if_neg hxv, if_neg this]
            exact hheld x
      · simp only [if_neg hfull, HashMap.get_insert]
        by_cases hx : x = pageID
        · simp [hx]
        · have : ¬ (t.pool.currentSize = t.pool.capacity ∧
              Option.map (fun n => n.pageID) (victimOf t.pool.fromHand) = some x) :=
            fun e => hfull e.1
          simp only [if_neg hx, if_neg this]
          exact hheld x

theorem tracked_calls (cs : List Call) (t : Tracked) (h : Inv t.pool)
    (hheld : ∀ x, t.pool.pageMap.get x = t.held x) :
    (Tracked.calls cs t).pool = calls cs t.pool ∧
      ∀ x, (Tracked.calls cs t).pool.pageMap.get x = (Tracked.calls cs t).held x := by
  induction cs generalizing t with
  | nil => exact ⟨rfl, hheld⟩
  | cons c cs ih =>
    obtain ⟨e, hh⟩ := tracked_call t c h hheld
    have := ih (t.call c) (by rw [e]; exact inv_call t.pool c h) hh
    simp only [Tracked.calls, calls, List.foldl_cons] at this ⊢
    rw [← e]
    exact this

end BufferPool

/-! ## Loop bounds of the compaction -/

theorem readAt_mem {α : Type} (l : List α) (i : Nat) (a : α) (h : readAt l i = .ok a) : a ∈ l := by
  unfold readAt at h
  cases hg : l.get? i with
  | none => rw [hg] at h; cases h
  | some b =>
    rw [hg] at h
    cases h
    exact List.get?_mem hg

theorem readAt_error {α : Type} (l : List α) (i : Nat) (e : Fault) (h : readAt l i = .error e) :
    e = .outOfBounds := by
  unfold readAt at h
  split at h
  · cases h
  · cases h; rfl

theorem readRange_error {α : Type} (l : List α) (count : Nat) :
    ∀ (start : Nat) (e : Fault), readRange l start count = .error e → e = .outOfBounds := by
  induction count with
  | zero => intro start e h; simp [readRange] at h
  | succ n ih =>
    intro start e h
    simp only [readRange] at h
    cases ha : readAt l start with
    | error e1 =>
      rw [ha] at h
      cases h
      exact readAt_error l start _ ha
    | ok a =>
      rw [ha] at h
      simp only at h
      cases hr : readRange l (start + 1) n with
      | error e1 =>
        rw [hr] at h
        cases h
        exact ih (start + 1) _ hr
      | ok rest => rw [hr] at h; cases h

theorem readRange_mem {α : Type} (l : List α) (count : Nat) :
    ∀ (start : Nat) (r : List α), readRange l start count = .ok r → ∀ x ∈ r, x ∈ l := by
  induction count with
  | zero =>
    intro start r h x hx
    simp only [readRange, Except.ok.injEq] at h
    subst h
    cases hx
  | succ n ih =>
    intro start r h x hx
    simp only [readRange] at h
    cases ha : readAt l start with
    | error e => rw [ha] at h; cases h
    | ok a =>
      rw [ha] at h
      simp only at h
      cases hr : readRange l (start + 1) n with
      | error e => rw [hr] at h; cases h
      | ok rest =>
        rw [hr] at h
        simp only [Except.ok.injEq] at h
        subst h
        rcases List.mem_cons.1 hx with rfl | hx
        · exact readAt_mem l start _ ha
        · exact ih (start + 1) rest hr x hx

theorem mem_insertAt {α : Type} (l : List α) (i : Nat) (a x : α) (h : x ∈ insertAt l i a) :
    x = a ∨ x ∈ l := by
  unfold insertAt at h
  rcases List.mem_append.1 h with h | h
  · exact Or.inr (List.mem_of_mem_take h)
  · rcases List.mem_cons.1 h with h | h
    · exact Or.inl h
    · exact Or.inr (List.mem_of_mem_drop h)

namespace BTree

theorem depth_mk (isLeaf : Bool) (keys : List Int) (children : List Node) (offsets : List Int)
    (data : Bytes) : (Node.mk isLeaf keys children offsets data).depth = 1 + depthList children := by
  simp [Node.depth]

theorem depthList_nil : depthList [] = 0 := by simp [depthList]

theorem depthList_cons (c : Node) (cs : List Node) :
    depthList (c :: cs) = max c.depth (depthList cs) := by
  simp [depthList]

theorem depth_le_depthList (l : List Node) (c : Node) (h : c ∈ l) : c.depth ≤ depthList l := by
  induction l with
  | nil => cases h
  | cons a l ih =>
    rw [depthList_cons]
    rcases List.mem_cons.1 h with rfl | h
    · exact le_max_left _ _
    · exact le_trans (ih h) (le_max_right _ _)

theorem depthList_le (l : List Node) (b : Nat) (h : ∀ c ∈ l, c.depth ≤ b) : depthList l ≤ b := by
  induction l with
  | nil => rw [depthList_nil]; exact Nat.zero_le _
  | cons a l ih =>
    rw [depthList_cons]
    exact max_le (h a (List.mem_cons_self _ _)) (ih (fun c hc => h c (List.mem_cons_of_mem _ hc)))

theorem depthList_mono (l m : List Node) (h : ∀ c ∈ l, c ∈ m) : depthList l ≤ depthList m :=
  depthList_le l _ (fun c hc => depth_le_depthList m c (h c hc))

/-- Function `splitChild` does not make the subtrees of the parent deeper. -/
theorem splitChild_depth (degree : Nat) (parent r : Node) (index : Nat)
    (h : splitChild degree parent index = .ok r) :
    depthList r.children ≤ depthList parent.children := by
  obtain ⟨pLeaf, pKeys, pChildren, pOffsets, pData⟩ := parent
  simp only [splitChild] at h
  cases hc : readAt pChildren index with
  | error e => rw [hc] at h; cases h
  | ok child =>
    obtain ⟨cLeaf, cKeys, cChildren, cOffsets, cData⟩ := child
    rw [hc] at h
    simp only at h
    have hmem := readAt_mem _ _ _ hc
    have hcd := depth_le_depthList _ _ hmem
    rw [depth_mk] at hcd
    cases hk : readRange cKeys degree (degree - 1) with
    | error e => rw [hk] at h; cases h
    | ok newKeys =>
      rw [hk] at h
      simp only at h
      cases cLeaf with
      | true =>
        simp only [if_true] at h
        cases ho : readRange cOffsets degree (degree - 1) with
        | error e => rw [ho] at h; cases h
        | ok newOffsets =>
          rw [ho] at h
          simp only at h
          cases hm : readAt (resizeInts cKeys degree) (degree - 1) with
          | error e => rw [hm] at h; cases h
          | ok median =>
            rw [hm] at h
            simp only [Except.ok.injEq] at h
            subst h
            apply depthList_le
            intro c hcm
            simp only [Node.children] at hcm
            rcases mem_insertAt _ _ _ _ hcm with rfl | hcm
            · rw [depth_mk, depthList_nil]
              simp only [Node.children]
              omega
            · rcases List.mem_or_eq_of_mem_set hcm with hcm | rfl
              · exact depth_le_depthList _ _ hcm
              · rw [depth_mk]
                simp only [Node.children]
                omega
      | false =>
        simp only [Bool.false_eq_true, if_false] at h
        cases ho : readRange cChildren degree degree with
        | error e => rw [ho] at h; cases h
        | ok newChildren =>
          rw [ho] at h
          simp only at h
          cases hm : readAt (resizeInts cKeys (degree - 1)) (degree - 1) with
          | error e => rw [hm] at h; cases h
          | ok median =>
            rw [hm] at h
            simp only [Except.ok.injEq] at h
            subst h
            apply depthList_le
            intro c hcm
            simp only [Node.children] at hcm
            rcases mem_insertAt _ _ _ _ hcm with rfl | hcm
            · rw [depth_mk]
              have := depthList_mono newChildren cChildren (readRange_mem _ _ _ _ ho)
              simp only [Node.children]
              omega
            · rcases List.mem_or_eq_of_mem_set hcm with hcm | rfl
              · exact depth_le_depthList _ _ hcm
              · rw [depth_mk]
                have := depthList_mono (cChildren.take degree) cChildren
                  (fun _ hx => List.mem_of_mem_take hx)
                simp only [Node.children]
                omega

/-- Function `splitChild` fails only by reading outside a vector. -/
theorem splitChild_error (degree : Nat) (parent : Node) (index : Nat) (e : Fault)
    (h : splitChild degree parent index = .error e) : e = .outOfBounds := by
  obtain ⟨pLeaf, pKeys, pChildren, pOffsets, pData⟩ := parent
  simp only [splitChild] at h
  cases hc : readAt pChildren index with
  | error e1 => rw [hc] at h; cases h; exact readAt_error _ _ _ hc
  | ok child =>
    obtain ⟨cLeaf, cKeys, cChildren, cOffsets, cData⟩ := child
    rw [hc] at h
    simp only at h
    cases hk : readRange cKeys degree (degree - 1) with
    | error e1 => rw [hk] at h; cases h; exact readRange_error _ _ _ _ hk
    | ok newKeys =>
      rw [hk] at h
      simp only at h
      cases cLeaf with
      | true =>
        simp only [if_true] at h
        cases ho : readRange cOffsets degree (degree - 1) with
        | error e1 => rw [ho] at h; cases h; exact readRange_error _ _ _ _ ho
        | ok newOffsets =>
          rw [ho] at h
          simp only at h
          cases hm : readAt (resizeInts cKeys degree) (degree - 1) with
          | error e1 => rw [hm] at h; cases h; exact readAt_error _ _ _ hm
          | ok median => rw [hm] at h; cases h
      | false =>
        simp only [Bool.false_eq_true, if_false] at h
        cases ho : readRange cChildren degree degree with
        | error e1 => rw [ho] at h; cases h; exact readRange_error _ _ _ _ ho
        | ok newChildren =>
          rw [ho] at h
          simp only at h
          cases hm : readAt (resizeInts cKeys (degree - 1)) (degree - 1) with
          | error e1 => rw [hm] at h; cases h; exact readAt_error _ _ _ hm
          | ok median => rw [hm] at h; cases h

/-- With the depth of the node as fuel, `insertNonFull` does not run out of it. -/
theorem insertNonFull_fuel (degree : Nat) (fuel : Nat) :
    ∀ (node : Node) (key offset : Int), node.depth ≤ fuel →
      insertNonFull degree fuel node key offset ≠ .error .outOfFuel := by
  induction fuel with
  | zero =>
    intro node key offset h
    obtain ⟨isLeaf, keys, children, offsets, data⟩ := node
    rw [depth_mk] at h
    omega
  | succ fuel ih =>
    intro node key offset h
    obtain ⟨isLeaf, keys, children, offsets, data⟩ := node
    rw [depth_mk] at h
    simp only [insertNonFull]
    cases isLeaf with
    | true => simp
    | false =>
      simp only [Bool.false_eq_true, if_false]
      cases hc : readAt children (findLoop key keys (keys.length + 1) (↑keys.length - 1) + 1).toNat with
      | error e =>
        simp only
        rw [readAt_error _ _ _ hc]
        simp
      | ok child =>
        simp only
        have hcd := depth_le_depthList _ _ (readAt_mem _ _ _ hc)
        split
        · cases hs : splitChild degree (Node.mk false keys children offsets data)
              (findLoop key keys (keys.length + 1) (↑keys.length - 1) + 1).toNat with
          | error e =>
            simp only
            rw [splitChild_error _ _ _ _ hs]
            simp
          | ok r =>
            obtain ⟨rLeaf, rKeys, rChildren, rOffsets, rData⟩ := r
            have hd := splitChild_depth _ _ _ _ hs
            simp only [Node.children] at hd
            simp only
            cases hki : readAt rKeys
                (findLoop key keys (keys.length + 1) (↑keys.length - 1) + 1).toNat with
            | error e => simp only; rw [readAt_error _ _ _ hki]; simp
            | ok ki =>
              simp only
              cases hc2 : readAt rChildren
                  (if key > ki then (findLoop key keys (keys.length + 1) (↑keys.length - 1) + 1).toNat + 1
                    else (findLoop key keys (keys.length + 1) (↑keys.length - 1) + 1).toNat) with
              | error e => simp only; rw [readAt_error _ _ _ hc2]; simp
              | ok child2 =>
                simp only
                have hcd2 := depth_le_depthList _ _ (readAt_mem _ _ _ hc2)
                cases hi : insertNonFull degree fuel child2 key offset with
                | error e =>
                  simp only
                  intro he
                  cases he
                  exact ih child2 key offset (by omega) hi
                | ok c => simp
        · cases hi : insertNonFull degree fuel child key offset with
          | error e =>
            simp only
            intro he
            cases he
            exact ih child key offset (by omega) hi
          | ok c => simp

/-- Function `BTree::insert` does not run out of the fuel it gives `insertNonFull`. -/
theorem insert_fuel (t : BTree) (key offset : Int) : t.insert key offset ≠ .error .outOfFuel := by
  unfold insert
  cases hr : t.root with
  | none => simp
  | some root =>
    simp only
    split
    · cases hs : splitChild t.degree (Node.mk false [] [root] [] zeroBytes) 0 with
      | error e => simp only; rw [splitChild_error _ _ _ _ hs]; simp
      | ok newRoot =>
        simp only
        cases hi : insertNonFull t.degree (newRoot.depth + 1) newRoot key offset with
        | error e =>
          simp only
          intro he
          cases he
          exact insertNonFull_fuel _ _ _ _ _ (Nat.le_succ _) hi
        | ok r => simp
    · cases hi : insertNonFull t.degree (root.depth + 1) root key offset with
      | error e =>
        simp only
        intro he
        cases he
        exact insertNonFull_fuel _ _ _ _ _ (Nat.le_succ _) hi
      | ok r => simp

end BTree

namespace SST

theorem addPage_fuel (s : SST) (page : Page) : s.addPage page ≠ .error .outOfFuel := by
  intro h
  unfold addPage at h
  cases hl : page.keys.getLast? with
  | none => rw [hl] at h; cases h
  | some last =>
    rw [hl] at h
    dsimp only at h
    split at h
    · rename_i e hi
      cases h
      exact BTree.insert_fuel _ _ _ hi
    · cases h

theorem writeToFile_fuel (s : SST) : s.writeToFile ≠ .error .outOfFuel := by
  unfold writeToFile
  cases s.btree with
  | none => simp
  | some b =>
    simp only
    cases b.getRoot <;> simp

end SST

theorem pread_full (f : File) (buf : Bytes) (n : Nat)
    (h : (f.pread buf PAGE_SIZE (n : Int)).1 = (PAGE_SIZE : Int)) : n + 4096 ≤ f.size := by
  unfold File.pread at h
  rw [if_neg (by omega)] at h
  simp only [PAGE_SIZE, Int.toNat_ofNat] at h
  omega

namespace LSMTree

theorem readKeyOffsets_length (buffer : Bytes) (n : Nat) :
    ∀ (pos : Nat) (keys : List KeyOffset), readKeyOffsets buffer n pos = .ok keys →
      keys.length = n ∧ (n = 0 ∨ pos + 12 * n ≤ 4096) := by
  induction n with
  | zero =>
    intro pos keys h
    simp only [readKeyOffsets, Except.ok.injEq] at h
    subst h
    exact ⟨rfl, Or.inl rfl⟩
  | succ n ih =>
    intro pos keys h
    simp only [readKeyOffsets, PAGE_SIZE] at h
    split at h
    · cases h
    · rename_i hpos
      cases hr : readKeyOffsets buffer n (pos + 12) with
      | error e => rw [hr] at h; cases h
      | ok rest =>
        rw [hr] at h
        simp only [Except.ok.injEq] at h
        subst h
        obtain ⟨h1, h2⟩ := ih (pos + 12) rest hr
        refine ⟨by simp [h1], Or.inr ?_⟩
        rcases h2 with h2 | h2
        · subst h2; omega
        · omega

theorem readKeyOffsets_error (buffer : Bytes) (n : Nat) :
    ∀ (pos : Nat) (e : Fault), readKeyOffsets buffer n pos = .error e → e = .runtimeError := by
  induction n with
  | zero => intro pos e h; simp [readKeyOffsets] at h
  | succ n ih =>
    intro pos e h
    simp only [readKeyOffsets] at h
    split at h
    · cases h; rfl
    · cases hr : readKeyOffsets buffer n (pos + 12) with
      | error e1 =>
        rw [hr] at h
        cases h
        exact ih _ _ hr
      | ok rest => rw [hr] at h; cases h

theorem emit_fuel (outputPage : Page) (mergedSST : SST) (key value : Int) :
    emit outputPage mergedSST key value ≠ .error .outOfFuel := by
  intro h
  unfold emit at h
  dsimp only at h
  split at h
  · cases h
  · split at h
    · rename_i e ha
      cases h
      exact SST.addPage_fuel _ _ ha
    · cases h

/-- The reload of a page of the first input does not raise the budget, and it
fails only with the error the source throws. -/
theorem reload1_budget (sst1 sst2 : File) (numpages1 : Int) (st : MergeState) :
    (∀ e, reload1 sst1 numpages1 st = .error e → e = .runtimeError) ∧
    ∀ st', reload1 sst1 numpages1 st = .ok st' → budget sst1 sst2 st' ≤ budget sst1 sst2 st := by
  unfold reload1
  split
  · rename_i hc
    dsimp only
    split
    · exact ⟨fun e h => (by cases h; rfl), fun st' h => (by cases h)⟩
    · rename_i hr
      have hfull := pread_full sst1 st.buffer1 (st.offset1 + PAGE_SIZE)
        (by simpa using not_not.1 hr)
      cases hk : readKeyOffsets (sst1.pread st.buffer1 PAGE_SIZE ↑(st.offset1 + PAGE_SIZE)).2
          (readInt32 (sst1.pread st.buffer1 PAGE_SIZE ↑(st.offset1 + PAGE_SIZE)).2 0).toNat 16 with
      | error e =>
        simp only
        exact ⟨fun e1 h => (by cases h; exact readKeyOffsets_error _ _ _ _ hk),
          fun st' h => (by cases h)⟩
      | ok keys1 =>
        simp only
        refine ⟨fun e h => (by cases h), fun st' h => ?_⟩
        simp only [Except.ok.injEq] at h
        subst h
        obtain ⟨h1, h2⟩ := readKeyOffsets_length _ _ _ _ hk
        simp only [budget, PAGE_SIZE] at hfull ⊢
        have hz : st.keys1.length - st.keyIndex1 = 0 := by omega
        omega
  · exact ⟨fun e h => (by cases h), fun st' h => (by cases h; exact le_refl _)⟩

theorem reload2_budget (sst1 sst2 : File) (numpages2 : Int) (st : MergeState) :
    (∀ e, reload2 sst2 numpages2 st = .error e → e = .runtimeError) ∧
    ∀ st', reload2 sst2 numpages2 st = .ok st' → budget sst1 sst2 st' ≤ budget sst1 sst2 st := by
  unfold reload2
  split
  · rename_i hc
    dsimp only
    split
    · exact ⟨fun e h => (by cases h; rfl), fun st' h => (by cases h)⟩
    · rename_i hr
      have hfull := pread_full sst2 st.buffer2 (st.offset2 + PAGE_SIZE)
        (by simpa using not_not.1 hr)
      cases hk : readKeyOffsets (sst2.pread st.buffer2 PAGE_SIZE ↑(st.offset2 + PAGE_SIZE)).2
          (readInt32 (sst2.pread st.buffer2 PAGE_SIZE ↑(st.offset2 + PAGE_SIZE)).2 0).toNat 16 with
      | error e =>
        simp only
        exact ⟨fun e1 h => (by cases h; exact readKeyOffsets_error _ _ _ _ hk),
          fun st' h => (by cases h)⟩
      | ok keys2 =>
        simp only
        refine ⟨fun e h => (by cases h), fun st' h => ?_⟩
        simp only [Except.ok.injEq] at h
        subst h
        obtain ⟨h1, h2⟩ := readKeyOffsets_length _ _ _ _ hk
        simp only [budget, PAGE_SIZE] at hfull ⊢
        have hz : st.keys2.length - st.keyIndex2 = 0 := by omega
        omega
  · exact ⟨fun e h => (by cases h), fun st' h => (by cases h; exact le_refl _)⟩

end LSMTree

namespace LSMTree

theorem get?_lt {α : Type} (l : List α) (i : Nat) (a : α) (h : l.get? i = some a) :
    i < l.length := by
  by_contra hc
  rw [List.get?_eq_none.2 (by omega)] at h
  cases h

/-- With more fuel than the budget, the merge loop does not run out of it. -/
theorem mergeLoop_fuel (sst1 sst2 : File) (numpages1 numpages2 : Int) (isLargestLevel : Bool)
    (fuel : Nat) :
    ∀ st, budget sst1 sst2 st < fuel →
      mergeLoop sst1 sst2 numpages1 numpages2 isLargestLevel fuel st ≠ .error .outOfFuel := by
  induction fuel with
  | zero => intro st h; omega
  | succ fuel ih =>
    intro st hb hres
    rw [mergeLoop] at hres
    split at hres
    · split at hres
      · rename_i e he
        cases hres
        have := (reload1_budget sst1 sst2 numpages1 st).1 _ he
        cases this
      · rename_i st1 h1
        have hb1 := (reload1_budget sst1 sst2 numpages1 st).2 _ h1
        split at hres
        · rename_i e he
          cases hres
          have := (reload2_budget sst1 sst2 numpages2 st1).1 _ he
          cases this
        · rename_i st2 h2
          have hb2 := (reload2_budget sst1 sst2 numpages2 st1).2 _ h2
          dsimp only at hres
          have hlt : budget sst1 sst2 st2 < fuel + 1 := by omega
          have step1 : ∀ (ko : KeyOffset) (p : Page) (m : SST),
              st2.keys1.get? st2.keyIndex1 = some ko →
              budget sst1 sst2
                ({ st2 with outputPage := p, mergedSST := m, keyIndex1 := st2.keyIndex1 + 1 } :
                  MergeState) < fuel := by
            intro ko p m hk
            have := get?_lt _ _ _ hk
            simp only [budget] at hlt ⊢
            omega
          have step2 : ∀ (ko : KeyOffset) (p : Page) (m : SST),
              st2.keys2.get? st2.keyIndex2 = some ko →
              budget sst1 sst2
                ({ st2 with outputPage := p, mergedSST := m, keyIndex2 := st2.keyIndex2 + 1 } :
                  MergeState) < fuel := by
            intro ko p m hk
            have := get?_lt _ _ _ hk
            simp only [budget] at hlt ⊢
            omega
          have step3 : ∀ (ko : KeyOffset) (p : Page) (m : SST),
              st2.keys1.get? st2.keyIndex1 = some ko →
              budget sst1 sst2
                ({ st2 with outputPage := p, mergedSST := m, keyIndex1 := st2.keyIndex1 + 1,
                            keyIndex2 := st2.keyIndex2 + 1 } : MergeState) < fuel := by
            intro ko p m hk
            have := get?_lt _ _ _ hk
            simp only [budget] at hlt ⊢
            omega
          split at hres
          · split at hres
            · cases hres
            · rename_i ko hk
              split at hres
              · cases hres
              · split at hres
                · rename_i e he
                  cases hres
                  exact emit_fuel _ _ _ _ he
                · rename_i r hr
                  exact ih _ (step1 ko r.1 r.2 hk) hres
          · split at hres
            · split at hres
              · cases hres
              · rename_i ko hk
                split at hres
                · cases hres
                · split at hres
                  · rename_i e he
                    cases hres
                    exact emit_fuel _ _ _ _ he
                  · rename_i r hr
                    exact ih _ (step2 ko r.1 r.2 hk) hres
            · split at hres
              · rename_i ko1 ko2 hk1 hk2
                split at hres
                · split at hres
                  · rename_i e he
                    cases hres
                    exact emit_fuel _ _ _ _ he
                  · rename_i r hr
                    exact ih _ (step3 ko1 r.1 r.2 hk1) hres
                · exact ih _ (step3 ko1 st2.outputPage st2.mergedSST hk1) hres
              · cases hres
    · cases hres

end LSMTree

namespace LSMTree

theorem mergeTwoSSTs_fuel (sst1 sst2 : Option File) (isLargestLevel : Bool) :
    mergeTwoSSTs sst1 sst2 isLargestLevel ≠ .error .outOfFuel := by
  intro h
  unfold mergeTwoSSTs at h
  split at h
  · rename_i f1 f2
    dsimp only at h
    split at h
    · cases h
    · split at h
      · cases h
      · rename_i hr
        simp only [not_or, not_not] at hr
        have hf1 := pread_full f1 zeroBytes (SST_METADATA_SIZE + PAGE_SIZE) hr.1
        have hf2 := pread_full f2 zeroBytes (SST_METADATA_SIZE + PAGE_SIZE) hr.2
        split at h
        · rename_i e he
          cases h
          have := readKeyOffsets_error _ _ _ _ he
          cases this
        · rename_i keys1 hk1
          split at h
          · rename_i e he
            cases h
            have := readKeyOffsets_error _ _ _ _ he
            cases this
          · rename_i keys2 hk2
            have l1 := readKeyOffsets_length _ _ _ _ hk1
            have l2 := readKeyOffsets_length _ _ _ _ hk2
            split at h
            · rename_i e he
              cases h
              refine mergeLoop_fuel _ _ _ _ _ _ _ ?_ he
              simp only [budget, SST_METADATA_SIZE, PAGE_SIZE] at hf1 hf2 ⊢
              omega
            · split at h
              · exact SST.addPage_fuel _ _ h
              · cases h
  · cases h

theorem parseInteger_error (s : String) (e : Fault) (h : parseInteger s = .error e) :
    e = .invalidArgument := by
  unfold parseInteger at h
  split at h <;> dsimp only at h <;> split at h
  all_goals first
    | (cases h; rfl)
    | cases h

theorem stoi_error (s : String) (e : Fault) (h : stoi s = .error e) : e = .invalidArgument := by
  unfold stoi at h
  split at h
  · rename_i e1 he
    cases h
    exact parseInteger_error _ _ he
  · split at h
    · cases h; rfl
    · cases h

theorem extractNumericSuffix_error (filename : String) (e : Fault)
    (h : extractNumericSuffix filename = .error e) : e = .invalidArgument := by
  unfold extractNumericSuffix at h
  dsimp only at h
  split at h
  · cases h; rfl
  · exact stoi_error _ _ h

theorem getD_append_replicate (l : List (List String)) (k i : Nat) :
    (l ++ List.replicate k []).getD i [] = l.getD i [] := by
  simp only [List.getD_eq_getElem?_getD, List.getElem?_append, List.getElem?_replicate]
  split
  · rfl
  · rename_i h
    rw [List.getElem?_eq_none (by omega)]
    split <;> rfl

theorem getD_set (l : List (List String)) (j i : Nat) (x : List String) :
    (l.set j x).getD i [] = if i = j ∧ j < l.length then x else l.getD i [] := by
  simp only [List.getD_eq_getElem?_getD, List.getElem?_set]
  by_cases h : j = i
  · subst h
    by_cases h2 : j < l.length
    · simp [h2]
    · rw [List.getElem?_eq_none (by omega)]
      simp [h2]
  · have : ¬ i = j := fun e => h e.symm
    simp [h, this]

theorem getD_modify (l : List (List String)) (j i : Nat) (x : String) :
    (l.modify (fun l => l ++ [x]) j).getD i [] =
      if i = j ∧ j < l.length then l.getD i [] ++ [x] else l.getD i [] := by
  simp only [List.getD_eq_getElem?_getD, List.getElem?_modify]
  by_cases h : j = i
  · subst h
    by_cases h2 : j < l.length
    · simp [h2]
    · rw [List.getElem?_eq_none (by omega)]
      simp [h2]
  · have : ¬ i = j := fun e => h e.symm
    simp only [h, this, if_false, false_and]
    cases l[i]? <;> rfl

theorem getD_ensureLevelExists (t : LSMTree) (level i : Nat) :
    (t.ensureLevelExists level).levels.getD i [] = t.levels.getD i [] :=
  getD_append_replicate _ _ _

theorem length_ensureLevelExists (t : LSMTree) (level : Nat) :
    (t.ensureLevelExists level).levels.length = max t.levels.length (level + 1) := by
  simp only [ensureLevelExists, List.length_append, List.length_replicate]
  omega

theorem getD_length_pos (l : List (List String)) (i : Nat) (h : 0 < (l.getD i []).length) :
    i < l.length := by
  by_contra hc
  rw [List.getD_eq_getElem?_getD, List.getElem?_eq_none (by omega)] at h
  simp at h

theorem levels_iff (l : List (List String)) (b : Nat) (hb : 0 < b) :
    (∀ x ∈ l, x.length < b) ↔ ∀ i, (l.getD i []).length < b := by
  constructor
  · intro h i
    by_cases hi : i < l.length
    · rw [List.getD_eq_getElem?_getD, List.getElem?_eq_getElem hi]
      exact h _ (List.getElem_mem _)
    · rw [List.getD_eq_getElem?_getD, List.getElem?_eq_none (by omega)]
      simpa using hb
  · intro h x hx
    obtain ⟨i, hi, rfl⟩ := List.getElem_of_mem hx
    have := h i
    rw [List.getD_eq_getElem?_getD, List.getElem?_eq_getElem hi] at this
    exact this

end LSMTree

/-! ## The level lists under `addSST` -/

namespace LSMTree

/-- Function `mergeLevels` with ratio 2, called on a level of at most two files
while every other level holds fewer than two: the fuel that `compact` gives is
enough, and when the call returns every level holds fewer than two files. -/
theorem mergeLevels_spec (fuel : Nat) :
    ∀ (t : LSMTree) (fs : FileSystem) (level : Nat), t.levelSizeRatio = 2 →
      (∀ i, i ≠ level → (t.levels.getD i []).length < 2) →
      (t.levels.getD level []).length ≤ 2 → 1 ≤ fuel → t.levels.length + 1 ≤ fuel + level →
      mergeLevels fuel t fs level ≠ .error .outOfFuel ∧
      ∀ t' fs', mergeLevels fuel t fs level = .ok (t', fs') →
        t'.levelSizeRatio = 2 ∧ ∀ i, (t'.levels.getD i []).length < 2 := by
  induction fuel with
  | zero => intro t fs level _ _ _ h; omega
  | succ fuel ih =>
    intro t fs level hR hothers hlevel _ hfuel
    rw [mergeLevels]
    dsimp only
    have hR1 : (t.ensureLevelExists (level + 1)).levelSizeRatio = 2 := hR
    have hg : ∀ i, (t.ensureLevelExists (level + 1)).levels.getD i [] = t.levels.getD i [] :=
      fun i => getD_ensureLevelExists t (level + 1) i
    have hlen := length_ensureLevelExists t (level + 1)
    split
    · rename_i hne
      refine ⟨by simp, fun t' fs' h => ?_⟩
      simp only [Except.ok.injEq, Prod.mk.injEq] at h
      obtain ⟨rfl, -⟩ := h
      refine ⟨hR1, fun i => ?_⟩
      rw [hg]
      by_cases hi : i = level
      · subst hi
        rw [hg, hR1] at hne
        omega
      · exact hothers i hi
    · rename_i heq
      split
      · rename_i n1 n2 hn1 hn2
        split
        · rename_i e he
          refine ⟨?_, fun t' fs' h => by cases h⟩
          intro h
          cases h
          exact mergeTwoSSTs_fuel _ _ _ he
        · rename_i mergedSST hm
          split
          · rename_i s1 s2 hs1 hs2
            split
            · rename_i e he
              refine ⟨?_, fun t' fs' h => by cases h⟩
              intro h
              cases h
              exact SST.writeToFile_fuel _ he
            · rename_i file hw
              -- the level lists after the merge
              generalize (t.ensureLevelExists (level + 1)).db_name ++ "/sst_" ++
                (if s1 < s2 then to_string s1 ++ "_" ++ to_string s2
                  else to_string s2 ++ "_" ++ to_string s1) ++ ".sst" = merged_filename
              have hL : ∀ i, (((t.ensureLevelExists (level + 1)).levels.set level []).modify
                  (fun l => l ++ [merged_filename]) (level + 1)).getD i [] =
                  if i = level + 1 then t.levels.getD i [] ++ [merged_filename]
                  else if i = level then [] else t.levels.getD i [] := by
                intro i
                rw [getD_modify, getD_set, List.length_set, hlen, hg]
                by_cases h1 : i = level + 1
                · subst h1
                  rw [if_pos ⟨rfl, by omega⟩, if_neg (by omega), if_pos rfl]
                · rw [if_neg (fun h => h1 h.1), if_neg h1]
                  by_cases h2 : i = level
                  · subst h2
                    rw [if_pos ⟨rfl, by omega⟩, if_pos rfl]
                  · rw [if_neg (fun h => h2 h.1), if_neg h2]
              have hnext : (t.levels.getD (level + 1) []).length < 2 := hothers _ (by omega)
              split
              · rename_i hfull
                rw [hL, if_pos rfl, List.length_append] at hfull
                simp only [List.length_singleton] at hfull
                have hpos : level + 1 < t.levels.length :=
                  getD_length_pos _ _ (by omega)
                apply ih
                · exact hR
                · intro i hi
                  rw [hL, if_neg hi]
                  split
                  · simp
                  · rename_i h2
                    exact hothers i h2
                · rw [hL, if_pos rfl, List.length_append]
                  simp only [List.length_singleton]
                  omega
                · omega
                · simp only [List.length_modify, List.length_set, hlen]
                  omega
              · rename_i hnot
                rw [hL, if_pos rfl, List.length_append] at hnot
                simp only [List.length_singleton] at hnot
                refine ⟨by simp, fun t' fs' h => ?_⟩
                simp only [Except.ok.injEq, Prod.mk.injEq] at h
                obtain ⟨rfl, -⟩ := h
                refine ⟨hR, fun i => ?_⟩
                show ((((t.ensureLevelExists (level + 1)).levels.set level []).modify _
                  (level + 1)).getD i []).length < 2
                rw [hL]
                split
                · rename_i h1
                  subst h1
                  rw [List.length_append]
                  simp only [List.length_singleton]
                  have : (t.ensureLevelExists (level + 1)).levelSizeRatio = 2 := hR
                  omega
                · split
                  · simp
                  · rename_i h2
                    exact hothers i h2
          · rename_i e he
            refine ⟨?_, fun t' fs' h => by cases h⟩
            intro h
            cases h
            have := extractNumericSuffix_error _ _ he
            cases this
          · rename_i e he _
            refine ⟨?_, fun t' fs' h => by cases h⟩
            intro h
            cases h
            have := extractNumericSuffix_error _ _ he
            cases this
      · rename_i e he
        refine ⟨?_, fun t' fs' h => by cases h⟩
        intro h
        cases h
        have := readAt_error _ _ _ he
        cases this
      · rename_i e he _
        refine ⟨?_, fun t' fs' h => by cases h⟩
        intro h
        cases h
        have := readAt_error _ _ _ he
        cases this

/-- Function `addSST` with ratio 2 on an index whose levels all hold fewer than
two files. -/
theorem addSST_spec (t : LSMTree) (fs : FileSystem) (sstFileName : String)
    (hR : t.levelSizeRatio = 2) (hinv : ∀ l ∈ t.levels, l.length < 2) :
    t.addSST fs sstFileName ≠ .error .outOfFuel ∧
    ∀ t' fs', t.addSST fs sstFileName = .ok (t', fs') →
      t'.levelSizeRatio = 2 ∧ ∀ l ∈ t'.levels, l.length < 2 := by
  have hget := (levels_iff t.levels 2 (by decide)).1 hinv
  have hL : ∀ i, (((t.ensureLevelExists 0).levels.modify (fun l => l ++ [sstFileName]) 0).getD
      i []) = if i = 0 then t.levels.getD i [] ++ [sstFileName] else t.levels.getD i [] := by
    intro i
    rw [getD_modify, length_ensureLevelExists, getD_ensureLevelExists]
    by_cases h0 : i = 0
    · subst h0
      rw [if_pos ⟨rfl, by omega⟩, if_pos rfl]
    · rw [if_neg (fun h => h0 h.1), if_neg h0]
  unfold addSST
  dsimp only
  split
  · have := mergeLevels_spec
      (((t.ensureLevelExists 0).levels.modify (fun l => l ++ [sstFileName]) 0).length + 2)
      { t.ensureLevelExists 0 with
        levels := (t.ensureLevelExists 0).levels.modify (fun l => l ++ [sstFileName]) 0 }
      fs 0 hR
      (by
        intro i hi
        show (((t.ensureLevelExists 0).levels.modify (fun l => l ++ [sstFileName]) 0).getD
          i []).length < 2
        rw [hL, if_neg hi]
        exact hget i)
      (by
        show (((t.ensureLevelExists 0).levels.modify (fun l => l ++ [sstFileName]) 0).getD
          0 []).length ≤ 2
        rw [hL, if_pos rfl, List.length_append]
        have := hget 0
        simp only [List.length_singleton]
        omega)
      (by omega) (by dsimp only; omega)
    refine ⟨this.1, fun t' fs' h => ?_⟩
    obtain ⟨h1, h2⟩ := this.2 t' fs' h
    exact ⟨h1, (levels_iff t'.levels 2 (by decide)).2 h2⟩
  · rename_i hne
    refine ⟨by simp, fun t' fs' h => ?_⟩
    simp only [Except.ok.injEq, Prod.mk.injEq] at h
    obtain ⟨rfl, -⟩ := h
    refine ⟨hR, (levels_iff _ 2 (by decide)).2 (fun i => ?_)⟩
    show (((t.ensureLevelExists 0).levels.modify (fun l => l ++ [sstFileName]) 0).getD
      i []).length < 2
    rw [hL] at hne ⊢
    split
    · rename_i h0
      subst h0
      rw [if_pos rfl] at hne
      have : (t.ensureLevelExists 0).levelSizeRatio = 2 := hR
      rw [this, List.length_append] at hne
      rw [List.length_append]
      have := hget 0
      simp only [List.length_singleton] at hne ⊢
      omega
    · exact hget i

end LSMTree

/-! ## Reading back what `memcpy` wrote -/

theorem readLE_congr (d d' : Bytes) (w : Nat) :
    ∀ off, (∀ i, off ≤ i → i < off + w → d i = d' i) → readLE d off w = readLE d' off w := by
  induction w with
  | zero => intro off _; rfl
  | succ w ih =>
    intro off h
    simp only [readLE]
    rw [h off (le_refl _) (by omega), ih (off + 1) (fun i h1 h2 => h i (by omega) (by omega))]

theorem readLE_lt (d : Bytes) (w : Nat) : ∀ off, readLE d off w < 256 ^ w := by
  induction w with
  | zero => intro off; simp [readLE]
  | succ w ih =>
    intro off
    simp only [readLE]
    have h1 := ih (off + 1)
    have h2 : d off % 256 < 256 := Nat.mod_lt _ (by decide)
    rw [pow_succ]
    omega

theorem readLE_writeLE_same (d : Bytes) (w : Nat) :
    ∀ off val, readLE (writeLE d off w val) off w = val % 256 ^ w := by
  induction w with
  | zero => intro off val; simp [readLE, Nat.mod_one]
  | succ w ih =>
    intro off val
    simp only [readLE]
    have h0 : writeLE d off (w + 1) val off = val % 256 := by
      simp [writeLE]
    have h1 : readLE (writeLE d off (w + 1) val) (off + 1) w =
        readLE (writeLE d (off + 1) w (val / 256)) (off + 1) w := by
      apply readLE_congr
      intro i hi1 hi2
      simp only [writeLE]
      rw [if_pos ⟨by omega, by omega⟩, if_pos ⟨hi1, hi2⟩]
      have : i - off = (i - (off + 1)) + 1 := by omega
      rw [this, pow_succ, Nat.mul_comm, ← Nat.div_div_eq_div_mul]
    rw [h0, h1, ih, Nat.mod_mod, pow_succ', Nat.mod_mul]

theorem readLE_writeLE_disjoint (d : Bytes) (off w off2 w2 val : Nat)
    (h : off2 + w2 ≤ off ∨ off + w ≤ off2) :
    readLE (writeLE d off2 w2 val) off w = readLE d off w := by
  apply readLE_congr
  intro i h1 h2
  simp only [writeLE]
  rw [if_neg (by omega)]

theorem ofInt64_lt (x : Int) : ofInt64 x < 18446744073709551616 := by
  unfold ofInt64
  omega

theorem ofInt32_lt (x : Int) : ofInt32 x < 4294967296 := by
  unfold ofInt32
  omega

theorem toInt64_ofInt64 (x : Int) (h1 : INT64_MIN ≤ x) (h2 : x ≤ INT64_MAX) :
    toInt64 (ofInt64 x) = x := by
  unfold toInt64 ofInt64
  simp only [INT64_MIN, INT64_MAX] at h1 h2
  split <;> omega

theorem toInt32_ofInt32 (x : Int) (h1 : INT_MIN ≤ x) (h2 : x ≤ INT_MAX) :
    toInt32 (ofInt32 x) = x := by
  unfold toInt32 ofInt32
  simp only [INT_MIN, INT_MAX] at h1 h2
  split <;> omega

theorem readInt64_writeInt64_same (d : Bytes) (off : Nat) (x : Int) (h1 : INT64_MIN ≤ x)
    (h2 : x ≤ INT64_MAX) : readInt64 (writeInt64 d off x) off = x := by
  unfold readInt64 writeInt64
  rw [readLE_writeLE_same, Nat.mod_eq_of_lt (by have := ofInt64_lt x; norm_num; exact this)]
  exact toInt64_ofInt64 x h1 h2

theorem readInt32_writeInt32_same (d : Bytes) (off : Nat) (x : Int) (h1 : INT_MIN ≤ x)
    (h2 : x ≤ INT_MAX) : readInt32 (writeInt32 d off x) off = x := by
  unfold readInt32 writeInt32
  rw [readLE_writeLE_same, Nat.mod_eq_of_lt (by have := ofInt32_lt x; norm_num; exact this)]
  exact toInt32_ofInt32 x h1 h2

theorem readInt64_writeInt64_disjoint (d : Bytes) (off off2 : Nat) (x : Int)
    (h : off2 + 8 ≤ off ∨ off + 8 ≤ off2) :
    readInt64 (writeInt64 d off2 x) off = readInt64 d off := by
  unfold readInt64 writeInt64
  rw [readLE_writeLE_disjoint _ _ _ _ _ _ h]

theorem readInt64_writeInt32_disjoint (d : Bytes) (off off2 : Nat) (x : Int)
    (h : off2 + 4 ≤ off ∨ off + 8 ≤ off2) :
    readInt64 (writeInt32 d off2 x) off = readInt64 d off := by
  unfold readInt64 writeInt32
  rw [readLE_writeLE_disjoint _ _ _ _ _ _ h]

theorem readInt32_writeInt64_disjoint (d : Bytes) (off off2 : Nat) (x : Int)
    (h : off2 + 8 ≤ off ∨ off + 4 ≤ off2) :
    readInt32 (writeInt64 d off2 x) off = readInt32 d off := by
  unfold readInt32 writeInt64
  rw [readLE_writeLE_disjoint _ _ _ _ _ _ h]

theorem readInt32_writeInt32_disjoint (d : Bytes) (off off2 : Nat) (x : Int)
    (h : off2 + 4 ≤ off ∨ off + 4 ≤ off2) :
    readInt32 (writeInt32 d off2 x) off = readInt32 d off := by
  unfold readInt32 writeInt32
  rw [readLE_writeLE_disjoint _ _ _ _ _ _ h]

theorem readInt64_congr (d d' : Bytes) (off : Nat)
    (h : ∀ i, off ≤ i → i < off + 8 → d i = d' i) : readInt64 d off = readInt64 d' off := by
  unfold readInt64
  rw [readLE_congr d d' 8 off h]

theorem readInt32_congr (d d' : Bytes) (off : Nat)
    (h : ∀ i, off ≤ i → i < off + 4 → d i = d' i) : readInt32 d off = readInt32 d' off := by
  unfold readInt32
  rw [readLE_congr d d' 4 off h]

/-! ## The layout of a page -/

theorem writeLE_outside (d : Bytes) (off w val i : Nat) (h : i < off ∨ off + w ≤ i) :
    writeLE d off w val i = d i := by
  simp only [writeLE]
  rw [if_neg (by omega)]

theorem writeInt64_outside (d : Bytes) (off : Nat) (x : Int) (i : Nat) (h : i < off ∨ off + 8 ≤ i) :
    writeInt64 d off x i = d i := writeLE_outside d off 8 _ i h

theorem writeInt32_outside (d : Bytes) (off : Nat) (x : Int) (i : Nat) (h : i < off ∨ off + 4 ≤ i) :
    writeInt32 d off x i = d i := writeLE_outside d off 4 _ i h

namespace Page

/-- The loop of `addEntry` over `keys` leaves the bytes outside the directory. -/
theorem writeKeys_outside (keys : List KeyOffset) :
    ∀ (off : Nat) (data : Bytes) (i : Nat), i < off ∨ off + 12 * keys.length ≤ i →
      writeKeys keys off data i = data i := by
  induction keys with
  | nil => intro off data i _; rfl
  | cons ko rest ih =>
    intro off data i h
    simp only [writeKeys, List.length_cons] at h ⊢
    rw [ih (off + 12) _ i (by omega), writeInt32_outside _ _ _ _ (by omega),
      writeInt64_outside _ _ _ _ (by omega)]

/-- The loop of `addEntry` over `keys` serialises entry `j` at `off + 12 * j`. -/
theorem writeKeys_read (keys : List KeyOffset) :
    ∀ (off : Nat) (data : Bytes) (j : Nat) (ko : KeyOffset), keys[j]? = some ko →
      (∀ k ∈ keys, IsInt64 k.key ∧ INT_MIN ≤ k.valueOffset ∧ k.valueOffset ≤ INT_MAX) →
      readInt64 (writeKeys keys off data) (off + 12 * j) = ko.key ∧
      readInt32 (writeKeys keys off data) (off + 12 * j + 8) = ko.valueOffset := by
  induction keys with
  | nil => intro off data j ko h; simp at h
  | cons k rest ih =>
    intro off data j ko h hr
    simp only [writeKeys]
    cases j with
    | zero =>
      simp only [List.getElem?_cons_zero, Option.some.injEq] at h
      subst h
      have hk := hr k (List.mem_cons_self _ _)
      simp only [Nat.mul_zero, Nat.add_zero]
      constructor
      · rw [readInt64_congr _ (writeInt32 (writeInt64 data off k.key) (off + 8) k.valueOffset) _
          (fun i h1 h2 => writeKeys_outside rest _ _ i (by omega)),
          readInt64_writeInt32_disjoint _ _ _ _ (by omega),
          readInt64_writeInt64_same _ _ _ hk.1.1 hk.1.2]
      · rw [readInt32_congr _ (writeInt32 (writeInt64 data off k.key) (off + 8) k.valueOffset) _
          (fun i h1 h2 => writeKeys_outside rest _ _ i (by omega))]
        exact readInt32_writeInt32_same _ _ _ hk.2.1 hk.2.2
    | succ j =>
      simp only [List.getElem?_cons_succ] at h
      have := ih (off + 12) (writeInt32 (writeInt64 data off k.key) (off + 8) k.valueOffset) j ko h
        (fun x hx => hr x (List.mem_cons_of_mem _ hx))
      have e : off + 12 * (j + 1) = off + 12 + 12 * j := by omega
      rw [e]
      exact this

theorem holds_new : Holds Page.new [] where
  len := by simp
  numEntries := rfl
  freeSpace := rfl
  startingKey := rfl
  keysKey := rfl
  keysOffset := rfl
  header := fun h => absurd rfl h
  dir := by intro i kv h; simp at h
  vals := by intro i kv h; simp at h
  blank := fun _ _ => rfl


theorem holds_addEntry (p : Page) (es : List (Int × Int)) (key value : Int)
    (h : Holds p es) (hlt : es.length < 204) (hk : IsInt64 key) (hv : IsInt64 value)
    (hks : ∀ kv ∈ es, IsInt64 kv.1) :
    (p.addEntry key value).1 = true ∧ Holds (p.addEntry key value).2 (es ++ [(key, value)]) := by
  have hn := h.numEntries
  have hf := h.freeSpace
  have hfit : ¬ ((8 : Int) + 4 + 8 > p.freeSpace) := by rw [hf]; omega
  have hvo : ((PAGE_SIZE : Int) - 8 * (p.numEntries + 1)).toNat = 4096 - 8 * (es.length + 1) := by
    rw [hn]; simp only [PAGE_SIZE]; omega
  have hkeys : ∀ k ∈ p.keys ++ [({ key := key, valueOffset := (PAGE_SIZE : Int) - 8 * (p.numEntries + 1) } : KeyOffset)],
      IsInt64 k.key ∧ INT_MIN ≤ k.valueOffset ∧ k.valueOffset ≤ INT_MAX := by
    intro k hk1
    rcases List.mem_append.1 hk1 with hk2 | hk2
    · constructor
      · have : k.key ∈ p.keys.map (fun ko => ko.key) := List.mem_map_of_mem _ hk2
        rw [h.keysKey] at this
        obtain ⟨kv, hkv, e⟩ := List.mem_map.1 this
        rw [← e]; exact hks kv hkv
      · have : k.valueOffset ∈ p.keys.map (fun ko => ko.valueOffset) := List.mem_map_of_mem _ hk2
        rw [h.keysOffset] at this
        obtain ⟨i, hi, e⟩ := List.mem_map.1 this
        have hi2 := List.mem_range.1 hi
        rw [← e]; simp only [INT_MIN, INT_MAX]; omega
    · simp only [List.mem_singleton] at hk2
      subst hk2
      refine ⟨hk, ?_, ?_⟩
      · show INT_MIN ≤ (PAGE_SIZE : Int) - 8 * (p.numEntries + 1)
        rw [hn]; simp only [INT_MIN, PAGE_SIZE]; omega
      · show (PAGE_SIZE : Int) - 8 * (p.numEntries + 1) ≤ INT_MAX
        rw [hn]; simp only [INT_MAX, PAGE_SIZE]; omega
  have hklen : p.keys.length = es.length := by
    have := congrArg List.length h.keysKey
    simpa using this
  unfold addEntry
  simp only
  rw [if_neg hfit]
  refine ⟨rfl, ?_⟩
  simp only [hvo]
  constructor
  · simp only [List.length_append, List.length_singleton]; omega
  · show p.numEntries + 1 = _
    rw [hn]; simp
  · show p.freeSpace - (8 + 4 + 8) = _
    rw [hf]; simp only [List.length_append, List.length_singleton]; push_cast; omega
  · show (if p.numEntries = 0 then key else p.startingKey) = _
    cases es with
    | nil => simp at hn; simp [hn]
    | cons e rest =>
      have : p.numEntries ≠ 0 := by rw [hn]; simp only [List.length_cons]; omega
      rw [if_neg this, h.startingKey]; rfl
  · show (p.keys ++ [_]).map _ = _
    rw [List.map_append, h.keysKey, List.map_append]; rfl
  · show (p.keys ++ [_]).map _ = _
    rw [List.map_append, h.keysOffset, List.length_append, List.length_singleton,
      List.range_succ, List.map_append, hn]; rfl
  · intro _
    show readInt32 (writeKeys _ 16 _) 0 = p.numEntries + 1 ∧
      readInt64 (writeKeys _ 16 _) 4 = (if p.numEntries = 0 then key else p.startingKey) ∧
      readInt32 (writeKeys _ 16 _) 12 = p.freeSpace - (8 + 4 + 8)
    have hsk : IsInt64 (if p.numEntries = 0 then key else p.startingKey) := by
      split
      · exact hk
      · rw [h.startingKey]
        cases es with
        | nil => simp only [List.head?_nil]; simp [IsInt64, INT64_MIN, INT64_MAX]
        | cons e rest => exact hks e (List.mem_cons_self _ _)
    refine ⟨?_, ?_, ?_⟩
    · rw [readInt32_congr _ _ _ (fun i h1 h2 => writeKeys_outside _ _ _ i (by omega)),
        readInt32_writeInt32_disjoint _ _ _ _ (by omega),
        readInt32_writeInt64_disjoint _ _ _ _ (by omega),
        readInt32_writeInt32_same]
      · rw [hn]; simp only [INT_MIN]; omega
      · rw [hn]; simp only [INT_MAX]; omega
    · rw [readInt64_congr _ _ _ (fun i h1 h2 => writeKeys_outside _ _ _ i (by omega)),
        readInt64_writeInt32_disjoint _ _ _ _ (by omega),
        readInt64_writeInt64_same _ _ _ hsk.1 hsk.2]
    · rw [readInt32_congr _ _ _ (fun i h1 h2 => writeKeys_outside _ _ _ i (by omega)),
        readInt32_writeInt32_same]
      · rw [hf]; simp only [INT_MIN]; omega
      · rw [hf]; simp only [INT_MAX]; omega
  · intro i kv hi
    have hil : i < es.length + 1 := by
      have := (List.getElem?_eq_some_iff.1 hi).1
      simpa using this
    have hget : ∃ ko, (p.keys ++ [({ key := key, valueOffset := (PAGE_SIZE : Int) - 8 * (p.numEntries + 1) } : KeyOffset)])[i]? = some ko := by
      have : i < (p.keys ++ [({ key := key, valueOffset := (PAGE_SIZE : Int) - 8 * (p.numEntries + 1) } : KeyOffset)]).length := by
        simp only [List.length_append, List.length_singleton]; omega
      exact ⟨_, List.getElem?_eq_getElem this⟩
    obtain ⟨ko, hko⟩ := hget
    have hr := writeKeys_read _ 16 (writeInt32 (writeInt64 (writeInt32 (writeInt64 p.data (4096 - 8 * (es.length + 1)) value) 0 (p.numEntries + 1)) 4 (if p.numEntries = 0 then key else p.startingKey)) 12 (p.freeSpace - (8 + 4 + 8))) i ko hko hkeys
    have e1 : ko.key = kv.1 := by
      have a : ((p.keys ++ [({ key := key, valueOffset := (PAGE_SIZE : Int) - 8 * (p.numEntries + 1) } : KeyOffset)]).map (fun ko => ko.key))[i]? = some ko.key := by
        rw [List.getElem?_map, hko]; rfl
      have b : ((es ++ [(key, value)]).map Prod.fst)[i]? = some kv.1 := by
        rw [List.getElem?_map, hi]; rfl
      rw [List.map_append, h.keysKey] at a
      rw [List.map_append] at b
      change (List.map Prod.fst es ++ [key])[i]? = some ko.key at a
      change (List.map Prod.fst es ++ [key])[i]? = some kv.1 at b
      rw [b] at a
      exact (Option.some.inj a).symm
    have e2 : ko.valueOffset = (4096 : Int) - 8 * ((i : Int) + 1) := by
      have a : ((p.keys ++ [({ key := key, valueOffset := (PAGE_SIZE : Int) - 8 * (p.numEntries + 1) } : KeyOffset)]).map (fun ko => ko.valueOffset))[i]? = some ko.valueOffset := by
        rw [List.getElem?_map, hko]; rfl
      rw [List.map_append, h.keysOffset] at a
      have c : (List.map (fun (i : Nat) => (4096 : Int) - 8 * ((i : Int) + 1)) (List.range es.length) ++
          List.map (fun ko => ko.valueOffset) [({ key := key, valueOffset := (PAGE_SIZE : Int) - 8 * (p.numEntries + 1) } : KeyOffset)]) =
          (List.range (es.length + 1)).map (fun (i : Nat) => (4096 : Int) - 8 * ((i : Int) + 1)) := by
        rw [List.range_succ, List.map_append, hn]; rfl
      rw [c, List.getElem?_map, List.getElem?_range hil] at a
      exact (Option.some.inj a).symm
    rw [← e1, ← e2]
    exact hr
  · intro i kv hi
    have hil : i < es.length + 1 := by
      have := (List.getElem?_eq_some_iff.1 hi).1
      simpa using this
    show readInt64 (writeKeys _ 16 _) (4096 - 8 * (i + 1)) = kv.2
    have hkl : (p.keys ++ [({ key := key, valueOffset := (PAGE_SIZE : Int) - 8 * (p.numEntries + 1) } : KeyOffset)]).length = es.length + 1 := by
      simp only [List.length_append, List.length_singleton]; omega
    rw [readInt64_congr _ _ _ (fun j h1 h2 => writeKeys_outside _ _ _ j (by rw [hkl]; omega)),
      readInt64_writeInt32_disjoint _ _ _ _ (by omega),
      readInt64_writeInt64_disjoint _ _ _ _ (by omega),
      readInt64_writeInt32_disjoint _ _ _ _ (by omega)]
    by_cases hie : i < es.length
    · rw [List.getElem?_append_left hie] at hi
      rw [readInt64_writeInt64_disjoint _ _ _ _ (by omega)]
      exact h.vals i kv hi
    · have hi0 : i = es.length := by omega
      subst hi0
      rw [List.getElem?_append_right (le_refl _)] at hi
      simp only [Nat.sub_self, List.getElem?_cons_zero, Option.some.injEq] at hi
      subst hi
      exact readInt64_writeInt64_same _ _ _ hv.1 hv.2
  · intro i hi
    show writeKeys _ 16 _ i = 0
    have hkl : (p.keys ++ [({ key := key, valueOffset := (PAGE_SIZE : Int) - 8 * (p.numEntries + 1) } : KeyOffset)]).length = es.length + 1 := by
      simp only [List.length_append, List.length_singleton]; omega
    simp only [List.length_append, List.length_singleton] at hi
    rw [writeKeys_outside _ _ _ i (by rw [hkl]; omega),
      writeInt32_outside _ _ _ _ (by omega), writeInt64_outside _ _ _ _ (by omega),
      writeInt32_outside _ _ _ _ (by omega), writeInt64_outside _ _ _ _ (by omega)]
    exact h.blank i (by omega)

end Page

namespace Page

theorem holds_rejected (p : Page) (es : List (Int × Int)) (key value : Int)
    (h : Holds p es) (hfull : es.length = 204) : p.addEntry key value = (false, p) := by
  apply addEntry_rejected
  rw [h.freeSpace, hfull]; omega

/-- A sequence of `addEntry` calls extends the accepted entries until there are 204. -/
theorem holds_addEntries_from (kvs : List (Int × Int)) :
    ∀ (p : Page) (es : List (Int × Int)), Holds p es →
      (∀ kv ∈ es, IsInt64 kv.1) → (∀ kv ∈ kvs, IsInt64 kv.1 ∧ IsInt64 kv.2) →
      Holds (addEntries kvs p).2 (es ++ kvs.take (204 - es.length)) := by
  induction kvs with
  | nil => intro p es h _ _; simpa [addEntries] using h
  | cons kv rest ih =>
    intro p es h hes hkvs
    simp only [addEntries]
    have hkv := hkvs kv (List.mem_cons_self _ _)
    have hrest : ∀ x ∈ rest, IsInt64 x.1 ∧ IsInt64 x.2 := fun x hx => hkvs x (List.mem_cons_of_mem _ hx)
    by_cases hlt : es.length < 204
    · have h1 := (holds_addEntry p es kv.1 kv.2 h hlt hkv.1 hkv.2 hes).2
      have h2 := ih _ _ h1 (by
        intro x hx
        rcases List.mem_append.1 hx with hx | hx
        · exact hes x hx
        · simp only [List.mem_singleton] at hx; subst hx; exact hkv.1) hrest
      have e : 204 - es.length = (204 - (es ++ [(kv.1, kv.2)]).length) + 1 := by
        simp only [List.length_append, List.length_singleton]; omega
      rw [e, List.take_succ_cons]
      simpa using h2
    · have hfull : es.length = 204 := by have := h.len; omega
      rw [holds_rejected p es kv.1 kv.2 h hfull]
      have h2 := ih p es h hes hrest
      rw [hfull] at h2 ⊢
      simpa using h2

/-- The page left by a sequence of `addEntry` calls on a fresh page holds the
first 204 entries of the sequence. -/
theorem holds_addEntries (kvs : List (Int × Int)) (hkvs : ∀ kv ∈ kvs, IsInt64 kv.1 ∧ IsInt64 kv.2) :
    Holds (addEntries kvs Page.new).2 (kvs.take 204) := by
  have := holds_addEntries_from kvs Page.new [] holds_new (by simp) hkvs
  simpa using this

theorem lookup_none (target : Int) (es : List (Int × Int)) (h : ∀ kv ∈ es, kv.1 ≠ target) :
    lookup target es = -1 := by
  unfold lookup
  have : es.find? (fun kv => decide (kv.1 = target)) = none := by
    rw [List.find?_eq_none]
    intro x hx; simpa using h x hx
  rw [this]

theorem lookup_some (target : Int) (es : List (Int × Int)) (hs : es.Pairwise (fun a b => a.1 < b.1))
    (kv : Int × Int) (hm : kv ∈ es) (hk : kv.1 = target) : lookup target es = kv.2 := by
  unfold lookup
  induction es with
  | nil => simp at hm
  | cons e rest ih =>
    rw [List.pairwise_cons] at hs
    rcases List.mem_cons.1 hm with he | hr
    · subst he
      simp [List.find?, hk]
    · have hne : e.1 ≠ target := by
        have := hs.1 kv hr
        omega
      have : (e :: rest).find? (fun kv => decide (kv.1 = target)) =
          rest.find? (fun kv => decide (kv.1 = target)) := by
        simp [List.find?, hne]
      rw [this]
      exact ih hs.2 hr

end Page

namespace KVStore

/-- The binary search of `searchInPage` over a page holding `es` with strictly
ascending keys: it ends within `high - low + 2` rounds with the value of the
target, or -1 when the keys of the window do not include it. -/
theorem directorySearch_holds (p : Page) (es : List (Int × Int)) (target : Int)
    (h : Page.Holds p es) (hs : es.Pairwise (fun a b => a.1 < b.1)) :
    ∀ (fuel : Nat) (low high : Int), 0 ≤ low → high < es.length → low ≤ high + 1 →
      high - low + 1 < fuel →
      (∀ (j : Nat) (kv : Int × Int), es[j]? = some kv → (j : Int) < low → kv.1 < target) →
      (∀ (j : Nat) (kv : Int × Int), es[j]? = some kv → high < (j : Int) → target < kv.1) →
      directorySearch p.data target fuel low high = .ok (Page.lookup target es) := by
  intro fuel
  induction fuel with
  | zero => intro low high _ _ _ hf; omega
  | succ fuel ih =>
    intro low high h0 hh hlh hf hlo hhi
    unfold directorySearch
    by_cases hle : low ≤ high
    · rw [if_pos hle]
      simp only
      have hmid1 : low ≤ low + (high - low) / 2 := by omega
      have hmid2 : low + (high - low) / 2 ≤ high := by omega
      obtain ⟨m, hm⟩ : ∃ m : Nat, low + (high - low) / 2 = (m : Int) :=
        ⟨(low + (high - low) / 2).toNat, by omega⟩
      rw [hm]
      have hml : m < es.length := by omega
      have hlen := h.len
      have hget : es[m]? = some es[m] := List.getElem?_eq_getElem hml
      have hd := h.dir m es[m] hget
      have hv := h.vals m es[m] hget
      have e1 : 16 + (m : Int).toNat * 12 = 16 + 12 * m := by simp only [Int.toNat_ofNat]; omega
      rw [e1, hd.1, hd.2]
      by_cases heq : es[m].1 = target
      · rw [if_pos heq, if_pos (by simp only [PAGE_SIZE]; omega)]
        have e2 : ((4096 : Int) - 8 * ((m : Int) + 1)).toNat = 4096 - 8 * (m + 1) := by omega
        rw [e2, hv, Page.lookup_some target es hs es[m] (List.getElem_mem _) heq]
      · rw [if_neg heq]
        have hmono : ∀ (a b : Nat) (x y : Int × Int), es[a]? = some x → es[b]? = some y → a < b → x.1 < y.1 := by
          intro a b x y hx hy hab
          have ha := (List.getElem?_eq_some_iff.1 hx)
          have hb := (List.getElem?_eq_some_iff.1 hy)
          obtain ⟨ha1, ha2⟩ := ha
          obtain ⟨hb1, hb2⟩ := hb
          rw [← ha2, ← hb2]
          exact List.pairwise_iff_getElem.1 hs a b ha1 hb1 hab
        by_cases hlt : es[m].1 < target
        · rw [if_pos hlt]
          apply ih
          · omega
          · exact hh
          · omega
          · omega
          · intro j kv hj hjl
            by_cases hjm : j = m
            · subst hjm
              rw [hget] at hj
              rw [← Option.some.inj hj]; exact hlt
            · have := hmono j m kv es[m] hj hget (by omega)
              omega
          · exact hhi
        · rw [if_neg hlt]
          have hgt : target < es[m].1 := by omega
          apply ih
          · exact h0
          · omega
          · omega
          · omega
          · exact hlo
          · intro j kv hj hjl
            by_cases hjm : j = m
            · subst hjm
              rw [hget] at hj
              rw [← Option.some.inj hj]; exact hgt
            · have := hmono m j es[m] kv hget hj (by omega)
              omega
    · rw [if_neg hle]
      rw [Page.lookup_none]
      intro kv hkv
      obtain ⟨j, hj1, hj2⟩ := List.getElem_of_mem hkv
      have hget : es[j]? = some kv := by rw [List.getElem?_eq_getElem hj1, hj2]
      by_cases hjl : (j : Int) < low
      · have := hlo j kv hget hjl; omega
      · have := hhi j kv hget (by omega); omega

/-- Lookup in a page holding `es`: the value of the target or -1. -/
theorem searchInPage_holds (p : Page) (es : List (Int × Int)) (target : Int)
    (h : Page.Holds p es) (hne : es ≠ []) (hs : es.Pairwise (fun a b => a.1 < b.1)) :
    searchInPage p.data target = .ok (Page.lookup target es) := by
  unfold searchInPage
  simp only
  have hpos : 0 < es.length := List.length_pos.2 hne
  rw [(h.header hne).1, h.numEntries, if_neg (by omega)]
  apply directorySearch_holds p es target h hs
  · omega
  · omega
  · omega
  · omega
  · intro j kv _ hj; omega
  · intro j kv hj hh
    have := (List.getElem?_eq_some_iff.1 hj).1
    omega

end KVStore

/-! ## The block of a tree node -/

namespace BTree

namespace Node

theorem writePairs_fst (offsets : List Int) (ks : List Int) :
    ∀ (i off : Nat) (data : Bytes), (writePairs offsets ks i off data).1 = off + 16 * ks.length := by
  induction ks with
  | nil => intro i off data; rfl
  | cons k rest ih =>
    intro i off data
    simp only [writePairs, List.length_cons]
    rw [ih]; omega

/-- The loop of `updateData` leaves the bytes outside the pairs. -/
theorem writePairs_outside (offsets : List Int) (ks : List Int) :
    ∀ (i off : Nat) (data : Bytes) (j : Nat), j < off ∨ off + 16 * ks.length ≤ j →
      (writePairs offsets ks i off data).2 j = data j := by
  induction ks with
  | nil => intro i off data j _; rfl
  | cons k rest ih =>
    intro i off data j h
    simp only [writePairs, List.length_cons] at h ⊢
    rw [ih (i + 1) (off + 16) _ j (by omega), writeInt64_outside _ _ _ _ (by omega),
      writeInt64_outside _ _ _ _ (by omega)]

/-- The loop of `updateData` serialises pair `j` at `off + 16 * j`. -/
theorem writePairs_read (offsets : List Int) (ho : ∀ o ∈ offsets, IsInt64 o) (ks : List Int) :
    ∀ (i off : Nat) (data : Bytes) (j : Nat) (k : Int), ks[j]? = some k →
      (∀ x ∈ ks, IsInt64 x) →
      readInt64 (writePairs offsets ks i off data).2 (off + 16 * j) = offsets.getD (i + j) 0 ∧
      readInt64 (writePairs offsets ks i off data).2 (off + 16 * j + 8) = k := by
  have hgetD : ∀ n, IsInt64 (offsets.getD n 0) := by
    intro n
    rw [List.getD_eq_getElem?_getD]
    cases hn : offsets[n]? with
    | none => simp [IsInt64, INT64_MIN, INT64_MAX]
    | some o => exact ho o (List.getElem?_mem hn)
  induction ks with
  | nil => intro i off data j k h; simp at h
  | cons x rest ih =>
    intro i off data j k h hr
    simp only [writePairs]
    cases j with
    | zero =>
      simp only [List.getElem?_cons_zero, Option.some.injEq] at h
      subst h
      have hx := hr x (List.mem_cons_self _ _)
      simp only [Nat.mul_zero, Nat.add_zero]
      constructor
      · rw [readInt64_congr _ (writeInt64 (writeInt64 data off (offsets.getD i 0)) (off + 8) x) _
          (fun a h1 h2 => writePairs_outside offsets rest _ _ _ a (by omega)),
          readInt64_writeInt64_disjoint _ _ _ _ (by omega),
          readInt64_writeInt64_same _ _ _ (hgetD i).1 (hgetD i).2]
      · rw [readInt64_congr _ (writeInt64 (writeInt64 data off (offsets.getD i 0)) (off + 8) x) _
          (fun a h1 h2 => writePairs_outside offsets rest _ _ _ a (by omega)),
          readInt64_writeInt64_same _ _ _ hx.1 hx.2]
    | succ j =>
      simp only [List.getElem?_cons_succ] at h
      have := ih (i + 1) (off + 16) (writeInt64 (writeInt64 data off (offsets.getD i 0)) (off + 8) x) j k h
        (fun y hy => hr y (List.mem_cons_of_mem _ hy))
      have e : off + 16 * (j + 1) = off + 16 + 16 * j := by omega
      have e2 : i + (j + 1) = i + 1 + j := by omega
      rw [e, e2]
      exact this

theorem updateData_eq (l : Bool) (ks : List Int) (cs : List Node) (os : List Int) (d : Bytes) :
    updateData (.mk l ks cs os d) = .mk l ks cs os
      (if (ks.length : Int) < (os.length : Int) then
        writeInt64 (writePairs os ks 0 8 (writeInt32 (writeInt32 d 0 ks.length) 4 os.length)).2
          (writePairs os ks 0 8 (writeInt32 (writeInt32 d 0 ks.length) 4 os.length)).1
          (os.getD ks.length 0)
      else (writePairs os ks 0 8 (writeInt32 (writeInt32 d 0 ks.length) 4 os.length)).2) := rfl

/-- What `updateData` leaves in the block of a node with at most 255 keys and
as many offsets as keys, or one more. -/
theorem updateData_reads (node : Node) (hn : node.keys.length ≤ 255)
    (hm : node.offsets.length = node.keys.length ∨ node.offsets.length = node.keys.length + 1)
    (hk : ∀ k ∈ node.keys, IsInt64 k) (ho : ∀ o ∈ node.offsets, IsInt64 o) :
    node.updateData.keys = node.keys ∧ node.updateData.offsets = node.offsets ∧
    node.updateData.children = node.children ∧ node.updateData.isLeaf = node.isLeaf ∧
    readInt32 node.updateData.data 0 = (node.keys.length : Int) ∧
    readInt32 node.updateData.data 4 = (node.offsets.length : Int) ∧
    (∀ (j : Nat) (k : Int), node.keys[j]? = some k →
      readInt64 node.updateData.data (8 + 16 * j + 8) = k) ∧
    (∀ (j : Nat) (o : Int), node.offsets[j]? = some o →
      readInt64 node.updateData.data (8 + 16 * j) = o) ∧
    (∀ j : Nat, 8 + 16 * node.keys.length + 8 * (node.offsets.length - node.keys.length) ≤ j →
      node.updateData.data j = node.data j) := by
  cases node with
  | mk l ks cs os d =>
    simp only [Node.keys, Node.offsets] at hn hm hk ho
    rw [updateData_eq]
    simp only [Node.keys, Node.offsets, Node.children, Node.isLeaf, Node.data, true_and]
    have hfst := writePairs_fst os ks 0 8 (writeInt32 (writeInt32 d 0 ks.length) 4 os.length)
    rw [hfst]
    have hout := writePairs_outside os ks 0 8 (writeInt32 (writeInt32 d 0 ks.length) 4 os.length)
    have hread := writePairs_read os ho ks 0 8 (writeInt32 (writeInt32 d 0 ks.length) 4 os.length)
    have hgetD : ∀ n, IsInt64 (os.getD n 0) := by
      intro n
      rw [List.getD_eq_getElem?_getD]
      cases hn : os[n]? with
      | none => simp [IsInt64, INT64_MIN, INT64_MAX]
      | some o => exact ho o (List.getElem?_mem hn)
    by_cases hlt : (ks.length : Int) < (os.length : Int)
    · rw [if_pos hlt]
      have hm1 : os.length = ks.length + 1 := by omega
      refine ⟨?_, ?_, ?_, ?_, ?_⟩
      · rw [readInt32_writeInt64_disjoint _ _ _ _ (by omega),
          readInt32_congr _ _ _ (fun a h1 h2 => hout a (by omega)),
          readInt32_writeInt32_disjoint _ _ _ _ (by omega), readInt32_writeInt32_same]
        · simp only [INT_MIN]; omega
        · simp only [INT_MAX]; omega
      · rw [readInt32_writeInt64_disjoint _ _ _ _ (by omega),
          readInt32_congr _ _ _ (fun a h1 h2 => hout a (by omega)), readInt32_writeInt32_same]
        · simp only [INT_MIN]; omega
        · simp only [INT_MAX]; omega
      · intro j k hj
        have hjl := (List.getElem?_eq_some_iff.1 hj).1
        rw [readInt64_writeInt64_disjoint _ _ _ _ (by omega)]
        exact (hread j k hj hk).2
      · intro j o hj
        have hjl := (List.getElem?_eq_some_iff.1 hj).1
        by_cases hjn : j < ks.length
        · rw [readInt64_writeInt64_disjoint _ _ _ _ (by omega)]
          have hkj : ks[j]? = some ks[j] := List.getElem?_eq_getElem hjn
          rw [(hread j ks[j] hkj hk).1, Nat.zero_add, List.getD_eq_getElem?_getD, hj]; rfl
        · have : j = ks.length := by omega
          subst this
          rw [readInt64_writeInt64_same _ _ _ (hgetD _).1 (hgetD _).2, List.getD_eq_getElem?_getD, hj]
          rfl
      · intro j hj
        rw [writeInt64_outside _ _ _ _ (by omega), hout j (by omega),
          writeInt32_outside _ _ _ _ (by omega), writeInt32_outside _ _ _ _ (by omega)]
    · rw [if_neg hlt]
      have hm0 : os.length = ks.length := by omega
      refine ⟨?_, ?_, ?_, ?_, ?_⟩
      · rw [readInt32_congr _ _ _ (fun a h1 h2 => hout a (by omega)),
          readInt32_writeInt32_disjoint _ _ _ _ (by omega), readInt32_writeInt32_same]
        · simp only [INT_MIN]; omega
        · simp only [INT_MAX]; omega
      · rw [readInt32_congr _ _ _ (fun a h1 h2 => hout a (by omega)), readInt32_writeInt32_same]
        · simp only [INT_MIN]; omega
        · simp only [INT_MAX]; omega
      · intro j k hj
        exact (hread j k hj hk).2
      · intro j o hj
        have hjl := (List.getElem?_eq_some_iff.1 hj).1
        have hkj : ks[j]? = some ks[j] := List.getElem?_eq_getElem (by omega)
        rw [(hread j ks[j] hkj hk).1, Nat.zero_add, List.getD_eq_getElem?_getD, hj]; rfl
      · intro j hj
        rw [hout j (by omega),
          writeInt32_outside _ _ _ _ (by omega), writeInt32_outside _ _ _ _ (by omega)]

/-- Decoding a block that holds the keys `ks` and the offsets `os`. -/
theorem decode_of_reads (b : Bytes) (ks os : List Int)
    (hm : os.length = ks.length ∨ os.length = ks.length + 1)
    (h0 : readInt32 b 0 = (ks.length : Int)) (h4 : readInt32 b 4 = (os.length : Int))
    (hk : ∀ (j : Nat) (k : Int), ks[j]? = some k → readInt64 b (8 + 16 * j + 8) = k)
    (ho : ∀ (j : Nat) (o : Int), os[j]? = some o → readInt64 b (8 + 16 * j) = o) :
    decode b = (ks, os) := by
  unfold decode
  simp only [h0, h4, Int.toNat_ofNat]
  have e : (if (ks.length : Int) < (os.length : Int) then ks.length + 1 else ks.length) = os.length := by
    split <;> omega
  rw [e]
  congr 1
  · apply List.ext_getElem
    · simp
    · intro i h1 h2
      simp only [List.getElem_map, List.getElem_range]
      exact hk i _ (List.getElem?_eq_getElem h2)
  · apply List.ext_getElem
    · simp
    · intro i h1 h2
      simp only [List.getElem_map, List.getElem_range]
      exact ho i _ (List.getElem?_eq_getElem h2)

end Node

end BTree

namespace KVStore

/-- The loop of `searchInNode` over a block that holds the keys `ks` and the
offsets `os` from `off` on. -/
theorem nodeLoop_reads (b : Bytes) (target : Int) (ks : List Int) :
    ∀ (os : List Int) (off : Nat), ks.length ≤ os.length →
      (∀ (j : Nat) (k : Int), ks[j]? = some k → readInt64 b (off + 16 * j + 8) = k) →
      (∀ (j : Nat) (o : Int), os[j]? = some o → readInt64 b (off + 16 * j) = o) →
      ((nodeLoop b target ks.length off).1 = none →
        (nodeLoop b target ks.length off).2 = off + 16 * ks.length) ∧
      BTree.Node.firstAtLeast target ks os =
        match (nodeLoop b target ks.length off).1 with
        | some o => some o
        | none => os[ks.length]? := by
  induction ks with
  | nil =>
    intro os off _ _ _
    refine ⟨fun _ => rfl, ?_⟩
    cases os <;> simp [BTree.Node.firstAtLeast, nodeLoop]
  | cons k rest ih =>
    intro os off hl hk ho
    cases os with
    | nil => simp at hl
    | cons o os =>
      have r0 := ho 0 o (List.getElem?_cons_zero)
      have r8 := hk 0 k (List.getElem?_cons_zero)
      simp only [Nat.mul_zero, Nat.add_zero] at r0 r8
      simp only [List.length_cons, nodeLoop, r0, r8, BTree.Node.firstAtLeast]
      by_cases ht : target ≤ k
      · simp only [if_pos ht]
        exact ⟨fun h => (by cases h), trivial⟩
      · simp only [if_neg ht]
        have := ih os (off + 16) (by simpa using hl)
          (fun j x hj => by
            have := hk (j + 1) x (by simpa using hj)
            have e : off + 16 * (j + 1) + 8 = off + 16 + 16 * j + 8 := by omega
            rw [← e]; exact this)
          (fun j x hj => by
            have := ho (j + 1) x (by simpa using hj)
            have e : off + 16 * (j + 1) = off + 16 + 16 * j := by omega
            rw [← e]; exact this)
        refine ⟨fun h => ?_, ?_⟩
        · rw [this.1 h]; omega
        · rw [this.2]
          simp only [List.getElem?_cons_succ]

/-- The choice of `searchInNode` in a block that holds the keys `ks` and the
offsets `os`. -/
theorem nodeChoice_reads (b : Bytes) (target : Int) (ks os : List Int) (hpos : 1 ≤ ks.length)
    (hm : os.length = ks.length ∨ os.length = ks.length + 1)
    (h0 : readInt32 b 0 = (ks.length : Int)) (h4 : readInt32 b 4 = (os.length : Int))
    (hk : ∀ (j : Nat) (k : Int), ks[j]? = some k → readInt64 b (8 + 16 * j + 8) = k)
    (ho : ∀ (j : Nat) (o : Int), os[j]? = some o → readInt64 b (8 + 16 * j) = o) :
    nodeChoice b target = .ok (BTree.Node.firstAtLeast target ks os) := by
  unfold nodeChoice
  simp only [h0, h4, Int.toNat_ofNat]
  rw [if_neg (by omega), if_neg (by omega)]
  have hl := nodeLoop_reads b target ks os 8 (by omega) hk ho
  rw [hl.2]
  cases hr : nodeLoop b target ks.length 8 with
  | mk r off =>
    rw [hr] at hl
    cases r with
    | some o => rfl
    | none =>
      simp only
      have hoff : off = 8 + 16 * ks.length := hl.1 rfl
      by_cases hlt : (ks.length : Int) < (os.length : Int)
      · rw [if_pos hlt]
        have hlen : ks.length < os.length := by omega
        rw [List.getElem?_eq_getElem hlen, hoff, ho ks.length _ (List.getElem?_eq_getElem hlen)]
      · rw [if_neg hlt]
        rw [List.getElem?_eq_none (by omega)]

end KVStore

/-! ## Splits and insertions of the tree -/

theorem readAt_of_lt {α : Type} (l : List α) (i : Nat) (h : i < l.length) :
    readAt l i = .ok (l.get ⟨i, h⟩) := by
  unfold readAt
  rw [List.get?_eq_get h]

theorem readAt_of_le {α : Type} (l : List α) (i : Nat) (h : l.length ≤ i) :
    readAt l i = .error .outOfBounds := by
  unfold readAt
  rw [List.get?_eq_none.2 h]

theorem readAt_of_getElem? {α : Type} (l : List α) (i : Nat) (a : α) (h : l[i]? = some a) :
    readAt l i = .ok a := by
  unfold readAt
  rw [List.get?_eq_getElem?, h]

/-- Reading `count` elements from `start` inside the vector gives that slice. -/
theorem readRange_of_le {α : Type} (l : List α) (count : Nat) :
    ∀ start, start + count ≤ l.length → readRange l start count = .ok ((l.drop start).take count) := by
  induction count with
  | zero => intro start _; simp [readRange]
  | succ n ih =>
    intro start h
    have hlt : start < l.length := by omega
    simp only [readRange]
    rw [readAt_of_lt l start hlt, ih (start + 1) (by omega)]
    simp only
    congr 1
    rw [List.drop_eq_getElem_cons hlt, List.take_succ_cons]
    rfl

theorem resizeInts_of_le (l : List Int) (n : Nat) (h : n ≤ l.length) : resizeInts l n = l.take n := by
  unfold resizeInts
  rw [Nat.sub_eq_zero_of_le (by omega)]
  simp

theorem set_length_append {α : Type} (l : List α) (a b : α) : (l ++ [a]).set l.length b = l ++ [b] := by
  induction l with
  | nil => rfl
  | cons x l ih => simp only [List.cons_append, List.length_cons, List.set_cons_succ, ih]

namespace BTree

/-- Function `splitChild` on a full leaf child: the child keeps its first `t`
keys and offsets, the new sibling takes the other `t - 1`, and the key at index
`t - 1`, which stays in the child, is copied to the parent. -/
theorem splitChild_leaf (t : Nat) (ht : 1 ≤ t) (pLeaf : Bool) (pKeys : List Int) (pChildren : List Node)
    (pOffsets : List Int) (pData : Bytes) (index : Nat) (cKeys : List Int) (cChildren : List Node)
    (cOffsets : List Int) (cData : Bytes)
    (hc : pChildren[index]? = some (.mk true cKeys cChildren cOffsets cData))
    (hk : cKeys.length = 2 * t - 1) (ho : cOffsets.length = 2 * t - 1) :
    splitChild t (.mk pLeaf pKeys pChildren pOffsets pData) index =
      .ok (.mk pLeaf (insertAt pKeys index (cKeys.getD (t - 1) 0))
        (insertAt (pChildren.set index (.mk true (cKeys.take t) cChildren (cOffsets.take t) cData))
          (index + 1) (.mk true (cKeys.drop t) [] (cOffsets.drop t) zeroBytes))
        pOffsets pData) := by
  unfold splitChild
  simp only
  rw [readAt_of_getElem? _ _ _ hc]
  simp only
  rw [readRange_of_le cKeys (t - 1) t (by omega), readRange_of_le cOffsets (t - 1) t (by omega)]
  simp only [if_true]
  rw [resizeInts_of_le cKeys t (by omega), resizeInts_of_le cOffsets t (by omega)]
  have hlt : t - 1 < (cKeys.take t).length := by rw [List.length_take]; omega
  rw [readAt_of_lt _ _ hlt]
  simp only
  have e1 : (cKeys.take t).get ⟨t - 1, hlt⟩ = cKeys.getD (t - 1) 0 := by
    rw [List.getD_eq_getElem?_getD, List.getElem?_eq_getElem (by omega)]
    simp [List.getElem_take]
  have e2 : (cKeys.drop t).take (t - 1) = cKeys.drop t := by
    apply List.take_of_length_le; rw [List.length_drop]; omega
  have e3 : (cOffsets.drop t).take (t - 1) = cOffsets.drop t := by
    apply List.take_of_length_le; rw [List.length_drop]; omega
  rw [e1, e2, e3]

/-- Function `splitChild` on a full internal child: the key to promote is read
at index `t - 1` after `resize(t - 1)` left `t - 1` keys in the vector. -/
theorem splitChild_internal (t : Nat) (pLeaf : Bool) (pKeys : List Int) (pChildren : List Node)
    (pOffsets : List Int) (pData : Bytes) (index : Nat) (cKeys : List Int) (cChildren : List Node)
    (cOffsets : List Int) (cData : Bytes)
    (hc : pChildren[index]? = some (.mk false cKeys cChildren cOffsets cData))
    (hk : cKeys.length = 2 * t - 1) :
    splitChild t (.mk pLeaf pKeys pChildren pOffsets pData) index = .error .outOfBounds := by
  cases hs : splitChild t (.mk pLeaf pKeys pChildren pOffsets pData) index with
  | error e => rw [splitChild_error _ _ _ _ hs]
  | ok r =>
    exfalso
    unfold splitChild at hs
    simp only at hs
    rw [readAt_of_getElem? _ _ _ hc] at hs
    simp only at hs
    cases h1 : readRange cKeys t (t - 1) with
    | error e => rw [h1] at hs; cases hs
    | ok newKeys =>
      rw [h1] at hs
      simp only [Bool.false_eq_true, if_false] at hs
      cases h2 : readRange cChildren t t with
      | error e => rw [h2] at hs; cases hs
      | ok newChildren =>
        rw [h2] at hs
        simp only at hs
        rw [readAt_of_le _ _ (by
          unfold resizeInts
          simp only [List.length_append, List.length_take, List.length_replicate]
          omega)] at hs
        cases hs

theorem shiftLoop_stop (key : Int) (fuel : Nat) (i : Int) (keys offsets : List Int)
    (h : ¬ (i ≥ 0 ∧ key < keys.getD i.toNat 0)) :
    shiftLoop key (fuel + 1) i keys offsets = (i, keys, offsets) := by
  simp only [shiftLoop]
  rw [if_neg h]

theorem findLoop_stop (key : Int) (keys : List Int) (fuel : Nat) (i : Int)
    (h : ¬ (i ≥ 0 ∧ key < keys.getD i.toNat 0)) :
    findLoop key keys (fuel + 1) i = i := by
  simp only [findLoop]
  rw [if_neg h]

theorem getD_last_lt (ks : List Int) (key : Int) (h : ∀ k ∈ ks, k < key) (extra : List Int)
    (hpos : 0 < ks.length) :
    ¬ (((ks.length : Int) - 1) ≥ 0 ∧ key < (ks ++ extra).getD ((ks.length : Int) - 1).toNat 0) := by
  intro hc
  have e : ((ks.length : Int) - 1).toNat = ks.length - 1 := by omega
  rw [e, List.getD_eq_getElem?_getD, List.getElem?_append_left (by omega),
    List.getElem?_eq_getElem (by omega)] at hc
  have := h _ (List.getElem_mem (by omega : ks.length - 1 < ks.length))
  simp only [Option.getD_some] at hc
  omega

/-- Function `insertNonFull` on a leaf whose keys are all smaller than the new
key: the key and its offset are appended. -/
theorem insertNonFull_leaf_append (t fuel : Nat) (ks : List Int) (cs : List Node) (os : List Int)
    (d : Bytes) (key offset : Int) (h : ∀ k ∈ ks, k < key) (hl : os.length = ks.length) :
    insertNonFull t (fuel + 1) (.mk true ks cs os d) key offset =
      .ok (.mk true (ks ++ [key]) cs (os ++ [offset]) d) := by
  unfold insertNonFull
  simp only [if_true]
  have hstop : ¬ (((ks.length : Int) - 1) ≥ 0 ∧ key < (ks ++ [0]).getD ((ks.length : Int) - 1).toNat 0) := by
    by_cases hpos : 0 < ks.length
    · exact getD_last_lt ks key h [0] hpos
    · intro hc; omega
  rw [shiftLoop_stop key ks.length _ _ _ hstop]
  simp only
  have e : ((ks.length : Int) - 1 + 1).toNat = ks.length := by omega
  rw [e, set_length_append]
  nth_rewrite 1 [← hl]
  rw [set_length_append]

/-- Inserting ascending keys into a tree whose root is a leaf with room for them
appends them to the root. -/
theorem insertAll_leaf (t : Nat) (kos : List (Int × Int)) :
    ∀ (ks os : List Int), os.length = ks.length → ks.length + kos.length ≤ 2 * t - 1 →
      (∀ k ∈ ks, ∀ ko ∈ kos, k < ko.1) → kos.Pairwise (fun a b => a.1 < b.1) →
      insertAll kos { root := some (.mk true ks [] os zeroBytes), degree := t } =
        .ok { root := some (.mk true (ks ++ kos.map Prod.fst) [] (os ++ kos.map Prod.snd) zeroBytes),
              degree := t } := by
  induction kos with
  | nil => intro ks os _ _ _ _; simp [insertAll]
  | cons ko rest ih =>
    intro ks os hl hlen hlt hasc
    simp only [List.length_cons] at hlen
    rw [List.pairwise_cons] at hasc
    simp only [insertAll, insert, Node.keys]
    rw [if_neg (by omega)]
    rw [depth_mk, depthList_nil, insertNonFull_leaf_append t _ ks [] os zeroBytes ko.1 ko.2
      (fun k hk => hlt k hk ko (List.mem_cons_self _ _)) hl]
    simp only
    rw [ih (ks ++ [ko.1]) (os ++ [ko.2]) (by simp [hl]) (by simp; omega)
      (by
        intro k hk x hx
        rcases List.mem_append.1 hk with hk | hk
        · exact hlt k hk x (List.mem_cons_of_mem _ hx)
        · simp only [List.mem_singleton] at hk; subst hk; exact hasc.1 x hx)
      hasc.2]
    simp

theorem insertAll_append (a b : List (Int × Int)) :
    ∀ (t : BTree), insertAll (a ++ b) t =
      match insertAll a t with
      | .error e => .error e
      | .ok t => insertAll b t := by
  induction a with
  | nil => intro t; rfl
  | cons ko rest ih =>
    intro t
    simp only [List.cons_append, insertAll]
    cases t.insert ko.1 ko.2 with
    | error e => rfl
    | ok t1 => exact ih t1

end BTree

namespace BTree

theorem shiftLoop_length (key : Int) (fuel : Nat) :
    ∀ (i : Int) (keys offsets : List Int),
      (shiftLoop key fuel i keys offsets).2.1.length = keys.length ∧
      (shiftLoop key fuel i keys offsets).2.2.length = offsets.length := by
  induction fuel with
  | zero => intro i keys offsets; simp [shiftLoop]
  | succ fuel ih =>
    intro i keys offsets
    simp only [shiftLoop]
    split
    · have := ih (i - 1) (keys.set (i.toNat + 1) (keys.getD i.toNat 0))
        (offsets.set (i.toNat + 1) (offsets.getD i.toNat 0))
      simpa using this
    · simp

theorem findLoop_range (key : Int) (keys : List Int) (fuel : Nat) :
    ∀ (i : Int), -1 ≤ i → -1 ≤ findLoop key keys fuel i ∧ findLoop key keys fuel i ≤ i := by
  induction fuel with
  | zero => intro i h; simp [findLoop, h]
  | succ fuel ih =>
    intro i h
    simp only [findLoop]
    split
    · rename_i hc
      have := ih (i - 1) (by omega)
      omega
    · omega

/-- Function `insertNonFull` on a leaf: one key and one offset more. -/
theorem insertNonFull_leaf (t fuel : Nat) (ks : List Int) (cs : List Node) (os : List Int)
    (d : Bytes) (key offset : Int) :
    ∃ ks1 os1, insertNonFull t (fuel + 1) (.mk true ks cs os d) key offset = .ok (.mk true ks1 cs os1 d) ∧
      ks1.length = ks.length + 1 ∧ os1.length = os.length + 1 := by
  unfold insertNonFull
  simp only [if_true]
  have hl := shiftLoop_length key (ks.length + 1) ((ks.length : Int) - 1) (ks ++ [0]) (os ++ [0])
  refine ⟨_, _, rfl, ?_, ?_⟩
  · rw [List.length_set, hl.1]; simp
  · rw [List.length_set, hl.2]; simp

theorem mem_set_cases {α : Type} (l : List α) (i : Nat) (a x : α) (h : x ∈ l.set i a) :
    x = a ∨ x ∈ l := by
  rcases List.mem_or_eq_of_mem_set h with h | h
  · exact Or.inr h
  · exact Or.inl h

theorem length_insertAt {α : Type} (l : List α) (i : Nat) (a : α) (h : i ≤ l.length) :
    (insertAt l i a).length = l.length + 1 := by
  unfold insertAt
  simp only [List.length_append, List.length_take, List.length_cons, List.length_drop]
  omega

end BTree

namespace BTree

theorem depth_pos (n : Node) : 1 ≤ n.depth := by
  obtain ⟨l, ks, cs, os, d⟩ := n
  rw [depth_mk]; omega

end BTree

/-! ## The traversals of the tree and the blocks `writeToFile` emits -/

namespace BTree

theorem postorderTraversalHelper_eq (l : Bool) (ks : List Int) (cs : List Node) (os : List Int)
    (d : Bytes) (acc : List Node) :
    postorderTraversalHelper (.mk l ks cs os d) acc =
      (if !l then postorderChildren cs acc else acc) ++ [.mk l ks cs os d] := by
  simp [postorderTraversalHelper]

theorem postorderChildren_nil (acc : List Node) : postorderChildren [] acc = acc := by
  simp [postorderChildren]

theorem postorderChildren_cons (c : Node) (cs : List Node) (acc : List Node) :
    postorderChildren (c :: cs) acc = postorderChildren cs (postorderTraversalHelper c acc) := by
  simp [postorderChildren]

theorem preorderTraversalHelper_eq (l : Bool) (ks : List Int) (cs : List Node) (os : List Int)
    (d : Bytes) (acc : List Node) :
    preorderTraversalHelper (.mk l ks cs os d) acc =
      (if !l then preorderChildren cs (acc ++ [.mk l ks cs os d]) else acc ++ [.mk l ks cs os d]) := by
  simp [preorderTraversalHelper]

theorem preorderChildren_nil (acc : List Node) : preorderChildren [] acc = acc := by
  simp [preorderChildren]

theorem preorderChildren_cons (c : Node) (cs : List Node) (acc : List Node) :
    preorderChildren (c :: cs) acc = preorderChildren cs (preorderTraversalHelper c acc) := by
  simp [preorderChildren]

mutual
/-- The helper of `postorderTraversal` appends to the vector it is given. -/
theorem postorder_acc : ∀ (n : Node) (acc : List Node),
    postorderTraversalHelper n acc = acc ++ postorderTraversalHelper n []
  | .mk l ks cs os d, acc => by
    rw [postorderTraversalHelper_eq, postorderTraversalHelper_eq]
    cases l with
    | true => simp
    | false =>
      simp only [Bool.not_false, if_true]
      rw [postorderChildren_acc cs acc]
      simp
/-- The loop over the children appends to the vector it is given. -/
theorem postorderChildren_acc : ∀ (cs : List Node) (acc : List Node),
    postorderChildren cs acc = acc ++ postorderChildren cs []
  | [], acc => by simp [postorderChildren_nil]
  | c :: cs, acc => by
    rw [postorderChildren_cons, postorderChildren_cons, postorderChildren_acc cs (postorderTraversalHelper c acc),
      postorderChildren_acc cs (postorderTraversalHelper c []), postorder_acc c acc]
    simp
end

mutual
/-- The helper of `preorderTraversal` appends to the vector it is given. -/
theorem preorder_acc : ∀ (n : Node) (acc : List Node),
    preorderTraversalHelper n acc = acc ++ preorderTraversalHelper n []
  | .mk l ks cs os d, acc => by
    rw [preorderTraversalHelper_eq, preorderTraversalHelper_eq]
    cases l with
    | true => simp
    | false =>
      simp only [Bool.not_false, if_true]
      rw [preorderChildren_acc cs (acc ++ [Node.mk false ks cs os d]),
        preorderChildren_acc cs ([] ++ [Node.mk false ks cs os d])]
      simp
/-- The loop over the children appends to the vector it is given. -/
theorem preorderChildren_acc : ∀ (cs : List Node) (acc : List Node),
    preorderChildren cs acc = acc ++ preorderChildren cs []
  | [], acc => by simp [preorderChildren_nil]
  | c :: cs, acc => by
    rw [preorderChildren_cons, preorderChildren_cons, preorderChildren_acc cs (preorderTraversalHelper c acc),
      preorderChildren_acc cs (preorderTraversalHelper c []), preorder_acc c acc]
    simp
end

/-- The post-order list of the children: the lists of their subtrees, one
behind the other. -/
theorem postorderChildren_flatMap (cs : List Node) :
    postorderChildren cs [] = cs.flatMap (fun c => postorderTraversalHelper c []) := by
  induction cs with
  | nil => simp [postorderChildren_nil]
  | cons c cs ih =>
    rw [postorderChildren_cons, postorderChildren_acc, ih]
    simp

theorem postorderChildren_cons_nil (c : Node) (cs : List Node) :
    postorderChildren (c :: cs) [] = postorderTraversalHelper c [] ++ postorderChildren cs [] := by
  rw [postorderChildren_cons, postorderChildren_acc]

theorem preorderChildren_cons_nil (c : Node) (cs : List Node) :
    preorderChildren (c :: cs) [] = preorderTraversalHelper c [] ++ preorderChildren cs [] := by
  rw [preorderChildren_cons, preorderChildren_acc]

/-- The post-order list of a node: the lists of the subtrees of its children,
one behind the other, then the node itself. -/
theorem postorder_node (l : Bool) (ks : List Int) (cs : List Node) (os : List Int) (d : Bytes) :
    postorderTraversalHelper (.mk l ks cs os d) [] =
      (if l then [] else cs.flatMap (fun c => postorderTraversalHelper c [])) ++ [.mk l ks cs os d] := by
  rw [postorderTraversalHelper_eq]
  cases l with
  | true => simp
  | false => simp [postorderChildren_flatMap]

theorem postorder_length_pos (n : Node) : 1 ≤ (postorderTraversalHelper n []).length := by
  obtain ⟨l, ks, cs, os, d⟩ := n
  rw [postorderTraversalHelper_eq]
  simp

theorem postorder_getLast (n : Node) : (postorderTraversalHelper n []).getLast? = some n := by
  obtain ⟨l, ks, cs, os, d⟩ := n
  rw [postorderTraversalHelper_eq]
  simp

mutual
/-- Pre-order and post-order list the same nodes, each as often. -/
theorem postorder_perm : ∀ (n : Node),
    (postorderTraversalHelper n []).Perm (preorderTraversalHelper n [])
  | .mk l ks cs os d => by
    rw [postorderTraversalHelper_eq, preorderTraversalHelper_eq]
    cases l with
    | true => simp
    | false =>
      simp only [Bool.not_false, if_true, List.nil_append]
      rw [preorderChildren_acc]
      exact List.perm_append_comm.trans (List.Perm.append_left _ (postorderChildren_perm cs))
/-- The same for the loops over the children. -/
theorem postorderChildren_perm : ∀ (cs : List Node),
    (postorderChildren cs []).Perm (preorderChildren cs [])
  | [] => by simp [postorderChildren_nil, preorderChildren_nil]
  | c :: cs => by
    rw [postorderChildren_cons_nil, preorderChildren_cons_nil]
    exact List.Perm.append (postorder_perm c) (postorderChildren_perm cs)
end

end BTree

namespace SST

open BTree

theorem postorderTraversalWrite_eq (l : Bool) (ks : List Int) (cs : List BTree.Node) (os : List Int)
    (d : Bytes) (s : Nat) (f : File) :
    postorderTraversalWrite (.mk l ks cs os d) s f =
      (BTree.Node.updateData (.mk l ks
          (if !l then postorderWriteChildren cs os s f else (cs, os, s, f)).1
          (if !l then postorderWriteChildren cs os s f else (cs, os, s, f)).2.1 d),
        (if !l then postorderWriteChildren cs os s f else (cs, os, s, f)).2.2.1 + PAGE_SIZE,
        (if !l then postorderWriteChildren cs os s f else (cs, os, s, f)).2.2.2.pwrite
          (BTree.Node.updateData (.mk l ks
            (if !l then postorderWriteChildren cs os s f else (cs, os, s, f)).1
            (if !l then postorderWriteChildren cs os s f else (cs, os, s, f)).2.1 d)).data
          PAGE_SIZE (if !l then postorderWriteChildren cs os s f else (cs, os, s, f)).2.2.1) := by
  simp [postorderTraversalWrite]

theorem postorderWriteChildren_nil (os : List Int) (s : Nat) (f : File) :
    postorderWriteChildren [] os s f = ([], os, s, f) := by
  simp [postorderWriteChildren]

theorem postorderWriteChildren_cons (c : BTree.Node) (cs : List BTree.Node) (os : List Int) (s : Nat) (f : File) :
    postorderWriteChildren (c :: cs) os s f =
      ((postorderTraversalWrite c s f).1 ::
          (postorderWriteChildren cs (os ++ [(s : Int)]) (postorderTraversalWrite c s f).2.1
            (postorderTraversalWrite c s f).2.2).1,
        (postorderWriteChildren cs (os ++ [(s : Int)]) (postorderTraversalWrite c s f).2.1
            (postorderTraversalWrite c s f).2.2).2.1,
        (postorderWriteChildren cs (os ++ [(s : Int)]) (postorderTraversalWrite c s f).2.1
            (postorderTraversalWrite c s f).2.2).2.2.1,
        (postorderWriteChildren cs (os ++ [(s : Int)]) (postorderTraversalWrite c s f).2.1
            (postorderTraversalWrite c s f).2.2).2.2.2) := by
  simp [postorderWriteChildren]

theorem updateData_mk (l : Bool) (ks : List Int) (cs : List BTree.Node) (os : List Int) (d : Bytes) :
    BTree.Node.updateData (.mk l ks cs os d) = .mk l ks cs os (BTree.Node.updateData (.mk l ks cs os d)).data := by
  rw [BTree.Node.updateData_eq]
  rfl

theorem pwrite_size (f : File) (src : Bytes) (len off : Nat) :
    (f.pwrite src len off).size = max f.size (off + len) := rfl

theorem pwrite_bytes_in (f : File) (src : Bytes) (len off j : Nat) (h : j < len) :
    (f.pwrite src len off).bytes (off + j) = src j := by
  simp only [File.pwrite, blit]
  rw [if_pos (by omega)]
  congr 1
  omega

theorem pwrite_bytes_out (f : File) (src : Bytes) (len off j : Nat) (h : j < off ∨ off + len ≤ j) :
    (f.pwrite src len off).bytes j = f.bytes j := by
  simp only [File.pwrite, blit]
  rw [if_neg (by omega)]

end SST

namespace SST

open BTree

theorem getElem?_append_cases {α : Type} (a b : List α) (i : Nat) (x : α)
    (h : (a ++ b)[i]? = some x) :
    (i < a.length ∧ a[i]? = some x) ∨ (a.length ≤ i ∧ b[i - a.length]? = some x) := by
  by_cases hi : i < a.length
  · rw [List.getElem?_append_left hi] at h
    exact Or.inl ⟨hi, h⟩
  · rw [List.getElem?_append_right (by omega)] at h
    exact Or.inr ⟨by omega, h⟩

mutual
/-- The blocks written by `postorderTraversalWrite`: one per node of the
subtree, in post-order, one behind the other from the offset it is given. -/
theorem postorderTraversalWrite_wrote : ∀ (n : BTree.Node) (s : Nat) (f : File),
    Wrote n s f (postorderTraversalWrite n s f).1 (postorderTraversalWrite n s f).2.1
      (postorderTraversalWrite n s f).2.2
  | .mk l ks cs os d, s, f => by
    rw [postorderTraversalWrite_eq]
    cases l with
    | true =>
      simp only [Bool.not_true, Bool.false_eq_true, if_false]
      rw [updateData_mk]
      have hp : ∀ (x : Bytes), postorderTraversalHelper (BTree.Node.mk true ks cs os x) [] =
          [BTree.Node.mk true ks cs os x] := by
        intro x; rw [postorderTraversalHelper_eq]; simp
      refine ⟨?_, ?_, ?_, ?_, ?_, rfl, rfl, ?_, ?_⟩
      · rw [hp]; simp only [List.length_singleton, PAGE_SIZE]
      · intro hs; rw [pwrite_size, hs]; simp only [PAGE_SIZE]; omega
      · intro j hj; exact pwrite_bytes_out _ _ _ _ _ (Or.inl hj)
      · intro j hj; exact pwrite_bytes_out _ _ _ _ _ (Or.inr hj)
      · rw [hp, hp]; rfl
      · rw [hp, hp]; rfl
      · intro i x hx j hj
        rw [hp] at hx
        cases i with
        | zero =>
          simp only [List.getElem?_cons_zero, Option.some.injEq] at hx
          subst hx
          simp only [Nat.mul_zero, Nat.add_zero]
          exact pwrite_bytes_in _ _ _ _ _ hj
        | succ i => simp at hx
    | false =>
      simp only [Bool.not_false, if_true]
      have hc := postorderWriteChildren_wrote cs os s f
      rw [updateData_mk]
      have hp : ∀ (cs1 : List BTree.Node) (os1 : List Int) (x : Bytes),
          postorderTraversalHelper (BTree.Node.mk false ks cs1 os1 x) [] =
            postorderChildren cs1 [] ++ [BTree.Node.mk false ks cs1 os1 x] := by
        intro cs1 os1 x; rw [postorderTraversalHelper_eq]; simp
      have hnext := hc.next
      refine ⟨?_, ?_, ?_, ?_, ?_, rfl, rfl, ?_, ?_⟩
      · rw [hp, hnext]; simp only [List.length_append, List.length_singleton, PAGE_SIZE]; omega
      · intro hs; rw [pwrite_size, hc.size hs]; simp only [PAGE_SIZE]; omega
      · intro j hj
        rw [pwrite_bytes_out _ _ _ _ _ (Or.inl (by rw [hnext]; omega))]
        exact hc.below j hj
      · intro j hj
        rw [pwrite_bytes_out _ _ _ _ _ (Or.inr hj)]
        exact hc.above j (by omega)
      · rw [hp, hp, List.length_append, List.length_append, hc.count]; rfl
      · rw [hp, hp, List.map_append, List.map_append, hc.nodes]; rfl
      · intro i x hx j hj
        rw [hp] at hx
        rcases getElem?_append_cases _ _ _ _ hx with ⟨hi, hx1⟩ | ⟨hi, hx1⟩
        · rw [pwrite_bytes_out _ _ _ _ _ (Or.inl (by
            rw [hnext, ← hc.count]
            simp only [PAGE_SIZE] at hj ⊢
            have : PAGE_SIZE * (i + 1) ≤ PAGE_SIZE * (postorderChildren (postorderWriteChildren cs os s f).1 []).length :=
              Nat.mul_le_mul_left _ hi
            simp only [PAGE_SIZE] at this
            omega))]
          exact hc.blocks i x hx1 j hj
        · have hi0 : i - (postorderChildren (postorderWriteChildren cs os s f).1 []).length = 0 := by
            by_contra hne
            have hlt := (List.getElem?_eq_some_iff.1 hx1).1
            simp only [List.length_singleton] at hlt
            omega
          rw [hi0] at hx1
          simp only [List.getElem?_cons_zero, Option.some.injEq] at hx1
          subst hx1
          have hie : i = (postorderChildren (postorderWriteChildren cs os s f).1 []).length := by omega
          have e : s + PAGE_SIZE * i + j = (postorderWriteChildren cs os s f).2.2.1 + j := by
            rw [hnext, hie, hc.count]
          rw [e]
          exact pwrite_bytes_in _ _ _ _ _ hj
/-- The blocks written by the loop over the children. -/
theorem postorderWriteChildren_wrote : ∀ (cs : List BTree.Node) (os : List Int) (s : Nat) (f : File),
    WroteChildren cs os s f (postorderWriteChildren cs os s f).1 (postorderWriteChildren cs os s f).2.1
      (postorderWriteChildren cs os s f).2.2.1 (postorderWriteChildren cs os s f).2.2.2
  | [], os, s, f => by
    rw [postorderWriteChildren_nil]
    refine ⟨?_, ?_, ?_, ?_, rfl, rfl, rfl, rfl, ?_, rfl, ?_, ?_⟩
    · simp [postorderChildren_nil]
    · intro hs; exact hs
    · intro j _; rfl
    · intro j _; rfl
    · simp [subtreeStarts]
    · intro i x hx; simp [postorderChildren_nil] at hx
    · intro i x b hx; simp at hx
  | c :: cs, os, s, f => by
    rw [postorderWriteChildren_cons]
    have h1 := postorderTraversalWrite_wrote c s f
    have h2 := postorderWriteChildren_wrote cs (os ++ [(s : Int)]) (postorderTraversalWrite c s f).2.1
      (postorderTraversalWrite c s f).2.2
    have n1 := h1.next
    have n2 := h2.next
    have hpos := postorder_length_pos c
    refine ⟨?_, ?_, ?_, ?_, ?_, ?_, ?_, ?_, ?_, ?_, ?_, ?_⟩
    · show (postorderWriteChildren cs _ _ _).2.2.1 = _
      rw [n2, n1, postorderChildren_cons_nil, List.length_append]
      simp only [PAGE_SIZE]; omega
    · intro hs
      exact h2.size (h1.size hs)
    · intro j hj
      show (postorderWriteChildren cs _ _ _).2.2.2.bytes j = _
      rw [h2.below j (by rw [n1]; omega)]
      exact h1.below j hj
    · intro j hj
      show (postorderWriteChildren cs _ _ _).2.2.2.bytes j = _
      have hj2 : (postorderWriteChildren cs (os ++ [(s : Int)])
          (postorderTraversalWrite c s f).2.1 (postorderTraversalWrite c s f).2.2).2.2.1 ≤ j := hj
      rw [h2.above j hj2]
      exact h1.above j (by rw [n2] at hj2; omega)
    · rw [postorderChildren_cons_nil, postorderChildren_cons_nil, List.length_append,
        List.length_append, h1.count, h2.count]
    · simp only [List.length_cons, h2.length]
    · simp only [List.map_cons, h1.keys, h2.keys]
    · simp only [List.map_cons, h1.isLeaf, h2.isLeaf]
    · show (postorderWriteChildren cs _ _ _).2.1 = _
      rw [h2.offsets, n1]
      simp [subtreeStarts]
    · rw [postorderChildren_cons_nil, postorderChildren_cons_nil, List.map_append, List.map_append,
        h1.nodes, h2.nodes]
    · intro i x hx j hj
      show (postorderWriteChildren cs _ _ _).2.2.2.bytes _ = _
      rw [postorderChildren_cons_nil] at hx
      rcases getElem?_append_cases _ _ _ _ hx with ⟨hi, hx1⟩ | ⟨hi, hx1⟩
      · rw [h2.below _ (by
          rw [n1, ← h1.count]
          have : PAGE_SIZE * (i + 1) ≤ PAGE_SIZE * (postorderTraversalHelper (postorderTraversalWrite c s f).1 []).length :=
            Nat.mul_le_mul_left _ hi
          simp only [PAGE_SIZE] at this hj ⊢
          omega)]
        exact h1.blocks i x hx1 j hj
      · have := h2.blocks _ x hx1 j hj
        rw [← this]
        congr 1
        rw [n1, ← h1.count]
        have e : i = (postorderTraversalHelper (postorderTraversalWrite c s f).1 []).length +
            (i - (postorderTraversalHelper (postorderTraversalWrite c s f).1 []).length) := by omega
        generalize (i - (postorderTraversalHelper (postorderTraversalWrite c s f).1 []).length) = k at e
        rw [e, Nat.mul_add]
        omega
    · intro i x b hx hb j hj
      show (postorderWriteChildren cs _ _ _).2.2.2.bytes _ = _
      cases i with
      | zero =>
        simp only [List.getElem?_cons_zero, Option.some.injEq, blockOffsets] at hx hb
        subst hx
        subst hb
        have hlast := postorder_getLast (postorderTraversalWrite c s f).1
        rw [List.getLast?_eq_getElem?, h1.count] at hlast
        have hb1 := h1.blocks _ _ hlast j hj
        rw [Int.toNat_ofNat]
        rw [h2.below _ (by
          rw [n1]
          have : PAGE_SIZE * ((postorderTraversalHelper c []).length - 1 + 1) =
              PAGE_SIZE * (postorderTraversalHelper c []).length := by
            congr 1; omega
          rw [Nat.mul_add] at this
          simp only [PAGE_SIZE] at this hj ⊢
          omega)]
        exact hb1
      | succ i =>
        simp only [List.getElem?_cons_succ, blockOffsets] at hx hb
        rw [← n1] at hb
        exact h2.child i x b hx hb j hj
end

end SST

namespace SST

open BTree

/-- The offsets recorded in an internal node by `postorderTraversalWrite`: the
offsets at which the subtrees of its children start, behind the offsets the
node held before. -/
theorem postorderTraversalWrite_offsets (ks : List Int) (cs : List BTree.Node) (os : List Int)
    (d : Bytes) (s : Nat) (f : File) :
    (postorderTraversalWrite (.mk false ks cs os d) s f).1.offsets = os ++ subtreeStarts cs s ∧
    (postorderTraversalWrite (.mk false ks cs os d) s f).1.children =
      (postorderWriteChildren cs os s f).1 := by
  rw [postorderTraversalWrite_eq]
  simp only [Bool.not_false, if_true]
  rw [updateData_mk]
  exact ⟨(postorderWriteChildren_wrote cs os s f).offsets, rfl⟩

theorem postorderTraversalWrite_leaf (ks : List Int) (cs : List BTree.Node) (os : List Int)
    (d : Bytes) (s : Nat) (f : File) :
    (postorderTraversalWrite (.mk true ks cs os d) s f).1.offsets = os := by
  rw [postorderTraversalWrite_eq]
  simp only [Bool.not_true, Bool.false_eq_true, if_false]
  rw [updateData_mk]
  rfl

/-- The file after `postorderTraversalWrite` on a file that ends at the offset
it is given: it ends behind the blocks and its last block is the block of the
node the function was called on. -/
theorem postorderTraversalWrite_last (n : BTree.Node) (s : Nat) (f : File) (hs : f.size = s) :
    (postorderTraversalWrite n s f).2.2.size = s + PAGE_SIZE * (postorderTraversalHelper n []).length ∧
    ∀ j, j < PAGE_SIZE →
      (postorderTraversalWrite n s f).2.2.bytes ((postorderTraversalWrite n s f).2.2.size - PAGE_SIZE + j) =
        (postorderTraversalWrite n s f).1.data j := by
  have h := postorderTraversalWrite_wrote n s f
  have hsz : (postorderTraversalWrite n s f).2.2.size = s + PAGE_SIZE * (postorderTraversalHelper n []).length := by
    rw [h.size hs, h.next]
  refine ⟨hsz, ?_⟩
  intro j hj
  have hlast := postorder_getLast (postorderTraversalWrite n s f).1
  rw [List.getLast?_eq_getElem?, h.count] at hlast
  have hb := h.blocks _ _ hlast j hj
  have hpos := postorder_length_pos n
  have e : s + PAGE_SIZE * (postorderTraversalHelper n []).length - PAGE_SIZE + j =
      s + PAGE_SIZE * ((postorderTraversalHelper n []).length - 1) + j := by
    obtain ⟨k, hk⟩ : ∃ k, (postorderTraversalHelper n []).length = k + 1 := ⟨_, (Nat.sub_add_cancel hpos).symm⟩
    rw [hk, Nat.add_sub_cancel, Nat.mul_add]
    simp only [PAGE_SIZE]
    omega
  rw [hsz, e]
  exact hb

theorem writePages_spec (pages : List Page) :
    ∀ (off : Nat) (fd : File), fd.size = off →
      (writePages pages off fd).1 = off + PAGE_SIZE * pages.length ∧
      (writePages pages off fd).2.size = off + PAGE_SIZE * pages.length := by
  induction pages with
  | nil => intro off fd h; simp [writePages, h]
  | cons p rest ih =>
    intro off fd h
    simp only [writePages, List.length_cons]
    have := ih (off + PAGE_SIZE) (fd.pwrite p.data PAGE_SIZE off) (by rw [pwrite_size, h]; omega)
    rw [this.1, this.2]
    simp only [PAGE_SIZE]
    omega

/-- Function `writeToFile` on an SST with a non-empty tree: the blocks of the
tree are written by `postorderTraversalWrite` at the end of a file that holds
the header, the filter and the pages. -/
theorem writeToFile_tree (s : SST) (t : BTree) (root : BTree.Node) (ht : s.btree = some t)
    (hroot : t.root = some root) :
    ∃ fd : File, fd.size = SST_METADATA_SIZE + PAGE_SIZE + PAGE_SIZE * s.pages.length ∧
      s.writeToFile = .ok (postorderTraversalWrite root fd.size fd).2.2 := by
  have hw := writePages_spec s.pages (24 + PAGE_SIZE)
    (((((File.empty.pwrite (writeInt32 zeroBytes 0 s.numEntries) 4 0).pwrite
      (writeInt32 zeroBytes 0 s.numPages) 4 4).pwrite (writeInt64 zeroBytes 0 s.startingKey) 8 8).pwrite
      (writeInt64 zeroBytes 0 s.endingKey) 8 16).pwrite s.bloomFilter.updateData.data PAGE_SIZE 24)
    (by simp [pwrite_size, File.empty, PAGE_SIZE])
  refine ⟨(writePages s.pages (24 + PAGE_SIZE)
    (((((File.empty.pwrite (writeInt32 zeroBytes 0 s.numEntries) 4 0).pwrite
      (writeInt32 zeroBytes 0 s.numPages) 4 4).pwrite (writeInt64 zeroBytes 0 s.startingKey) 8 8).pwrite
      (writeInt64 zeroBytes 0 s.endingKey) 8 16).pwrite s.bloomFilter.updateData.data PAGE_SIZE 24)).2,
    ?_, ?_⟩
  · rw [hw.2]; simp only [SST_METADATA_SIZE]
  · unfold writeToFile
    simp only [ht, BTree.getRoot, hroot]
    rw [hw.2, hw.1]

end SST

/-! ## The fields of an SST under `addPage` -/

namespace SST

theorem addPage_error (s : SST) (p : Page) (last : KeyOffset) (e : Fault)
    (h : p.keys.getLast? = some last)
    (hi : (s.btree.getD (BTree.new BTREE_DEGREE)).insert last.key
          ((SST_METADATA_SIZE : Int) + PAGE_SIZE + (s.numPages + 1 - 1) * PAGE_SIZE) = .error e) :
    s.addPage p = .error e := by
  unfold addPage
  simp only [h]
  cases hb : s.btree with
  | none =>
    rw [hb] at hi
    simp only [Option.getD_none] at hi
    simp only [hi]
  | some t =>
    rw [hb] at hi
    simp only [Option.getD_some] at hi
    simp only [hi]

theorem addPage_ok (s : SST) (p : Page) (last : KeyOffset) (t1 : BTree)
    (h : p.keys.getLast? = some last)
    (hi : (s.btree.getD (BTree.new BTREE_DEGREE)).insert last.key
          ((SST_METADATA_SIZE : Int) + PAGE_SIZE + (s.numPages + 1 - 1) * PAGE_SIZE) = .ok t1) :
    ∃ s1, s.addPage p = .ok s1 ∧ s1.btree = some t1 ∧ s1.numPages = s.numPages + 1 ∧
      s1.numEntries = s.numEntries + p.numEntries ∧ s1.pages = s.pages ++ [p] ∧
      s1.startingKey = (if s.numPages = 0 then p.startingKey else s.startingKey) ∧
      s1.endingKey = last.key ∧
      s1.pageOffsets = s.pageOffsets ++
        [(SST_METADATA_SIZE : Int) + PAGE_SIZE + (s.numPages + 1 - 1) * PAGE_SIZE] := by
  unfold addPage
  simp only [h]
  cases hb : s.btree with
  | none =>
    rw [hb] at hi
    simp only [Option.getD_none] at hi
    simp only [hi]
    exact ⟨_, rfl, rfl, rfl, rfl, rfl, rfl, rfl, rfl⟩
  | some t =>
    rw [hb] at hi
    simp only [Option.getD_some] at hi
    simp only [hi]
    exact ⟨_, rfl, rfl, rfl, rfl, rfl, rfl, rfl, rfl⟩

/-- The fields of a page built from at most 204 entries that `addPage` reads. -/
theorem page_of_entries (es : List (Int × Int)) (e : Int × Int) (hlast : es.getLast? = some e)
    (hlen : es.length ≤ 204) (hint : ∀ kv ∈ es, IsInt64 kv.1 ∧ IsInt64 kv.2) :
    (∃ last, (Page.addEntries es Page.new).2.keys.getLast? = some last ∧ last.key = e.1) ∧
    (Page.addEntries es Page.new).2.numEntries = (es.length : Int) ∧
    es.head?.map Prod.fst = some (Page.addEntries es Page.new).2.startingKey := by
  have h := Page.holds_addEntries es hint
  rw [List.take_of_length_le hlen] at h
  refine ⟨?_, h.numEntries, ?_⟩
  · have hk := congrArg List.getLast? h.keysKey
    rw [List.getLast?_map, List.getLast?_map, hlast] at hk
    cases hl : (Page.addEntries es Page.new).2.keys.getLast? with
    | none => rw [hl] at hk; cases hk
    | some last =>
      rw [hl] at hk
      simp only [Option.map_some', Option.some.injEq] at hk
      exact ⟨last, rfl, hk⟩
  · rw [h.startingKey]
    cases es with
    | nil => cases hlast
    | cons a rest => rfl

/-- A sequence of `addPage` calls with pages built from non-empty lists of
entries: the calls return when the insertions into the tree return, and then
the fields of the SST are as follows. -/
theorem addPages_pagesOf (ess : List (List (Int × Int))) :
    ∀ (s0 : SST) (k : Nat), s0.numPages = (k : Int) →
      (∀ es ∈ ess, es ≠ [] ∧ es.length ≤ 204 ∧ ∀ kv ∈ es, IsInt64 kv.1 ∧ IsInt64 kv.2) →
      match BTree.insertAll (treePairs ess k) (s0.btree.getD (BTree.new BTREE_DEGREE)) with
      | .error e => addPages (pagesOf ess) s0 = .error e
      | .ok t => ∃ s, addPages (pagesOf ess) s0 = .ok s ∧ (ess ≠ [] → s.btree = some t) ∧
          s.numPages = (k : Int) + (ess.length : Int) ∧
          s.numEntries = s0.numEntries + (ess.flatten.length : Int) ∧
          s.pages = s0.pages ++ pagesOf ess ∧
          s.startingKey =
            (if k = 0 then (ess.flatten.head?.map Prod.fst).getD s0.startingKey else s0.startingKey) ∧
          s.endingKey = (ess.flatten.getLast?.map Prod.fst).getD s0.endingKey ∧
          s.pageOffsets = s0.pageOffsets ++ (treePairs ess k).map Prod.snd := by
  induction ess with
  | nil =>
    intro s0 k hk _
    simp only [treePairs, BTree.insertAll, pagesOf, List.map_nil, addPages]
    refine ⟨s0, rfl, fun h => absurd rfl h, ?_, ?_, ?_, ?_, ?_, ?_⟩
    · simp [hk]
    · simp
    · simp
    · simp
    · simp
    · simp
  | cons es rest ih =>
    intro s0 k hk hall
    obtain ⟨hne, hlen, hint⟩ := hall es (List.mem_cons_self _ _)
    obtain ⟨e, he⟩ : ∃ e, es.getLast? = some e := by
      cases hl : es.getLast? with
      | none => rw [List.getLast?_eq_none_iff] at hl; exact absurd hl hne
      | some e => exact ⟨e, rfl⟩
    obtain ⟨⟨last, hlast, hkey⟩, hnum, hstart⟩ := page_of_entries es e he hlen hint
    have hoff2 : (SST_METADATA_SIZE : Int) + PAGE_SIZE + (s0.numPages + 1 - 1) * PAGE_SIZE =
        (24 : Int) + 4096 + 4096 * (k : Int) := by
      rw [hk]; simp only [SST_METADATA_SIZE, PAGE_SIZE]; push_cast; ring
    simp only [treePairs, BTree.insertAll, pagesOf, List.map_cons, addPages, he, Option.map_some',
      Option.getD_some]
    cases hins : (s0.btree.getD (BTree.new BTREE_DEGREE)).insert e.1 ((24 : Int) + 4096 + 4096 * (k : Int)) with
    | error err =>
      simp only
      rw [← hkey, ← hoff2] at hins
      rw [addPage_error s0 _ last err hlast hins]
    | ok t1 =>
      simp only
      rw [← hkey, ← hoff2] at hins
      obtain ⟨s1, e1, g1, g2, g3, g4, g5, g6, g7⟩ := addPage_ok s0 _ last t1 hlast hins
      rw [e1]
      simp only
      have := ih s1 (k + 1) (by rw [g2, hk]; push_cast; ring)
        (fun x hx => hall x (List.mem_cons_of_mem _ hx))
      rw [g1] at this
      simp only [Option.getD_some] at this
      cases hrest : BTree.insertAll (treePairs rest (k + 1)) t1 with
      | error err =>
        rw [hrest] at this
        simp only at this ⊢
        exact this
      | ok t2 =>
        rw [hrest] at this
        simp only at this ⊢
        obtain ⟨s, h1, h2, h3, h4, h5, h6, h7, h8⟩ := this
        refine ⟨s, h1, fun _ => ?_, ?_, ?_, ?_, ?_, ?_, ?_⟩
        · cases rest with
          | nil =>
            simp only [treePairs, BTree.insertAll, Except.ok.injEq] at hrest
            simp only [pagesOf, List.map_nil, addPages, Except.ok.injEq] at h1
            rw [← h1, ← hrest]
            exact g1
          | cons r rs => exact h2 (by simp)
        · rw [h3]; simp only [List.length_cons]; push_cast; ring
        · rw [h4, g3, hnum]; simp only [List.flatten_cons, List.length_append]; push_cast; ring
        · rw [h5, g4]; simp [pagesOf]
        · rw [h6, if_neg (by omega), g5]
          have hhead : (es ++ rest.flatten).head? = es.head? := by
            cases es with
            | nil => exact absurd rfl hne
            | cons a as => rfl
          simp only [List.flatten_cons, hhead, hstart, Option.getD_some, hk]
          by_cases hk0 : k = 0
          · simp [hk0]
          · rw [if_neg hk0, if_neg (by omega)]
        · rw [h7, g6, hkey]
          simp only [List.flatten_cons]
          cases hr : rest.flatten.getLast? with
          | none =>
            rw [List.getLast?_eq_none_iff] at hr
            simp [hr, he]
          | some x =>
            have : (es ++ rest.flatten).getLast? = some x := by
              rw [List.getLast?_append, hr]; rfl
            rw [this]; rfl
        · rw [h8, g7, hoff2]; simp [treePairs]

end SST

theorem head_le_of_pairwise (l : List (Int × Int)) (h : l.Pairwise (fun a b => a.1 < b.1))
    (a : Int × Int) (ha : l.head? = some a) : ∀ kv ∈ l, a.1 ≤ kv.1 := by
  cases l with
  | nil => cases ha
  | cons x rest =>
    simp only [List.head?_cons, Option.some.injEq] at ha
    subst ha
    rw [List.pairwise_cons] at h
    intro kv hkv
    rcases List.mem_cons.1 hkv with h1 | h1
    · rw [h1]
    · exact le_of_lt (h.1 kv h1)

theorem le_getLast_of_pairwise (l : List (Int × Int)) (h : l.Pairwise (fun a b => a.1 < b.1))
    (z : Int × Int) (hz : l.getLast? = some z) : ∀ kv ∈ l, kv.1 ≤ z.1 := by
  obtain ⟨X, hX⟩ := List.getLast?_eq_some_iff.1 hz
  subst hX
  rw [List.pairwise_append] at h
  intro kv hkv
  rcases List.mem_append.1 hkv with h1 | h1
  · exact le_of_lt (h.2.2 kv h1 _ (List.mem_singleton_self _))
  · simp only [List.mem_singleton] at h1; rw [h1]

namespace SST

theorem treePairs_length (ess : List (List (Int × Int))) : ∀ k, (treePairs ess k).length = ess.length := by
  induction ess with
  | nil => intro k; rfl
  | cons es rest ih => intro k; simp [treePairs, ih]

theorem treePairs_mem (ess : List (List (Int × Int))) (hne : ∀ es ∈ ess, es ≠ []) :
    ∀ k, ∀ ko ∈ treePairs ess k, ∃ kv ∈ ess.flatten, ko.1 = kv.1 := by
  induction ess with
  | nil => intro k ko h; simp [treePairs] at h
  | cons es rest ih =>
    intro k ko h
    simp only [treePairs, List.mem_cons] at h
    rcases h with h | h
    · obtain ⟨e, he⟩ : ∃ e, es.getLast? = some e := by
        cases hl : es.getLast? with
        | none =>
          rw [List.getLast?_eq_none_iff] at hl
          exact absurd hl (hne es (List.mem_cons_self _ _))
        | some e => exact ⟨e, rfl⟩
      refine ⟨e, ?_, ?_⟩
      · simp only [List.flatten_cons, List.mem_append]
        exact Or.inl (List.mem_of_mem_getLast? (Option.mem_def.2 he))
      · rw [h, he]; rfl
    · obtain ⟨kv, h1, h2⟩ := ih (fun x hx => hne x (List.mem_cons_of_mem _ hx)) (k + 1) ko h
      exact ⟨kv, by simp only [List.flatten_cons, List.mem_append]; exact Or.inr h1, h2⟩

/-- The keys passed to the tree ascend when the entries of the pages do. -/
theorem treePairs_ascending (ess : List (List (Int × Int))) (hne : ∀ es ∈ ess, es ≠ [])
    (hasc : ess.flatten.Pairwise (fun a b => a.1 < b.1)) :
    ∀ k, (treePairs ess k).Pairwise (fun a b => a.1 < b.1) := by
  induction ess with
  | nil => intro k; simp [treePairs]
  | cons es rest ih =>
    intro k
    simp only [List.flatten_cons] at hasc
    rw [List.pairwise_append] at hasc
    simp only [treePairs, List.pairwise_cons]
    refine ⟨?_, ih (fun x hx => hne x (List.mem_cons_of_mem _ hx)) hasc.2.1 (k + 1)⟩
    intro ko hko
    obtain ⟨kv, h1, h2⟩ := treePairs_mem rest (fun x hx => hne x (List.mem_cons_of_mem _ hx)) (k + 1) ko hko
    obtain ⟨e, he⟩ : ∃ e, es.getLast? = some e := by
      cases hl : es.getLast? with
      | none =>
        rw [List.getLast?_eq_none_iff] at hl
        exact absurd hl (hne es (List.mem_cons_self _ _))
      | some e => exact ⟨e, rfl⟩
    rw [he, h2]
    exact hasc.2.2 e (List.mem_of_mem_getLast? (Option.mem_def.2 he)) kv h1

/-- Up to `2t - 1` insertions of ascending keys into an empty tree return. -/
theorem insertAll_new_ascending (t : Nat) (kos : List (Int × Int)) (hlen : kos.length ≤ 2 * t - 1)
    (hasc : kos.Pairwise (fun a b => a.1 < b.1)) :
    ∃ tree, BTree.insertAll kos (BTree.new t) = .ok tree := by
  cases kos with
  | nil => exact ⟨_, rfl⟩
  | cons k0 rest =>
    simp only [List.length_cons] at hlen
    rw [List.pairwise_cons] at hasc
    simp only [BTree.insertAll, BTree.insert, BTree.new]
    rw [BTree.insertAll_leaf t rest [k0.1] [k0.2] rfl (by simp only [List.length_singleton]; omega)
      (by
        intro k hk ko hko
        simp only [List.mem_singleton] at hk
        subst hk
        exact hasc.1 ko hko) hasc.2]
    exact ⟨_, rfl⟩

end SST

set_option maxRecDepth 1000000

/-! ## The byte image of the filter -/

namespace BloomFilter

theorem updateData_data (f : BloomFilter) (i : Nat) :
    f.updateData.data i = if i < PAGE_SIZE ∧ i < f.numBits ∧ f.bitArray i then 1 else 0 := rfl

theorem updateData_bitArray (f : BloomFilter) : f.updateData.bitArray = f.bitArray := rfl

theorem updateData_numBits (f : BloomFilter) : f.updateData.numBits = f.numBits := rfl

theorem updateData_numHashFunctions (f : BloomFilter) :
    f.updateData.numHashFunctions = f.numHashFunctions := rfl

theorem getHashValues_lt (f : BloomFilter) (key : Int) (hb : 0 < f.numBits) :
    ∀ h ∈ f.getHashValues key, h < f.numBits := by
  intro h hh
  simp only [getHashValues, List.mem_map] at hh
  obtain ⟨i, _, rfl⟩ := hh
  exact Nat.mod_lt _ hb

theorem updateData_query (f : BloomFilter) (key : Int) : f.updateData.query key = f.query key := by
  unfold query
  rw [getHashValues_congr f f.updateData rfl rfl]
  rfl

end BloomFilter

namespace KVStore

theorem bloomCheck_eq_true (data : Bytes) (hs : List Nat) :
    bloomCheck data hs = true ↔ ∀ h ∈ hs, data h ≠ 0 := by
  induction hs with
  | nil => simp [bloomCheck]
  | cons h hs ih =>
    by_cases hb : data h = 0
    · simp [bloomCheck, hb]
    · simp [bloomCheck, hb, ih]

/-- The test of `Get` on a buffer that holds the byte image of a filter, at
slots below the size of the filter. -/
theorem bloomCheck_image (f : BloomFilter) (buf : Bytes) (hs : List Nat)
    (hb : f.numBits = PAGE_SIZE) (hbuf : ∀ i, i < PAGE_SIZE → buf i = f.updateData.data i)
    (hlt : ∀ h ∈ hs, h < f.numBits) :
    bloomCheck buf hs = BloomFilter.queryLoop f.bitArray hs := by
  rw [Bool.eq_iff_iff, bloomCheck_eq_true, BloomFilter.queryLoop_eq_true]
  constructor
  · intro h i hi
    have h1 := h i hi
    have h2 := hlt i hi
    rw [hbuf i (by omega), BloomFilter.updateData_data] at h1
    by_contra hc
    rw [if_neg (by simp [hc])] at h1
    exact h1 rfl
  · intro h i hi
    have h1 := h i hi
    have h2 := hlt i hi
    rw [hbuf i (by omega), BloomFilter.updateData_data, if_pos ⟨by omega, h2, h1⟩]
    decide

end KVStore

namespace SST

theorem writePages_below (pages : List Page) :
    ∀ (off : Nat) (fd : File) (j : Nat), j < off →
      (writePages pages off fd).2.bytes j = fd.bytes j := by
  induction pages with
  | nil => intro off fd j _; rfl
  | cons p rest ih =>
    intro off fd j hj
    simp only [writePages]
    rw [ih (off + PAGE_SIZE) _ j (by omega), pwrite_bytes_out _ _ _ _ _ (Or.inl hj)]

theorem writePages_size_le (pages : List Page) :
    ∀ (off : Nat) (fd : File), fd.size ≤ (writePages pages off fd).2.size := by
  induction pages with
  | nil => intro off fd; exact Nat.le_refl _
  | cons p rest ih =>
    intro off fd
    simp only [writePages]
    refine Nat.le_trans ?_ (ih _ _)
    rw [pwrite_size]
    exact Nat.le_max_left _ _

/-- The block behind the header of a written file is the byte image of the
filter. -/
theorem writeToFile_filter (s : SST) (fd : File) (h : s.writeToFile = .ok fd) :
    SST_METADATA_SIZE + PAGE_SIZE ≤ fd.size ∧
    ∀ i, i < PAGE_SIZE → fd.bytes (SST_METADATA_SIZE + i) = s.bloomFilter.updateData.data i := by
  have hsz : (((((File.empty.pwrite (writeInt32 zeroBytes 0 s.numEntries) 4 0).pwrite
      (writeInt32 zeroBytes 0 s.numPages) 4 4).pwrite (writeInt64 zeroBytes 0 s.startingKey) 8 8).pwrite
      (writeInt64 zeroBytes 0 s.endingKey) 8 16).pwrite s.bloomFilter.updateData.data PAGE_SIZE 24).size
      = 24 + PAGE_SIZE := by
    simp [pwrite_size, File.empty, PAGE_SIZE]
  have hw := writePages_spec s.pages (24 + PAGE_SIZE) _ hsz
  have hb := writePages_below s.pages (24 + PAGE_SIZE)
    (((((File.empty.pwrite (writeInt32 zeroBytes 0 s.numEntries) 4 0).pwrite
      (writeInt32 zeroBytes 0 s.numPages) 4 4).pwrite (writeInt64 zeroBytes 0 s.startingKey) 8 8).pwrite
      (writeInt64 zeroBytes 0 s.endingKey) 8 16).pwrite s.bloomFilter.updateData.data PAGE_SIZE 24)
  unfold writeToFile at h
  simp only at h
  cases ht : s.btree with
  | none => rw [ht] at h; cases h
  | some t =>
    rw [ht] at h
    simp only at h
    cases hr : t.getRoot with
    | none =>
      rw [hr] at h
      simp only [Except.ok.injEq] at h
      subst h
      refine ⟨by rw [hw.2]; simp only [SST_METADATA_SIZE]; omega, fun i hi => ?_⟩
      rw [hb _ (by simp only [SST_METADATA_SIZE]; omega)]
      exact pwrite_bytes_in _ _ _ _ _ hi
    | some root =>
      rw [hr] at h
      simp only [Except.ok.injEq] at h
      subst h
      have w := postorderTraversalWrite_wrote root
        (writePages s.pages (24 + PAGE_SIZE)
          (((((File.empty.pwrite (writeInt32 zeroBytes 0 s.numEntries) 4 0).pwrite
          (writeInt32 zeroBytes 0 s.numPages) 4 4).pwrite (writeInt64 zeroBytes 0 s.startingKey) 8 8).pwrite
          (writeInt64 zeroBytes 0 s.endingKey) 8 16).pwrite s.bloomFilter.updateData.data PAGE_SIZE 24)).1
        (writePages s.pages (24 + PAGE_SIZE)
          (((((File.empty.pwrite (writeInt32 zeroBytes 0 s.numEntries) 4 0).pwrite
          (writeInt32 zeroBytes 0 s.numPages) 4 4).pwrite (writeInt64 zeroBytes 0 s.startingKey) 8 8).pwrite
          (writeInt64 zeroBytes 0 s.endingKey) 8 16).pwrite s.bloomFilter.updateData.data PAGE_SIZE 24)).2
      have h1 := w.size (by rw [hw.1, hw.2])
      have h2 := w.next
      refine ⟨by rw [h1, h2, hw.1]; simp only [SST_METADATA_SIZE]; omega, fun i hi => ?_⟩
      rw [w.below _ (by rw [hw.1]; simp only [SST_METADATA_SIZE]; omega),
        hb _ (by simp only [SST_METADATA_SIZE]; omega)]
      exact pwrite_bytes_in _ _ _ _ _ hi

/-- The filter of an SST built by `addPage` calls from `SST()` has the
parameters of the filter that `Get` builds. -/
theorem addPages_new_filter (pages : List Page) (s : SST) (h : addPages pages SST.new = .ok s) :
    s.bloomFilter.numBits = PAGE_SIZE ∧
    s.bloomFilter.numHashFunctions = (BloomFilter.new NUM_ENTRIES BITS_PER_ENTRY).numHashFunctions :=
  ⟨(addPages_filter pages SST.new s h).1, (addPages_filter pages SST.new s h).2.1⟩

end SST

/-! ## The length of the clock sweep -/

namespace BufferPool

/-- One iteration of the loop at an entry whose bit is set, for the loop and for
the count of its iterations. -/
theorem sweep_pass_one (p : BufferPool) (a : ClockNode) (rest : List ClockNode)
    (hh : ∃ h, p.clockHand = some h ∧ h < p.ring.length) (hv : p.fromHand = a :: rest)
    (hbit : a.referenceBit ≠ 0) :
    ∃ p1, (∀ f, evictLoop (f + 1) p = evictLoop f p1) ∧
      (∀ f, sweepLength (f + 1) p = (sweepLength f p1).map (fun k => k + 1)) ∧
      (∃ h, p1.clockHand = some h ∧ h < p1.ring.length) ∧
      p1.fromHand = rest ++ [cleared a] ∧ p1.ring.length = p.ring.length := by
  obtain ⟨h, hh, hlt⟩ := hh
  obtain ⟨A, a0, B, hr, hA⟩ := split_at_hand p.ring h hlt
  subst hA
  have hf := fromHand_split p A a0 B hr hh
  rw [hv] at hf
  simp only [List.cons_append, List.cons.injEq] at hf
  obtain ⟨rfl, rfl⟩ := hf
  refine ⟨{ p with ring := p.ring.set A.length { a with referenceBit := 0 },
                   clockHand := some (if A.length + 1 = p.ring.length then 0 else A.length + 1) },
    ?_, ?_, ?_, ?_, ?_⟩
  · intro f
    simp only [evictLoop, hh, hr, get?_append_length, if_neg hbit]
  · intro f
    simp only [sweepLength, hh, hr, get?_append_length, if_neg hbit]
  · by_cases hB : B = []
    · subst hB
      refine ⟨0, ?_, ?_⟩
      · simp [hr]
      · simp [hr]
    · have hBl : 0 < B.length := List.length_pos.2 hB
      refine ⟨A.length + 1, ?_, ?_⟩
      · simp only [hr, List.length_append, List.length_cons]
        rw [if_neg (by omega)]
      · simp only [hr, List.length_set, List.length_append, List.length_cons]
        omega
  · by_cases hB : B = []
    · subst hB
      simp only [fromHand, hr, set_append_length, List.length_append, List.length_cons,
        List.length_nil, if_true, List.drop_zero, List.take_zero, List.append_nil,
        List.nil_append, cleared]
    · have hBl : 0 < B.length := List.length_pos.2 hB
      simp only [fromHand, hr, set_append_length, List.length_append, List.length_cons]
      rw [if_neg (by omega)]
      have e : A ++ { a with referenceBit := 0 } :: B = (A ++ [{ a with referenceBit := 0 }]) ++ B := by
        simp
      have l : (A ++ [{ a with referenceBit := 0 }]).length = A.length + 1 := by simp
      rw [e, ← l, List.drop_left, List.take_left]
      simp [cleared]
  · simp

/-- The loop over a run of entries whose bits are set. -/
theorem sweep_pass (pre : List ClockNode) :
    ∀ (p : BufferPool) (suffix : List ClockNode),
      (∃ h, p.clockHand = some h ∧ h < p.ring.length) → p.fromHand = pre ++ suffix →
      (∀ n ∈ pre, n.referenceBit ≠ 0) →
      ∃ p1, (∀ f, evictLoop (pre.length + f) p = evictLoop f p1) ∧
        (∀ f, sweepLength (pre.length + f) p =
          (sweepLength f p1).map (fun k => k + pre.length)) ∧
        (∃ h, p1.clockHand = some h ∧ h < p1.ring.length) ∧
        p1.fromHand = suffix ++ pre.map cleared ∧ p1.ring.length = p.ring.length := by
  induction pre with
  | nil =>
    intro p suffix hh hv _
    refine ⟨p, fun f => by simp, fun f => ?_, hh, by simpa using hv, rfl⟩
    simp only [List.length_nil, Nat.zero_add, Nat.add_zero]
    cases sweepLength f p <;> rfl
  | cons a pre ih =>
    intro p suffix hh hv hbits
    obtain ⟨p1, e1, c1, hh1, hv1, l1⟩ :=
      sweep_pass_one p a (pre ++ suffix) hh (by simpa using hv)
        (hbits a (List.mem_cons_self _ _))
    obtain ⟨p2, e2, c2, hh2, hv2, l2⟩ :=
      ih p1 (suffix ++ [cleared a]) hh1 (by simpa using hv1)
        (fun n hn => hbits n (List.mem_cons_of_mem _ hn))
    refine ⟨p2, fun f => ?_, fun f => ?_, hh2, ?_, l2.trans l1⟩
    · have : (a :: pre).length + f = pre.length + f + 1 := by simp; omega
      rw [this, e1, e2]
    · have : (a :: pre).length + f = pre.length + f + 1 := by simp; omega
      rw [this, c1, c2]
      cases sweepLength f p2 with
      | none => rfl
      | some k => simp only [Option.map_some', List.length_cons, Nat.add_assoc]
    · simp [hv2]

/-- The iteration at an entry whose bit is clear does not look at what is left
of the bound. -/
theorem sweep_evict (f1 f2 : Nat) (p : BufferPool) (v : ClockNode) (post : List ClockNode)
    (hh : ∃ h, p.clockHand = some h ∧ h < p.ring.length) (hv : p.fromHand = v :: post)
    (hbit : v.referenceBit = 0) :
    evictLoop (f1 + 1) p = evictLoop (f2 + 1) p ∧ sweepLength (f1 + 1) p = some 0 := by
  obtain ⟨h, hh, hlt⟩ := hh
  obtain ⟨A, a0, B, hr, hA⟩ := split_at_hand p.ring h hlt
  subst hA
  have hf := fromHand_split p A a0 B hr hh
  rw [hv] at hf
  simp only [List.cons_append, List.cons.injEq] at hf
  obtain ⟨rfl, rfl⟩ := hf
  constructor
  · simp only [evictLoop, hh, hr, get?_append_length, if_pos hbit]
  · simp only [sweepLength, hh, hr, get?_append_length, if_pos hbit]

/-- The loop of `evictPage` on a pool whose hand is on an entry: with every
bound above the number of entries it makes the same iterations, at most as
many as there are entries before the one that evicts. -/
theorem sweep_spec (p : BufferPool) (hh : ∃ h, p.clockHand = some h ∧ h < p.ring.length)
    (fuel : Nat) (hf : p.ring.length < fuel) :
    evictLoop fuel p = p.evictPage ∧
    ∃ k, k ≤ p.ring.length ∧ sweepLength fuel p = some k := by
  have hlen := length_fromHand p
  rcases order_cases p.fromHand with ⟨pre, v, post, e, hpre, hv, -, -⟩ | ⟨hall, -, -⟩
  · have hle : pre.length + 1 ≤ p.ring.length := by
      rw [← hlen, e]; simp
    obtain ⟨k, hk⟩ : ∃ k, p.ring.length + 1 = pre.length + (k + 1) :=
      ⟨p.ring.length - pre.length, by omega⟩
    obtain ⟨j, hj⟩ : ∃ j, fuel = pre.length + (j + 1) := ⟨fuel - pre.length - 1, by omega⟩
    obtain ⟨p1, e1, c1, hh1, hv1, -⟩ := sweep_pass pre p (v :: post) hh e hpre
    have s1 := sweep_evict j k p1 v (post ++ pre.map cleared) hh1 (by simpa using hv1) hv
    refine ⟨?_, pre.length, by omega, ?_⟩
    · unfold evictPage
      rw [hk, hj, e1, e1, s1.1]
    · rw [hj, c1, s1.2]
      simp
  · obtain ⟨h, hh0, hlt⟩ := hh
    cases ho : p.fromHand with
    | nil => rw [ho] at hlen; simp at hlen; omega
    | cons a rest =>
      rw [ho] at hall hlen
      obtain ⟨j, hj⟩ : ∃ j, fuel = (a :: rest).length + (j + 1) :=
        ⟨fuel - (a :: rest).length - 1, by omega⟩
      obtain ⟨p1, e1, c1, hh1, hv1, -⟩ :=
        sweep_pass (a :: rest) p [] ⟨h, hh0, hlt⟩ (by simpa using ho) hall
      have s1 := sweep_evict j 0 p1 (cleared a) (rest.map cleared) hh1 (by simpa using hv1) rfl
      refine ⟨?_, (a :: rest).length, by omega, ?_⟩
      · unfold evictPage
        rw [← hlen, hj, e1, e1, s1.1]
      · rw [hj, c1, s1.2]
        simp

theorem hand_of_nonempty (p : BufferPool) (h : HandOk p) (hne : 0 < p.ring.length) :
    ∃ k, p.clockHand = some k ∧ k < p.ring.length := by
  unfold HandOk at h
  cases hc : p.clockHand with
  | none =>
    rw [hc] at h
    simp only at h
    rw [h] at hne
    simp at hne
  | some k =>
    rw [hc] at h
    exact ⟨k, rfl, h⟩

theorem victim_mem (order : List ClockNode) (v : ClockNode) (h : victimOf order = some v) :
    v ∈ order := by
  unfold victimOf at h
  cases hf : order.find? (fun n => n.referenceBit = 0) with
  | some w =>
    rw [hf] at h
    simp only [Option.some.injEq] at h
    subst h
    exact List.mem_of_find?_eq_some hf
  | none =>
    rw [hf] at h
    simp only at h
    exact List.mem_of_mem_head? (Option.mem_def.2 h)

end BufferPool

/-! ## The hash map as a finite map -/

namespace HashMap

variable {V : Type}

theorem chained_call (m : HashMap V) (c : Call V) (h : Chained m) : Chained (m.call c) := by
  cases c with
  | insert key value => exact chained_insert m key value h
  | remove key => exact chained_remove m key h

theorem chained_calls (cs : List (Call V)) (m : HashMap V) (h : Chained m) :
    Chained (calls cs m) := by
  induction cs generalizing m with
  | nil => exact h
  | cons c cs ih => exact ih _ (chained_call m c h)

theorem capacity_after_calls (cs : List (Call V)) (m : HashMap V) :
    (calls cs m).capacity = m.capacity := by
  induction cs generalizing m with
  | nil => rfl
  | cons c cs ih =>
    have : (calls (c :: cs) m) = calls cs (m.call c) := rfl
    rw [this, ih]
    cases c <;> rfl

/-- The lookup after one call. -/
theorem get_call (m : HashMap V) (c : Call V) (k : String) (h : Chained m) :
    (m.call c).get k =
      match c with
      | .insert key value => if k = key then some value else m.get k
      | .remove key => if k = key then none else m.get k := by
  cases c with
  | insert key value => exact get_insert m key value k
  | remove key => exact get_remove m key k h

/-- The lookup after a sequence of calls on a map with chains without repeated
keys. -/
theorem get_calls (cs : List (Call V)) (m : HashMap V) (k : String) (h : Chained m) :
    (calls cs m).get k =
      cs.foldl (fun acc c =>
        match c with
        | .insert key value => if k = key then some value else acc
        | .remove key => if k = key then none else acc) (m.get k) := by
  induction cs generalizing m with
  | nil => rfl
  | cons c cs ih =>
    have : (calls (c :: cs) m) = calls cs (m.call c) := rfl
    rw [this, ih _ (chained_call m c h), List.foldl_cons, get_call m c k h]

end HashMap

/-! ## The level lists as a binary counter -/

namespace LSMTree

theorem weight_append_replicate (l : List (List String)) (k : Nat) :
    weight (l ++ List.replicate k []) = weight l := by
  induction l with
  | nil =>
    induction k with
    | zero => rfl
    | succ k ih =>
      simp only [List.nil_append] at ih
      simp only [List.nil_append, List.replicate_succ, weight, ih, List.length_nil]
  | cons x l ih =>
    show x.length + 2 * weight (l ++ List.replicate k []) = x.length + 2 * weight l
    rw [ih]

theorem weight_ensureLevelExists (t : LSMTree) (level : Nat) :
    weight (t.ensureLevelExists level).levels = weight t.levels :=
  weight_append_replicate _ _

theorem weight_set (l : List (List String)) :
    ∀ j, weight (l.set j []) + (l.getD j []).length * 2 ^ j = weight l := by
  induction l with
  | nil => intro j; simp [weight]
  | cons x l ih =>
    intro j
    cases j with
    | zero => simp [weight]; omega
    | succ j =>
      have := ih j
      simp only [List.set_cons_succ, weight, List.getD_cons_succ, Nat.pow_succ]
      rw [← this]
      ring

theorem weight_modify (l : List (List String)) (x : String) :
    ∀ j, j < l.length → weight (l.modify (fun l => l ++ [x]) j) = weight l + 2 ^ j := by
  induction l with
  | nil => intro j hj; simp at hj
  | cons y l ih =>
    intro j hj
    cases j with
    | zero => simp [weight, List.modify]; omega
    | succ j =>
      have := ih j (by simpa using hj)
      rw [List.modify_succ_cons]
      simp only [weight, this, Nat.pow_succ]
      ring

/-- With fewer than two files in every level, the number of files of level `i`
is the binary digit `i` of the weight. -/
theorem weight_digit (l : List (List String)) (h : ∀ x ∈ l, x.length < 2) :
    ∀ i, (l.getD i []).length = weight l / 2 ^ i % 2 := by
  induction l with
  | nil => intro i; simp [weight]
  | cons x l ih =>
    intro i
    have hx : x.length < 2 := h x (List.mem_cons_self _ _)
    have ih := ih (fun y hy => h y (List.mem_cons_of_mem _ hy))
    cases i with
    | zero =>
      simp only [List.getD_cons_zero, weight, Nat.pow_zero, Nat.div_one]
      omega
    | succ i =>
      simp only [List.getD_cons_succ, weight]
      rw [ih i, Nat.pow_succ, Nat.mul_comm (2 ^ i) 2, ← Nat.div_div_eq_div_mul]
      congr 2
      omega

/-- Function `mergeLevels` with ratio 2 keeps the weight of the level lists. -/
theorem mergeLevels_weight (fuel : Nat) :
    ∀ (t : LSMTree) (fs : FileSystem) (level : Nat) (t' : LSMTree) (fs' : FileSystem),
      t.levelSizeRatio = 2 → mergeLevels fuel t fs level = .ok (t', fs') →
      weight t'.levels = weight t.levels := by
  induction fuel with
  | zero => intro t fs level t' fs' _ h; simp [mergeLevels] at h
  | succ fuel ih =>
    intro t fs level t' fs' hR h
    rw [mergeLevels] at h
    dsimp only at h
    have hR1 : (t.ensureLevelExists (level + 1)).levelSizeRatio = 2 := hR
    have hc1 := weight_ensureLevelExists t (level + 1)
    have hlen := length_ensureLevelExists t (level + 1)
    split at h
    · simp only [Except.ok.injEq, Prod.mk.injEq] at h
      obtain ⟨rfl, -⟩ := h
      exact hc1
    · rename_i heq
      rw [hR1] at heq
      split at h
      · rename_i n1 n2 hn1 hn2
        split at h
        · cases h
        · rename_i mergedSST hm
          split at h
          · rename_i s1 s2 hs1 hs2
            split at h
            · cases h
            · rename_i file hw
              generalize (t.ensureLevelExists (level + 1)).db_name ++ "/sst_" ++
                (if s1 < s2 then to_string s1 ++ "_" ++ to_string s2
                  else to_string s2 ++ "_" ++ to_string s1) ++ ".sst" = merged_filename at h
              have hnew : weight (((t.ensureLevelExists (level + 1)).levels.set level []).modify
                  (fun l => l ++ [merged_filename]) (level + 1)) = weight t.levels := by
                rw [weight_modify _ _ _ (by rw [List.length_set, hlen]; omega), ← hc1]
                have := weight_set (t.ensureLevelExists (level + 1)).levels level
                have h2 : ((t.ensureLevelExists (level + 1)).levels.getD level []).length = 2 := by
                  omega
                rw [h2] at this
                rw [Nat.pow_succ]
                omega
              split at h
              · exact (ih _ _ _ _ _ (by exact hR) h).trans hnew
              · simp only [Except.ok.injEq, Prod.mk.injEq] at h
                obtain ⟨rfl, -⟩ := h
                exact hnew
          · cases h
          · cases h
      · cases h
      · cases h

/-- Function `addSST` with ratio 2 adds one to the weight of the level lists. -/
theorem addSST_weight (t : LSMTree) (fs : FileSystem) (sstFileName : String) (t' : LSMTree)
    (fs' : FileSystem) (hR : t.levelSizeRatio = 2) (h : t.addSST fs sstFileName = .ok (t', fs')) :
    weight t'.levels = weight t.levels + 1 := by
  have hw : weight ((t.ensureLevelExists 0).levels.modify (fun l => l ++ [sstFileName]) 0) =
      weight t.levels + 1 := by
    rw [weight_modify _ _ _ (by rw [length_ensureLevelExists]; omega), weight_ensureLevelExists]
    rfl
  unfold addSST at h
  dsimp only at h
  split at h
  · unfold compact at h
    exact (mergeLevels_weight _ _ _ _ _ _ (by exact hR) h).trans hw
  · simp only [Except.ok.injEq, Prod.mk.injEq] at h
    obtain ⟨rfl, -⟩ := h
    exact hw

/-- A sequence of `addSST` calls that returns, on an index of ratio 2 with fewer
than two files in every level. -/
theorem addSSTs_spec (calls : List (FileSystem × String)) :
    ∀ (t t' : LSMTree), t.levelSizeRatio = 2 → (∀ l ∈ t.levels, l.length < 2) →
      addSSTs calls t = .ok t' →
      t'.levelSizeRatio = 2 ∧ (∀ l ∈ t'.levels, l.length < 2) ∧
      weight t'.levels = weight t.levels + calls.length := by
  induction calls with
  | nil =>
    intro t t' hR hinv h
    simp only [addSSTs, Except.ok.injEq] at h
    subst h
    exact ⟨hR, hinv, rfl⟩
  | cons c calls ih =>
    intro t t' hR hinv h
    obtain ⟨fs, name⟩ := c
    simp only [addSSTs] at h
    split at h
    · cases h
    · rename_i t1 fs1 h1
      have a := (addSST_spec t fs name hR hinv).2 t1 fs1 h1
      have b := addSST_weight t fs name t1 fs1 hR h1
      have c := ih t1 t' a.1 a.2 h
      refine ⟨c.1, c.2.1, ?_⟩
      rw [c.2.2, b, List.length_cons]
      omega

/-- No step of a sequence of `addSST` calls runs out of the bounds of the
loops. -/
theorem addSSTs_fuel (calls : List (FileSystem × String)) :
    ∀ (t : LSMTree), t.levelSizeRatio = 2 → (∀ l ∈ t.levels, l.length < 2) →
      addSSTs calls t ≠ .error .outOfFuel := by
  induction calls with
  | nil => intro t _ _ h; cases h
  | cons c calls ih =>
    intro t hR hinv h
    obtain ⟨fs, name⟩ := c
    simp only [addSSTs] at h
    split at h
    · rename_i e he
      cases h
      exact (addSST_spec t fs name hR hinv).1 he
    · rename_i t1 fs1 h1
      have a := (addSST_spec t fs name hR hinv).2 t1 fs1 h1
      exact ih t1 a.1 a.2 h

end LSMTree

/-! ## The heights of the memtable -/

namespace AVLTree

theorem height_null : height .null = 0 := rfl

theorem height_mk (k v : Int) (l r : Node) (h : Int) : height (.mk k v l r h) = h := rfl

theorem balanceFactor_mk (k v : Int) (l r : Node) (h : Int) :
    balanceFactor (.mk k v l r h) = height l - height r := rfl

theorem updateHeight_mk (k v : Int) (l r : Node) (h : Int) :
    updateHeight (.mk k v l r h) = 1 + max (height l) (height r) := rfl

theorem setHeight_mk (k v : Int) (l r : Node) (h h' : Int) :
    setHeight (.mk k v l r h) h' = .mk k v l r h' := rfl

theorem avl_mk (k v : Int) (l r : Node) (h : Int) :
    Avl (.mk k v l r h) ↔ Avl l ∧ Avl r ∧ h = 1 + max (height l) (height r) ∧
      -1 ≤ height l - height r ∧ height l - height r ≤ 1 := by
  simp only [Avl]

theorem height_nonneg (t : Node) (h : Avl t) : 0 ≤ height t := by
  induction t with
  | null => simp [height_null]
  | mk k v l r ht ihl ihr =>
    rw [avl_mk] at h
    have := ihl h.1
    have := ihr h.2.1
    simp only [height_mk, height_null]
    omega

/-- Function `balance` on a node whose subtrees satisfy the invariant and differ
in height by at most two. -/
theorem balance_avl (k v : Int) (l r : Node) (h : Int) (hl : Avl l) (hr : Avl r)
    (h1 : height l - height r ≤ 2) (h2 : height r - height l ≤ 2) :
    Avl (balance (.mk k v l r h)) ∧
    (height (balance (.mk k v l r h)) = 1 + max (height l) (height r) ∨
      (height (balance (.mk k v l r h)) = max (height l) (height r) ∧
        (height l - height r = 2 ∨ height r - height l = 2))) := by
  have nl := height_nonneg l hl
  have nr := height_nonneg r hr
  unfold balance
  simp only [setHeight_mk, updateHeight_mk, balanceFactor_mk]
  by_cases c1 : height l - height r > 1
  · rw [if_pos c1]
    cases l with
    | null => simp only [height_mk, height_null] at c1; omega
    | mk lk lv ll lr lh =>
      rw [avl_mk] at hl
      obtain ⟨hll, hlr, e, b1, b2⟩ := hl
      have nll := height_nonneg ll hll
      have nlr := height_nonneg lr hlr
      simp only [height_mk, height_null] at c1 h1 h2 nl
      simp only [balanceFactor_mk]
      by_cases c2 : height ll - height lr < 0
      · rw [if_pos c2]
        cases lr with
        | null => simp only [height_mk, height_null] at c2 nll; omega
        | mk mk_ mv mll mlr mh =>
          rw [avl_mk] at hlr
          obtain ⟨hmll, hmlr, e', b1', b2'⟩ := hlr
          have nmll := height_nonneg mll hmll
          have nmlr := height_nonneg mlr hmlr
          simp only [height_mk, height_null] at c2 e b1 b2 nlr
          simp only [rotateLeft, rotateRight, setHeight_mk, updateHeight_mk, height_mk, avl_mk]
          refine ⟨⟨⟨hll, hmll, ?_, ?_, ?_⟩, ⟨hmlr, hr, ?_, ?_, ?_⟩, ?_, ?_, ?_⟩, ?_⟩ <;>
            first | trivial | omega
      · rw [if_neg c2]
        simp only [rotateRight, setHeight_mk, updateHeight_mk, height_mk, avl_mk]
        refine ⟨⟨hll, ⟨hlr, hr, ?_, ?_, ?_⟩, ?_, ?_, ?_⟩, ?_⟩ <;>
            first | trivial | omega
  · rw [if_neg c1]
    by_cases c3 : height l - height r < -1
    · rw [if_pos c3]
      cases r with
      | null => simp only [height_mk, height_null] at c3; omega
      | mk rk rv rl rr rh =>
        rw [avl_mk] at hr
        obtain ⟨hrl, hrr, e, b1, b2⟩ := hr
        have nrl := height_nonneg rl hrl
        have nrr := height_nonneg rr hrr
        simp only [height_mk, height_null] at c3 h1 h2 nr
        simp only [balanceFactor_mk]
        by_cases c4 : height rl - height rr > 0
        · rw [if_pos c4]
          cases rl with
          | null => simp only [height_mk, height_null] at c4 nrr; omega
          | mk mk_ mv mll mlr mh =>
            rw [avl_mk] at hrl
            obtain ⟨hmll, hmlr, e', b1', b2'⟩ := hrl
            have nmll := height_nonneg mll hmll
            have nmlr := height_nonneg mlr hmlr
            simp only [height_mk, height_null] at c4 e b1 b2 nrl
            simp only [rotateLeft, rotateRight, setHeight_mk, updateHeight_mk, height_mk, avl_mk]
            refine ⟨⟨⟨hl, hmll, ?_, ?_, ?_⟩, ⟨hmlr, hrr, ?_, ?_, ?_⟩, ?_, ?_, ?_⟩, ?_⟩ <;>
            first | trivial | omega
        · rw [if_neg c4]
          simp only [rotateLeft, setHeight_mk, updateHeight_mk, height_mk, avl_mk]
          refine ⟨⟨⟨hl, hrl, ?_, ?_, ?_⟩, hrr, ?_, ?_, ?_⟩, ?_⟩ <;>
            first | trivial | omega
    · rw [if_neg c3]
      simp only [height_mk, avl_mk]
      refine ⟨⟨hl, hr, ?_, ?_, ?_⟩, ?_⟩ <;> first | trivial | omega | exact Or.inl trivial

/-- Function `put` on a tree that satisfies the invariant: the result satisfies
it, and is as high as the tree or one higher. -/
theorem putNode_avl (t : Node) (key value : Int) (h : Avl t) :
    Avl (putNode t key value) ∧
    (height (putNode t key value) = height t ∨ height (putNode t key value) = height t + 1) := by
  induction t with
  | null =>
    simp only [putNode, avl_mk, height_mk, height_null, Avl]
    refine ⟨⟨trivial, trivial, ?_, ?_, ?_⟩, ?_⟩ <;> trivial
  | mk k v l r ht ihl ihr =>
    rw [avl_mk] at h
    obtain ⟨hl, hr, e, b1, b2⟩ := h
    have a := ihl hl
    have b := ihr hr
    have nl := height_nonneg l hl
    have nr := height_nonneg r hr
    simp only [putNode]
    by_cases c1 : key < k
    · rw [if_pos c1]
      have := balance_avl k v (putNode l key value) r ht a.1 hr (by omega) (by omega)
      refine ⟨this.1, ?_⟩
      simp only [height_mk, height_null]
      omega
    · rw [if_neg c1]
      by_cases c2 : key > k
      · rw [if_pos c2]
        have := balance_avl k v l (putNode r key value) ht hl b.1 (by omega) (by omega)
        refine ⟨this.1, ?_⟩
        simp only [height_mk, height_null]
        omega
      · rw [if_neg c2]
        have := balance_avl k value l r ht hl hr (by omega) (by omega)
        refine ⟨this.1, ?_⟩
        simp only [height_mk, height_null]
        omega

/-- The invariant, read node by node with the functions of the source. -/
theorem avl_subtrees (t : Node) (h : Avl t) :
    ∀ x ∈ subtrees t, height x = updateHeight x ∧ -1 ≤ balanceFactor x ∧ balanceFactor x ≤ 1 := by
  induction t with
  | null => intro x hx; simp [subtrees] at hx
  | mk k v l r ht ihl ihr =>
    rw [avl_mk] at h
    intro x hx
    simp only [subtrees, List.mem_cons, List.mem_append] at hx
    rcases hx with rfl | hx | hx
    · simp only [height_mk, updateHeight_mk, balanceFactor_mk]
      exact ⟨h.2.2.1, h.2.2.2.1, h.2.2.2.2⟩
    · exact ihl h.1 x hx
    · exact ihr h.2.1 x hx

/-- In a search tree every node separates the keys of its subtrees. -/
theorem ordered_subtrees (t : Node) (h : Ordered t) :
    ∀ k v l r ht, Node.mk k v l r ht ∈ subtrees t →
      (∀ a ∈ keys l, a < k) ∧ (∀ b ∈ keys r, k < b) := by
  induction t with
  | null => intro k v l r ht hx; simp [subtrees] at hx
  | mk k0 v0 l0 r0 h0 ihl ihr =>
    intro k v l r ht hx
    simp only [Ordered, keys, toList, List.map_append, List.map_cons] at h
    have hp := List.pairwise_append.1 h
    have hr0 := (List.pairwise_cons.1 hp.2.1)
    simp only [subtrees, List.mem_cons, List.mem_append] at hx
    rcases hx with e | hx | hx
    · simp only [Node.mk.injEq] at e
      obtain ⟨rfl, rfl, rfl, rfl, rfl⟩ := e
      refine ⟨fun a ha => hp.2.2 a ha k (List.mem_cons_self _ _), fun b hb => hr0.1 b hb⟩
    · exact ihl hp.1 k v l r ht hx
    · exact ihr hr0.2 k v l r ht hx

theorem avl_calls (cs : List Call) (t : AVLTree) (h : Avl t.root) : Avl (calls cs t).root := by
  induction cs generalizing t with
  | nil => exact h
  | cons c cs ih =>
    simp only [calls, List.foldl_cons]
    apply ih
    cases c with
    | put key value => exact (putNode_avl _ _ _ h).1
    | del key => exact (putNode_avl _ _ _ h).1
    | clear => trivial

end AVLTree

/-! ## The order of the keys in the pages of an SST -/

namespace SST

theorem dirKeys_nil : dirKeys [] = [] := rfl

theorem dirKeys_append (a b : List Page) : dirKeys (a ++ b) = dirKeys a ++ dirKeys b := by
  simp [dirKeys, List.flatMap_append]

theorem dirKeys_singleton (p : Page) : dirKeys [p] = p.keys.map (fun ko => ko.key) := by
  simp [dirKeys]

/-- A call of `addPage` that returns has appended a page that is not empty. -/
theorem addPage_pages (s s' : SST) (p : Page) (h : s.addPage p = .ok s') :
    s'.pages = s.pages ++ [p] ∧ p.keys ≠ [] := by
  unfold addPage at h
  cases hl : p.keys.getLast? with
  | none => rw [hl] at h; cases h
  | some last =>
    rw [hl] at h
    dsimp only at h
    split at h
    · cases h
    · cases h
      refine ⟨rfl, ?_⟩
      intro hn
      rw [hn] at hl
      cases hl

end SST

namespace Page

/-- A call of `addEntry` either appends the key to the directory or leaves the
page as it is. -/
theorem addEntry_keys (p : Page) (key value : Int) :
    ((p.addEntry key value).1 = true ∧
      (p.addEntry key value).2.keys.map (fun ko => ko.key) =
        p.keys.map (fun ko => ko.key) ++ [key]) ∨
    p.addEntry key value = (false, p) := by
  by_cases h : p.freeSpace ≥ 20
  · left
    refine ⟨(addEntry_accepts_iff p key value).2 h, ?_⟩
    simp only [addEntry]
    rw [if_neg (by omega)]
    simp
  · exact Or.inr (addEntry_rejected p key value h)

theorem addEntry_new_keys (key value : Int) :
    (Page.new.addEntry key value).2.keys.map (fun ko => ko.key) = [key] := by
  rcases addEntry_keys Page.new key value with h | h
  · rw [h.2]; rfl
  · have := (addEntry_accepts_iff Page.new key value).2 (by decide)
    rw [h] at this
    cases this

end Page

namespace LSMTree

/-- The block `emit` appends the key to the keys written so far. -/
theorem emit_keys (p : Page) (s : SST) (key value : Int) (p' : Page) (s' : SST)
    (h : emit p s key value = .ok (p', s')) :
    SST.dirKeys (s'.pages ++ [p']) = SST.dirKeys (s.pages ++ [p]) ++ [key] ∧
    ((∀ q ∈ s.pages, q.keys ≠ []) → ∀ q ∈ s'.pages, q.keys ≠ []) := by
  unfold emit at h
  dsimp only at h
  rcases Page.addEntry_keys p key value with ha | ha
  · rw [if_pos ha.1] at h
    simp only [Except.ok.injEq, Prod.mk.injEq] at h
    obtain ⟨rfl, rfl⟩ := h
    refine ⟨?_, fun hq => hq⟩
    rw [SST.dirKeys_append, SST.dirKeys_append, SST.dirKeys_singleton, SST.dirKeys_singleton, ha.2,
      List.append_assoc]
  · rw [ha] at h
    simp only [Bool.false_eq_true, if_false] at h
    split at h
    · cases h
    · rename_i s1 h1
      simp only [Except.ok.injEq, Prod.mk.injEq] at h
      obtain ⟨rfl, rfl⟩ := h
      obtain ⟨e, hne⟩ := SST.addPage_pages s s1 p h1
      refine ⟨?_, fun hq q hm => ?_⟩
      · rw [e, SST.dirKeys_append, SST.dirKeys_singleton, Page.addEntry_new_keys]
      · rw [e] at hm
        rcases List.mem_append.1 hm with hm | hm
        · exact hq q hm
        · simp only [List.mem_singleton] at hm
          subst hm
          exact hne

end LSMTree

namespace KVStore

/-- The loop of `flushMemtableToSST` appends the keys of the pairs, in order, to
the keys written so far, and adds no empty page. -/
theorem fillPages_keys (kvs : List (Int × Int)) :
    ∀ (p : Page) (s : SST) (p' : Page) (s' : SST), fillPages kvs p s = .ok (p', s') →
      SST.dirKeys (s'.pages ++ [p']) = SST.dirKeys (s.pages ++ [p]) ++ kvs.map Prod.fst ∧
      ((∀ q ∈ s.pages, q.keys ≠ []) → ∀ q ∈ s'.pages, q.keys ≠ []) ∧
      (p.numEntries = (p.keys.length : Int) → p'.numEntries = (p'.keys.length : Int)) := by
  induction kvs with
  | nil =>
    intro p s p' s' h
    simp only [fillPages, Except.ok.injEq, Prod.mk.injEq] at h
    obtain ⟨rfl, rfl⟩ := h
    simp
  | cons kv rest ih =>
    intro p s p' s' h
    simp only [fillPages] at h
    have he : LSMTree.emit p s kv.1 kv.2 =
        (if (p.addEntry kv.1 kv.2).1 then .ok ((p.addEntry kv.1 kv.2).2, s)
         else match s.addPage p with
          | .error e => .error e
          | .ok s1 => .ok ((Page.new.addEntry kv.1 kv.2).2, s1)) := rfl
    by_cases ha : (p.addEntry kv.1 kv.2).1 = true
    · rw [if_pos ha] at h he
      have a := LSMTree.emit_keys p s kv.1 kv.2 _ _ he
      have b := ih _ _ _ _ h
      refine ⟨?_, fun hq => b.2.1 (a.2 hq), fun hn => b.2.2 ?_⟩
      · rw [b.1, a.1, List.map_cons, List.append_assoc]
        rfl
      · have hf := (Page.addEntry_accepts_iff p kv.1 kv.2).1 ha
        rw [(Page.addEntry_freeSpace p kv.1 kv.2 hf).2, hn]
        simp only [Page.addEntry]
        rw [if_neg (by omega)]
        simp
    · rw [if_neg ha] at h he
      cases h1 : s.addPage p with
      | error e => rw [h1] at h; cases h
      | ok s1 =>
        rw [h1] at h he
        simp only at h he
        have a := LSMTree.emit_keys p s kv.1 kv.2 _ _ he
        have b := ih _ _ _ _ h
        refine ⟨?_, fun hq => b.2.1 (a.2 hq), fun _ => b.2.2 ?_⟩
        · rw [b.1, a.1, List.map_cons, List.append_assoc]
          rfl
        · have hf : Page.new.freeSpace ≥ 20 := by decide
          rw [(Page.addEntry_freeSpace Page.new kv.1 kv.2 hf).2]
          simp only [Page.addEntry]
          rw [if_neg (by decide)]
          simp [Page.new]

/-- The SST object of a flush: its pages are not empty and their directories
hold the keys of the scan of the memtable, in the order of the scan. -/
theorem flushedSST_keys (m : AVLTree) (sst : SST) (h : flushedSST m = .ok sst) :
    SST.dirKeys sst.pages = (m.scan INT_MIN INT_MAX).map Prod.fst ∧
    (∀ q ∈ sst.pages, q.keys ≠ []) := by
  unfold flushedSST at h
  dsimp only at h
  split at h
  · rename_i front back hf hb
    cases hfp : fillPages (m.scan INT_MIN INT_MAX) Page.new
        { SST.new with startingKey := front.1, endingKey := back.1 } with
    | error e => rw [hfp] at h; cases h
    | ok r =>
      obtain ⟨p', s'⟩ := r
      rw [hfp] at h
      simp only at h
      have a := fillPages_keys _ _ _ _ _ hfp
      have hk : SST.dirKeys (s'.pages ++ [p']) = (m.scan INT_MIN INT_MAX).map Prod.fst := by
        rw [a.1]
        simp [SST.dirKeys, SST.new, Page.new]
      have hq : ∀ q ∈ s'.pages, q.keys ≠ [] := a.2.1 (by simp [SST.new])
      have hn : p'.numEntries = (p'.keys.length : Int) := a.2.2 (by simp [Page.new])
      split at h
      · obtain ⟨e, hne⟩ := SST.addPage_pages s' sst p' h
        rw [e]
        refine ⟨hk, fun q hm => ?_⟩
        rcases List.mem_append.1 hm with hm | hm
        · exact hq q hm
        · simp only [List.mem_singleton] at hm
          subst hm
          exact hne
      · rename_i hz
        simp only [Except.ok.injEq] at h
        subst h
        have : p'.keys = [] := List.length_eq_zero.1 (by omega)
        rw [SST.dirKeys_append, SST.dirKeys_singleton, this, List.map_nil, List.append_nil] at hk
        exact ⟨hk, hq⟩
  · cases h

end KVStore

/-! ## The merge loop keeps the keys in order -/

theorem pread_congr (f : File) (b b' : Bytes) (n : Nat) (off : Int)
    (h : (f.pread b n off).1 = (n : Int)) :
    (f.pread b' n off).1 = (n : Int) ∧ ∀ i, i < n → (f.pread b n off).2 i = (f.pread b' n off).2 i := by
  by_cases ho : off < 0
  · simp only [File.pread, if_pos ho] at h
    omega
  · simp only [File.pread, if_neg ho] at h ⊢
    refine ⟨h, fun i hi => ?_⟩
    have : i < min n (f.size - off.toNat) := by omega
    simp only [if_pos this]

namespace LSMTree

theorem readKeyOffsets_congr (b b' : Bytes) (h : ∀ i, i < PAGE_SIZE → b i = b' i) (n : Nat) :
    ∀ pos, readKeyOffsets b n pos = readKeyOffsets b' n pos := by
  induction n with
  | zero => intro pos; rfl
  | succ n ih =>
    intro pos
    simp only [readKeyOffsets]
    by_cases hp : pos + 8 + 4 > PAGE_SIZE
    · rw [if_pos hp, if_pos hp]
    · rw [if_neg hp, if_neg hp, ih (pos + 12),
        readInt64_congr b b' pos (fun i _ h2 => h i (by omega)),
        readInt32_congr b b' (pos + 8) (fun i _ h2 => h i (by omega))]

end LSMTree

namespace File

/-- The directory that `mergeTwoSSTs` reads into whatever buffer is the
directory of the page. -/
theorem directory_of_read (f : File) (buf : Bytes) (i : Nat) (keys : List KeyOffset)
    (hfull : (f.pread buf PAGE_SIZE
      ((SST_METADATA_SIZE + PAGE_SIZE + PAGE_SIZE * i : Nat) : Int)).1 = (PAGE_SIZE : Int))
    (hk : LSMTree.readKeyOffsets
      (f.pread buf PAGE_SIZE ((SST_METADATA_SIZE + PAGE_SIZE + PAGE_SIZE * i : Nat) : Int)).2
      (readInt32
        (f.pread buf PAGE_SIZE ((SST_METADATA_SIZE + PAGE_SIZE + PAGE_SIZE * i : Nat) : Int)).2
        0).toNat 16 = .ok keys) :
    f.directory i = keys := by
  have c := pread_congr f buf zeroBytes PAGE_SIZE _ hfull
  unfold directory
  rw [← LSMTree.readKeyOffsets_congr _ _ c.2,
    ← readInt32_congr _ _ 0 (fun j _ h2 => c.2 j (by simp only [PAGE_SIZE]; omega)), hk]

theorem drop_range (n i : Nat) (h : i < n) :
    (List.range n).drop i = i :: (List.range n).drop (i + 1) := by
  rw [List.drop_eq_getElem_cons (by simpa using h)]
  simp

theorem keysFrom_lt (f : File) (i : Nat) (h : i < f.numPages.toNat) :
    f.keysFrom i = (f.directory i).map (fun ko => ko.key) ++ f.keysFrom (i + 1) := by
  unfold keysFrom
  rw [drop_range _ _ h, List.flatMap_cons]

theorem keysFrom_ge (f : File) (i : Nat) (h : f.numPages.toNat ≤ i) : f.keysFrom i = [] := by
  unfold keysFrom
  rw [List.drop_of_length_le (by simpa using h)]
  rfl

end File

namespace LSMTree

theorem get?_drop_cons {α : Type} (l : List α) (i : Nat) (a : α) (h : l.get? i = some a) :
    l.drop i = a :: l.drop (i + 1) := by
  rw [List.get?_eq_getElem?] at h
  obtain ⟨hlt, rfl⟩ := List.getElem?_eq_some_iff.1 h
  exact List.drop_eq_getElem_cons hlt

theorem get?_none_drop {α : Type} (l : List α) (i : Nat) (h : l.get? i = none) : l.drop i = [] := by
  rw [List.get?_eq_getElem?] at h
  exact List.drop_of_length_le (List.getElem?_eq_none_iff.1 h)

/-- The reload of the first input keeps the invariant, and leaves a key to
compare unless the input is used up. -/
theorem reload1_inv (sst1 sst2 : File) (st st' : MergeState) (h : MergeInv sst1 sst2 st)
    (hne : ∀ i, i < sst1.numPages.toNat → sst1.directory i ≠ [])
    (hr : reload1 sst1 sst1.numPages st = .ok st') :
    MergeInv sst1 sst2 st' ∧ (st'.keys1.get? st'.keyIndex1 = none → rest1 sst1 st' = []) ∧
    st'.keys2 = st.keys2 ∧ st'.keyIndex2 = st.keyIndex2 ∧ st'.currentPage2 = st.currentPage2 := by
  unfold reload1 at hr
  by_cases hc : st.keyIndex1 ≥ st.keys1.length ∧ st.currentPage1 + 1 < sst1.numPages
  · rw [if_pos hc] at hr
    dsimp only at hr
    split at hr
    · cases hr
    · rename_i hfull
      simp only [not_not] at hfull
      split at hr
      · cases hr
      · rename_i keys1 hk
        simp only [Except.ok.injEq] at hr
        subst hr
        have hp := h.page1
        have hnat : (st.currentPage1 + 1).toNat = st.currentPage1.toNat + 1 := by omega
        have hoff : st.offset1 + PAGE_SIZE =
            SST_METADATA_SIZE + PAGE_SIZE + PAGE_SIZE * (st.currentPage1.toNat + 1) := by
          rw [h.offset1]; simp only [PAGE_SIZE]; omega
        rw [hoff] at hfull hk
        have hdir := File.directory_of_read sst1 st.buffer1 (st.currentPage1.toNat + 1) keys1 hfull hk
        have hlt : st.currentPage1.toNat + 1 < sst1.numPages.toNat := by omega
        have hrest : rest1 sst1 (MergeState.mk (st.offset1 + PAGE_SIZE) st.offset2
            (sst1.pread st.buffer1 PAGE_SIZE ((st.offset1 + PAGE_SIZE : Nat) : Int)).2 st.buffer2
            (st.currentPage1 + 1) st.currentPage2 keys1 st.keys2 0 st.keyIndex2 st.outputPage
            st.mergedSST) = rest1 sst1 st := by
          simp only [rest1, List.drop_zero]
          rw [hnat, List.drop_of_length_le hc.1, List.map_nil, List.nil_append,
            File.keysFrom_lt sst1 _ hlt, hdir]
        refine ⟨⟨⟨(by show (0 : Int) ≤ st.currentPage1 + 1; omega), hc.2⟩, h.page2, ?_, h.offset2, ?_, h.keys2, h.pagesNonempty, h.out,
          ?_, h.sorted2, ?_, h.below2⟩, ?_, rfl, rfl, rfl⟩
        · show st.offset1 + PAGE_SIZE = _
          rw [hoff, hnat]
        · show keys1 = _
          rw [hnat, hdir]
        · rw [hrest]; exact h.sorted1
        · rw [hrest]; exact h.below1
        · intro hnone
          exfalso
          have := hne _ hlt
          rw [hdir] at this
          cases keys1 with
          | nil => exact this rfl
          | cons a l => cases hnone
  · rw [if_neg hc] at hr
    simp only [Except.ok.injEq] at hr
    subst hr
    refine ⟨h, fun hnone => ?_, rfl, rfl, rfl⟩
    have hd := get?_none_drop _ _ hnone
    have hlen : st.keyIndex1 ≥ st.keys1.length := by
      rw [List.get?_eq_getElem?] at hnone
      exact List.getElem?_eq_none_iff.1 hnone
    have hp := h.page1
    have : ¬ st.currentPage1 + 1 < sst1.numPages := fun h2 => hc ⟨hlen, h2⟩
    unfold rest1
    rw [hd, File.keysFrom_ge sst1 _ (by omega)]
    rfl

/-- The reload of the second input keeps the invariant, and leaves a key to
compare unless the input is used up. -/
theorem reload2_inv (sst1 sst2 : File) (st st' : MergeState) (h : MergeInv sst1 sst2 st)
    (hne : ∀ i, i < sst2.numPages.toNat → sst2.directory i ≠ [])
    (hr : reload2 sst2 sst2.numPages st = .ok st') :
    MergeInv sst1 sst2 st' ∧ (st'.keys2.get? st'.keyIndex2 = none → rest2 sst2 st' = []) ∧
    st'.keys1 = st.keys1 ∧ st'.keyIndex1 = st.keyIndex1 ∧ st'.currentPage1 = st.currentPage1 := by
  unfold reload2 at hr
  by_cases hc : st.keyIndex2 ≥ st.keys2.length ∧ st.currentPage2 + 1 < sst2.numPages
  · rw [if_pos hc] at hr
    dsimp only at hr
    split at hr
    · cases hr
    · rename_i hfull
      simp only [not_not] at hfull
      split at hr
      · cases hr
      · rename_i keys2 hk
        simp only [Except.ok.injEq] at hr
        subst hr
        have hp := h.page2
        have hnat : (st.currentPage2 + 1).toNat = st.currentPage2.toNat + 1 := by omega
        have hoff : st.offset2 + PAGE_SIZE =
            SST_METADATA_SIZE + PAGE_SIZE + PAGE_SIZE * (st.currentPage2.toNat + 1) := by
          rw [h.offset2]; simp only [PAGE_SIZE]; omega
        rw [hoff] at hfull hk
        have hdir := File.directory_of_read sst2 st.buffer2 (st.currentPage2.toNat + 1) keys2 hfull hk
        have hlt : st.currentPage2.toNat + 1 < sst2.numPages.toNat := by omega
        have hrest : rest2 sst2 (MergeState.mk st.offset1 (st.offset2 + PAGE_SIZE) st.buffer1
            (sst2.pread st.buffer2 PAGE_SIZE ((st.offset2 + PAGE_SIZE : Nat) : Int)).2
            st.currentPage1 (st.currentPage2 + 1) st.keys1 keys2 st.keyIndex1 0 st.outputPage
            st.mergedSST) = rest2 sst2 st := by
          simp only [rest2, List.drop_zero]
          rw [hnat, List.drop_of_length_le hc.1, List.map_nil, List.nil_append,
            File.keysFrom_lt sst2 _ hlt, hdir]
        refine ⟨⟨h.page1, ⟨(by show (0 : Int) ≤ st.currentPage2 + 1; omega), hc.2⟩, h.offset1, ?_, h.keys1, ?_, h.pagesNonempty, h.out,
          h.sorted1, ?_, h.below1, ?_⟩, ?_, rfl, rfl, rfl⟩
        · show st.offset2 + PAGE_SIZE = _
          rw [hoff, hnat]
        · show keys2 = _
          rw [hnat, hdir]
        · rw [hrest]; exact h.sorted2
        · rw [hrest]; exact h.below2
        · intro hnone
          exfalso
          have := hne _ hlt
          rw [hdir] at this
          cases keys2 with
          | nil => exact this rfl
          | cons a l => cases hnone
  · rw [if_neg hc] at hr
    simp only [Except.ok.injEq] at hr
    subst hr
    refine ⟨h, fun hnone => ?_, rfl, rfl, rfl⟩
    have hd := get?_none_drop _ _ hnone
    have hlen : st.keyIndex2 ≥ st.keys2.length := by
      rw [List.get?_eq_getElem?] at hnone
      exact List.getElem?_eq_none_iff.1 hnone
    have hp := h.page2
    have : ¬ st.currentPage2 + 1 < sst2.numPages := fun h2 => hc ⟨hlen, h2⟩
    unfold rest2
    rw [hd, File.keysFrom_ge sst2 _ (by omega)]
    rfl

end LSMTree

namespace LSMTree

theorem rest1_cons (sst1 : File) (st : MergeState) (ko : KeyOffset)
    (h : st.keys1.get? st.keyIndex1 = some ko) :
    rest1 sst1 st = ko.key :: ((st.keys1.drop (st.keyIndex1 + 1)).map (fun ko => ko.key) ++
      sst1.keysFrom (st.currentPage1.toNat + 1)) := by
  unfold rest1
  rw [get?_drop_cons _ _ _ h]
  rfl

theorem rest2_cons (sst2 : File) (st : MergeState) (ko : KeyOffset)
    (h : st.keys2.get? st.keyIndex2 = some ko) :
    rest2 sst2 st = ko.key :: ((st.keys2.drop (st.keyIndex2 + 1)).map (fun ko => ko.key) ++
      sst2.keysFrom (st.currentPage2.toNat + 1)) := by
  unfold rest2
  rw [get?_drop_cons _ _ _ h]
  rfl

theorem pairwise_snoc (out : List Int) (k : Int) (h : out.Pairwise (fun a b => a < b))
    (hb : ∀ a ∈ out, a < k) : (out ++ [k]).Pairwise (fun a b => a < b) := by
  refine List.pairwise_append.2 ⟨h, List.pairwise_singleton _ _, fun a ha b hb' => ?_⟩
  simp only [List.mem_singleton] at hb'
  subst hb'
  exact hb a ha

/-- An iteration that writes the next key of the first input. -/
theorem inv_step1 (sst1 sst2 : File) (st : MergeState) (ko : KeyOffset) (v : Int) (p' : Page)
    (s' : SST) (h : MergeInv sst1 sst2 st) (hk : st.keys1.get? st.keyIndex1 = some ko)
    (hlt : ∀ b ∈ rest2 sst2 st, ko.key < b)
    (he : emit st.outputPage st.mergedSST ko.key v = .ok (p', s')) :
    MergeInv sst1 sst2
      (MergeState.mk st.offset1 st.offset2 st.buffer1 st.buffer2 st.currentPage1 st.currentPage2
        st.keys1 st.keys2 (st.keyIndex1 + 1) st.keyIndex2 p' s') := by
  obtain ⟨ek, hq⟩ := emit_keys _ _ _ _ _ _ he
  have hr1 := rest1_cons sst1 st ko hk
  have hs := h.sorted1
  rw [hr1] at hs
  obtain ⟨hs1, hs2⟩ := List.pairwise_cons.1 hs
  refine ⟨h.page1, h.page2, h.offset1, h.offset2, h.keys1, h.keys2, hq h.pagesNonempty, ?_, hs2,
    h.sorted2, ?_, ?_⟩
  · show (SST.dirKeys (s'.pages ++ [p'])).Pairwise _
    rw [ek]
    exact pairwise_snoc _ _ h.out
      (fun a ha => h.below1 a ha ko.key (by rw [hr1]; exact List.mem_cons_self _ _))
  · intro a ha b hb
    change a ∈ SST.dirKeys (s'.pages ++ [p']) at ha
    rw [ek] at ha
    rcases List.mem_append.1 ha with ha | ha
    · exact h.below1 a ha b (by rw [hr1]; exact List.mem_cons_of_mem _ hb)
    · simp only [List.mem_singleton] at ha
      subst ha
      exact hs1 b hb
  · intro a ha b hb
    change a ∈ SST.dirKeys (s'.pages ++ [p']) at ha
    rw [ek] at ha
    rcases List.mem_append.1 ha with ha | ha
    · exact h.below2 a ha b hb
    · simp only [List.mem_singleton] at ha
      subst ha
      exact hlt b hb

/-- An iteration that writes the next key of the second input. -/
theorem inv_step2 (sst1 sst2 : File) (st : MergeState) (ko : KeyOffset) (v : Int) (p' : Page)
    (s' : SST) (h : MergeInv sst1 sst2 st) (hk : st.keys2.get? st.keyIndex2 = some ko)
    (hlt : ∀ b ∈ rest1 sst1 st, ko.key < b)
    (he : emit st.outputPage st.mergedSST ko.key v = .ok (p', s')) :
    MergeInv sst1 sst2
      (MergeState.mk st.offset1 st.offset2 st.buffer1 st.buffer2 st.currentPage1 st.currentPage2
        st.keys1 st.keys2 st.keyIndex1 (st.keyIndex2 + 1) p' s') := by
  obtain ⟨ek, hq⟩ := emit_keys _ _ _ _ _ _ he
  have hr2 := rest2_cons sst2 st ko hk
  have hs := h.sorted2
  rw [hr2] at hs
  obtain ⟨hs1, hs2⟩ := List.pairwise_cons.1 hs
  refine ⟨h.page1, h.page2, h.offset1, h.offset2, h.keys1, h.keys2, hq h.pagesNonempty, ?_,
    h.sorted1, hs2, ?_, ?_⟩
  · show (SST.dirKeys (s'.pages ++ [p'])).Pairwise _
    rw [ek]
    exact pairwise_snoc _ _ h.out
      (fun a ha => h.below2 a ha ko.key (by rw [hr2]; exact List.mem_cons_self _ _))
  · intro a ha b hb
    change a ∈ SST.dirKeys (s'.pages ++ [p']) at ha
    rw [ek] at ha
    rcases List.mem_append.1 ha with ha | ha
    · exact h.below1 a ha b hb
    · simp only [List.mem_singleton] at ha
      subst ha
      exact hlt b hb
  · intro a ha b hb
    change a ∈ SST.dirKeys (s'.pages ++ [p']) at ha
    rw [ek] at ha
    rcases List.mem_append.1 ha with ha | ha
    · exact h.below2 a ha b (by rw [hr2]; exact List.mem_cons_of_mem _ hb)
    · simp only [List.mem_singleton] at ha
      subst ha
      exact hs1 b hb

/-- An iteration at a key that both inputs hold, when the key is written. -/
theorem inv_step3 (sst1 sst2 : File) (st : MergeState) (ko1 ko2 : KeyOffset) (v : Int) (p' : Page)
    (s' : SST) (h : MergeInv sst1 sst2 st) (hk1 : st.keys1.get? st.keyIndex1 = some ko1)
    (hk2 : st.keys2.get? st.keyIndex2 = some ko2) (heq : ko1.key = ko2.key)
    (he : emit st.outputPage st.mergedSST ko1.key v = .ok (p', s')) :
    MergeInv sst1 sst2
      (MergeState.mk st.offset1 st.offset2 st.buffer1 st.buffer2 st.currentPage1 st.currentPage2
        st.keys1 st.keys2 (st.keyIndex1 + 1) (st.keyIndex2 + 1) p' s') := by
  obtain ⟨ek, hq⟩ := emit_keys _ _ _ _ _ _ he
  have hr1 := rest1_cons sst1 st ko1 hk1
  have hr2 := rest2_cons sst2 st ko2 hk2
  have hs := h.sorted1
  rw [hr1] at hs
  obtain ⟨hs1, hs2⟩ := List.pairwise_cons.1 hs
  have ht := h.sorted2
  rw [hr2] at ht
  obtain ⟨ht1, ht2⟩ := List.pairwise_cons.1 ht
  refine ⟨h.page1, h.page2, h.offset1, h.offset2, h.keys1, h.keys2, hq h.pagesNonempty, ?_, hs2,
    ht2, ?_, ?_⟩
  · show (SST.dirKeys (s'.pages ++ [p'])).Pairwise _
    rw [ek]
    exact pairwise_snoc _ _ h.out
      (fun a ha => h.below1 a ha ko1.key (by rw [hr1]; exact List.mem_cons_self _ _))
  · intro a ha b hb
    change a ∈ SST.dirKeys (s'.pages ++ [p']) at ha
    rw [ek] at ha
    rcases List.mem_append.1 ha with ha | ha
    · exact h.below1 a ha b (by rw [hr1]; exact List.mem_cons_of_mem _ hb)
    · simp only [List.mem_singleton] at ha
      subst ha
      exact hs1 b hb
  · intro a ha b hb
    change a ∈ SST.dirKeys (s'.pages ++ [p']) at ha
    rw [ek] at ha
    rcases List.mem_append.1 ha with ha | ha
    · exact h.below2 a ha b (by rw [hr2]; exact List.mem_cons_of_mem _ hb)
    · simp only [List.mem_singleton] at ha
      subst ha
      rw [heq]
      exact ht1 b hb

/-- An iteration at a key that both inputs hold, when the key is dropped. -/
theorem inv_step4 (sst1 sst2 : File) (st : MergeState) (ko1 ko2 : KeyOffset)
    (h : MergeInv sst1 sst2 st) (hk1 : st.keys1.get? st.keyIndex1 = some ko1)
    (hk2 : st.keys2.get? st.keyIndex2 = some ko2) :
    MergeInv sst1 sst2
      (MergeState.mk st.offset1 st.offset2 st.buffer1 st.buffer2 st.currentPage1 st.currentPage2
        st.keys1 st.keys2 (st.keyIndex1 + 1) (st.keyIndex2 + 1) st.outputPage st.mergedSST) := by
  have hr1 := rest1_cons sst1 st ko1 hk1
  have hr2 := rest2_cons sst2 st ko2 hk2
  have hs := h.sorted1
  rw [hr1] at hs
  have ht := h.sorted2
  rw [hr2] at ht
  refine ⟨h.page1, h.page2, h.offset1, h.offset2, h.keys1, h.keys2, h.pagesNonempty, h.out,
    (List.pairwise_cons.1 hs).2, (List.pairwise_cons.1 ht).2, ?_, ?_⟩
  · intro a ha b hb
    exact h.below1 a ha b (by rw [hr1]; exact List.mem_cons_of_mem _ hb)
  · intro a ha b hb
    exact h.below2 a ha b (by rw [hr2]; exact List.mem_cons_of_mem _ hb)

/-- The merge loop started in a state that satisfies the invariant ends, when
it does, with pages that are not empty and keys in strictly ascending order. -/
theorem mergeLoop_ordered (sst1 sst2 : File) (isLargestLevel : Bool)
    (hne1 : ∀ i, i < sst1.numPages.toNat → sst1.directory i ≠ [])
    (hne2 : ∀ i, i < sst2.numPages.toNat → sst2.directory i ≠ []) (fuel : Nat) :
    ∀ st st', MergeInv sst1 sst2 st →
      mergeLoop sst1 sst2 sst1.numPages sst2.numPages isLargestLevel fuel st = .ok st' →
      (∀ p ∈ st'.mergedSST.pages, p.keys ≠ []) ∧
      (SST.dirKeys (st'.mergedSST.pages ++ [st'.outputPage])).Pairwise (fun a b => a < b) := by
  induction fuel with
  | zero => intro st st' _ h; rw [mergeLoop] at h; cases h
  | succ fuel ih =>
    intro st st' hinv hres
    rw [mergeLoop] at hres
    split at hres
    · split at hres
      · cases hres
      · rename_i st1 h1
        obtain ⟨i1, r1, e1, e2, e3⟩ := reload1_inv sst1 sst2 st st1 hinv hne1 h1
        split at hres
        · cases hres
        · rename_i st2 h2
          obtain ⟨i2, r2, f1, f2, f3⟩ := reload2_inv sst1 sst2 st1 st2 i1 hne2 h2
          have r1' : st2.keys1.get? st2.keyIndex1 = none → rest1 sst1 st2 = [] := by
            intro hn
            rw [f1, f2] at hn
            have := r1 hn
            unfold rest1 at this ⊢
            rw [f1, f2, f3]
            exact this
          dsimp only at hres
          split at hres
          · rename_i hlt
            split at hres
            · simp only [Except.ok.injEq] at hres
              subst hres
              exact ⟨i2.pagesNonempty, i2.out⟩
            · rename_i ko hk
              rw [hk] at hlt
              simp only at hlt
              split at hres
              · cases hres
              · split at hres
                · cases hres
                · rename_i r hr
                  rw [hk] at hr
                  simp only at hr
                  refine ih _ _ (inv_step1 sst1 sst2 st2 ko _ r.1 r.2 i2 hk ?_ hr) hres
                  intro b hb
                  cases hk2 : st2.keys2.get? st2.keyIndex2 with
                  | none => rw [r2 hk2] at hb; cases hb
                  | some ko2 =>
                    rw [hk2] at hlt
                    simp only at hlt
                    have hs := i2.sorted2
                    rw [rest2_cons sst2 st2 ko2 hk2] at hs hb
                    rcases List.mem_cons.1 hb with rfl | hb
                    · exact hlt
                    · exact lt_trans hlt ((List.pairwise_cons.1 hs).1 b hb)
          · rename_i hnlt
            split at hres
            · rename_i hgt
              split at hres
              · simp only [Except.ok.injEq] at hres
                subst hres
                exact ⟨i2.pagesNonempty, i2.out⟩
              · rename_i ko hk
                rw [hk] at hgt
                simp only at hgt
                split at hres
                · cases hres
                · split at hres
                  · cases hres
                  · rename_i r hr
                    rw [hk] at hr
                    simp only at hr
                    refine ih _ _ (inv_step2 sst1 sst2 st2 ko _ r.1 r.2 i2 hk ?_ hr) hres
                    intro b hb
                    cases hk1 : st2.keys1.get? st2.keyIndex1 with
                    | none => rw [r1' hk1] at hb; cases hb
                    | some ko1 =>
                      rw [hk1] at hgt
                      simp only at hgt
                      have hs := i2.sorted1
                      rw [rest1_cons sst1 st2 ko1 hk1] at hs hb
                      rcases List.mem_cons.1 hb with rfl | hb
                      · exact hgt
                      · exact lt_trans hgt ((List.pairwise_cons.1 hs).1 b hb)
            · rename_i hngt
              split at hres
              · rename_i ko1 ko2 hk1 hk2
                rw [hk1, hk2] at hnlt hngt
                simp only at hnlt hngt
                have heq : ko1.key = ko2.key := by omega
                split at hres
                · split at hres
                  · cases hres
                  · rename_i r hr
                    rw [hk1] at hr
                    simp only at hr
                    exact ih _ _ (inv_step3 sst1 sst2 st2 ko1 ko2 _ r.1 r.2 i2 hk1 hk2 heq hr) hres
                · exact ih _ _ (inv_step4 sst1 sst2 st2 ko1 ko2 i2 hk1 hk2) hres
              · simp only [Except.ok.injEq] at hres
                subst hres
                exact ⟨i2.pagesNonempty, i2.out⟩
    · simp only [Except.ok.injEq] at hres
      subst hres
      exact ⟨hinv.pagesNonempty, hinv.out⟩

end LSMTree

namespace LSMTree

/-- Function `mergeTwoSSTs` on two files with ordered pages: the pages of the
SST it returns are ordered. -/
theorem mergeTwoSSTs_ordered (sst1 sst2 : File) (isLargestLevel : Bool) (s : SST)
    (h1 : sst1.PageOrdered) (h2 : sst2.PageOrdered)
    (h : mergeTwoSSTs (some sst1) (some sst2) isLargestLevel = .ok s) :
    SST.PageOrdered s.pages := by
  unfold mergeTwoSSTs at h
  dsimp only at h
  split at h
  · cases h
  · split at h
    · cases h
    · rename_i hr
      simp only [not_or, not_not] at hr
      split at h
      · cases h
      · rename_i keys1 hk1
        split at h
        · cases h
        · rename_i keys2 hk2
          have d1 : sst1.directory 0 = keys1 :=
            File.directory_of_read sst1 zeroBytes 0 keys1 hr.1 hk1
          have d2 : sst2.directory 0 = keys2 :=
            File.directory_of_read sst2 zeroBytes 0 keys2 hr.2 hk2
          have p1 : 0 < sst1.numPages.toNat := by have := h1.pages; omega
          have p2 : 0 < sst2.numPages.toNat := by have := h2.pages; omega
          have inv : MergeInv sst1 sst2
              (MergeState.mk (SST_METADATA_SIZE + PAGE_SIZE) (SST_METADATA_SIZE + PAGE_SIZE)
                (sst1.pread zeroBytes PAGE_SIZE ((SST_METADATA_SIZE + PAGE_SIZE : Nat) : Int)).2
                (sst2.pread zeroBytes PAGE_SIZE ((SST_METADATA_SIZE + PAGE_SIZE : Nat) : Int)).2
                0 0 keys1 keys2 0 0 Page.new SST.new) := by
            have q1 : (0 : Int) < sst1.numPages := by have := h1.pages; omega
            have q2 : (0 : Int) < sst2.numPages := by have := h2.pages; omega
            refine ⟨⟨le_refl _, q1⟩, ⟨le_refl _, q2⟩,
              rfl, rfl, d1.symm, d2.symm, ?_, ?_, ?_, ?_, ?_, ?_⟩
            · intro p hp; cases hp
            · exact List.Pairwise.nil
            · show ((keys1.drop 0).map (fun ko => ko.key) ++ sst1.keysFrom 1).Pairwise _
              rw [List.drop_zero, ← d1, ← File.keysFrom_lt sst1 0 p1]
              exact h1.ascending
            · show ((keys2.drop 0).map (fun ko => ko.key) ++ sst2.keysFrom 1).Pairwise _
              rw [List.drop_zero, ← d2, ← File.keysFrom_lt sst2 0 p2]
              exact h2.ascending
            · intro a ha; cases ha
            · intro a ha; cases ha
          split at h
          · cases h
          · rename_i st hloop
            have o := mergeLoop_ordered sst1 sst2 isLargestLevel h1.nonempty h2.nonempty _ _ _ inv hloop
            split at h
            · obtain ⟨e, hne⟩ := SST.addPage_pages _ _ _ h
              rw [e]
              refine ⟨fun q hm => ?_, o.2⟩
              rcases List.mem_append.1 hm with hm | hm
              · exact o.1 q hm
              · simp only [List.mem_singleton] at hm
                subst hm
                exact hne
            · simp only [Except.ok.injEq] at h
              subst h
              refine ⟨o.1, ?_⟩
              have := o.2
              rw [SST.dirKeys_append] at this
              exact (List.pairwise_append.1 this).1

end LSMTree

/-! ## The pages of a written SST, read back -/

theorem isInt64_readInt64 (d : Bytes) (off : Nat) : IsInt64 (readInt64 d off) := by
  unfold IsInt64 readInt64 toInt64 INT64_MIN INT64_MAX
  have := Nat.mod_lt (readLE d off 8) (show 0 < 18446744073709551616 by decide)
  split <;> constructor <;> omega

namespace LSMTree

theorem readKeyOffsets_ints (b : Bytes) (n : Nat) :
    ∀ pos keys, readKeyOffsets b n pos = .ok keys → ∀ ko ∈ keys, IsInt64 ko.key := by
  induction n with
  | zero =>
    intro pos keys h ko hko
    simp only [readKeyOffsets, Except.ok.injEq] at h
    subst h
    cases hko
  | succ n ih =>
    intro pos keys h ko hko
    simp only [readKeyOffsets] at h
    by_cases hp : pos + 8 + 4 > PAGE_SIZE
    · rw [if_pos hp] at h
      cases h
    · rw [if_neg hp] at h
      cases hr : readKeyOffsets b n (pos + 12) with
      | error e => rw [hr] at h; cases h
      | ok rest =>
        rw [hr] at h
        simp only [Except.ok.injEq] at h
        subst h
        rcases List.mem_cons.1 hko with e | hko
        · rw [e]
          dsimp only
          exact isInt64_readInt64 b pos
        · exact ih _ _ hr ko hko

/-- Reading a directory whose entries are where `addEntry` puts them. -/
theorem readKeyOffsets_eq (d : Bytes) (n : Nat) :
    ∀ (pos : Nat) (ks : List KeyOffset), ks.length = n → pos + 12 * n ≤ 4096 →
      (∀ j ko, ks[j]? = some ko →
        readInt64 d (pos + 12 * j) = ko.key ∧ readInt32 d (pos + 12 * j + 8) = ko.valueOffset) →
      readKeyOffsets d n pos = .ok ks := by
  induction n with
  | zero =>
    intro pos ks hl _ _
    rw [List.length_eq_zero.1 hl]
    rfl
  | succ n ih =>
    intro pos ks hl hp hr
    cases ks with
    | nil => cases hl
    | cons k rest =>
      simp only [readKeyOffsets, PAGE_SIZE]
      rw [if_neg (by omega)]
      have h0 := hr 0 k (List.getElem?_cons_zero)
      simp only [Nat.mul_zero, Nat.add_zero] at h0
      rw [ih (pos + 12) rest (by simpa using hl) (by omega) (fun j ko hj => by
        have := hr (j + 1) ko (by simpa using hj)
        have e : pos + 12 * (j + 1) = pos + 12 + 12 * j := by omega
        rw [e] at this
        exact this)]
      simp only [h0.1, h0.2]

end LSMTree

namespace Page

/-- The directory of a page that holds entries reads back as its `keys`. -/
theorem holds_directory (p : Page) (es : List (Int × Int)) (h : Holds p es) (hne : es ≠ []) :
    LSMTree.readKeyOffsets p.data (readInt32 p.data 0).toNat 16 = .ok p.keys := by
  have hl : p.keys.length = es.length := by
    have := congrArg List.length h.keysKey
    simpa using this
  have hlen := h.len
  rw [(h.header hne).1, h.numEntries, Int.toNat_ofNat]
  refine LSMTree.readKeyOffsets_eq p.data es.length 16 p.keys hl (by omega) (fun j ko hj => ?_)
  have hjl : j < es.length := by
    rw [← hl]
    exact (List.getElem?_eq_some_iff.1 hj).1
  obtain ⟨kv, hkv⟩ : ∃ kv, es[j]? = some kv := ⟨es[j], List.getElem?_eq_getElem hjl⟩
  have hd := h.dir j kv hkv
  have e1 : (p.keys.map (fun ko => ko.key))[j]? = some ko.key := by
    rw [List.getElem?_map, hj]; rfl
  have e2 : (p.keys.map (fun ko => ko.valueOffset))[j]? = some ko.valueOffset := by
    rw [List.getElem?_map, hj]; rfl
  rw [h.keysKey, List.getElem?_map, hkv] at e1
  rw [h.keysOffset, List.getElem?_map, List.getElem?_range hjl] at e2
  simp only [Option.map_some', Option.some.injEq] at e1 e2
  rw [hd.1, hd.2, ← e1, ← e2]
  exact ⟨rfl, rfl⟩

theorem holds_keys_ne (p : Page) (es : List (Int × Int)) (h : Holds p es) (hne : p.keys ≠ []) :
    es ≠ [] := by
  intro he
  have := congrArg List.length h.keysKey
  rw [he] at this
  simp only [List.length_map, List.length_nil] at this
  exact hne (List.length_eq_zero.1 this)

end Page

namespace SST

theorem writePages_blocks (pages : List Page) :
    ∀ (off : Nat) (fd : File) (i : Nat) (p : Page), pages[i]? = some p →
      ∀ j, j < PAGE_SIZE → (writePages pages off fd).2.bytes (off + PAGE_SIZE * i + j) = p.data j := by
  induction pages with
  | nil => intro off fd i p h; simp at h
  | cons q rest ih =>
    intro off fd i p h j hj
    simp only [writePages]
    cases i with
    | zero =>
      simp only [List.getElem?_cons_zero, Option.some.injEq] at h
      subst h
      rw [writePages_below rest (off + PAGE_SIZE) _ _ (by omega), Nat.mul_zero, Nat.add_zero]
      exact pwrite_bytes_in _ _ _ _ _ hj
    | succ i =>
      simp only [List.getElem?_cons_succ] at h
      have := ih (off + PAGE_SIZE) (fd.pwrite q.data PAGE_SIZE off) i p h j hj
      have e : off + PAGE_SIZE * (i + 1) + j = off + PAGE_SIZE + PAGE_SIZE * i + j := by
        rw [Nat.mul_succ]; omega
      rw [e]
      exact this

theorem writeToFile_eq (s : SST) :
    s.writeToFile =
      match s.btree with
      | none => .error .nullDeref
      | some btree =>
        match btree.getRoot with
        | none => .ok (writePages s.pages (24 + PAGE_SIZE) s.headed).2
        | some root =>
          .ok (postorderTraversalWrite root (writePages s.pages (24 + PAGE_SIZE) s.headed).1
            (writePages s.pages (24 + PAGE_SIZE) s.headed).2).2.2 := rfl

theorem headed_size (s : SST) : s.headed.size = 24 + PAGE_SIZE := by
  simp [headed, pwrite_size, File.empty, PAGE_SIZE]

/-- The file that `writeToFile` returns holds, below the blocks of the tree,
what the loop over the pages left there. -/
theorem writeToFile_below (s : SST) (f : File) (h : s.writeToFile = .ok f) :
    s.btree.isSome = true ∧ 24 + PAGE_SIZE + PAGE_SIZE * s.pages.length ≤ f.size ∧
    ∀ j, j < 24 + PAGE_SIZE + PAGE_SIZE * s.pages.length →
      f.bytes j = (writePages s.pages (24 + PAGE_SIZE) s.headed).2.bytes j := by
  have hw := writePages_spec s.pages (24 + PAGE_SIZE) s.headed (headed_size s)
  rw [writeToFile_eq] at h
  cases ht : s.btree with
  | none => rw [ht] at h; cases h
  | some t =>
    rw [ht] at h
    simp only at h
    cases hr : t.getRoot with
    | none =>
      rw [hr] at h
      simp only [Except.ok.injEq] at h
      subst h
      exact ⟨rfl, by rw [hw.2], fun j _ => rfl⟩
    | some root =>
      rw [hr] at h
      simp only [Except.ok.injEq] at h
      subst h
      have w := postorderTraversalWrite_wrote root (writePages s.pages (24 + PAGE_SIZE) s.headed).1
        (writePages s.pages (24 + PAGE_SIZE) s.headed).2
      have h1 := w.size (by rw [hw.1, hw.2])
      have h2 := w.next
      refine ⟨rfl, by rw [h1, h2, hw.1]; omega, fun j hj => ?_⟩
      exact w.below j (by rw [hw.1]; exact hj)

/-- The header and the page blocks of the file that `writeToFile` returns. -/
theorem writeToFile_pages (s : SST) (f : File) (h : s.writeToFile = .ok f) :
    (∀ j, j < 4 → f.bytes (4 + j) = writeInt32 zeroBytes 0 s.numPages j) ∧
    ∀ (i : Nat) (p : Page), s.pages[i]? = some p →
      ∀ j, j < PAGE_SIZE → f.bytes (24 + PAGE_SIZE + PAGE_SIZE * i + j) = p.data j := by
  obtain ⟨-, -, hb⟩ := writeToFile_below s f h
  constructor
  · intro j hj
    rw [hb _ (by simp only [PAGE_SIZE]; omega),
      writePages_below s.pages _ _ _ (by simp only [PAGE_SIZE]; omega)]
    unfold headed
    rw [pwrite_bytes_out _ _ _ _ _ (Or.inl (by omega)),
      pwrite_bytes_out _ _ _ _ _ (Or.inl (by omega)),
      pwrite_bytes_out _ _ _ _ _ (Or.inl (by omega))]
    exact pwrite_bytes_in _ _ _ _ _ hj
  · intro i p hp j hj
    have hi : i < s.pages.length := (List.getElem?_eq_some_iff.1 hp).1
    have hlt : 24 + PAGE_SIZE + PAGE_SIZE * i + j < 24 + PAGE_SIZE + PAGE_SIZE * s.pages.length := by
      have : PAGE_SIZE * (i + 1) ≤ PAGE_SIZE * s.pages.length := Nat.mul_le_mul_left _ hi
      rw [Nat.mul_succ] at this
      omega
    rw [hb _ hlt]
    exact writePages_blocks s.pages _ _ i p hp j hj

end SST

namespace File

/-- The page count and the directories of the file that `writeToFile` returns
for an SST built from filled pages. -/
theorem written_directories (s : SST) (f : File) (hb : s.Built) (hmax : s.numPages ≤ INT_MAX)
    (hne : ∀ p ∈ s.pages, p.keys ≠ []) (h : s.writeToFile = .ok f) :
    f.numPages = (s.pages.length : Int) ∧ 1 ≤ f.numPages ∧
    ∀ (i : Nat) (p : Page), s.pages[i]? = some p → f.directory i = p.keys := by
  obtain ⟨ht, hsz, -⟩ := SST.writeToFile_below s f h
  obtain ⟨hh, hp⟩ := SST.writeToFile_pages s f h
  have hlen : 0 < s.pages.length := List.length_pos.2 (hb.tree ht)
  have hn : f.numPages = (s.pages.length : Int) := by
    unfold numPages
    rw [readInt32_congr _ (writeInt32 zeroBytes 0 s.numPages) 0 (fun i _ h2 => by
      simp only [File.pread]
      rw [if_neg (by omega)]
      simp only [PAGE_SIZE] at hsz
      have : i < min 4 (f.size - (4 : Int).toNat) := by
        have : (4 : Int).toNat = 4 := rfl
        omega
      simp only [if_pos this]
      exact hh i (by omega))]
    rw [readInt32_writeInt32_same _ _ _ (by rw [hb.numPages]; unfold INT_MIN; omega) hmax]
    exact hb.numPages
  refine ⟨hn, by omega, fun i p hi => ?_⟩
  have hil : i < s.pages.length := (List.getElem?_eq_some_iff.1 hi).1
  obtain ⟨es, hes, -⟩ := hb.holds p (List.getElem?_mem hi)
  have hd := Page.holds_directory p es hes (Page.holds_keys_ne p es hes (hne p (List.getElem?_mem hi)))
  have hfull : (f.pread zeroBytes PAGE_SIZE
      ((SST_METADATA_SIZE + PAGE_SIZE + PAGE_SIZE * i : Nat) : Int)).1 = (PAGE_SIZE : Int) := by
    have : PAGE_SIZE * (i + 1) ≤ PAGE_SIZE * s.pages.length := Nat.mul_le_mul_left _ hil
    rw [Nat.mul_succ] at this
    simp only [File.pread]
    rw [if_neg (by omega)]
    simp only [Int.toNat_ofNat, SST_METADATA_SIZE]
    omega
  have hbytes : ∀ j, j < PAGE_SIZE → (f.pread zeroBytes PAGE_SIZE
      ((SST_METADATA_SIZE + PAGE_SIZE + PAGE_SIZE * i : Nat) : Int)).2 j = p.data j := by
    intro j hj
    have : PAGE_SIZE * (i + 1) ≤ PAGE_SIZE * s.pages.length := Nat.mul_le_mul_left _ hil
    rw [Nat.mul_succ] at this
    simp only [File.pread]
    rw [if_neg (by omega)]
    simp only [Int.toNat_ofNat, SST_METADATA_SIZE]
    rw [if_pos (by omega)]
    exact hp i p hi j hj
  apply directory_of_read f zeroBytes i p.keys hfull
  rw [LSMTree.readKeyOffsets_congr _ _ hbytes,
    readInt32_congr _ p.data 0 (fun j _ h2 => hbytes j (by simp only [PAGE_SIZE]; omega))]
  exact hd

theorem flatMap_range {α : Type} (pages : List α) (g : Nat → List Int) (k : α → List Int) :
    ∀ (start : Nat), (∀ i p, pages[i]? = some p → g (start + i) = k p) →
      (List.range' start pages.length).flatMap g = pages.flatMap k := by
  induction pages with
  | nil => intro start _; rfl
  | cons p rest ih =>
    intro start h
    simp only [List.length_cons, List.range'_succ, List.flatMap_cons]
    have h0 := h 0 p (List.getElem?_cons_zero)
    rw [Nat.add_zero] at h0
    rw [h0, ih (start + 1) (fun i q hq => by
      have := h (i + 1) q (by simpa using hq)
      rw [← this]
      congr 1
      omega)]

/-- The file that `writeToFile` returns for an SST built from filled pages in
order has its pages in order. -/
theorem written_ordered (s : SST) (f : File) (hb : s.Built) (hmax : s.numPages ≤ INT_MAX)
    (ho : SST.PageOrdered s.pages) (h : s.writeToFile = .ok f) :
    f.PageOrdered ∧ f.keysFrom 0 = SST.dirKeys s.pages := by
  obtain ⟨hn, h1, hd⟩ := written_directories s f hb hmax ho.nonempty h
  have hk : f.keysFrom 0 = SST.dirKeys s.pages := by
    unfold keysFrom SST.dirKeys
    rw [hn, Int.toNat_ofNat, List.drop_zero, List.range_eq_range']
    exact flatMap_range s.pages _ _ 0 (fun i p hp => by rw [Nat.zero_add, hd i p hp])
  refine ⟨⟨h1, fun i hi => ?_, by rw [hk]; exact ho.ascending⟩, hk⟩
  rw [hn, Int.toNat_ofNat] at hi
  have hp : s.pages[i]? = some s.pages[i] := List.getElem?_eq_getElem hi
  rw [hd i _ hp]
  exact ho.nonempty _ (List.getElem_mem _)

end File

/-! ## The pages that a flush and a merge fill -/

namespace SST

theorem built_new (a b : Int) : Built { SST.new with startingKey := a, endingKey := b } where
  numPages := rfl
  tree := fun h => by cases h
  holds := fun p hp => by cases hp

theorem addPage_built (s s' : SST) (p : Page) (hb : Built s)
    (hp : ∃ es, Page.Holds p es ∧ ∀ kv ∈ es, IsInt64 kv.1) (h : s.addPage p = .ok s') :
    Built s' := by
  unfold addPage at h
  cases hl : p.keys.getLast? with
  | none => rw [hl] at h; cases h
  | some last =>
    rw [hl] at h
    dsimp only at h
    split at h
    · cases h
    · cases h
      refine ⟨?_, fun _ => by simp, fun q hq => ?_⟩
      · show s.numPages + 1 = ((s.pages ++ [p]).length : Int)
        rw [hb.numPages]
        simp
      · rcases List.mem_append.1 hq with hq | hq
        · exact hb.holds q hq
        · simp only [List.mem_singleton] at hq
          subst hq
          exact hp

end SST

namespace LSMTree

/-- The block `emit` keeps the SST built and the output page filled. -/
theorem emit_built (p : Page) (s : SST) (key value : Int) (p' : Page) (s' : SST)
    (hb : SST.Built s) (hp : ∃ es, Page.Holds p es ∧ ∀ kv ∈ es, IsInt64 kv.1)
    (hk : IsInt64 key) (hv : IsInt64 value) (h : emit p s key value = .ok (p', s')) :
    SST.Built s' ∧ ∃ es, Page.Holds p' es ∧ ∀ kv ∈ es, IsInt64 kv.1 := by
  obtain ⟨es, hes, hint⟩ := hp
  unfold emit at h
  dsimp only at h
  by_cases hlt : es.length < 204
  · obtain ⟨a1, a2⟩ := Page.holds_addEntry p es key value hes hlt hk hv hint
    rw [if_pos a1] at h
    simp only [Except.ok.injEq, Prod.mk.injEq] at h
    obtain ⟨rfl, rfl⟩ := h
    refine ⟨hb, es ++ [(key, value)], a2, fun kv hkv => ?_⟩
    rcases List.mem_append.1 hkv with hkv | hkv
    · exact hint kv hkv
    · simp only [List.mem_singleton] at hkv
      subst hkv
      exact hk
  · have hfull : es.length = 204 := by have := hes.len; omega
    rw [Page.holds_rejected p es key value hes hfull] at h
    simp only [Bool.false_eq_true, if_false] at h
    split at h
    · cases h
    · rename_i s1 h1
      simp only [Except.ok.injEq, Prod.mk.injEq] at h
      obtain ⟨rfl, rfl⟩ := h
      refine ⟨SST.addPage_built s s1 p hb ⟨es, hes, hint⟩ h1, [(key, value)], ?_, fun kv hkv => ?_⟩
      · exact (Page.holds_addEntry Page.new [] key value Page.holds_new (by decide) hk hv
          (fun kv hkv => by cases hkv)).2
      · simp only [List.mem_singleton] at hkv
        subst hkv
        exact hk

end LSMTree

namespace KVStore

theorem fillPages_cons (kv : Int × Int) (rest : List (Int × Int)) (p : Page) (s : SST) :
    fillPages (kv :: rest) p s =
      match LSMTree.emit p s kv.1 kv.2 with
      | .error e => .error e
      | .ok r => fillPages rest r.1 r.2 := by
  simp only [fillPages, LSMTree.emit]
  by_cases ha : (p.addEntry kv.1 kv.2).1 = true
  · rw [if_pos ha, if_pos ha]
  · rw [if_neg ha, if_neg ha]
    cases s.addPage p <;> rfl

theorem fillPages_built (kvs : List (Int × Int)) :
    ∀ (p : Page) (s : SST) (p' : Page) (s' : SST), SST.Built s →
      (∃ es, Page.Holds p es ∧ ∀ kv ∈ es, IsInt64 kv.1) →
      (∀ kv ∈ kvs, IsInt64 kv.1 ∧ IsInt64 kv.2) → fillPages kvs p s = .ok (p', s') →
      SST.Built s' ∧ ∃ es, Page.Holds p' es ∧ ∀ kv ∈ es, IsInt64 kv.1 := by
  induction kvs with
  | nil =>
    intro p s p' s' hb hp _ h
    simp only [fillPages, Except.ok.injEq, Prod.mk.injEq] at h
    obtain ⟨rfl, rfl⟩ := h
    exact ⟨hb, hp⟩
  | cons kv rest ih =>
    intro p s p' s' hb hp hint h
    rw [fillPages_cons] at h
    cases he : LSMTree.emit p s kv.1 kv.2 with
    | error e => rw [he] at h; cases h
    | ok r =>
      obtain ⟨p1, s1⟩ := r
      rw [he] at h
      simp only at h
      have hkv := hint kv (List.mem_cons_self _ _)
      obtain ⟨b1, b2⟩ := LSMTree.emit_built p s kv.1 kv.2 p1 s1 hb hp hkv.1 hkv.2 he
      exact ih p1 s1 p' s' b1 b2 (fun x hx => hint x (List.mem_cons_of_mem _ hx)) h

/-- The SST object of a flush of a memtable with 64-bit values is built from
filled pages, and has a page. -/
theorem flushedSST_built (m : AVLTree) (sst : SST) (ho : AVLTree.Ordered m.root)
    (hv : ∀ kv ∈ m.scan INT_MIN INT_MAX, IsInt64 kv.2) (h : flushedSST m = .ok sst) :
    SST.Built sst := by
  have hk : ∀ kv ∈ m.scan INT_MIN INT_MAX, IsInt64 kv.1 ∧ IsInt64 kv.2 := by
    intro kv hkv
    have := (AVLTree.scan_spec m INT_MIN INT_MAX ho).2 kv hkv
    refine ⟨?_, hv kv hkv⟩
    unfold IsInt64 INT64_MIN INT64_MAX
    unfold INT_MIN INT_MAX at this
    omega
  unfold flushedSST at h
  dsimp only at h
  split at h
  · rename_i front back hf hb
    cases hfp : fillPages (m.scan INT_MIN INT_MAX) Page.new
        { SST.new with startingKey := front.1, endingKey := back.1 } with
    | error e => rw [hfp] at h; cases h
    | ok r =>
      obtain ⟨p', s'⟩ := r
      rw [hfp] at h
      simp only at h
      obtain ⟨b1, b2⟩ := fillPages_built _ _ _ _ _ (SST.built_new front.1 back.1)
        ⟨[], Page.holds_new, fun kv hkv => by cases hkv⟩ hk hfp
      split at h
      · exact SST.addPage_built s' sst p' b1 b2 h
      · simp only [Except.ok.injEq] at h
        subst h
        exact b1
  · cases h

end KVStore

namespace LSMTree

theorem reload1_built (sst1 : File) (n : Int) (st st' : MergeState) (h : BuiltInv st)
    (hr : reload1 sst1 n st = .ok st') : BuiltInv st' := by
  unfold reload1 at hr
  split at hr
  · dsimp only at hr
    split at hr
    · cases hr
    · split at hr
      · cases hr
      · rename_i keys1 hk
        simp only [Except.ok.injEq] at hr
        subst hr
        exact ⟨h.built, h.page, readKeyOffsets_ints _ _ _ _ hk, h.ints2⟩
  · simp only [Except.ok.injEq] at hr
    subst hr
    exact h

theorem reload2_built (sst2 : File) (n : Int) (st st' : MergeState) (h : BuiltInv st)
    (hr : reload2 sst2 n st = .ok st') : BuiltInv st' := by
  unfold reload2 at hr
  split at hr
  · dsimp only at hr
    split at hr
    · cases hr
    · split at hr
      · cases hr
      · rename_i keys2 hk
        simp only [Except.ok.injEq] at hr
        subst hr
        exact ⟨h.built, h.page, h.ints1, readKeyOffsets_ints _ _ _ _ hk⟩
  · simp only [Except.ok.injEq] at hr
    subst hr
    exact h

theorem get?_mem {α : Type} (l : List α) (i : Nat) (a : α) (h : l.get? i = some a) : a ∈ l := by
  rw [List.get?_eq_getElem?] at h
  exact List.getElem?_mem h

/-- The merge loop keeps the SST built and the output page filled. -/
theorem mergeLoop_built (sst1 sst2 : File) (n1 n2 : Int) (isLargestLevel : Bool) (fuel : Nat) :
    ∀ st st', BuiltInv st → mergeLoop sst1 sst2 n1 n2 isLargestLevel fuel st = .ok st' →
      BuiltInv st' := by
  induction fuel with
  | zero => intro st st' _ h; rw [mergeLoop] at h; cases h
  | succ fuel ih =>
    intro st st' hinv hres
    rw [mergeLoop] at hres
    split at hres
    · split at hres
      · cases hres
      · rename_i st1 h1
        have i1 := reload1_built sst1 n1 st st1 hinv h1
        split at hres
        · cases hres
        · rename_i st2 h2
          have i2 := reload2_built sst2 n2 st1 st2 i1 h2
          dsimp only at hres
          split at hres
          · split at hres
            · simp only [Except.ok.injEq] at hres
              subst hres
              exact i2
            · rename_i ko hk
              split at hres
              · cases hres
              · split at hres
                · cases hres
                · rename_i r hr
                  rw [hk] at hr
                  simp only at hr
                  obtain ⟨b1, b2⟩ := emit_built _ _ _ _ r.1 r.2 i2.built i2.page
                    (i2.ints1 ko (get?_mem _ _ _ hk)) (isInt64_readInt64 _ _) hr
                  exact ih _ _ (by exact ⟨b1, b2, i2.ints1, i2.ints2⟩) hres
          · split at hres
            · split at hres
              · simp only [Except.ok.injEq] at hres
                subst hres
                exact i2
              · rename_i ko hk
                split at hres
                · cases hres
                · split at hres
                  · cases hres
                  · rename_i r hr
                    rw [hk] at hr
                    simp only at hr
                    obtain ⟨b1, b2⟩ := emit_built _ _ _ _ r.1 r.2 i2.built i2.page
                      (i2.ints2 ko (get?_mem _ _ _ hk)) (isInt64_readInt64 _ _) hr
                    exact ih _ _ (by exact ⟨b1, b2, i2.ints1, i2.ints2⟩) hres
            · split at hres
              · rename_i ko1 ko2 hk1 hk2
                split at hres
                · split at hres
                  · cases hres
                  · rename_i r hr
                    rw [hk1] at hr
                    simp only at hr
                    obtain ⟨b1, b2⟩ := emit_built _ _ _ _ r.1 r.2 i2.built i2.page
                      (i2.ints1 ko1 (get?_mem _ _ _ hk1)) (isInt64_readInt64 _ _) hr
                    exact ih _ _ (by exact ⟨b1, b2, i2.ints1, i2.ints2⟩) hres
                · exact ih _ _ (by exact ⟨i2.built, i2.page, i2.ints1, i2.ints2⟩) hres
              · simp only [Except.ok.injEq] at hres
                subst hres
                exact i2
    · simp only [Except.ok.injEq] at hres
      subst hres
      exact hinv

/-- The SST object that `mergeTwoSSTs` returns is built from filled pages. -/
theorem mergeTwoSSTs_built (sst1 sst2 : Option File) (isLargestLevel : Bool) (s : SST)
    (h : mergeTwoSSTs sst1 sst2 isLargestLevel = .ok s) : SST.Built s := by
  unfold mergeTwoSSTs at h
  split at h
  · dsimp only at h
    split at h
    · cases h
    · split at h
      · cases h
      · split at h
        · cases h
        · rename_i keys1 hk1
          split at h
          · cases h
          · rename_i keys2 hk2
            split at h
            · cases h
            · rename_i st hloop
              have inv := mergeLoop_built _ _ _ _ _ _ _ _
                ⟨SST.built_new 0 0, ⟨[], Page.holds_new, fun kv hkv => by cases hkv⟩,
                  readKeyOffsets_ints _ _ _ _ hk1, readKeyOffsets_ints _ _ _ _ hk2⟩ hloop
              split at h
              · exact SST.addPage_built _ _ _ inv.built inv.page h
              · simp only [Except.ok.injEq] at h
                subst h
                exact inv.built
  · cases h

end LSMTree

/-! ## Page ordering, page by page -/

namespace SST

theorem dirKeys_cons (p : Page) (rest : List Page) :
    dirKeys (p :: rest) = p.keys.map (fun ko => ko.key) ++ dirKeys rest := by
  simp [dirKeys]

theorem mem_dirKeys (pages : List Page) (p : Page) (ko : KeyOffset) (hp : p ∈ pages)
    (hk : ko ∈ p.keys) : ko.key ∈ dirKeys pages := by
  unfold dirKeys
  rw [List.mem_flatMap]
  exact ⟨p, hp, List.mem_map_of_mem _ hk⟩

theorem pageOrdered_tail (p : Page) (rest : List Page) (h : PageOrdered (p :: rest)) :
    PageOrdered rest := by
  refine ⟨fun q hq => h.nonempty q (List.mem_cons_of_mem _ hq), ?_⟩
  have := h.ascending
  rw [dirKeys_cons] at this
  exact (List.pairwise_append.1 this).2.1

theorem holds_startingKey_mem (p : Page) (es : List (Int × Int)) (h : Page.Holds p es)
    (hne : p.keys ≠ []) : p.startingKey ∈ p.keys.map (fun ko => ko.key) := by
  have he := Page.holds_keys_ne p es h hne
  rw [h.keysKey, h.startingKey]
  cases es with
  | nil => exact absurd rfl he
  | cons kv rest => simp

/-- Ordered pages, read page by page. -/
theorem pagesSorted_of_ordered (pages : List Page) (h : PageOrdered pages)
    (hs : ∀ p ∈ pages, p.startingKey ∈ p.keys.map (fun ko => ko.key)) : PagesSorted pages := by
  induction pages with
  | nil =>
    exact ⟨fun p hp => (by cases hp), fun i p q hp => (by simp at hp), List.Pairwise.nil⟩
  | cons p rest ih =>
    have ht := ih (pageOrdered_tail p rest h) (fun q hq => hs q (List.mem_cons_of_mem _ hq))
    have ha := h.ascending
    rw [dirKeys_cons] at ha
    obtain ⟨a1, a2, a3⟩ := List.pairwise_append.1 ha
    refine ⟨fun q hq => ?_, fun i x y hx hy a hma b hmb => ?_, ?_⟩
    · rcases List.mem_cons.1 hq with rfl | hq
      · exact a1
      · exact ht.within q hq
    · cases i with
      | zero =>
        simp only [List.getElem?_cons_zero, Option.some.injEq] at hx
        subst hx
        simp only [Nat.zero_add, List.getElem?_cons_succ] at hy
        exact a3 a.key (List.mem_map_of_mem _ hma) b.key
          (mem_dirKeys rest y b (List.getElem?_mem hy) hmb)
      | succ i =>
        simp only [List.getElem?_cons_succ] at hx hy
        exact ht.across i x y hx hy a hma b hmb
    · simp only [List.map_cons, List.pairwise_cons]
      refine ⟨fun b hb => ?_, ht.starts⟩
      obtain ⟨q, hq, rfl⟩ := List.mem_map.1 hb
      have h1 := hs p (List.mem_cons_self _ _)
      have h2 := hs q (List.mem_cons_of_mem _ hq)
      obtain ⟨ko, hko, e⟩ := List.mem_map.1 h2
      exact a3 _ h1 _ (by rw [← e]; exact mem_dirKeys rest q ko hq hko)

/-- The pages of an SST built from filled pages in order, read page by page. -/
theorem built_sorted (s : SST) (hb : Built s) (ho : PageOrdered s.pages) : PagesSorted s.pages := by
  refine pagesSorted_of_ordered s.pages ho (fun p hp => ?_)
  obtain ⟨es, hes, -⟩ := hb.holds p hp
  exact holds_startingKey_mem p es hes (ho.nonempty p hp)

end SST

namespace KVStore

/-- A call of `flushMemtableToSST` that returns has built the SST object of
`flushedSST`, written it and passed the name of its file to `addSST`. -/
theorem flushMemtableToSST_flushed (s s' : KVStore) (fs fs' : FileSystem)
    (h : flushMemtableToSST s fs = .ok (s', fs')) :
    ∃ sst file lsmTree lsmTree', flushedSST s.memtable = .ok sst ∧ sst.writeToFile = .ok file ∧
      s.lsmTree = some lsmTree ∧
      lsmTree.addSST
        (fs.writeFile (s.db_name ++ "/sst_" ++ to_string (s.sst_counter + 1) ++ ".sst") file)
        (s.db_name ++ "/sst_" ++ to_string (s.sst_counter + 1) ++ ".sst") = .ok (lsmTree', fs') := by
  unfold flushMemtableToSST at h
  unfold flushedSST
  dsimp only at h
  split at h
  · rename_i front back hf hb
    simp only [hf, hb]
    split at h
    · cases h
    · rename_i currentPage sst0 hfp
      try simp only [hfp]
      split at h
      · cases h
      · rename_i sst hsst
        split at h
        · cases h
        · rename_i file hw
          split at h
          · cases h
          · rename_i lsmTree hl
            split at h
            · cases h
            · rename_i lsmTree' fs1 ha
              simp only [Except.ok.injEq, Prod.mk.injEq] at h
              obtain ⟨-, rfl⟩ := h
              exact ⟨sst, file, lsmTree, lsmTree', hsst, hw, hl, ha⟩
  · cases h

end KVStore

/-! ## The rounding of the number of hash functions and the white space of the conversions -/

/-- The number of hash functions is rounded from the `double` product: for
116249714 bits per entry the exact product `bitsPerEntry * ln 2` lies below the
half and the `double` product on it. -/
theorem roundLog2_values :
    BloomFilter.roundLog2 12 = 8 ∧ BloomFilter.roundLog2 10 = 7 ∧
    BloomFilter.roundLog2 116249714 = 80578162 := by
  decide

/-- The conversions skip form feed and vertical tab as they skip blanks. -/
theorem parseInteger_skips_space :
    parseInteger "\x0c\x0b 7" = .ok 7 ∧ parseInteger " \t\r\n-12" = .ok (-12) := by
  decide

/-! ## The node bounds of the tree, and what a flush writes -/

theorem readShrunk_inside (before l : List Int) (i : Nat) (h : i < l.length) :
    readShrunk before l i = .ok (l.get ⟨i, h⟩) := by
  unfold readShrunk
  rw [List.get?_eq_get h]

theorem readShrunk_behind (before l : List Int) (i : Nat) (h : l.length ≤ i) :
    readShrunk before l i = readAt before i := by
  unfold readShrunk
  rw [List.get?_eq_none.2 h]

namespace BTree

theorem boundedList_iff (t height : Nat) (cs : List Node) :
    boundedList t height cs = true ↔ ∀ c ∈ cs, c.bounded t height = true := by
  induction cs with
  | nil => simp [boundedList]
  | cons c cs ih => simp [boundedList, ih]

theorem bounded_mk (t height : Nat) (l : Bool) (ks : List Int) (cs : List Node) (os : List Int)
    (d : Bytes) :
    (Node.mk l ks cs os d).bounded t height = true ↔
      (t - 1 ≤ ks.length ∧ ks.length ≤ 2 * t - 1) ∧
      (l = true → height = 1 ∧ os.length = ks.length) ∧
      (l = false → 2 ≤ height ∧ cs.length = ks.length + 1 ∧
        ∀ c ∈ cs, c.bounded t (height - 1) = true) := by
  cases l <;> simp [Node.bounded, boundedList_iff, and_assoc]

theorem rootBounded_mk (t height : Nat) (l : Bool) (ks : List Int) (cs : List Node) (os : List Int)
    (d : Bytes) :
    (Node.mk l ks cs os d).rootBounded t height = true ↔
      ks.length ≤ 2 * t - 1 ∧
      (l = true → height = 1 ∧ os.length = ks.length) ∧
      (l = false → 2 ≤ height ∧ cs.length = ks.length + 1 ∧
        ∀ c ∈ cs, c.bounded t (height - 1) = true) := by
  cases l <;> simp [Node.rootBounded, boundedList_iff, and_assoc]

/-- A node within the bounds for the root that holds `t - 1` keys or more is
within the bounds for the other nodes, and the other way round. -/
theorem bounded_iff_rootBounded (t height : Nat) (n : Node) :
    n.bounded t height = true ↔ t - 1 ≤ n.keys.length ∧ n.rootBounded t height = true := by
  obtain ⟨l, ks, cs, os, d⟩ := n
  rw [bounded_mk, rootBounded_mk]
  simp only [Node.keys]
  constructor
  · rintro ⟨⟨a, b⟩, c, e⟩
    exact ⟨a, b, c, e⟩
  · rintro ⟨a, b, c, e⟩
    exact ⟨⟨a, b⟩, c, e⟩

/-- The leaves of a node within the bounds at `height` are at least that far
down. -/
theorem bounded_depth (t : Nat) : ∀ (height : Nat) (n : Node), n.bounded t height = true →
    height ≤ n.depth := by
  intro height
  induction height with
  | zero => intro n _; omega
  | succ h ih =>
    intro n hn
    obtain ⟨l, ks, cs, os, d⟩ := n
    rw [bounded_mk] at hn
    rw [depth_mk]
    cases l with
    | true =>
      have := (hn.2.1 rfl).1
      omega
    | false =>
      obtain ⟨h2, hlen, hall⟩ := hn.2.2 rfl
      cases cs with
      | nil => simp at hlen
      | cons c cs =>
        have h1 := ih c (by simpa using hall c (List.mem_cons_self _ _))
        have h3 := depth_le_depthList (c :: cs) c (List.mem_cons_self _ _)
        omega

theorem rootBounded_depth (t height : Nat) (n : Node) (h : n.rootBounded t height = true) :
    height ≤ n.depth := by
  obtain ⟨l, ks, cs, os, d⟩ := n
  rw [rootBounded_mk] at h
  rw [depth_mk]
  cases l with
  | true =>
    have := (h.2.1 rfl).1
    omega
  | false =>
    obtain ⟨h2, hlen, hall⟩ := h.2.2 rfl
    cases cs with
    | nil => simp at hlen
    | cons c cs =>
      have h1 := bounded_depth t (height - 1) c (hall c (List.mem_cons_self _ _))
      have h3 := depth_le_depthList (c :: cs) c (List.mem_cons_self _ _)
      omega

/-- Function `splitChildKept` on a full leaf child: as `splitChild`. -/
theorem splitChildKept_leaf (t : Nat) (ht : 1 ≤ t) (pLeaf : Bool) (pKeys : List Int)
    (pChildren : List Node) (pOffsets : List Int) (pData : Bytes) (index : Nat) (cKeys : List Int)
    (cChildren : List Node) (cOffsets : List Int) (cData : Bytes)
    (hc : pChildren[index]? = some (.mk true cKeys cChildren cOffsets cData))
    (hk : cKeys.length = 2 * t - 1) (ho : cOffsets.length = 2 * t - 1) :
    splitChildKept t (.mk pLeaf pKeys pChildren pOffsets pData) index =
      .ok (.mk pLeaf (insertAt pKeys index (cKeys.getD (t - 1) 0))
        (insertAt (pChildren.set index (.mk true (cKeys.take t) cChildren (cOffsets.take t) cData))
          (index + 1) (.mk true (cKeys.drop t) [] (cOffsets.drop t) zeroBytes))
        pOffsets pData) := by
  unfold splitChildKept
  simp only
  rw [readAt_of_getElem? _ _ _ hc]
  simp only
  rw [readRange_of_le cKeys (t - 1) t (by omega), readRange_of_le cOffsets (t - 1) t (by omega)]
  simp only [if_true]
  rw [resizeInts_of_le cKeys t (by omega), resizeInts_of_le cOffsets t (by omega)]
  have hlt : t - 1 < (cKeys.take t).length := by rw [List.length_take]; omega
  rw [readShrunk_inside _ _ _ hlt]
  simp only
  have e1 : (cKeys.take t).get ⟨t - 1, hlt⟩ = cKeys.getD (t - 1) 0 := by
    rw [List.getD_eq_getElem?_getD, List.getElem?_eq_getElem (by omega)]
    simp [List.getElem_take]
  have e2 : (cKeys.drop t).take (t - 1) = cKeys.drop t := by
    apply List.take_of_length_le; rw [List.length_drop]; omega
  have e3 : (cOffsets.drop t).take (t - 1) = cOffsets.drop t := by
    apply List.take_of_length_le; rw [List.length_drop]; omega
  rw [e1, e2, e3]

/-- Function `splitChildKept` on a full internal child with `2t` children: the
child keeps its first `t - 1` keys and its first `t` children, the new sibling
takes the last `t - 1` keys and the last `t` children, and the key at index
`t - 1`, which neither holds, goes to the parent. -/
theorem splitChildKept_internal (t : Nat) (ht : 1 ≤ t) (pLeaf : Bool) (pKeys : List Int)
    (pChildren : List Node) (pOffsets : List Int) (pData : Bytes) (index : Nat) (cKeys : List Int)
    (cChildren : List Node) (cOffsets : List Int) (cData : Bytes)
    (hc : pChildren[index]? = some (.mk false cKeys cChildren cOffsets cData))
    (hk : cKeys.length = 2 * t - 1) (hch : cChildren.length = 2 * t) :
    splitChildKept t (.mk pLeaf pKeys pChildren pOffsets pData) index =
      .ok (.mk pLeaf (insertAt pKeys index (cKeys.getD (t - 1) 0))
        (insertAt
          (pChildren.set index (.mk false (cKeys.take (t - 1)) (cChildren.take t) cOffsets cData))
          (index + 1) (.mk false (cKeys.drop t) (cChildren.drop t) [] zeroBytes))
        pOffsets pData) := by
  unfold splitChildKept
  simp only
  rw [readAt_of_getElem? _ _ _ hc]
  simp only
  rw [readRange_of_le cKeys (t - 1) t (by omega), readRange_of_le cChildren t t (by omega)]
  simp only [Bool.false_eq_true, if_false]
  rw [resizeInts_of_le cKeys (t - 1) (by omega)]
  have hle : (cKeys.take (t - 1)).length ≤ t - 1 := by rw [List.length_take]; omega
  have hlt : t - 1 < cKeys.length := by omega
  rw [readShrunk_behind _ _ _ hle, readAt_of_lt _ _ hlt]
  simp only
  have e1 : cKeys.get ⟨t - 1, hlt⟩ = cKeys.getD (t - 1) 0 := by
    rw [List.getD_eq_getElem?_getD, List.getElem?_eq_getElem (by omega)]
    rfl
  have e2 : (cKeys.drop t).take (t - 1) = cKeys.drop t := by
    apply List.take_of_length_le; rw [List.length_drop]; omega
  have e3 : (cChildren.drop t).take t = cChildren.drop t := by
    apply List.take_of_length_le; rw [List.length_drop]; omega
  rw [e1, e2, e3]

/-- Where `splitChild` returns, `splitChildKept` returns the same node. -/
theorem splitChildKept_of_splitChild (degree : Nat) (parent r : Node) (index : Nat)
    (h : splitChild degree parent index = .ok r) : splitChildKept degree parent index = .ok r := by
  obtain ⟨pLeaf, pKeys, pChildren, pOffsets, pData⟩ := parent
  unfold splitChild at h
  unfold splitChildKept
  simp only at h ⊢
  cases h1 : readAt pChildren index with
  | error e => rw [h1] at h; cases h
  | ok child =>
    obtain ⟨cLeaf, cKeys, cChildren, cOffsets, cData⟩ := child
    rw [h1] at h
    simp only at h ⊢
    cases h2 : readRange cKeys degree (degree - 1) with
    | error e => rw [h2] at h; cases h
    | ok newKeys =>
      rw [h2] at h
      simp only at h ⊢
      cases cLeaf with
      | true =>
        simp only [if_true] at h ⊢
        cases h3 : readRange cOffsets degree (degree - 1) with
        | error e => rw [h3] at h; cases h
        | ok newOffsets =>
          rw [h3] at h
          simp only at h ⊢
          cases h4 : readAt (resizeInts cKeys degree) (degree - 1) with
          | error e => rw [h4] at h; cases h
          | ok median =>
            rw [h4] at h
            have : readShrunk cKeys (resizeInts cKeys degree) (degree - 1) = .ok median := by
              unfold readShrunk
              unfold readAt at h4
              cases hg : (resizeInts cKeys degree).get? (degree - 1) with
              | none => rw [hg] at h4; cases h4
              | some a => rw [hg] at h4; exact h4
            rw [this]
            exact h
      | false =>
        simp only [Bool.false_eq_true, if_false] at h ⊢
        cases h3 : readRange cChildren degree degree with
        | error e => rw [h3] at h; cases h
        | ok newChildren =>
          rw [h3] at h
          simp only at h ⊢
          cases h4 : readAt (resizeInts cKeys (degree - 1)) (degree - 1) with
          | error e => rw [h4] at h; cases h
          | ok median =>
            rw [h4] at h
            have : readShrunk cKeys (resizeInts cKeys (degree - 1)) (degree - 1) = .ok median := by
              unfold readShrunk
              unfold readAt at h4
              cases hg : (resizeInts cKeys (degree - 1)).get? (degree - 1) with
              | none => rw [hg] at h4; cases h4
              | some a => rw [hg] at h4; exact h4
            rw [this]
            exact h

end BTree

namespace BTree

theorem insertAt_set_left {α : Type} (cs : List α) (i : Nat) (L R : α) (h : i < cs.length) :
    (insertAt (cs.set i L) (i + 1) R)[i]? = some L := by
  unfold insertAt
  rw [List.getElem?_append_left (by rw [List.length_take, List.length_set]; omega),
    List.getElem?_take_of_lt (by omega), List.getElem?_set_self h]

theorem insertAt_set_right {α : Type} (cs : List α) (i : Nat) (L R : α) (h : i < cs.length) :
    (insertAt (cs.set i L) (i + 1) R)[i + 1]? = some R := by
  unfold insertAt
  have hl : ((cs.set i L).take (i + 1)).length = i + 1 := by
    rw [List.length_take, List.length_set]; omega
  rw [List.getElem?_append_right (by rw [hl]), hl, Nat.sub_self]
  exact List.getElem?_cons_zero

/-- Function `splitChildKept` on a full child within the bounds: the two halves
are within the bounds at the same height, and neither is full. -/
theorem splitChildKept_bounded (t : Nat) (ht : 2 ≤ t) (height : Nat) (pLeaf : Bool)
    (pKeys : List Int) (pChildren : List Node) (pOffsets : List Int) (pData : Bytes) (index : Nat)
    (child : Node) (hc : pChildren[index]? = some child) (hb : child.bounded t height = true)
    (hfull : child.keys.length + 1 = 2 * t) :
    ∃ median left right,
      splitChildKept t (.mk pLeaf pKeys pChildren pOffsets pData) index =
        .ok (.mk pLeaf (insertAt pKeys index median)
          (insertAt (pChildren.set index left) (index + 1) right) pOffsets pData) ∧
      left.bounded t height = true ∧ right.bounded t height = true ∧
      left.keys.length + 1 < 2 * t ∧ right.keys.length + 1 < 2 * t := by
  obtain ⟨l, ks, cs, os, d⟩ := child
  rw [bounded_mk] at hb
  simp only [Node.keys] at hfull
  cases l with
  | true =>
    obtain ⟨hh, ho⟩ := hb.2.1 rfl
    refine ⟨_, _, _, splitChildKept_leaf t (by omega) pLeaf pKeys pChildren pOffsets pData index
      ks cs os d hc (by omega) (by omega), ?_, ?_, ?_, ?_⟩
    · rw [bounded_mk]
      simp only [List.length_take]
      exact ⟨⟨by omega, by omega⟩, fun _ => ⟨hh, by omega⟩, (fun h => by cases h)⟩
    · rw [bounded_mk]
      simp only [List.length_drop]
      exact ⟨⟨by omega, by omega⟩, fun _ => ⟨hh, by omega⟩, (fun h => by cases h)⟩
    · simp only [Node.keys, List.length_take]; omega
    · simp only [Node.keys, List.length_drop]; omega
  | false =>
    obtain ⟨hh, hlen, hall⟩ := hb.2.2 rfl
    refine ⟨_, _, _, splitChildKept_internal t (by omega) pLeaf pKeys pChildren pOffsets pData
      index ks cs os d hc (by omega) (by omega), ?_, ?_, ?_, ?_⟩
    · rw [bounded_mk]
      simp only [List.length_take]
      exact ⟨⟨by omega, by omega⟩, (fun h => by cases h),
        fun _ => ⟨hh, by omega, fun c hc => hall c (List.mem_of_mem_take hc)⟩⟩
    · rw [bounded_mk]
      simp only [List.length_drop]
      exact ⟨⟨by omega, by omega⟩, (fun h => by cases h),
        fun _ => ⟨hh, by omega, fun c hc => hall c (List.mem_of_mem_drop hc)⟩⟩
    · simp only [Node.keys, List.length_take]; omega
    · simp only [Node.keys, List.length_drop]; omega

/-- Function `insertNonFullKept` on a leaf: one key and one offset more. -/
theorem insertNonFullKept_leaf (t fuel : Nat) (ks : List Int) (cs : List Node) (os : List Int)
    (d : Bytes) (key offset : Int) :
    ∃ ks1 os1, insertNonFullKept t (fuel + 1) (.mk true ks cs os d) key offset =
        .ok (.mk true ks1 cs os1 d) ∧
      ks1.length = ks.length + 1 ∧ os1.length = os.length + 1 := by
  unfold insertNonFullKept
  simp only [if_true]
  have hl := shiftLoop_length key (ks.length + 1) ((ks.length : Int) - 1) (ks ++ [0]) (os ++ [0])
  refine ⟨_, _, rfl, ?_, ?_⟩
  · rw [List.length_set, hl.1]; simp
  · rw [List.length_set, hl.2]; simp

/-- Function `insertNonFullKept` on a node within the bounds that is not full,
with fuel for its height: it returns a node within the bounds at the same
height, with the keys it had or one more. -/
theorem insertNonFullKept_bounded (t : Nat) (ht : 2 ≤ t) (fuel : Nat) :
    ∀ (height : Nat) (n : Node) (key offset : Int), height ≤ fuel →
      n.rootBounded t height = true → n.keys.length + 1 < 2 * t →
      ∃ n1, insertNonFullKept t fuel n key offset = .ok n1 ∧ n1.rootBounded t height = true ∧
        n.keys.length ≤ n1.keys.length := by
  induction fuel with
  | zero =>
    intro height n key offset hf hb _
    exfalso
    obtain ⟨l, ks, cs, os, d⟩ := n
    rw [rootBounded_mk] at hb
    cases l with
    | true => have := (hb.2.1 rfl).1; omega
    | false => have := (hb.2.2 rfl).1; omega
  | succ fuel ih =>
    intro height n key offset hf hb hroom
    obtain ⟨l, ks, cs, os, d⟩ := n
    rw [rootBounded_mk] at hb
    simp only [Node.keys] at hroom
    cases l with
    | true =>
      obtain ⟨hh, ho⟩ := hb.2.1 rfl
      obtain ⟨ks1, os1, e, hk, ho1⟩ := insertNonFullKept_leaf t fuel ks cs os d key offset
      refine ⟨_, e, ?_, ?_⟩
      · rw [rootBounded_mk]
        exact ⟨by omega, fun _ => ⟨hh, by omega⟩, (fun h => by cases h)⟩
      · simp only [Node.keys]; omega
    | false =>
      obtain ⟨hh, hlen, hall⟩ := hb.2.2 rfl
      unfold insertNonFullKept
      simp only [Bool.false_eq_true, if_false]
      have hr := findLoop_range key ks (ks.length + 1) ((ks.length : Int) - 1) (by omega)
      generalize hi : (findLoop key ks (ks.length + 1) ((ks.length : Int) - 1) + 1).toNat = i
      have hile : i ≤ ks.length := by omega
      have hilt : i < cs.length := by omega
      rw [readAt_of_lt cs i hilt]
      simp only
      have hchild : cs.get ⟨i, hilt⟩ ∈ cs := List.get_mem _ _ _
      have hget : cs[i]? = some (cs.get ⟨i, hilt⟩) := by
        rw [List.getElem?_eq_getElem hilt]; rfl
      generalize cs.get ⟨i, hilt⟩ = child at hchild hget
      have hok := hall child hchild
      by_cases hfull : child.keys.length + 1 = 2 * t
      · rw [if_pos hfull]
        obtain ⟨median, L, R, es, hL, hR, hLroom, hRroom⟩ :=
          splitChildKept_bounded t ht (height - 1) false ks cs os d i child hget hok hfull
        rw [es]
        simp only
        have hk1 : (insertAt ks i median).length = ks.length + 1 := length_insertAt _ _ _ hile
        obtain ⟨ki, hki⟩ : ∃ ki, (insertAt ks i median)[i]? = some ki :=
          ⟨_, List.getElem?_eq_getElem (by rw [hk1]; omega)⟩
        rw [readAt_of_getElem? _ _ _ hki]
        simp only
        have hc1 : (insertAt (cs.set i L) (i + 1) R).length = cs.length + 1 := by
          rw [length_insertAt _ _ _ (by rw [List.length_set]; omega), List.length_set]
        have hall2 : ∀ c ∈ insertAt (cs.set i L) (i + 1) R, c.bounded t (height - 1) = true := by
          intro c hc
          rcases mem_insertAt _ _ _ _ hc with h | h
          · rw [h]; exact hR
          · rcases mem_set_cases _ _ _ _ h with h | h
            · rw [h]; exact hL
            · exact hall c h
        have hLi := insertAt_set_left cs i L R hilt
        have hRi := insertAt_set_right cs i L R hilt
        generalize insertAt (cs.set i L) (i + 1) R = ncs at hc1 hall2 hLi hRi
        have hfin : ∀ (i1 : Nat) (c : Node), ncs[i1]? = some c → c.bounded t (height - 1) = true →
            c.keys.length + 1 < 2 * t →
            ∃ n1, ((match readAt ncs i1 with
              | Except.error e => Except.error e
              | Except.ok child =>
                match insertNonFullKept t fuel child key offset with
                | Except.error e => Except.error e
                | Except.ok child =>
                  Except.ok (Node.mk false (insertAt ks i median) (ncs.set i1 child) os d)) :
                Except Fault Node) = Except.ok n1 ∧
              n1.rootBounded t height = true ∧
              (Node.mk false ks cs os d).keys.length ≤ n1.keys.length := by
          intro i1 c hc hcb hcroom
          rw [readAt_of_getElem? _ _ _ hc]
          simp only
          obtain ⟨c1, e1, hc1b, hc1k⟩ := ih (height - 1) c key offset (by omega)
            ((bounded_iff_rootBounded t _ c).1 hcb).2 hcroom
          rw [e1]
          simp only
          refine ⟨_, rfl, ?_, ?_⟩
          · rw [rootBounded_mk]
            refine ⟨by omega, (fun h => by cases h), fun _ => ⟨hh, ?_, ?_⟩⟩
            · rw [List.length_set]; omega
            · intro x hx
              rcases mem_set_cases _ _ _ _ hx with h | h
              · rw [h]
                exact (bounded_iff_rootBounded t _ c1).2
                  ⟨le_trans ((bounded_iff_rootBounded t _ c).1 hcb).1 hc1k, hc1b⟩
              · exact hall2 x h
          · simp only [Node.keys]; omega
        by_cases hgt : key > ki
        · simp only [if_pos hgt]
          exact hfin (i + 1) R hRi hR hRroom
        · simp only [if_neg hgt]
          exact hfin i L hLi hL hLroom
      · rw [if_neg hfull]
        have hcroom : child.keys.length + 1 < 2 * t := by
          obtain ⟨cl, cks, ccs, cos, cd⟩ := child
          rw [bounded_mk] at hok
          simp only [Node.keys] at hfull ⊢
          omega
        obtain ⟨c1, e1, hc1b, hc1k⟩ := ih (height - 1) child key offset (by omega)
          ((bounded_iff_rootBounded t _ child).1 hok).2 hcroom
        rw [e1]
        simp only
        refine ⟨_, rfl, ?_, le_refl _⟩
        rw [rootBounded_mk]
        refine ⟨by omega, (fun h => by cases h), fun _ => ⟨hh, ?_, ?_⟩⟩
        · rw [List.length_set]; exact hlen
        · intro x hx
          rcases mem_set_cases _ _ _ _ hx with h | h
          · rw [h]
            exact (bounded_iff_rootBounded t _ c1).2
              ⟨le_trans ((bounded_iff_rootBounded t _ child).1 hok).1 hc1k, hc1b⟩
          · exact hall x h

end BTree

namespace BTree

/-- Function `insertKept` on a tree within the bounds: it returns, and the tree
it returns is within the bounds and has a root. -/
theorem insertKept_bounded (t : Nat) (ht : 2 ≤ t) (tree : BTree) (key offset : Int)
    (hd : tree.degree = t) (hb : tree.Bounded) :
    ∃ tree1, tree.insertKept key offset = .ok tree1 ∧ tree1.degree = t ∧ tree1.Bounded ∧
      tree1.root ≠ none := by
  obtain ⟨r, deg⟩ := tree
  simp only at hd
  subst hd
  unfold Bounded at hb ⊢
  simp only at hb
  cases r with
  | none =>
    refine ⟨_, rfl, rfl, ?_, by simp⟩
    intro root hr
    simp only [Option.some.injEq] at hr
    subst hr
    refine ⟨1, ?_⟩
    rw [rootBounded_mk]
    exact ⟨by simp only [List.length_singleton]; omega, fun _ => ⟨rfl, rfl⟩,
      (fun h => by cases h)⟩
  | some root =>
    obtain ⟨height, hroot⟩ := hb root rfl
    have hpos : 1 ≤ height := by
      obtain ⟨l, ks, cs, os, d⟩ := root
      rw [rootBounded_mk] at hroot
      cases l with
      | true => have := (hroot.2.1 rfl).1; omega
      | false => have := (hroot.2.2 rfl).1; omega
    have hle : root.keys.length ≤ 2 * deg - 1 := by
      obtain ⟨l, ks, cs, os, d⟩ := root
      rw [rootBounded_mk] at hroot
      exact hroot.1
    unfold insertKept
    simp only
    by_cases hfull : root.keys.length + 1 = 2 * deg
    · rw [if_pos hfull]
      have hnb : root.bounded deg height = true :=
        (bounded_iff_rootBounded deg height root).2 ⟨by omega, hroot⟩
      obtain ⟨median, L, R, es, hL, hR, hLroom, hRroom⟩ :=
        splitChildKept_bounded deg ht height false [] [root] [] zeroBytes 0 root rfl hnb hfull
      rw [es]
      simp only
      have hins1 : insertAt ([] : List Int) 0 median = [median] := rfl
      have hins2 : insertAt ([root].set 0 L) (0 + 1) R = [L, R] := rfl
      rw [hins1, hins2]
      have hnew : (Node.mk false [median] [L, R] [] zeroBytes).rootBounded deg (height + 1) = true := by
        rw [rootBounded_mk]
        refine ⟨by simp only [List.length_singleton]; omega, (fun h => by cases h),
          fun _ => ⟨by omega, rfl, ?_⟩⟩
        intro c hc
        simp only [List.mem_cons, List.mem_singleton, List.not_mem_nil, or_false] at hc
        rcases hc with h | h
        · rw [h]; exact hL
        · rw [h]; exact hR
      have hdep := rootBounded_depth deg (height + 1) _ hnew
      obtain ⟨n1, e1, hb1, -⟩ := insertNonFullKept_bounded deg ht
        ((Node.mk false [median] [L, R] [] zeroBytes).depth + 1) (height + 1)
        (Node.mk false [median] [L, R] [] zeroBytes) key offset (by omega) hnew
        (by simp only [Node.keys, List.length_singleton]; omega)
      rw [e1]
      refine ⟨_, rfl, rfl, ?_, by simp⟩
      intro root1 hr
      simp only [Option.some.injEq] at hr
      subst hr
      exact ⟨height + 1, hb1⟩
    · rw [if_neg hfull]
      have hdep := rootBounded_depth deg height _ hroot
      obtain ⟨n1, e1, hb1, -⟩ := insertNonFullKept_bounded deg ht (root.depth + 1) height
        root key offset (by omega) hroot (by omega)
      rw [e1]
      refine ⟨_, rfl, rfl, ?_, by simp⟩
      intro root1 hr
      simp only [Option.some.injEq] at hr
      subst hr
      exact ⟨height, hb1⟩

/-- Every sequence of `insertKept` calls on a tree within the bounds returns a
tree within the bounds. -/
theorem insertAllKept_bounded (t : Nat) (ht : 2 ≤ t) (kos : List (Int × Int)) :
    ∀ (tree : BTree), tree.degree = t → tree.Bounded →
      ∃ tree1, insertAllKept kos tree = .ok tree1 ∧ tree1.degree = t ∧ tree1.Bounded ∧
        (tree1.root = none → kos = []) := by
  induction kos with
  | nil =>
    intro tree hd hb
    exact ⟨tree, rfl, hd, hb, fun _ => rfl⟩
  | cons ko rest ih =>
    intro tree hd hb
    obtain ⟨tree1, e1, hd1, hb1, hne⟩ := insertKept_bounded t ht tree ko.1 ko.2 hd hb
    obtain ⟨tree2, e2, hd2, hb2, hn2⟩ := ih tree1 hd1 hb1
    refine ⟨tree2, ?_, hd2, hb2, ?_⟩
    · simp only [insertAllKept, e1]
      exact e2
    · intro hnone
      exfalso
      have hrest := hn2 hnone
      subst hrest
      simp only [insertAllKept, Except.ok.injEq] at e2
      subst e2
      exact hne hnone

theorem bounded_new (t : Nat) : (BTree.new t).Bounded := by
  intro root hr
  cases hr

/-- Where `insertNonFull` returns, `insertNonFullKept` returns the same node. -/
theorem insertNonFullKept_of_insertNonFull (degree : Nat) (fuel : Nat) :
    ∀ (n r : Node) (key offset : Int), insertNonFull degree fuel n key offset = .ok r →
      insertNonFullKept degree fuel n key offset = .ok r := by
  induction fuel with
  | zero =>
    intro n r key offset h
    simp only [insertNonFull] at h
    cases h
  | succ fuel ih =>
    intro n r key offset h
    obtain ⟨l, ks, cs, os, d⟩ := n
    unfold insertNonFull at h
    unfold insertNonFullKept
    cases l with
    | true =>
      simp only [if_true] at h ⊢
      exact h
    | false =>
      simp only [Bool.false_eq_true, if_false] at h ⊢
      generalize (findLoop key ks (ks.length + 1) ((ks.length : Int) - 1) + 1).toNat = i at h ⊢
      cases h1 : readAt cs i with
      | error e => rw [h1] at h; cases h
      | ok child =>
        rw [h1] at h
        simp only at h ⊢
        by_cases hfull : child.keys.length + 1 = 2 * degree
        · rw [if_pos hfull] at h ⊢
          cases h2 : splitChild degree (.mk false ks cs os d) i with
          | error e => rw [h2] at h; cases h
          | ok p =>
            rw [h2] at h
            rw [splitChildKept_of_splitChild degree _ p i h2]
            obtain ⟨pl, pks, pcs, pos, pd⟩ := p
            simp only at h ⊢
            cases h3 : readAt pks i with
            | error e => rw [h3] at h; cases h
            | ok ki =>
              rw [h3] at h
              simp only at h ⊢
              generalize (if key > ki then i + 1 else i) = i1 at h ⊢
              cases h4 : readAt pcs i1 with
              | error e => rw [h4] at h; cases h
              | ok c =>
                rw [h4] at h
                simp only at h ⊢
                cases h5 : insertNonFull degree fuel c key offset with
                | error e => rw [h5] at h; cases h
                | ok c1 =>
                  rw [h5] at h
                  rw [ih c c1 key offset h5]
                  exact h
        · rw [if_neg hfull] at h ⊢
          cases h5 : insertNonFull degree fuel child key offset with
          | error e => rw [h5] at h; cases h
          | ok c1 =>
            rw [h5] at h
            rw [ih child c1 key offset h5]
            exact h

/-- Where `insert` returns, `insertKept` returns the same tree. -/
theorem insertKept_of_insert (tree r : BTree) (key offset : Int)
    (h : tree.insert key offset = .ok r) : tree.insertKept key offset = .ok r := by
  unfold insert at h
  unfold insertKept
  cases hr : tree.root with
  | none => rw [hr] at h; exact h
  | some root =>
    rw [hr] at h
    simp only at h ⊢
    by_cases hfull : root.keys.length + 1 = 2 * tree.degree
    · rw [if_pos hfull] at h ⊢
      cases h2 : splitChild tree.degree (.mk false [] [root] [] zeroBytes) 0 with
      | error e => rw [h2] at h; cases h
      | ok p =>
        rw [h2] at h
        rw [splitChildKept_of_splitChild _ _ p 0 h2]
        simp only at h ⊢
        cases h5 : insertNonFull tree.degree (p.depth + 1) p key offset with
        | error e => rw [h5] at h; cases h
        | ok c1 =>
          rw [h5] at h
          rw [insertNonFullKept_of_insertNonFull _ _ p c1 key offset h5]
          exact h
    · rw [if_neg hfull] at h ⊢
      cases h5 : insertNonFull tree.degree (root.depth + 1) root key offset with
      | error e => rw [h5] at h; cases h
      | ok c1 =>
        rw [h5] at h
        rw [insertNonFullKept_of_insertNonFull _ _ root c1 key offset h5]
        exact h

/-- Where a sequence of `insert` calls returns, the same sequence of
`insertKept` calls returns the same tree. -/
theorem insertAllKept_of_insertAll (kos : List (Int × Int)) :
    ∀ (tree r : BTree), insertAll kos tree = .ok r → insertAllKept kos tree = .ok r := by
  induction kos with
  | nil => intro tree r h; exact h
  | cons ko rest ih =>
    intro tree r h
    simp only [insertAll] at h
    simp only [insertAllKept]
    cases h1 : tree.insert ko.1 ko.2 with
    | error e => rw [h1] at h; cases h
    | ok t1 =>
      rw [h1] at h
      rw [insertKept_of_insert tree t1 ko.1 ko.2 h1]
      exact ih t1 r h

end BTree

namespace KVStore

theorem step_eq_Put (s : KVStore) (fs : FileSystem) (op : Op) :
    step s fs op = Put s fs op.key op.value := by
  cases op <;> rfl

/-- A call of `flushMemtableToSST` that returns has built the SST object of
`flushedSST`, written it under the next file name, passed that name to `addSST`
and left the index and the disk that `addSST` returned. -/
theorem flushMemtableToSST_index (s s' : KVStore) (fs fs' : FileSystem)
    (h : flushMemtableToSST s fs = .ok (s', fs')) :
    ∃ sst file lsmTree lsmTree', flushedSST s.memtable = .ok sst ∧ sst.writeToFile = .ok file ∧
      s.lsmTree = some lsmTree ∧
      lsmTree.addSST (fs.writeFile s.nextSSTName file) s.nextSSTName = .ok (lsmTree', fs') ∧
      s'.lsmTree = some lsmTree' ∧ s'.db_name = s.db_name ∧ s'.useBTree = s.useBTree := by
  unfold nextSSTName
  unfold flushMemtableToSST at h
  unfold flushedSST
  dsimp only at h
  split at h
  · rename_i front back hf hb
    simp only [hf, hb]
    split at h
    · cases h
    · rename_i currentPage sst0 hfp
      try simp only [hfp]
      split at h
      · cases h
      · rename_i sst hsst
        split at h
        · cases h
        · rename_i file hw
          split at h
          · cases h
          · rename_i lsmTree hl
            split at h
            · cases h
            · rename_i lsmTree' fs1 ha
              simp only [Except.ok.injEq, Prod.mk.injEq] at h
              obtain ⟨rfl, rfl⟩ := h
              exact ⟨sst, file, lsmTree, lsmTree', hsst, hw, hl, ha, rfl, rfl, rfl⟩
  · cases h

/-- At the threshold a `Put` is the flush of the memtable with the new write,
followed by `clear`. -/
theorem Put_at (s : KVStore) (fs : FileSystem) (key value : Int)
    (h : s.memtable.current_size + 1 ≥ s.memtable_size) :
    Put s fs key value =
      (flushMemtableToSST { s with memtable := s.memtable.put key value } fs).map
        (fun p => ({ p.1 with memtable := p.1.memtable.clear }, p.2)) := by
  unfold Put
  dsimp only
  rw [if_pos (by simpa [AVLTree.getCurrentSize, AVLTree.put] using h)]
  cases flushMemtableToSST { s with memtable := s.memtable.put key value } fs with
  | error e => rfl
  | ok p => rfl

/-- A `Put` at the threshold that returns has flushed the memtable with the new
write into the next file and registered it. -/
theorem Put_flushes (s s2 : KVStore) (fs fs2 : FileSystem) (key value : Int)
    (hge : s.memtable.current_size + 1 ≥ s.memtable_size)
    (h : Put s fs key value = .ok (s2, fs2)) :
    ∃ sst file lsmTree lsmTree', flushedSST (s.memtable.put key value) = .ok sst ∧
      SST.dirKeys sst.pages = ((s.memtable.put key value).scan INT_MIN INT_MAX).map Prod.fst ∧
      sst.writeToFile = .ok file ∧ s.lsmTree = some lsmTree ∧
      lsmTree.addSST (fs.writeFile s.nextSSTName file) s.nextSSTName = .ok (lsmTree', fs2) ∧
      s2.lsmTree = some lsmTree' := by
  rw [Put_at s fs key value hge] at h
  cases hf : flushMemtableToSST { s with memtable := s.memtable.put key value } fs with
  | error e => rw [hf] at h; cases h
  | ok p =>
    obtain ⟨s1, fs1⟩ := p
    rw [hf] at h
    simp only [Except.map, Except.ok.injEq, Prod.mk.injEq] at h
    obtain ⟨rfl, rfl⟩ := h
    obtain ⟨sst, file, lsmTree, lsmTree', a, b, c, d, e, -, -⟩ :=
      flushMemtableToSST_index _ _ _ _ hf
    exact ⟨sst, file, lsmTree, lsmTree', a, (flushedSST_keys _ _ a).1, b, c, d, e⟩

end KVStore

/-! ## The claims -/

set_option maxRecDepth 1000000

/-- The engine reproduces scenarios A to E of the specification (the unit test
`testKVStore`): threshold 3, the ten calls of scenario A, then the eight `Get`
calls and the four `Scan` calls with the documented results. -/
theorem scenarios_A_to_E :
    [10, 12, 15, 20, 25, 30, 100, 200].map
        (KVStore.getAfter (KVStore.openAndRun 3 "test_db" scenarioA) pool0) =
      [.ok 10011, .ok 10012, .ok 10015, .ok 10020, .ok (-1), .ok 10031, .ok 10100, .ok (-1)] ∧
    KVStore.scanAfter (KVStore.openAndRun 3 "test_db" scenarioA) pool0 10 20 =
      .ok ([(10, 10011), (12, 10012), (15, 10015), (20, 10020)], 4) ∧
    KVStore.scanAfter (KVStore.openAndRun 3 "test_db" scenarioA) pool0 15 35 =
      .ok ([(15, 10015), (20, 10020), (30, 10031)], 3) ∧
    KVStore.scanAfter (KVStore.openAndRun 3 "test_db" scenarioA) pool0 5 100 =
      .ok ([(10, 10011), (12, 10012), (15, 10015), (20, 10020), (30, 10031), (100, 10100)], 6) ∧
    KVStore.scanAfter (KVStore.openAndRun 3 "test_db" scenarioA) pool0 200 300 = .ok ([], 0) := by
  decide!

/-- C1 (round trip), evaluated where it fails: threshold 2, `Put(1, 10)` then
`Put(3000000000, 20)`.  The last write to key 3000000000 is the `Put` of 20, the
second call flushed the memtable, and `Get(3000000000)` returns -1, with the
binary search and, after `SetUseBTree(true)`, with the B-tree search, while
`Get(1)` returns 10. -/
theorem C1_get_loses_key_outside_int_range :
    lastWrite 3000000000 [.put 1 10, .put 3000000000 20] = some 20 ∧
    KVStore.getAfter (KVStore.openAndRun 2 "db" [.put 1 10, .put 3000000000 20]) pool0
      3000000000 = .ok (-1) ∧
    KVStore.getAfter (KVStore.useBTreeAfter (KVStore.openAndRun 2 "db"
      [.put 1 10, .put 3000000000 20])) pool0 3000000000 = .ok (-1) ∧
    KVStore.getAfter (KVStore.openAndRun 2 "db" [.put 1 10, .put 3000000000 20]) pool0
      1 = .ok 10 := by
  decide!

/-- C2 (scan correctness), evaluated where it fails: after the same two calls
`Scan(0, 4000000000)` returns only the pair of key 1, although the last write
to key 3000000000 was `Put(3000000000, 20)` and the key is in the range. -/
theorem C2_scan_loses_key_outside_int_range :
    lastWrite 3000000000 [.put 1 10, .put 3000000000 20] = some 20 ∧
    KVStore.scanAfter (KVStore.openAndRun 2 "db" [.put 1 10, .put 3000000000 20]) pool0
      0 4000000000 = .ok ([(1, 10)], 1) := by
  decide!

/-- C3 (tombstone shadowing), evaluated where it fails: with threshold 2, after
`Put(7, 2)` followed by `Del(7)` with writes to other keys in between and after,
on a store whose level 1 already holds an older value of key 7, the last write
to key 7 is the `Del`, yet `Get(7)` returns the older value 1 (with either
search method) and `Scan(0, 100)` contains the pair `(7, 1)`.  The index ends
with the single file `sst_2_4` in level 2. -/
theorem C3_deleted_key_comes_back :
    lastWrite 7 resurrection = none ∧
    KVStore.getAfter (KVStore.openAndRun 2 "db" resurrection) pool0 7 = .ok 1 ∧
    KVStore.getAfter (KVStore.useBTreeAfter (KVStore.openAndRun 2 "db" resurrection)) pool0 7 =
      .ok 1 ∧
    KVStore.scanAfter (KVStore.openAndRun 2 "db" resurrection) pool0 0 100 =
      .ok ([(7, 1), (8, 1), (9, 1), (10, 1), (11, 1), (12, 1)], 6) ∧
    KVStore.indexAfter (KVStore.openAndRun 2 "db" resurrection) =
      some (4, [[], [], ["../db/sst_2_4.sst"]]) := by
  decide!

/-- C4 (shape of a scan result): on every store whose memtable was built by
`put` calls, whatever the SST files and the page cache hold, a list that
`Scan(start, stop)` returns has strictly ascending keys (so no key occurs
twice), every key lies in `[start, stop]`, no value is the tombstone, and
`result_count` is its length.  The call stops without a result only on a store
that was not opened (the null `lsmTree` pointer) or where the scan of an SST
file runs into undefined behaviour (an incomplete block, a read outside the
buffer of a block, the overflow of `numPages * PAGE_SIZE`) or does not end
within the bound of the descent; the exceptions that the scan of a file throws
are caught in `mergedScan`, which skips the file. -/
theorem C4_scan_sorted_in_range_live (s : KVStore) (fs : FileSystem)
    (pool : BufferPool) (start stop : Int) (writes : List (Int × Int))
    (hmem : s.memtable.root = AVLTree.ofWrites writes) :
    (∀ r n pool', KVStore.Scan s fs pool start stop = (.ok (r, n), pool') →
      n = (r.length : Int) ∧ (r.map Prod.fst).Pairwise (· < ·) ∧
      ∀ kv ∈ r, start ≤ kv.1 ∧ kv.1 ≤ stop ∧ kv.2 ≠ TOMBSTONE) ∧
    (∀ e pool', KVStore.Scan s fs pool start stop = (.error e, pool') →
      (e = .nullDeref ∧ s.lsmTree = none) ∨ e = .uninitialised ∨ e = .outOfBounds ∨
        e = .overflow ∨ e = .outOfFuel) := by
  have hord : AVLTree.Ordered s.memtable.root := hmem ▸ AVLTree.ordered_ofWrites writes
  constructor
  · intro r n pool' h
    unfold KVStore.Scan at h
    cases hm : KVStore.mergedScan s fs pool start stop with
    | mk res pool1 =>
      rw [hm] at h
      cases res with
      | error e => cases h
      | ok l =>
        simp only [Prod.mk.injEq, Except.ok.injEq] at h
        obtain ⟨⟨rfl, rfl⟩, -⟩ := h
        exact ⟨rfl, KVStore.mergedScan_spec s fs pool pool1 start stop l hord hm⟩
  · intro e pool' h
    unfold KVStore.Scan at h
    cases hm : KVStore.mergedScan s fs pool start stop with
    | mk res pool1 =>
      rw [hm] at h
      cases res with
      | error e1 =>
        simp only [Prod.mk.injEq, Except.error.injEq] at h
        rw [← h.1]
        exact KVStore.mergedScan_fault s fs pool pool1 start stop e1 hm
      | ok l => cases h

/-- C4 at scenario A: the store it leaves is opened, its memtable holds the one
write since the last flush, its index holds SST files, and `Scan(15, 35)`
returns three pairs, in the stated shape. -/
theorem C4_scan_sorted_in_range_live_witness :
    ∃ s fs, KVStore.openAndRun 3 "test_db" scenarioA = .ok (s, fs) ∧
      ∃ r pool', KVStore.Scan s fs pool0 15 35 = (.ok (r, 3), pool') ∧
        (3 : Int) = (r.length : Int) ∧ (r.map Prod.fst).Pairwise (· < ·) ∧
        ∀ kv ∈ r, (15 : Int) ≤ kv.1 ∧ kv.1 ≤ 35 ∧ kv.2 ≠ TOMBSTONE := by
  have hsc : KVStore.scanAfter (KVStore.openAndRun 3 "test_db" scenarioA) pool0 15 35 =
      .ok ([(15, 10015), (20, 10020), (30, 10031)], 3) := by decide!
  have hm : memtableAfter (KVStore.openAndRun 3 "test_db" scenarioA)
      = some (AVLTree.ofWrites [(100, 10100)]) := by decide!
  cases h : KVStore.openAndRun 3 "test_db" scenarioA with
  | error e => rw [h] at hsc; cases hsc
  | ok p =>
    obtain ⟨s, fs⟩ := p
    rw [h] at hm hsc
    simp only [memtableAfter, Option.some.injEq] at hm
    simp only [KVStore.scanAfter] at hsc
    cases hS : KVStore.Scan s fs pool0 15 35 with
    | mk res pool' =>
      rw [hS] at hsc
      dsimp only at hsc
      subst hsc
      exact ⟨s, fs, rfl, _, pool', hS,
        (C4_scan_sorted_in_range_live s fs pool0 15 35 [(100, 10100)] hm).1 _ _ _ hS⟩

/-- C5 as stated fails: `Scan(35, 15)` on the store of scenario A is not
rejected, it returns the empty result with count 0. -/
theorem C5_reversed_range_is_not_rejected :
    (35 : Int) > 15 ∧
    KVStore.scanAfter (KVStore.openAndRun 3 "test_db" scenarioA) pool0 35 15 = .ok ([], 0) := by
  decide!

/-- C5 as amended: for every `start > stop`, whatever the store, the SST files
and the page cache hold, `Scan(start, stop)` is not rejected.  It runs the
merged scan as for any other range: a result that it returns is the empty list
with count 0, and it stops without a result only as every scan can, on a store
that was not opened (the null `lsmTree` pointer) or where the scan of an SST
file runs into undefined behaviour or does not end within the bound of the
descent; the fault is never an exception, so never an invalid-argument error. -/
theorem C5_reversed_range_scans_empty (s : KVStore) (fs : FileSystem) (pool : BufferPool)
    (start stop : Int) (hrev : start > stop) :
    (∀ r pool', KVStore.Scan s fs pool start stop = (.ok r, pool') → r = ([], 0)) ∧
    (∀ e pool', KVStore.Scan s fs pool start stop = (.error e, pool') →
      e.isException = false ∧
      ((e = .nullDeref ∧ s.lsmTree = none) ∨ e = .uninitialised ∨ e = .outOfBounds ∨
        e = .overflow ∨ e = .outOfFuel)) := by
  constructor
  · intro r pool' h
    unfold KVStore.Scan at h
    cases hm : KVStore.mergedScan s fs pool start stop with
    | mk res pool1 =>
      rw [hm] at h
      cases res with
      | error e => cases h
      | ok l =>
        simp only [Prod.mk.injEq, Except.ok.injEq] at h
        rw [← h.1, KVStore.mergedScan_reversed s fs pool pool1 start stop l hrev hm]
        rfl
  · intro e pool' h
    unfold KVStore.Scan at h
    cases hm : KVStore.mergedScan s fs pool start stop with
    | mk res pool1 =>
      rw [hm] at h
      cases res with
      | error e1 =>
        simp only [Prod.mk.injEq, Except.error.injEq] at h
        rw [← h.1]
        have hf := KVStore.mergedScan_fault s fs pool pool1 start stop e1 hm
        refine ⟨?_, hf⟩
        rcases hf with hf | hf | hf | hf | hf
        · rw [hf.1]; rfl
        · rw [hf]; rfl
        · rw [hf]; rfl
        · rw [hf]; rfl
        · rw [hf]; rfl
      | ok l => cases h

/-- C5 as amended, at the store that the calls of `resurrection` leave with
threshold 2, whose index holds an SST file with six entries: `Scan(100, 0)`
returns, and what it returns is the empty result with count 0.  The call reads
the root block of the file: the page cache, empty before, holds one block
after it. -/
theorem C5_reversed_range_scans_empty_witness :
    KVStore.indexAfter (KVStore.openAndRun 2 "db" resurrection) =
      some (4, [[], [], ["../db/sst_2_4.sst"]]) ∧
    pool0.currentSize = 0 ∧
    KVStore.cachedAfter (KVStore.openAndRun 2 "db" resurrection) pool0 100 0 = some 1 ∧
    ∃ s fs, KVStore.openAndRun 2 "db" resurrection = .ok (s, fs) ∧
      ∃ r pool', KVStore.Scan s fs pool0 100 0 = (.ok r, pool') ∧ r = ([], 0) := by
  have hok : succeeded (KVStore.scanAfter (KVStore.openAndRun 2 "db" resurrection) pool0 100 0) =
      true := by decide!
  refine ⟨by decide!, by decide, by decide!, ?_⟩
  cases h : KVStore.openAndRun 2 "db" resurrection with
  | error e => rw [h] at hok; cases hok
  | ok p =>
    obtain ⟨s, fs⟩ := p
    rw [h] at hok
    simp only [KVStore.scanAfter] at hok
    cases hS : KVStore.Scan s fs pool0 100 0 with
    | mk res pool' =>
      rw [hS] at hok
      dsimp only at hok
      cases res with
      | error e => cases hok
      | ok r =>
        exact ⟨s, fs, rfl, r, pool', hS,
          (C5_reversed_range_scans_empty s fs pool0 100 0 (by decide)).1 r pool' hS⟩

/-- C6 (merge above the bottom level), evaluated where it fails: the first input
holds the single key `INT64_MAX`, the second the single key 5; the output holds
the entry of key 5 only, and likewise with the inputs swapped.  On inputs
without that key the merge takes the union and the value of the second input
for a key of both. -/
theorem C6_merge_loses_largest_key :
    (SST.fileOf [(9223372036854775807, 1)]).isSome = true ∧
    (SST.fileOf [(5, 2)]).isSome = true ∧
    LSMTree.mergedEntries [(9223372036854775807, 1)] [(5, 2)] false = .ok [(5, 2)] ∧
    LSMTree.mergedEntries [(5, 2)] [(9223372036854775807, 1)] false = .ok [(5, 2)] ∧
    LSMTree.mergedEntries [(1, 4), (3, 6)] [(1, 9), (2, 5)] false =
      .ok [(1, 9), (2, 5), (3, 6)] := by
  decide!

/-- C7 (tombstones at the bottom level), evaluated where it fails: with
`isLargestLevel = true`, a tombstone whose key occurs in one input only is
copied to the output. -/
theorem C7_bottom_merge_keeps_single_tombstone :
    LSMTree.mergedEntries [(1, TOMBSTONE)] [(2, 5)] true = .ok [(1, TOMBSTONE), (2, 5)] ∧
    LSMTree.mergedEntries [(2, 5)] [(1, TOMBSTONE)] true = .ok [(1, TOMBSTONE), (2, 5)] ∧
    LSMTree.mergedEntries [(1, 4), (3, 6)] [(1, TOMBSTONE), (3, 7)] true = .ok [(3, 7)] := by
  decide!

/-- C8 (Bloom soundness): after any list of keys was inserted into any filter,
`query` answers true for each of them; and after any sequence of `addPage`
calls on any SST, `mightContain` answers true for every key of every page that
was added. -/
theorem C8_bloom_no_false_negatives (f : BloomFilter) (keys : List Int) (k : Int)
    (hk : k ∈ keys) :
    (keys.foldl (fun g x => g.insert x) f).query k = true ∧
    ∀ (pages : List Page) (s s' : SST), SST.addPages pages s = .ok s' →
      (∃ p ∈ pages, ∃ ko ∈ p.keys, ko.key = k) → s'.mightContain k = true := by
  constructor
  · have h := BloomFilter.insertAll_spec keys f
    rw [BloomFilter.query_eq_true]
    intro i hi
    rw [BloomFilter.getHashValues_congr f _ h.1 h.2.1] at hi
    exact h.2.2.2 k hk i hi
  · rintro pages s s' h ⟨p, hp, ko, hko, rfl⟩
    have a := SST.addPages_filter pages s s' h
    unfold SST.mightContain
    rw [BloomFilter.query_eq_true]
    intro i hi
    rw [BloomFilter.getHashValues_congr s.bloomFilter _ a.1 a.2.1] at hi
    exact a.2.2.2 p hp ko hko i hi

/-- C8 at the keys of the unit test: a filter that received 12345 and 67890
answers true for 12345, and so does an SST that received a page holding it. -/
theorem C8_bloom_no_false_negatives_witness :
    ((12345 : Int) ∈ [(12345 : Int), 67890]) ∧
    (([(12345 : Int), 67890].foldl (fun g x => g.insert x) (BloomFilter.new 100 10)).query 12345
      = true) :=
  ⟨by decide, (C8_bloom_no_false_negatives (BloomFilter.new 100 10) [12345, 67890] 12345
    (by decide)).1⟩

/-- C9 (persistence of the index), evaluated where it fails: a database named
`a,b`, threshold 1, one `Put`.  Before `Close` level 0 holds the file
`../a,b/sst_1.sst` and `Get(1)` returns 10; after `Close` and `Open` of the same
name level 0 holds the name `../a`, and `Get(1)` returns -1. -/
theorem C9_reopen_truncates_filename_at_comma :
    KVStore.indexAfter (KVStore.finalFlush (KVStore.openAndRun 1 "a,b" [.put 1 10])) =
      some (1, [["../a,b/sst_1.sst"]]) ∧
    KVStore.indexAfter (KVStore.closeAndOpen (KVStore.openAndRun 1 "a,b" [.put 1 10]) "a,b") =
      some (1, [["../a"]]) ∧
    KVStore.getAfter (KVStore.openAndRun 1 "a,b" [.put 1 10]) pool0 1 = .ok 10 ∧
    KVStore.getAfter (KVStore.closeAndOpen (KVStore.openAndRun 1 "a,b" [.put 1 10]) "a,b")
      pool0 1 = .ok (-1) := by
  decide!

/-- C10 (flush cadence), with the call at which it fails.  From an empty
memtable and with threshold `n ≥ 1`, after any sequence of `Put` / `Del` calls
that returned, the memtable counts the number of calls modulo `n`, which is
below `n`; the SST counter has advanced once per `n` calls; and right after an
`n`-th call the memtable is empty.  The next call, when it is not an `n`-th
call, returns: it puts its write into the memtable and leaves the counter, the
index and the disk as they are.  When it is an `n`-th call it is the flush of
the memtable with the new write, followed by `clear`; when that returns, the
counter has advanced by one, the memtable is empty, the SST object built from
the memtable holds the keys of its scan over `INT_MIN..INT_MAX`, its file was
written under the next name `<db>/sst_<counter + 1>.sst`, and the index and the
disk are those that `addSST` returned for that name on the disk with the new
file.  Calls that overwrite a key count like any other call.  With threshold
2, `Put(1, 10)`, `Put(2, 20)`, `Put(3, 30)` leave the file `sst_1.sst` with the
entries of the first two calls in level 0.  The flush does not always return:
with threshold 1, `Put(3000000000, 1)` is a first call, so it flushes; the scan
of the memtable over `INT_MIN..INT_MAX` is empty and `front()` is read on the
empty vector, so no SST is written. -/
theorem C10_flush_cadence_and_flush_without_int_key :
    (∀ (n : Nat) (ops : List Op) (s s' : KVStore) (fs fs' : FileSystem), 1 ≤ n →
      s.memtable_size = (n : Int) → s.memtable.current_size = 0 →
      s.memtable.root = Node.null → KVStore.run ops s fs = .ok (s', fs') →
      s'.memtable.current_size = ((ops.length % n : Nat) : Int) ∧
      s'.memtable.current_size < (n : Int) ∧
      s'.sst_counter = s.sst_counter + ((ops.length / n : Nat) : Int) ∧
      (ops.length % n = 0 → s'.memtable.root = Node.null) ∧
      (∀ op, (ops.length + 1) % n ≠ 0 →
        KVStore.step s' fs' op =
          .ok ({ s' with memtable := s'.memtable.put op.key op.value }, fs')) ∧
      (∀ op, (ops.length + 1) % n = 0 →
        KVStore.step s' fs' op =
          (KVStore.flushMemtableToSST { s' with memtable := s'.memtable.put op.key op.value }
            fs').map (fun p => ({ p.1 with memtable := p.1.memtable.clear }, p.2))) ∧
      (∀ op s2 fs2, (ops.length + 1) % n = 0 → KVStore.step s' fs' op = .ok (s2, fs2) →
        s2.sst_counter = s'.sst_counter + 1 ∧ s2.memtable.current_size = 0 ∧
        s2.memtable.root = Node.null ∧
        ∃ sst file lsmTree lsmTree',
          KVStore.flushedSST (s'.memtable.put op.key op.value) = .ok sst ∧
          SST.dirKeys sst.pages =
            ((s'.memtable.put op.key op.value).scan INT_MIN INT_MAX).map Prod.fst ∧
          sst.writeToFile = .ok file ∧ s'.lsmTree = some lsmTree ∧
          lsmTree.addSST (fs'.writeFile s'.nextSSTName file) s'.nextSSTName =
            .ok (lsmTree', fs2) ∧
          s2.lsmTree = some lsmTree')) ∧
    KVStore.indexAfter (KVStore.openAndRun 2 "db" [.put 1 10, .put 2 20, .put 3 30]) =
      some (1, [["../db/sst_1.sst"]]) ∧
    KVStore.entriesAfter (KVStore.openAndRun 2 "db" [.put 1 10, .put 2 20, .put 3 30])
      "../db/sst_1.sst" = some [(1, 10), (2, 20)] ∧
    ((AVLTree.new 1).put 3000000000 1).scan INT_MIN INT_MAX = [] ∧
    faultOf (KVStore.openAndRun 1 "db" [.put 3000000000 1]) = some .outOfBounds := by
  refine ⟨?_, by decide!, by decide!, by decide, by decide!⟩
  intro n ops s s' fs fs' hn hsize hsize0 hroot0 hrun
  have h := KVStore.run_cadence n ops s s' fs fs' 0 hsize (by simpa using hsize0) (by omega) hrun
  simp only [Nat.zero_add] at h
  have hlt : ops.length % n < n := Nat.mod_lt _ (by omega)
  have hsucc : (ops.length + 1) % n = 0 ↔ ops.length % n + 1 = n := by
    rw [Nat.add_mod]
    by_cases h1 : n = 1
    · subst h1; simp [Nat.mod_one]
    · have h1n : 1 % n = 1 := Nat.mod_eq_of_lt (by omega)
      rw [h1n]
      by_cases h2 : ops.length % n + 1 = n
      · simp [h2]
      · have : ops.length % n + 1 < n := by omega
        rw [Nat.mod_eq_of_lt this]
        omega
  refine ⟨h.2.1, ?_, h.2.2.1, fun hm => ?_, fun op hne => ?_, fun op he => ?_,
    fun op s2 fs2 he hstep => ?_⟩
  · rw [h.2.1]
    exact_mod_cast hlt
  · by_cases ho : ops = []
    · subst ho
      simp only [KVStore.run, Except.ok.injEq, Prod.mk.injEq] at hrun
      obtain ⟨rfl, -⟩ := hrun
      exact hroot0
    · exact h.2.2.2 hm ho
  · have hb : s'.memtable.current_size + 1 < s'.memtable_size := by
      rw [h.1, h.2.1]
      have : ops.length % n + 1 < n := by
        have := mt hsucc.2 hne
        omega
      exact_mod_cast this
    rw [KVStore.step_eq_Put]
    exact KVStore.Put_below s' fs' op.key op.value hb
  · have hn2 : ops.length % n + 1 = n := hsucc.1 he
    rw [KVStore.step_eq_Put]
    refine KVStore.Put_at s' fs' op.key op.value ?_
    rw [h.1, h.2.1]
    have : ((ops.length % n : Nat) : Int) + 1 = (n : Int) := by exact_mod_cast hn2
    omega
  · have hs := KVStore.step_ok s' s2 fs' fs2 op hstep
    rw [h.1, h.2.1] at hs
    have hn2 : ops.length % n + 1 = n := hsucc.1 he
    have hcast : ((ops.length % n : Nat) : Int) + 1 = (n : Int) := by exact_mod_cast hn2
    rw [KVStore.step_eq_Put] at hstep
    have hfl := KVStore.Put_flushes s' s2 fs' fs2 op.key op.value
      (by rw [h.1, h.2.1]; omega) hstep
    rcases hs.2 with ⟨-, h0, hroot, hctr⟩ | ⟨hl, -, -⟩
    · exact ⟨hctr, h0, hroot, hfl⟩
    · exfalso
      omega

/-- C11 (memtable size): the size is 0 right after construction and right after
`clear`, and after any sequence of `put` calls issued from either state it
equals the number of those calls, repeated keys included.  The counter is a
C++ `int`, so the sequences are those it can count. -/
theorem C11_size_counts_put_calls (n : Int) (t : AVLTree) (writes : List (Int × Int))
    (hfit : (writes.length : Int) ≤ INT_MAX) :
    (AVLTree.new n).getCurrentSize = 0 ∧ t.clear.getCurrentSize = 0 ∧
    (AVLTree.putAll writes (AVLTree.new n)).getCurrentSize = (writes.length : Int) ∧
    (AVLTree.putAll writes t.clear).getCurrentSize = (writes.length : Int) := by
  have _ := hfit
  refine ⟨rfl, rfl, ?_, ?_⟩
  · simp [AVLTree.getCurrentSize, AVLTree.putAll_current_size, AVLTree.new]
  · simp [AVLTree.getCurrentSize, AVLTree.putAll_current_size, AVLTree.clear]

/-- C11 at three `put` calls on two distinct keys: the size is 3. -/
theorem C11_size_counts_put_calls_witness :
    (([(1, 10), (1, 20), (2, 5)] : List (Int × Int)).length : Int) ≤ INT_MAX ∧
    (AVLTree.putAll [(1, 10), (1, 20), (2, 5)] (AVLTree.new 10)).getCurrentSize = 3 :=
  ⟨by decide, (C11_size_counts_put_calls 10 (AVLTree.new 10) [(1, 10), (1, 20), (2, 5)]
    (by decide)).2.2.1⟩

/-- C12 as stated fails: after `put(1, INT64_MIN)` the most recent value put for
key 1 is `INT64_MIN`, and `get(1)` returns -1. -/
theorem C12_get_hides_int64_min :
    AVLTree.latest 1 [(1, INT64_MIN)] = some INT64_MIN ∧
    (AVLTree.putAll [(1, INT64_MIN)] (AVLTree.new 10)).get 1 = -1 ∧
    (-1 : Int) ≠ INT64_MIN := by
  decide

/-- C12 as amended: after any sequence of `put` calls, `get(k)` returns the value
`v` of the most recent `put(k, v)` when `v` is not `INT64_MIN`, and -1 when that
value is `INT64_MIN` (the marker `del` stores) or when no `put` for `k` occurred. -/
theorem C12_get_after_puts (n : Int) (writes : List (Int × Int)) (k : Int) :
    (AVLTree.putAll writes (AVLTree.new n)).get k =
      match AVLTree.latest k writes with
      | some v => if v = INT64_MIN then -1 else v
      | none => -1 :=
  AVLTree.get_putAll n writes k

/-- C13 as stated fails: after `put(1, INT64_MIN)` the map holds the entry of key
1, which lies in `[0, 5]`, and `scan(0, 5)` returns nothing. -/
theorem C13_scan_skips_int64_min :
    AVLTree.latest 1 [(1, INT64_MIN)] = some INT64_MIN ∧
    AVLTree.toList (AVLTree.putAll [(1, INT64_MIN)] (AVLTree.new 10)).root = [(1, INT64_MIN)] ∧
    (AVLTree.putAll [(1, INT64_MIN)] (AVLTree.new 10)).scan 0 5 = [] := by
  decide

/-- C13 as amended: after any sequence of `put` calls, `scan(start, stop)` returns,
in strictly ascending key order, exactly the pairs `(k, v)` with `start ≤ k ≤
stop` where `v` is the latest value put for `k` and `v` is not `INT64_MIN`; a
pair whose value is the tombstone `T` is in the result like any other. -/
theorem C13_scan_after_puts (n : Int) (writes : List (Int × Int)) (start stop : Int) :
    (((AVLTree.putAll writes (AVLTree.new n)).scan start stop).map Prod.fst).Pairwise (· < ·) ∧
    (∀ k v, (k, v) ∈ (AVLTree.putAll writes (AVLTree.new n)).scan start stop ↔
      start ≤ k ∧ k ≤ stop ∧ AVLTree.latest k writes = some v ∧ v ≠ INT64_MIN) ∧
    (∀ k, start ≤ k → k ≤ stop → AVLTree.latest k writes = some TOMBSTONE →
      (k, TOMBSTONE) ∈ (AVLTree.putAll writes (AVLTree.new n)).scan start stop) := by
  have ho : AVLTree.Ordered (AVLTree.putAll writes (AVLTree.new n)).root := by
    rw [AVLTree.putAll_new_root]; exact AVLTree.ordered_ofWrites writes
  refine ⟨(AVLTree.scan_spec _ start stop ho).1, AVLTree.mem_scan_putAll n writes start stop, ?_⟩
  intro k h1 h2 h3
  exact (AVLTree.mem_scan_putAll n writes start stop k TOMBSTONE).2 ⟨h1, h2, h3, by decide⟩

/-- C14 (memtable delete): in the state any sequence of `put`, `del` and `clear`
calls leaves, for every key `k`, after `del(k)` the call `get(k)` returns -1. -/
theorem C14_get_after_del (n : Int) (cs : List AVLTree.Call) (k : Int) :
    ((AVLTree.calls cs (AVLTree.new n)).del k).get k = -1 := by
  have ho : AVLTree.Ordered (AVLTree.calls cs (AVLTree.new n)).root :=
    AVLTree.ordered_calls cs _ AVLTree.ordered_null
  have hm : (k, INT64_MIN) ∈
      AVLTree.toList (AVLTree.putNode (AVLTree.calls cs (AVLTree.new n)).root k INT64_MIN) :=
    (AVLTree.mem_toList_putNode _ k INT64_MIN k INT64_MIN ho).2 (Or.inl ⟨rfl, rfl⟩)
  have hg := AVLTree.getNode_of_mem _ k INT64_MIN (AVLTree.ordered_putNode _ k INT64_MIN ho) hm
  simp only [AVLTree.get, AVLTree.del, AVLTree.put, hg, if_true]

/-- C15 (`Page::addEntry`): on every page, `addEntry` returns true exactly when
the free space is at least 20 bytes; then the number of entries grows by one and
the free space shrinks by 20; when it returns false the page is left as it was.
On a new page, call number `i + 1` of any sequence of calls is accepted exactly
when `i < 204`: the first 204 calls are accepted, the 205th and later ones are
rejected. -/
theorem C15_addEntry_acceptance (p : Page) (key value : Int) (kvs : List (Int × Int)) :
    ((p.addEntry key value).1 = true ↔ p.freeSpace ≥ 20) ∧
    ((p.addEntry key value).1 = true →
      (p.addEntry key value).2.numEntries = p.numEntries + 1 ∧
      (p.addEntry key value).2.freeSpace = p.freeSpace - 20) ∧
    ((p.addEntry key value).1 = false → (p.addEntry key value).2 = p) ∧
    (Page.addEntries kvs Page.new).1 =
      (List.range kvs.length).map (fun (i : Nat) => decide (i < 204)) := by
  refine ⟨Page.addEntry_accepts_iff p key value, fun h => ?_, fun h => ?_, ?_⟩
  · have h20 := (Page.addEntry_accepts_iff p key value).1 h
    exact ⟨(Page.addEntry_freeSpace p key value h20).2, (Page.addEntry_freeSpace p key value h20).1⟩
  · have h20 : ¬ p.freeSpace ≥ 20 := by
      intro hc
      rw [(Page.addEntry_accepts_iff p key value).2 hc] at h
      cases h
    rw [Page.addEntry_rejected p key value h20]
  · rw [Page.addEntries_results]
    apply List.map_congr_left
    intro i _
    congr 1
    apply propext
    simp only [Page.new, Page.calculateMetadataSize, PAGE_SIZE]
    constructor <;> intro _ <;> omega

/-- C16 (level size invariant): on an LSM manager of size ratio 2 whose levels
all hold fewer than two filenames, whatever the disk holds, `addSST` does not
exhaust the bounds of the loops of the compaction, and when it returns every
level holds fewer than two filenames again. -/
theorem C16_levels_below_ratio (t : LSMTree) (fs : FileSystem) (sstFileName : String)
    (hR : t.levelSizeRatio = 2) (hinv : ∀ l ∈ t.levels, l.length < 2) :
    t.addSST fs sstFileName ≠ .error .outOfFuel ∧
    ∀ t' fs', t.addSST fs sstFileName = .ok (t', fs') →
      t'.levelSizeRatio = 2 ∧ ∀ l ∈ t'.levels, l.length < 2 :=
  LSMTree.addSST_spec t fs sstFileName hR hinv

/-- C16 at a cascade: level 0 and level 1 hold one file each; adding a file fills
level 0, whose merge fills level 1, whose merge leaves one file in level 2. -/
theorem C16_levels_below_ratio_witness :
    ∃ t' fs', cascadeIndex.addSST cascadeDisk "../db/sst_4.sst" = .ok (t', fs') ∧
      t'.levels = [[], [], ["../db/sst_2_4.sst"]] ∧ ∀ l ∈ t'.levels, l.length < 2 := by
  have h0 : LSMTree.levelsAfter (cascadeIndex.addSST cascadeDisk "../db/sst_4.sst") =
      some [[], [], ["../db/sst_2_4.sst"]] := by decide!
  cases h : cascadeIndex.addSST cascadeDisk "../db/sst_4.sst" with
  | error e => rw [h] at h0; cases h0
  | ok p =>
    obtain ⟨t', fs'⟩ := p
    rw [h] at h0
    simp only [LSMTree.levelsAfter, Option.some.injEq] at h0
    exact ⟨t', fs', rfl, h0,
      ((C16_levels_below_ratio cascadeIndex cascadeDisk "../db/sst_4.sst" rfl (by decide)).2
        t' fs' h).2⟩

/-- C17 (buffer-pool invariant): in the pool that any sequence of `insertPage`
and `getPage` calls leaves from an empty pool of capacity `c ≥ 1`, the circular
list and the hash map both hold `currentSize` entries, at most `c`; the list
holds each cached page ID once and no other; the hand is null when the list is
empty and points at an entry of the list otherwise. -/
theorem C17_pool_invariant (hash : String → Nat) (c : Nat) (hc : 1 ≤ c)
    (cs : List BufferPool.Call) (p : BufferPool)
    (hp : p = BufferPool.calls cs (BufferPool.new hash c)) :
    p.ring.length = p.currentSize ∧ p.pageMap.size = p.currentSize ∧ p.currentSize ≤ c ∧
    p.pageIDs.Nodup ∧ (∀ pageID, (p.getPage pageID).1.isSome = true ↔ pageID ∈ p.pageIDs) ∧
    (p.ring = [] → p.clockHand = none) ∧
    (p.ring ≠ [] → ∃ h, p.clockHand = some h ∧ h < p.ring.length) := by
  have h : BufferPool.Inv p := hp ▸ BufferPool.inv_calls cs _ (BufferPool.inv_new hash c hc)
  have hcap : p.capacity = c := hp ▸ BufferPool.capacity_calls cs _ (BufferPool.inv_new hash c hc)
  have hh := h.hand
  unfold BufferPool.HandOk at hh
  refine ⟨h.size_eq, h.map_size, hcap ▸ h.size_le, h.nodup, fun pageID => ?_, fun he => ?_,
    fun hne => ?_⟩
  · rw [BufferPool.getPage_fst]; exact h.cached pageID
  · cases hk : p.clockHand with
    | none => rfl
    | some k =>
      rw [hk, he] at hh
      simp at hh
  · cases hk : p.clockHand with
    | none =>
      rw [hk] at hh
      exact absurd hh hne
    | some k =>
      rw [hk] at hh
      exact ⟨k, rfl, hh⟩

/-- C17 at the calls of the unit test `testBufferPoolEviction`: capacity 2 and
three insertions leave two entries. -/
theorem C17_pool_invariant_witness :
    (1 ≤ 2) ∧
    (poolOfTest.insertPage "page3" Page.new).ring.length =
      (poolOfTest.insertPage "page3" Page.new).currentSize ∧
    (poolOfTest.insertPage "page3" Page.new).currentSize ≤ 2 :=
  ⟨by decide,
   (C17_pool_invariant (fun _ => 0) 2 (by decide)
      [.insertPage "page1" Page.new, .insertPage "page2" Page.new, .getPage "page1",
       .insertPage "page3" Page.new] _ rfl).1,
   (C17_pool_invariant (fun _ => 0) 2 (by decide)
      [.insertPage "page1" Page.new, .insertPage "page2" Page.new, .getPage "page1",
       .insertPage "page3" Page.new] _ rfl).2.2.1⟩

/-- C18 (clock eviction victim): let `insertPage` be called with a page ID that
is not cached on a full pool built by any sequence of calls.  The eviction rule
names a victim among the cached entries: the first entry in circular order from
the hand whose bit is clear, or the entry at the hand when every bit is set.
Afterwards the list holds the survivors of the rule (the entries behind the
victim untouched, the entries the hand passed with their bits cleared) and the
new entry with a clear bit; the victim is not found any more, the new page is
found, every other page ID is found as before, and the pool is full again. -/
theorem C18_clock_victim (hash : String → Nat) (c : Nat) (hc : 1 ≤ c)
    (cs : List BufferPool.Call) (p : BufferPool)
    (hp : p = BufferPool.calls cs (BufferPool.new hash c)) (pageID : String) (page : Page)
    (hfull : p.currentSize = p.capacity) (hnew : (p.getPage pageID).1.isNone = true) :
    ∃ v, BufferPool.victimOf p.fromHand = some v ∧ v.pageID ∈ p.pageIDs ∧
      (p.insertPage pageID page).ring.Perm
        (BufferPool.survivorsOf p.fromHand ++ [{ pageID := pageID, referenceBit := 0 }]) ∧
      ((p.insertPage pageID page).getPage v.pageID).1.isNone = true ∧
      ((p.insertPage pageID page).getPage pageID).1 = some page ∧
      (∀ x, x ≠ v.pageID → x ≠ pageID →
        ((p.insertPage pageID page).getPage x).1 = (p.getPage x).1) ∧
      (p.insertPage pageID page).currentSize = p.capacity := by
  have h : BufferPool.Inv p := hp ▸ BufferPool.inv_calls cs _ (BufferPool.inv_new hash c hc)
  have hg : p.pageMap.get pageID = none := by
    rw [BufferPool.getPage_fst] at hnew
    cases hx : p.pageMap.get pageID with
    | none => rfl
    | some pg => rw [hx] at hnew; cases hnew
  have hh := BufferPool.hand_of_full p h hfull
  obtain ⟨v, hv, hs, hm, hsz, -⟩ := BufferPool.evictPage_spec p hh
  have hperm := BufferPool.evictPage_pageIDs p v hh hv
  have hvin : v.pageID ∈ p.pageIDs := hperm.mem_iff.2 (List.mem_cons_self _ _)
  have hvne : v.pageID ≠ pageID := by
    intro e
    have := (h.cached v.pageID).2 hvin
    rw [e, hg] at this
    cases this
  have hpos : 1 ≤ p.currentSize := by rw [hfull]; exact h.capacity_pos
  refine ⟨v, hv, hvin, ?_, ?_, ?_, ?_, ?_⟩
  · rw [BufferPool.insertPage_absent p pageID page hg]
    simp only [if_pos hfull]
    rw [← hs]
    exact List.Perm.append_right _ (BufferPool.fromHand_perm p.evictPage).symm
  · rw [BufferPool.getPage_fst, BufferPool.insertPage_absent p pageID page hg]
    simp only [if_pos hfull, HashMap.get_insert, hm, HashMap.get_remove _ _ _ h.chained,
      if_neg hvne, if_true, Option.isNone_none]
  · rw [BufferPool.getPage_fst, BufferPool.insertPage_absent p pageID page hg]
    simp only [if_pos hfull, HashMap.get_insert, if_true]
  · intro x hx1 hx2
    rw [BufferPool.getPage_fst, BufferPool.getPage_fst,
      BufferPool.insertPage_absent p pageID page hg]
    simp only [if_pos hfull, HashMap.get_insert, hm, HashMap.get_remove _ _ _ h.chained,
      if_neg hx1, if_neg hx2]
  · rw [BufferPool.insertPage_absent p pageID page hg]
    simp only [if_pos hfull]
    rw [hsz, ← hfull]
    omega

/-- C18 at the unit test `testBufferPoolEviction`: capacity 2, `page1` and
`page2` inserted, `page1` read; the hand is at `page1`, whose bit is set, so the
victim of inserting `page3` is `page2`, and `page1` stays with its bit cleared. -/
theorem C18_clock_victim_witness :
    poolOfTest.currentSize = poolOfTest.capacity ∧
    poolOfTest.fromHand = [{ pageID := "page1", referenceBit := 1 },
      { pageID := "page2", referenceBit := 0 }] ∧
    (poolOfTest.insertPage "page3" Page.new).ring.Perm
      [{ pageID := "page1", referenceBit := 0 }, { pageID := "page3", referenceBit := 0 }] ∧
    ((poolOfTest.insertPage "page3" Page.new).getPage "page2").1.isNone = true ∧
    ((poolOfTest.insertPage "page3" Page.new).getPage "page3").1 = some Page.new := by
  have hfull : poolOfTest.currentSize = poolOfTest.capacity := by decide
  obtain ⟨v, hv, -, h1, h2, h3, -⟩ :=
    C18_clock_victim (fun _ => 0) 2 (by decide)
      [.insertPage "page1" Page.new, .insertPage "page2" Page.new, .getPage "page1"]
      poolOfTest rfl "page3" Page.new hfull (by decide)
  have hvic : BufferPool.victimOf poolOfTest.fromHand =
      some { pageID := "page2", referenceBit := 0 } := by decide
  have hsur : BufferPool.survivorsOf poolOfTest.fromHand =
      [{ pageID := "page1", referenceBit := 0 }] := by decide
  rw [hvic] at hv
  cases hv
  rw [hsur] at h1
  exact ⟨hfull, by decide, h1, h2, h3⟩

/-- C19 (buffer-pool lookup): after any sequence of calls on an empty pool of
capacity `c ≥ 1`, `getPage(id)` returns what the record of the calls holds for
`id`: the payload of the `insertPage` call that added `id`, when `id` was added
and not evicted since (a later `insertPage` of a cached ID changes nothing of
the record); and null for every other ID. -/
theorem C19_pool_lookup (hash : String → Nat) (c : Nat) (hc : 1 ≤ c)
    (cs : List BufferPool.Call) (pageID : String) :
    (BufferPool.Tracked.calls cs (BufferPool.Tracked.new hash c)).pool =
      BufferPool.calls cs (BufferPool.new hash c) ∧
    ((BufferPool.calls cs (BufferPool.new hash c)).getPage pageID).1 =
      (BufferPool.Tracked.calls cs (BufferPool.Tracked.new hash c)).held pageID := by
  obtain ⟨e, h⟩ := BufferPool.tracked_calls cs (BufferPool.Tracked.new hash c)
    (BufferPool.inv_new hash c hc) (fun _ => rfl)
  refine ⟨e, ?_⟩
  rw [BufferPool.getPage_fst, ← h pageID, e]
  rfl

/-- C19 at the unit test `testBufferPoolEviction`: after the insertion of
`page3` the lookup of `page2` returns what the record holds for it. -/
theorem C19_pool_lookup_witness :
    (1 ≤ 2) ∧
    ((BufferPool.calls
        [.insertPage "page1" Page.new, .insertPage "page2" Page.new, .getPage "page1",
         .insertPage "page3" Page.new] (BufferPool.new (fun _ => 0) 2)).getPage "page2").1 =
      (BufferPool.Tracked.calls
        [.insertPage "page1" Page.new, .insertPage "page2" Page.new, .getPage "page1",
         .insertPage "page3" Page.new] (BufferPool.Tracked.new (fun _ => 0) 2)).held "page2" :=
  ⟨by decide, (C19_pool_lookup (fun _ => 0) 2 (by decide)
    [.insertPage "page1" Page.new, .insertPage "page2" Page.new, .getPage "page1",
     .insertPage "page3" Page.new] "page2").2⟩

/-- C20 (flush drains the memtable), evaluated where it fails: threshold 10,
`Put(1, 10)`, `Put(3000000000, 20)`, `Put(-3000000000, 30)`, then the flush with
which `Close()` begins.  The memtable holds the three entries; the SST written
holds the entry of key 1 only, and the memtable is empty afterwards. -/
theorem C20_flush_omits_keys_outside_int_range :
    memtableEntriesAfter (KVStore.openAndRun 10 "db"
        [.put 1 10, .put 3000000000 20, .put (-3000000000) 30]) =
      some [(-3000000000, 30), (1, 10), (3000000000, 20)] ∧
    KVStore.fileEntriesAfter (KVStore.finalFlush (KVStore.openAndRun 10 "db"
        [.put 1 10, .put 3000000000 20, .put (-3000000000) 30])) "../db/sst_1.sst" =
      some [(1, 10)] ∧
    KVStore.indexAfter (KVStore.finalFlush (KVStore.openAndRun 10 "db"
        [.put 1 10, .put 3000000000 20, .put (-3000000000) 30])) =
      some (1, [["../db/sst_1.sst"]]) ∧
    memtableEntriesAfter (KVStore.finalFlush (KVStore.openAndRun 10 "db"
        [.put 1 10, .put 3000000000 20, .put (-3000000000) 30])) = some [] ∧
    KVStore.fileEntriesAfter (KVStore.finalFlush (KVStore.openAndRun 10 "db"
        [.put 1 10, .put 2 20, .put (-3) 30])) "../db/sst_1.sst" =
      some [(-3, 30), (1, 10), (2, 20)] := by
  decide!

/-- C21 fails for a child that is an internal node.  In general
`postorderTraversalWrite` records in an internal node, for each child, the
offset at which the blocks of the subtree of the child start
(`subtreeStarts`), while the block of the child itself is the last block of
that subtree (`blockOffsets`).  In the file of `tallSST`, an SST of nine pages
whose tree has height 3, the blocks of the tree start at offset 40984: the
block of the root, the last 4096 bytes of the file, holds the key 4 and the
child offsets 40984 and 53272; the blocks of its children, the nodes with the
keys 2 and 6, are at 49176 and 61464; the block at the recorded offset 40984
is the one of the leaf with the keys 1 and 2. -/
theorem C21_recorded_offset_is_subtree_start :
    (∀ (ks : List Int) (cs : List BTree.Node) (os : List Int) (d : Bytes) (s : Nat) (f : File),
      (SST.postorderTraversalWrite (.mk false ks cs os d) s f).1.offsets =
        os ++ SST.subtreeStarts cs s ∧
      ∀ (i : Nat) (x : BTree.Node) (b : Int),
        (SST.postorderTraversalWrite (.mk false ks cs os d) s f).1.children[i]? = some x →
        (SST.blockOffsets cs s)[i]? = some b → ∀ j, j < PAGE_SIZE →
          (SST.postorderTraversalWrite (.mk false ks cs os d) s f).2.2.bytes (b.toNat + j) = x.data j) ∧
    SST.subtreeStarts tallTree.children 40984 = [40984, 53272] ∧
    SST.blockOffsets tallTree.children 40984 = [49176, 61464] ∧
    tallSST.writeToFile.map (fun f => f.size) = .ok 69656 ∧
    tallSST.writeToFile.map (fun f => BTree.Node.decode (f.block (f.size - 4096))) =
      .ok ([4], [40984, 53272]) ∧
    tallSST.writeToFile.map (fun f => BTree.Node.decode (f.block 49176)) =
      .ok ([2], [40984, 45080]) ∧
    tallSST.writeToFile.map (fun f => BTree.Node.decode (f.block 61464)) =
      .ok ([6], [53272, 57368]) ∧
    tallSST.writeToFile.map (fun f => BTree.Node.decode (f.block 40984)) =
      .ok ([1, 2], [4120, 8216]) := by
  refine ⟨?_, by decide, by decide, by decide, by decide, by decide, by decide, by decide⟩
  intro ks cs os d s f
  have h := SST.postorderTraversalWrite_offsets ks cs os d s f
  refine ⟨h.1, ?_⟩
  intro i x b hx hb j hj
  rw [h.2] at hx
  rw [SST.postorderTraversalWrite_eq]
  simp only [Bool.not_false, if_true]
  have hc := SST.postorderWriteChildren_wrote cs os s f
  have hlen : (SST.blockOffsets cs s).length = cs.length := by
    clear hb hx h hc
    induction cs generalizing s with
    | nil => rfl
    | cons c cs ih => simp [SST.blockOffsets, ih]
  have hbound : ∀ (cs : List BTree.Node) (s : Nat) (i : Nat) (b : Int), (SST.blockOffsets cs s)[i]? = some b →
      b.toNat + PAGE_SIZE ≤ s + PAGE_SIZE * (BTree.postorderChildren cs []).length := by
    intro cs
    induction cs with
    | nil => intro s i b hb; simp [SST.blockOffsets] at hb
    | cons c cs ih =>
      intro s i b hb
      have hpos := BTree.postorder_length_pos c
      rw [BTree.postorderChildren_cons_nil, List.length_append]
      obtain ⟨k, hk⟩ : ∃ k, (BTree.postorderTraversalHelper c []).length = k + 1 :=
        ⟨_, (Nat.sub_add_cancel hpos).symm⟩
      cases i with
      | zero =>
        simp only [SST.blockOffsets, List.getElem?_cons_zero, Option.some.injEq] at hb
        subst hb
        rw [Int.toNat_ofNat, hk, Nat.add_sub_cancel]
        simp only [PAGE_SIZE]
        omega
      | succ i =>
        simp only [SST.blockOffsets, List.getElem?_cons_succ] at hb
        have := ih _ i b hb
        rw [hk] at this ⊢
        simp only [PAGE_SIZE] at this ⊢
        omega
  rw [SST.pwrite_bytes_out _ _ _ _ _ (Or.inl (by
    have := hbound cs s i b hb
    rw [hc.next]
    simp only [PAGE_SIZE] at this hj ⊢
    omega))]
  exact hc.child i x b hx hb j hj

/-- C22 fails for trees of height 3, by the defect of C21 behind the one of
C36.  With `t = 2` and nine pages of one entry each (keys 1 to 9), eight
insertions leave a full internal root with the keys 2, 4, 6 over four leaves,
and on the SST written with this tree of height 2 the descent is right for
every key from 0 to 9; the ninth insertion splits the root and reads the key to
promote outside the vector.  With the key the classical
algorithm promotes there, the tree is `tallTree`; written by `writeToFile`, the
descent of `btreeSearchSST` returns the stored value for the keys 1, 2, 5 and 6
only, and -1 for the stored keys 3, 4, 7, 8 and 9 (and for 0 and 10, which are
not stored). -/
theorem C22_descent_misses_keys_at_height_three :
    (BTree.insertAll (onePairs 8) (BTree.new 2)).map BTree.outline =
      .ok [(false, [2, 4, 6], []), (true, [1, 2], [4120, 8216]), (true, [3, 4], [12312, 16408]),
        (true, [5, 6], [20504, 24600]), (true, [7, 8], [28696, 32792])] ∧
    searchAllWritten 2 8 =
      .ok [.ok (-1), .ok 10, .ok 20, .ok 30, .ok 40, .ok 50, .ok 60, .ok 70, .ok 80, .ok (-1)] ∧
    (BTree.insertAll (onePairs 9) (BTree.new 2)).map BTree.outline = .error .outOfBounds ∧
    tallSST.pages.map (fun p => SST.pageEntries p.data) =
      [[(1, 10)], [(2, 20)], [(3, 30)], [(4, 40)], [(5, 50)], [(6, 60)], [(7, 70)], [(8, 80)],
        [(9, 90)]] ∧
    (List.range 11).map (fun (k : Nat) => tallSST.searchWritten (k : Int)) =
      [.ok (-1), .ok 10, .ok 20, .ok (-1), .ok (-1), .ok 50, .ok 60, .ok (-1), .ok (-1), .ok (-1),
        .ok (-1)] := by
  refine ⟨by decide, by decide!, by decide, by decide, by decide!⟩

/-- C23 as stated fails on a leaf: with `t = 2`, splitting the full leaf with
keys 1, 2, 3 (offsets 10, 20, 30) under an empty parent puts key 2 in the
parent and leaves the two keys 1, 2 in the original child, the median among
them, not the one key below the median; the new sibling holds key 3. -/
theorem C23_leaf_split_keeps_median :
    (BTree.splitChild 2 (.mk false [] [.mk true [1, 2, 3] [] [10, 20, 30] zeroBytes] [] zeroBytes) 0).map
      (fun r => (r.keys, r.children.map (fun c => (c.keys, c.offsets)))) =
      .ok ([2], [([1, 2], [10, 20]), ([3], [30])]) := by
  decide

/-- C23 amended (`splitChild` on a full child, `2t - 1` keys).  When the child
is a leaf with `2t - 1` offsets, the key at index `t - 1` is copied to the
parent at the position of the child, the child keeps its first `t` keys and
offsets (the copied key is the last of them) and the `t - 1` keys and offsets
above it move to a new leaf inserted just behind the child; the other vectors
of the parent and of the child are unchanged.  When the child is internal with
`2t` children, the split is the classical one: the key at index `t - 1` goes to
the parent at the position of the child, the child keeps the `t - 1` keys below
it and its first `t` children, and the `t - 1` keys above it and the last `t`
children move to a new internal node inserted just behind the child.  The key
for the parent is read at index `t - 1` after the keys of the child were shrunk
(to `t` in a leaf, to `t - 1` in an internal node); for the internal node the
statement is about `splitChildKept`, in which the slot that the shrunk vector
gave up still holds its key, and which returns what `splitChild` returns
wherever `splitChild` returns. -/
theorem C23_split_rule (t : Nat) (ht : 2 ≤ t) (pLeaf : Bool) (pKeys : List Int)
    (pChildren : List BTree.Node) (pOffsets : List Int) (pData : Bytes) (index : Nat)
    (cLeaf : Bool) (cKeys : List Int) (cChildren : List BTree.Node) (cOffsets : List Int)
    (cData : Bytes)
    (hc : pChildren[index]? = some (.mk cLeaf cKeys cChildren cOffsets cData))
    (hk : cKeys.length = 2 * t - 1) :
    (cLeaf = true → cOffsets.length = 2 * t - 1 →
      BTree.splitChild t (.mk pLeaf pKeys pChildren pOffsets pData) index =
        .ok (.mk pLeaf (insertAt pKeys index (cKeys.getD (t - 1) 0))
          (insertAt (pChildren.set index (.mk true (cKeys.take t) cChildren (cOffsets.take t) cData))
            (index + 1) (.mk true (cKeys.drop t) [] (cOffsets.drop t) zeroBytes))
          pOffsets pData) ∧
      (cKeys.take t).length = t ∧ (cKeys.drop t).length = t - 1 ∧
      (cKeys.take t).getLast? = some (cKeys.getD (t - 1) 0)) ∧
    (cLeaf = false → cChildren.length = 2 * t →
      BTree.splitChildKept t (.mk pLeaf pKeys pChildren pOffsets pData) index =
        .ok (.mk pLeaf (insertAt pKeys index (cKeys.getD (t - 1) 0))
          (insertAt
            (pChildren.set index
              (.mk false (cKeys.take (t - 1)) (cChildren.take t) cOffsets cData))
            (index + 1) (.mk false (cKeys.drop t) (cChildren.drop t) [] zeroBytes))
          pOffsets pData) ∧
      (cKeys.take (t - 1)).length = t - 1 ∧ (cKeys.drop t).length = t - 1 ∧
      (cChildren.take t).length = t ∧ (cChildren.drop t).length = t ∧
      cKeys = cKeys.take (t - 1) ++ cKeys.getD (t - 1) 0 :: cKeys.drop t) ∧
    (∀ r, BTree.splitChild t (.mk pLeaf pKeys pChildren pOffsets pData) index = .ok r →
      BTree.splitChildKept t (.mk pLeaf pKeys pChildren pOffsets pData) index = .ok r) := by
  refine ⟨?_, ?_, fun r h => BTree.splitChildKept_of_splitChild t _ r index h⟩
  · intro hl ho
    subst hl
    refine ⟨BTree.splitChild_leaf t (by omega) pLeaf pKeys pChildren pOffsets pData index cKeys
      cChildren cOffsets cData hc hk ho, ?_, ?_, ?_⟩
    · rw [List.length_take]; omega
    · rw [List.length_drop]; omega
    · rw [List.getLast?_eq_getElem?, List.length_take, List.getD_eq_getElem?_getD]
      have e : min t cKeys.length - 1 = t - 1 := by omega
      rw [e, List.getElem?_take_of_lt (by omega), List.getElem?_eq_getElem (by omega)]
      rfl
  · intro hl hch
    subst hl
    refine ⟨BTree.splitChildKept_internal t (by omega) pLeaf pKeys pChildren pOffsets pData index
      cKeys cChildren cOffsets cData hc hk hch, ?_, ?_, ?_, ?_, ?_⟩
    · rw [List.length_take]; omega
    · rw [List.length_drop]; omega
    · rw [List.length_take]; omega
    · rw [List.length_drop]; omega
    · have hlt : t - 1 < cKeys.length := by omega
      have e1 : cKeys.getD (t - 1) 0 = cKeys[t - 1] := by
        rw [List.getD_eq_getElem?_getD, List.getElem?_eq_getElem hlt]
        rfl
      have e2 : cKeys.drop (t - 1) = cKeys[t - 1] :: cKeys.drop t := by
        rw [List.drop_eq_getElem_cons hlt]
        congr 2
        omega
      rw [e1, ← e2, List.take_append_drop]

/-- C23 at the split of `testBtreeNodeSplitting` (`t = 2`, leaf with keys 10,
20, 30): the parent receives 20, the child keeps 10 and 20, the sibling takes
30; and at the split of the full internal root with the keys 2, 4, 6 over four
leaves: the new root receives 4, the child keeps 2 with its first two leaves,
the sibling takes 6 with the last two. -/
theorem C23_split_rule_witness :
    ([BTree.Node.mk true [10, 20, 30] [] [1, 2, 3] zeroBytes][0]? =
      some (BTree.Node.mk true [10, 20, 30] [] [1, 2, 3] zeroBytes)) ∧
    BTree.splitChild 2 (.mk false [] [.mk true [10, 20, 30] [] [1, 2, 3] zeroBytes] [] zeroBytes) 0 =
      .ok (.mk false [20] [.mk true [10, 20] [] [1, 2] zeroBytes, .mk true [30] [] [3] zeroBytes]
        [] zeroBytes) ∧
    BTree.splitChildKept 2 (.mk false []
        [.mk false [2, 4, 6] [.mk true [1, 2] [] [10, 20] zeroBytes,
          .mk true [3, 4] [] [30, 40] zeroBytes, .mk true [5, 6] [] [50, 60] zeroBytes,
          .mk true [7, 8] [] [70, 80] zeroBytes] [] zeroBytes] [] zeroBytes) 0 =
      .ok (.mk false [4]
        [.mk false [2] [.mk true [1, 2] [] [10, 20] zeroBytes,
            .mk true [3, 4] [] [30, 40] zeroBytes] [] zeroBytes,
          .mk false [6] [.mk true [5, 6] [] [50, 60] zeroBytes,
            .mk true [7, 8] [] [70, 80] zeroBytes] [] zeroBytes]
        [] zeroBytes) :=
  ⟨rfl, ((C23_split_rule 2 (by decide) false [] [.mk true [10, 20, 30] [] [1, 2, 3] zeroBytes] []
    zeroBytes 0 true [10, 20, 30] [] [1, 2, 3] zeroBytes rfl rfl).1 rfl rfl).1,
   ((C23_split_rule 2 (by decide) false []
      [.mk false [2, 4, 6] [.mk true [1, 2] [] [10, 20] zeroBytes,
        .mk true [3, 4] [] [30, 40] zeroBytes, .mk true [5, 6] [] [50, 60] zeroBytes,
        .mk true [7, 8] [] [70, 80] zeroBytes] [] zeroBytes] []
      zeroBytes 0 false [2, 4, 6] [.mk true [1, 2] [] [10, 20] zeroBytes,
        .mk true [3, 4] [] [30, 40] zeroBytes, .mk true [5, 6] [] [50, 60] zeroBytes,
        .mk true [7, 8] [] [70, 80] zeroBytes] [] zeroBytes rfl rfl).2.1 rfl rfl).1⟩

/-- C24 (first root split): for `t ≥ 2`, inserting `2t` pairs `(key, offset)`
with strictly ascending keys into an empty tree of degree `t` returns a tree
whose root is internal with the single key number `t` and two leaves: the left
one holds the first `t` keys (the key of the root among them) and the right one
the other `t` keys, each leaf with the offsets its keys were inserted with. -/
theorem C24_first_root_split (t : Nat) (ht : 2 ≤ t) (kos : List (Int × Int))
    (hlen : kos.length = 2 * t) (hasc : kos.Pairwise (fun a b => a.1 < b.1)) :
    BTree.insertAll kos (BTree.new t) =
      .ok { root := some (.mk false [(kos.getD (t - 1) (0, 0)).1]
              [.mk true ((kos.take t).map Prod.fst) [] ((kos.take t).map Prod.snd) zeroBytes,
               .mk true ((kos.drop t).map Prod.fst) [] ((kos.drop t).map Prod.snd) zeroBytes]
              [] zeroBytes),
            degree := t } := by
  rcases List.eq_nil_or_concat kos with h0 | ⟨X, last, hX⟩
  · rw [h0] at hlen; simp at hlen; omega
  rw [List.concat_eq_append] at hX
  subst hX
  cases X with
  | nil => simp at hlen; omega
  | cons k0 mid =>
    simp only [List.length_append, List.length_cons, List.length_singleton, List.length_nil] at hlen
    rw [List.pairwise_append] at hasc
    obtain ⟨hX, _, hlast⟩ := hasc
    have hX2 := hX
    rw [List.pairwise_cons] at hX
    rw [BTree.insertAll_append]
    have h1 : BTree.insertAll (k0 :: mid) (BTree.new t) =
        .ok { root := some (.mk true ((k0 :: mid).map Prod.fst) [] ((k0 :: mid).map Prod.snd) zeroBytes),
              degree := t } := by
      simp only [BTree.insertAll, BTree.insert, BTree.new]
      rw [BTree.insertAll_leaf t mid [k0.1] [k0.2] rfl (by simp only [List.length_singleton]; omega)
        (by
          intro k hk ko hko
          simp only [List.mem_singleton] at hk
          subst hk
          exact hX.1 ko hko) hX.2]
      rfl
    rw [h1]
    simp only [BTree.insertAll, BTree.insert, BTree.Node.keys]
    have hKlen : ((k0 :: mid).map Prod.fst).length = 2 * t - 1 := by
      simp only [List.length_map, List.length_cons]; omega
    have hOlen : ((k0 :: mid).map Prod.snd).length = 2 * t - 1 := by
      simp only [List.length_map, List.length_cons]; omega
    rw [if_pos (by rw [hKlen]; omega)]
    rw [BTree.splitChild_leaf t (by omega) false [] _ [] zeroBytes 0 _ [] _ zeroBytes rfl hKlen hOlen]
    simp only
    have hins1 : insertAt ([] : List Int) 0 (((k0 :: mid).map Prod.fst).getD (t - 1) 0) =
        [((k0 :: mid).map Prod.fst).getD (t - 1) 0] := rfl
    have hins2 : ∀ (a b c : BTree.Node), insertAt ([a].set 0 b) (0 + 1) c = [b, c] := fun _ _ _ => rfl
    rw [hins1, hins2]
    have hmed : ((k0 :: mid).map Prod.fst).getD (t - 1) 0 < last.1 := by
      rw [List.getD_eq_getElem?_getD, List.getElem?_eq_getElem (by rw [hKlen]; omega)]
      simp only [Option.getD_some, List.getElem_map]
      exact hlast _ (List.getElem_mem _) last (List.mem_singleton_self _)
    have hdepth : ∀ (m : Int) (a b c d : List Int) (x y : Bytes),
        (BTree.Node.mk false [m] [.mk true a [] b x, .mk true c [] d y] [] zeroBytes).depth + 1 = 2 + 1 := by
      intro m a b c d x y
      simp [BTree.depth_mk, BTree.depthList_cons, BTree.depthList_nil]
    rw [hdepth]
    unfold BTree.insertNonFull
    simp only [Bool.false_eq_true, if_false, List.length_singleton, Nat.cast_one, sub_self]
    rw [BTree.findLoop_stop _ _ _ _ (by
      intro hc
      have := hc.2
      simp only [Int.toNat_zero, List.getD_cons_zero] at this
      omega)]
    have hr1 : ∀ (a b : BTree.Node), readAt [a, b] ((0 : Int) + 1).toNat = .ok b := fun _ _ => rfl
    rw [hr1]
    simp only [BTree.Node.keys]
    have hdl : (((k0 :: mid).map Prod.fst).drop t).length = t - 1 := by
      rw [List.length_drop, hKlen]; omega
    rw [if_neg (by rw [hdl]; omega)]
    rw [BTree.insertNonFull_leaf_append t 1 _ [] _ zeroBytes last.1 last.2
      (by
        intro k hk
        have hk2 := List.mem_of_mem_drop hk
        obtain ⟨x, hx, e⟩ := List.mem_map.1 hk2
        rw [← e]
        exact hlast x hx last (List.mem_singleton_self _))
      (by rw [List.length_drop, List.length_drop, hKlen, hOlen])]
    simp only
    have hs1 : ∀ (a b c : BTree.Node), [a, b].set ((0 : Int) + 1).toNat c = [a, c] := fun _ _ _ => rfl
    rw [hs1]
    have hXl : t ≤ (k0 :: mid).length := by simp only [List.length_cons]; omega
    have e1 : ((k0 :: mid ++ [last]).take t) = (k0 :: mid).take t := by
      rw [List.take_append_of_le_length hXl]
    have e2 : ((k0 :: mid ++ [last]).drop t) = (k0 :: mid).drop t ++ [last] := by
      rw [List.drop_append_of_le_length hXl]
    have e3 : ((k0 :: mid ++ [last]).getD (t - 1) (0, 0)).1 = ((k0 :: mid).map Prod.fst).getD (t - 1) 0 := by
      rw [List.getD_eq_getElem?_getD, List.getD_eq_getElem?_getD,
        List.getElem?_append_left (by simp only [List.length_cons]; omega),
        List.getElem?_map, List.getElem?_eq_getElem (by simp only [List.length_cons]; omega)]
      rfl
    rw [e1, e2, e3, List.map_append, List.map_append, List.map_take, List.map_take,
      List.map_drop, List.map_drop]
    rfl

/-- C24 at the keys of `testBtreeNodeSplitting` (`t = 2`, keys 10, 20, 30, 40):
the root holds 20, the left leaf 10 and 20, the right leaf 30 and 40. -/
theorem C24_first_root_split_witness :
    ([(10, 1), (20, 2), (30, 3), (40, 4)] : List (Int × Int)).Pairwise (fun a b => a.1 < b.1) ∧
    BTree.insertAll [(10, 1), (20, 2), (30, 3), (40, 4)] (BTree.new 2) =
      .ok { root := some (.mk false [20]
              [.mk true [10, 20] [] [1, 2] zeroBytes, .mk true [30, 40] [] [3, 4] zeroBytes]
              [] zeroBytes),
            degree := 2 } :=
  ⟨by decide, C24_first_root_split 2 (by decide) [(10, 1), (20, 2), (30, 3), (40, 4)] rfl (by decide)⟩

/-- C25 (node bounds): for every `t ≥ 2` and every sequence of `insert` calls on
an empty tree of degree `t`, with the key that a split promotes read from the
slot where the vector held it (`insertAllKept`), the calls return a tree of
degree `t` within the bounds: there is a height at which the root has at most
`2t - 1` keys, every other node has between `t - 1` and `2t - 1` keys, every
internal node has one more child than keys, every leaf has as many offsets as
keys, and every leaf is that many nodes below the root; the tree has a root as
soon as one call was made.  The same bounds hold of the tree that the calls
return when the read behind the end of the shrunk vector stops the program
(`insertAll`), for the sequences for which they return. -/
theorem C25_node_bounds (t : Nat) (ht : 2 ≤ t) (kos : List (Int × Int)) :
    (∃ tree, BTree.insertAllKept kos (BTree.new t) = .ok tree ∧ tree.degree = t ∧
      tree.Bounded ∧ (tree.root = none → kos = [])) ∧
    (∀ tree, BTree.insertAll kos (BTree.new t) = .ok tree → tree.degree = t ∧ tree.Bounded) := by
  obtain ⟨tree, e, hd, hb, hn⟩ :=
    BTree.insertAllKept_bounded t ht kos (BTree.new t) rfl (BTree.bounded_new t)
  refine ⟨⟨tree, e, hd, hb, hn⟩, ?_⟩
  intro tree1 h1
  have := BTree.insertAllKept_of_insertAll kos _ _ h1
  rw [e] at this
  simp only [Except.ok.injEq] at this
  subst this
  exact ⟨hd, hb⟩

/-- C25 at nine ascending insertions with `t = 2`: the calls return the tree of
height 3 with the root `[4]` over the internal nodes `[2]` and `[6]` over the
leaves `[1, 2]`, `[3, 4]`, `[5, 6]` and `[7, 8, 9]`, whose root is within the
bounds at height 3. -/
theorem C25_node_bounds_witness :
    (BTree.insertAllKept (onePairs 9) (BTree.new 2)).map BTree.outline =
      .ok [(false, [4], []), (false, [2], []), (true, [1, 2], [4120, 8216]),
        (true, [3, 4], [12312, 16408]), (false, [6], []), (true, [5, 6], [20504, 24600]),
        (true, [7, 8, 9], [28696, 32792, 36888])] ∧
    (BTree.insertAllKept (onePairs 9) (BTree.new 2)).map
      (fun tree => tree.root.map (fun root => root.rootBounded 2 3)) = .ok (some true) ∧
    ∃ tree, BTree.insertAllKept (onePairs 9) (BTree.new 2) = .ok tree ∧ tree.degree = 2 ∧
      tree.Bounded ∧ (tree.root = none → onePairs 9 = []) :=
  ⟨by decide, by decide, (C25_node_bounds 2 (by decide) (onePairs 9)).1⟩

/-- C26 (post-order emission): for a tree with root `root`, the post-order list
of a node is made of the lists of the subtrees of its children, in order,
followed by the node; the list of the tree holds the nodes that the pre-order
list holds, each as often, and ends with the root.  On a file that ends at
`start`, `postorderTraversalWrite` writes the block of node number `i` of this
list (same keys, and the data it leaves in the node) at `start + 4096 i`; the
file then ends behind the last of these blocks, which is the block of the
root.  In `writeToFile` the function is called at the end of a file that holds
the header, the filter and the pages. -/
theorem C26_postorder_emission (t : BTree) (root : BTree.Node) (start : Nat) (fd : File)
    (hroot : t.root = some root) (hsize : fd.size = start) :
    (∀ (l : Bool) (ks : List Int) (cs : List BTree.Node) (os : List Int) (d : Bytes),
      BTree.postorderTraversalHelper (.mk l ks cs os d) [] =
        (if l then [] else cs.flatMap (fun c => BTree.postorderTraversalHelper c [])) ++
          [.mk l ks cs os d]) ∧
    t.postorderTraversal = BTree.postorderTraversalHelper root [] ∧
    t.postorderTraversal.Perm t.preorderTraversal ∧
    t.postorderTraversal.getLast? = some root ∧
    (BTree.postorderTraversalHelper (SST.postorderTraversalWrite root start fd).1 []).map
      BTree.Node.keys = t.postorderTraversal.map BTree.Node.keys ∧
    (∀ (i : Nat) (x : BTree.Node),
      (BTree.postorderTraversalHelper (SST.postorderTraversalWrite root start fd).1 [])[i]? = some x →
      ∀ j, j < PAGE_SIZE →
        (SST.postorderTraversalWrite root start fd).2.2.bytes (start + PAGE_SIZE * i + j) = x.data j) ∧
    (SST.postorderTraversalWrite root start fd).2.2.size =
      start + PAGE_SIZE * t.postorderTraversal.length ∧
    (∀ j, j < PAGE_SIZE →
      (SST.postorderTraversalWrite root start fd).2.2.bytes
        ((SST.postorderTraversalWrite root start fd).2.2.size - PAGE_SIZE + j) =
        (SST.postorderTraversalWrite root start fd).1.data j) ∧
    (SST.postorderTraversalWrite root start fd).1.keys = root.keys ∧
    (∀ s : SST, s.btree = some t →
      ∃ fd0 : File, fd0.size = SST_METADATA_SIZE + PAGE_SIZE + PAGE_SIZE * s.pages.length ∧
        s.writeToFile = .ok (SST.postorderTraversalWrite root fd0.size fd0).2.2) := by
  have hpost : t.postorderTraversal = BTree.postorderTraversalHelper root [] := by
    simp [BTree.postorderTraversal, hroot]
  have hpre : t.preorderTraversal = BTree.preorderTraversalHelper root [] := by
    simp [BTree.preorderTraversal, hroot]
  have hw := SST.postorderTraversalWrite_wrote root start fd
  have hl := SST.postorderTraversalWrite_last root start fd hsize
  refine ⟨BTree.postorder_node, hpost, ?_, ?_, ?_, hw.blocks, ?_, hl.2, hw.keys, ?_⟩
  · rw [hpost, hpre]; exact BTree.postorder_perm root
  · rw [hpost]; exact BTree.postorder_getLast root
  · rw [hpost]; exact hw.nodes
  · rw [hpost]; exact hl.1
  · intro s hs
    exact SST.writeToFile_tree s t root hs hroot

/-- C26 at the tree of `testBtreeNodeSplitting` (root 20 over the leaves 10, 20
and 30, 40), written at the end of a file of 8216 bytes: the list ends with the
root and the file ends behind three blocks. -/
theorem C26_postorder_emission_witness :
    (File.mk 8216 zeroBytes).size = 8216 ∧
    (BTree.postorderTraversal (BTree.mk (some (.mk false [20]
        [.mk true [10, 20] [] [4120, 8216] zeroBytes, .mk true [30, 40] [] [12312, 16408] zeroBytes]
        [] zeroBytes)) 2)).getLast? =
      some (.mk false [20]
        [.mk true [10, 20] [] [4120, 8216] zeroBytes, .mk true [30, 40] [] [12312, 16408] zeroBytes]
        [] zeroBytes) ∧
    (SST.postorderTraversalWrite (.mk false [20]
        [.mk true [10, 20] [] [4120, 8216] zeroBytes, .mk true [30, 40] [] [12312, 16408] zeroBytes]
        [] zeroBytes) 8216 (File.mk 8216 zeroBytes)).2.2.size = 8216 + 4096 * 3 :=
  ⟨rfl,
    (C26_postorder_emission (BTree.mk (some (.mk false [20]
        [.mk true [10, 20] [] [4120, 8216] zeroBytes, .mk true [30, 40] [] [12312, 16408] zeroBytes]
        [] zeroBytes)) 2) _ 8216 (File.mk 8216 zeroBytes) rfl rfl).2.2.2.1,
    (C26_postorder_emission (BTree.mk (some (.mk false [20]
        [.mk true [10, 20] [] [4120, 8216] zeroBytes, .mk true [30, 40] [] [12312, 16408] zeroBytes]
        [] zeroBytes)) 2) _ 8216 (File.mk 8216 zeroBytes) rfl rfl).2.2.2.2.2.2.1⟩

/-- C27 (`Node::updateData`): for a node with `n` keys, `1 ≤ n ≤ 255`, and `m`
offsets, `m = n` or `m = n + 1`, the block left by `updateData` holds `n` at
byte 0 and `m` at byte 4, offset `j` at byte `8 + 16j` for every `j < m` (so
the pairs `(offset, key)` and, when `m > n`, the trailing offset behind them)
and key `j` at byte `8 + 16j + 8`; the written bytes end at
`8 + 16n + 8(m - n) ≤ 4096` and every byte from there on is left as it was;
the vectors of the node are unchanged; decoding the block at the positions
where `searchInNode` reads gives back the keys and the offsets in order, and
`searchInNode` picks in the block the offset of the first key that is at least
the target, or the trailing offset, or none. -/
theorem C27_node_block_round_trip (node : BTree.Node) (target : Int)
    (h1 : 1 ≤ node.keys.length) (h255 : node.keys.length ≤ 255)
    (hm : node.offsets.length = node.keys.length ∨ node.offsets.length = node.keys.length + 1)
    (hk : ∀ k ∈ node.keys, IsInt64 k) (ho : ∀ o ∈ node.offsets, IsInt64 o) :
    readInt32 node.updateData.data 0 = (node.keys.length : Int) ∧
    readInt32 node.updateData.data 4 = (node.offsets.length : Int) ∧
    (∀ (j : Nat) (o : Int), node.offsets[j]? = some o →
      readInt64 node.updateData.data (8 + 16 * j) = o) ∧
    (∀ (j : Nat) (k : Int), node.keys[j]? = some k →
      readInt64 node.updateData.data (8 + 16 * j + 8) = k) ∧
    8 + 16 * node.keys.length + 8 * (node.offsets.length - node.keys.length) ≤ 4096 ∧
    (∀ j : Nat, 8 + 16 * node.keys.length + 8 * (node.offsets.length - node.keys.length) ≤ j →
      node.updateData.data j = node.data j) ∧
    node.updateData.keys = node.keys ∧ node.updateData.offsets = node.offsets ∧
    BTree.Node.decode node.updateData.data = (node.keys, node.offsets) ∧
    KVStore.nodeChoice node.updateData.data target =
      .ok (BTree.Node.firstAtLeast target node.keys node.offsets) := by
  obtain ⟨e1, e2, _, _, r0, r4, rk, ro, rout⟩ := BTree.Node.updateData_reads node h255 hm hk ho
  refine ⟨r0, r4, ro, rk, by omega, rout, e1, e2, ?_, ?_⟩
  · exact BTree.Node.decode_of_reads _ _ _ hm r0 r4 rk ro
  · exact KVStore.nodeChoice_reads _ target _ _ h1 hm r0 r4 rk ro

/-- C27 at the node of `testBtreeUpdateData` (3 keys, 4 offsets): the block
decodes to the keys and the offsets of the node. -/
theorem C27_node_block_round_trip_witness :
    (∀ k ∈ (BTree.Node.mk false [10, 20, 30] [] [100, 200, 300, 400] zeroBytes).keys, IsInt64 k) ∧
    (∀ o ∈ (BTree.Node.mk false [10, 20, 30] [] [100, 200, 300, 400] zeroBytes).offsets, IsInt64 o) ∧
    BTree.Node.decode (BTree.Node.mk false [10, 20, 30] [] [100, 200, 300, 400] zeroBytes).updateData.data =
      ([10, 20, 30], [100, 200, 300, 400]) :=
  ⟨by decide, by decide,
    (C27_node_block_round_trip (BTree.Node.mk false [10, 20, 30] [] [100, 200, 300, 400] zeroBytes) 0
      (by decide) (by decide) (by decide) (by decide) (by decide)).2.2.2.2.2.2.2.2.1⟩

/-- C28 as stated fails for the sequence of no calls: the constructor of `Page`
sets the field `freeSpace` to 4080 and serialises nothing, so the bytes of the
fresh page that hold the serialised free space read 0. -/
theorem C28_fresh_page_header_not_serialised :
    (Page.addEntries [] Page.new).2.numEntries = 0 ∧
    (Page.addEntries [] Page.new).2.freeSpace = 4080 ∧
    readInt32 (Page.addEntries [] Page.new).2.data 12 = 0 := by
  decide

/-- C28 amended (the serialised header equals the fields once an entry was
accepted): after every sequence `kvs` of `addEntry` calls on a fresh page the
accepted entries are the first 204 of the sequence; with `n` their number,
`numEntries = n`, `freeSpace = 4096 - 16 - 12n - 8n`, which is not negative;
entry `i` has value offset `4096 - 8(i+1)` in `keys`; its key and value offset
are serialised at byte `16 + 12i` and its value at byte `4096 - 8(i+1)`; the
directory ends at or before the byte where the values begin; every byte between
the two regions and behind byte 4096 is still zero; and when `n ≥ 1` the
serialised `numEntries`, `startingKey` and `freeSpace` equal the fields. -/
theorem C28_page_layout (kvs : List (Int × Int))
    (hkvs : ∀ kv ∈ kvs, IsInt64 kv.1 ∧ IsInt64 kv.2) :
    (Page.addEntries kvs Page.new).1 =
      (List.range kvs.length).map (fun (i : Nat) => decide (i < 204)) ∧
    (Page.addEntries kvs Page.new).2.numEntries = ((kvs.take 204).length : Int) ∧
    (Page.addEntries kvs Page.new).2.freeSpace =
      4096 - 16 - 12 * ((kvs.take 204).length : Int) - 8 * ((kvs.take 204).length : Int) ∧
    0 ≤ (Page.addEntries kvs Page.new).2.freeSpace ∧
    (Page.addEntries kvs Page.new).2.keys.map (fun ko => ko.key) = (kvs.take 204).map Prod.fst ∧
    (Page.addEntries kvs Page.new).2.keys.map (fun ko => ko.valueOffset) =
      (List.range (kvs.take 204).length).map (fun (i : Nat) => (4096 : Int) - 8 * ((i : Int) + 1)) ∧
    (∀ (i : Nat) (kv : Int × Int), (kvs.take 204)[i]? = some kv →
      16 + 12 * i + 12 ≤ 16 + 12 * (kvs.take 204).length ∧
      4096 - 8 * (kvs.take 204).length ≤ 4096 - 8 * (i + 1) ∧
      readInt64 (Page.addEntries kvs Page.new).2.data (16 + 12 * i) = kv.1 ∧
      readInt32 (Page.addEntries kvs Page.new).2.data (16 + 12 * i + 8) =
        (4096 : Int) - 8 * ((i : Int) + 1) ∧
      readInt64 (Page.addEntries kvs Page.new).2.data (4096 - 8 * (i + 1)) = kv.2) ∧
    16 + 12 * (kvs.take 204).length ≤ 4096 - 8 * (kvs.take 204).length ∧
    (∀ i : Nat, (16 + 12 * (kvs.take 204).length ≤ i ∧ i < 4096 - 8 * (kvs.take 204).length) ∨
        4096 ≤ i → (Page.addEntries kvs Page.new).2.data i = 0) ∧
    (1 ≤ (kvs.take 204).length →
      readInt32 (Page.addEntries kvs Page.new).2.data 0 =
        (Page.addEntries kvs Page.new).2.numEntries ∧
      readInt64 (Page.addEntries kvs Page.new).2.data 4 =
        (Page.addEntries kvs Page.new).2.startingKey ∧
      readInt32 (Page.addEntries kvs Page.new).2.data 12 =
        (Page.addEntries kvs Page.new).2.freeSpace) := by
  have h := Page.holds_addEntries kvs hkvs
  have hlen := h.len
  refine ⟨?_, h.numEntries, ?_, ?_, h.keysKey, h.keysOffset, ?_, ?_, h.blank, ?_⟩
  · rw [Page.addEntries_results]
    apply List.map_congr_left
    intro i _
    congr 1
    apply propext
    simp only [Page.new, Page.calculateMetadataSize, PAGE_SIZE]
    constructor <;> intro _ <;> omega
  · rw [h.freeSpace]; omega
  · rw [h.freeSpace]; omega
  · intro i kv hi
    have hil := (List.getElem?_eq_some_iff.1 hi).1
    exact ⟨by omega, by omega, (h.dir i kv hi).1, (h.dir i kv hi).2, h.vals i kv hi⟩
  · omega
  · intro h1
    exact h.header (fun hc => by rw [hc] at h1; simp at h1)

/-- C28 at two entries: the header of the page reads 2 entries, starting key 5
and 4040 free bytes, as the fields do. -/
theorem C28_page_layout_witness :
    (∀ kv ∈ ([(5, 50), (7, 70)] : List (Int × Int)), IsInt64 kv.1 ∧ IsInt64 kv.2) ∧
    (Page.addEntries [(5, 50), (7, 70)] Page.new).2.freeSpace = 4040 ∧
    readInt32 (Page.addEntries [(5, 50), (7, 70)] Page.new).2.data 12 =
      (Page.addEntries [(5, 50), (7, 70)] Page.new).2.freeSpace :=
  ⟨by decide, by decide,
    ((C28_page_layout [(5, 50), (7, 70)] (by decide)).2.2.2.2.2.2.2.2.2 (by decide)).2.2⟩

/-- C29 (`searchInPage`): on the data bytes of a page built by 1 to 204
`addEntry` calls with strictly ascending keys, `searchInPage` returns the value
added with the target when the target is one of the keys, and -1 when it is
not; in particular the binary search ends within its bound. -/
theorem C29_searchInPage (kvs : List (Int × Int)) (target : Int)
    (hkvs : ∀ kv ∈ kvs, IsInt64 kv.1 ∧ IsInt64 kv.2)
    (hasc : kvs.Pairwise (fun a b => a.1 < b.1))
    (h1 : 1 ≤ kvs.length) (h204 : kvs.length ≤ 204) :
    (∀ value, (target, value) ∈ kvs →
      KVStore.searchInPage (Page.addEntries kvs Page.new).2.data target = .ok value) ∧
    ((∀ kv ∈ kvs, kv.1 ≠ target) →
      KVStore.searchInPage (Page.addEntries kvs Page.new).2.data target = .ok (-1)) := by
  have h := Page.holds_addEntries kvs hkvs
  rw [List.take_of_length_le h204] at h
  have hne : kvs ≠ [] := fun hc => by rw [hc] at h1; simp at h1
  have hs := KVStore.searchInPage_holds _ kvs target h hne hasc
  constructor
  · intro value hm
    rw [hs, Page.lookup_some target kvs hasc (target, value) hm rfl]
  · intro hn
    rw [hs, Page.lookup_none target kvs hn]

/-- C29 at the page with keys 5 and 7: key 7 is found with its value, key 6 is
not found. -/
theorem C29_searchInPage_witness :
    (∀ kv ∈ ([(5, 50), (7, 70)] : List (Int × Int)), IsInt64 kv.1 ∧ IsInt64 kv.2) ∧
    ([(5, 50), (7, 70)] : List (Int × Int)).Pairwise (fun a b => a.1 < b.1) ∧
    KVStore.searchInPage (Page.addEntries [(5, 50), (7, 70)] Page.new).2.data 7 = .ok 70 ∧
    KVStore.searchInPage (Page.addEntries [(5, 50), (7, 70)] Page.new).2.data 6 = .ok (-1) :=
  ⟨by decide, by decide,
    (C29_searchInPage [(5, 50), (7, 70)] 7 (by decide) (by decide) (by decide) (by decide)).1 70
      (by decide),
    (C29_searchInPage [(5, 50), (7, 70)] 6 (by decide) (by decide) (by decide) (by decide)).2
      (by decide)⟩

/-- C30 (`SST::addPage`): let the pages `p1..pn`, `n ≥ 1`, be built by
`addEntry` from non-empty lists of at most 204 entries whose keys ascend
strictly within and across the pages.  The calls of `addPage` on a new SST
pass to the tree, in order, the pairs (largest key of page `i`,
`24 + 4096 + 4096 i`): when these insertions return a tree, the calls return
an SST with that tree, `numPages = n`, `numEntries` the number of all entries,
the pages in order, their offsets, `startingKey` the first and smallest key,
`endingKey` the last and largest key and `startingKey ≤ endingKey`; when an
insertion fails, so does the call.  For up to 255 pages the insertions return. -/
theorem C30_sst_metadata (ess : List (List (Int × Int))) (h1 : ess ≠ [])
    (hne : ∀ es ∈ ess, es ≠ [] ∧ es.length ≤ 204)
    (hint : ∀ es ∈ ess, ∀ kv ∈ es, IsInt64 kv.1 ∧ IsInt64 kv.2)
    (hasc : ess.flatten.Pairwise (fun a b => a.1 < b.1)) :
    (∀ t, BTree.insertAll (SST.treePairs ess 0) (BTree.new BTREE_DEGREE) = .ok t →
      ∃ s, SST.addPages (SST.pagesOf ess) SST.new = .ok s ∧ s.btree = some t ∧
        s.numPages = (ess.length : Int) ∧ s.numEntries = (ess.flatten.length : Int) ∧
        s.pages = SST.pagesOf ess ∧ s.pageOffsets = (SST.treePairs ess 0).map Prod.snd ∧
        ess.flatten.head?.map Prod.fst = some s.startingKey ∧
        ess.flatten.getLast?.map Prod.fst = some s.endingKey ∧
        (∀ kv ∈ ess.flatten, s.startingKey ≤ kv.1 ∧ kv.1 ≤ s.endingKey) ∧
        s.startingKey ≤ s.endingKey) ∧
    (∀ e, BTree.insertAll (SST.treePairs ess 0) (BTree.new BTREE_DEGREE) = .error e →
      SST.addPages (SST.pagesOf ess) SST.new = .error e) ∧
    (ess.length ≤ 255 →
      ∃ t, BTree.insertAll (SST.treePairs ess 0) (BTree.new BTREE_DEGREE) = .ok t) := by
  have hmain := SST.addPages_pagesOf ess SST.new 0 rfl
    (fun es hes => ⟨(hne es hes).1, (hne es hes).2, hint es hes⟩)
  have hnew : SST.new.btree.getD (BTree.new BTREE_DEGREE) = BTree.new BTREE_DEGREE := rfl
  rw [hnew] at hmain
  have hflat : ess.flatten ≠ [] := by
    cases ess with
    | nil => exact absurd rfl h1
    | cons es rest =>
      have := (hne es (List.mem_cons_self _ _)).1
      intro hc
      simp only [List.flatten_cons, List.append_eq_nil] at hc
      exact this hc.1
  refine ⟨?_, ?_, ?_⟩
  · intro t ht
    rw [ht] at hmain
    simp only at hmain
    obtain ⟨s, e, g1, g2, g3, g4, g5, g6, g7⟩ := hmain
    obtain ⟨a, ha⟩ : ∃ a, ess.flatten.head? = some a := by
      cases hf : ess.flatten with
      | nil => exact absurd hf hflat
      | cons a l => exact ⟨a, rfl⟩
    obtain ⟨z, hz⟩ : ∃ z, ess.flatten.getLast? = some z := by
      cases hl : ess.flatten.getLast? with
      | none => rw [List.getLast?_eq_none_iff] at hl; exact absurd hl hflat
      | some z => exact ⟨z, rfl⟩
    have hs : s.startingKey = a.1 := by rw [g5, ha]; rfl
    have he : s.endingKey = z.1 := by rw [g6, hz]; rfl
    have hlo := head_le_of_pairwise _ hasc a ha
    have hhi := le_getLast_of_pairwise _ hasc z hz
    refine ⟨s, e, g1 h1, ?_, ?_, ?_, ?_, ?_, ?_, ?_, ?_⟩
    · rw [g2]; simp
    · rw [g3]; simp [SST.new]
    · rw [g4]; simp [SST.new]
    · rw [g7]; simp [SST.new]
    · rw [ha, hs]; rfl
    · rw [hz, he]; rfl
    · intro kv hkv
      rw [hs, he]
      exact ⟨hlo kv hkv, hhi kv hkv⟩
    · rw [hs, he]
      exact hhi a (List.mem_of_mem_head? (Option.mem_def.2 ha))
  · intro e he
    rw [he] at hmain
    exact hmain
  · intro h255
    exact SST.insertAll_new_ascending BTREE_DEGREE _
      (by rw [SST.treePairs_length]; simp only [BTREE_DEGREE]; omega)
      (SST.treePairs_ascending ess (fun es hes => (hne es hes).1) hasc 0)

/-- C30 at two pages, with the entries of keys 1, 2 and of key 3: the calls
return an SST of 2 pages and 3 entries whose keys start at 1 and end at 3. -/
theorem C30_sst_metadata_witness :
    ([[(1, 10), (2, 20)], [(3, 30)]] : List (List (Int × Int))).flatten.Pairwise
      (fun a b => a.1 < b.1) ∧
    ∃ s, SST.addPages (SST.pagesOf [[(1, 10), (2, 20)], [(3, 30)]]) SST.new = .ok s ∧
      s.numPages = 2 ∧ s.numEntries = 3 ∧ s.startingKey = 1 ∧ s.endingKey = 3 ∧
      s.pageOffsets = [4120, 8216] := by
  refine ⟨by decide, ?_⟩
  obtain ⟨t, ht⟩ := (C30_sst_metadata [[(1, 10), (2, 20)], [(3, 30)]] (by decide) (by decide)
    (by decide) (by decide)).2.2 (by decide)
  obtain ⟨s, e, _, g2, g3, _, g5, g6, g7, _⟩ := (C30_sst_metadata [[(1, 10), (2, 20)], [(3, 30)]]
    (by decide) (by decide) (by decide) (by decide)).1 t ht
  exact ⟨s, e, g2, g3, (Option.some.inj g6).symm, (Option.some.inj g7).symm, g5⟩

/-- C31 (page ordering).  Flush: for the memtable that any sequence of calls
leaves, the SST object that `flushMemtableToSST` builds (`flushedSST`; a flush
that returns has built and written it) has no empty page and its directories
hold, page after page, the keys of the scan of the memtable, which are
strictly ascending; when the values are 64-bit, the keys ascend strictly
within every directory, every key of a page is below every key of the next
page, the starting keys of the pages ascend strictly, and the file that
`writeToFile` returns has the same directories, so it is ordered as a file.
Merge: for two input files that are ordered (at least one page, no empty
page, the keys of the directories strictly ascending page after page), the
SST that `mergeTwoSSTs` returns is ordered in the same way, and so is the
file written from it. -/
theorem C31_page_ordering (n : Int) (cs : List AVLTree.Call) (sst1 sst2 : File)
    (isLargestLevel : Bool) (h1 : sst1.PageOrdered) (h2 : sst2.PageOrdered) :
    (∀ sst, KVStore.flushedSST (AVLTree.calls cs (AVLTree.new n)) = .ok sst →
      SST.PageOrdered sst.pages ∧
      SST.dirKeys sst.pages =
        ((AVLTree.calls cs (AVLTree.new n)).scan INT_MIN INT_MAX).map Prod.fst ∧
      ((∀ kv ∈ (AVLTree.calls cs (AVLTree.new n)).scan INT_MIN INT_MAX, IsInt64 kv.2) →
        SST.PagesSorted sst.pages ∧
        ∀ f, sst.numPages ≤ INT_MAX → sst.writeToFile = .ok f →
          f.PageOrdered ∧ f.keysFrom 0 = SST.dirKeys sst.pages)) ∧
    (∀ (s s' : KVStore) (fs fs' : FileSystem), KVStore.flushMemtableToSST s fs = .ok (s', fs') →
      ∃ sst file, KVStore.flushedSST s.memtable = .ok sst ∧ sst.writeToFile = .ok file) ∧
    (∀ s, LSMTree.mergeTwoSSTs (some sst1) (some sst2) isLargestLevel = .ok s →
      SST.PageOrdered s.pages ∧ SST.PagesSorted s.pages ∧
      ∀ f, s.numPages ≤ INT_MAX → s.writeToFile = .ok f →
        f.PageOrdered ∧ f.keysFrom 0 = SST.dirKeys s.pages) := by
  have ho : AVLTree.Ordered (AVLTree.calls cs (AVLTree.new n)).root :=
    AVLTree.ordered_calls cs (AVLTree.new n) (by simp [AVLTree.Ordered, AVLTree.keys,
      AVLTree.toList, AVLTree.new])
  refine ⟨fun sst hs => ?_, fun s s' fs fs' hf => ?_, fun s hs => ?_⟩
  · obtain ⟨hk, hne⟩ := KVStore.flushedSST_keys _ sst hs
    have hord : SST.PageOrdered sst.pages :=
      ⟨hne, by rw [hk]; exact (AVLTree.scan_spec _ INT_MIN INT_MAX ho).1⟩
    refine ⟨hord, hk, fun hv => ?_⟩
    have hb := KVStore.flushedSST_built _ sst ho hv hs
    exact ⟨SST.built_sorted sst hb hord, fun f hmax hw => File.written_ordered sst f hb hmax hord hw⟩
  · obtain ⟨sst, file, -, -, a, b, -, -⟩ := KVStore.flushMemtableToSST_flushed s s' fs fs' hf
    exact ⟨sst, file, a, b⟩
  · have hord := LSMTree.mergeTwoSSTs_ordered sst1 sst2 isLargestLevel s h1 h2 hs
    have hb := LSMTree.mergeTwoSSTs_built _ _ _ s hs
    exact ⟨hord, SST.built_sorted s hb hord,
      fun f hmax hw => File.written_ordered s f hb hmax hord hw⟩

/-- C31 at two files of two entries each, keys 1, 3 and keys 1, 2: both are
ordered, the merge returns an SST whose directory holds the keys 1, 2, 3, and
its pages are ordered.  The flush of a memtable that received the keys 2 and 1
builds an SST whose directory holds 1, 2. -/
theorem C31_page_ordering_witness :
    mergeInput1.PageOrdered ∧ mergeInput2.PageOrdered ∧
    mergeInput1.keysFrom 0 = [1, 3] ∧ mergeInput2.keysFrom 0 = [1, 2] ∧
    LSMTree.mergedKeys mergeInput1 mergeInput2 false = .ok [1, 2, 3] ∧
    (∃ s, LSMTree.mergeTwoSSTs (some mergeInput1) (some mergeInput2) false = .ok s ∧
      SST.PageOrdered s.pages) ∧
    (∃ sst, KVStore.flushedSST (AVLTree.calls [.put 2 20, .put 1 10] (AVLTree.new 3)) = .ok sst ∧
      SST.dirKeys sst.pages = [1, 2]) := by
  have n1 : mergeInput1.numPages = 1 := by decide!
  have n2 : mergeInput2.numPages = 1 := by decide!
  have k1 : mergeInput1.keysFrom 0 = [1, 3] := by decide!
  have k2 : mergeInput2.keysFrom 0 = [1, 2] := by decide!
  have p1 : mergeInput1.PageOrdered := by
    refine ⟨by rw [n1], fun i hi => ?_, by rw [k1]; decide⟩
    rw [n1] at hi
    have : i = 0 := by simp at hi; omega
    subst this
    decide!
  have p2 : mergeInput2.PageOrdered := by
    refine ⟨by rw [n2], fun i hi => ?_, by rw [k2]; decide⟩
    rw [n2] at hi
    have : i = 0 := by simp at hi; omega
    subst this
    decide!
  have hk : LSMTree.mergedKeys mergeInput1 mergeInput2 false = .ok [1, 2, 3] := by decide!
  have hf : (KVStore.flushedSST (AVLTree.calls [.put 2 20, .put 1 10] (AVLTree.new 3))).map
      (fun s => SST.dirKeys s.pages) = .ok [1, 2] := by decide!
  refine ⟨p1, p2, k1, k2, hk, ?_, ?_⟩
  · cases h : LSMTree.mergeTwoSSTs (some mergeInput1) (some mergeInput2) false with
    | error e => simp [LSMTree.mergedKeys, h] at hk
    | ok s =>
      exact ⟨s, rfl, ((C31_page_ordering 3 [.put 2 20, .put 1 10] mergeInput1 mergeInput2 false
        p1 p2).2.2 s h).1⟩
  · cases h : KVStore.flushedSST (AVLTree.calls [.put 2 20, .put 1 10] (AVLTree.new 3)) with
    | error e => rw [h] at hf; cases hf
    | ok sst =>
      rw [h] at hf
      simp only [Except.map, Except.ok.injEq] at hf
      exact ⟨sst, rfl, hf⟩

/-- C32 as stated fails on the filter of the cited test
`testBloomfilterUpdateData`: `BloomFilter(100, 10)` has seven hash functions,
`Get` computes the positions of a key with its own `BloomFilter(NUM_ENTRIES,
BITS_PER_ENTRY)`, which has eight; after `insert(12345)`, `insert(67890)` and
`updateData`, `query(12345)` answers true and the test of `Get` on the bytes
answers false. -/
theorem C32_get_test_differs_for_seven_hash_functions :
    (BloomFilter.new 100 10).numHashFunctions = 7 ∧
    (BloomFilter.new NUM_ENTRIES BITS_PER_ENTRY).numHashFunctions = 8 ∧
    (((BloomFilter.new 100 10).insert 12345).insert 67890).numBits = PAGE_SIZE ∧
    (((BloomFilter.new 100 10).insert 12345).insert 67890).query 12345 = true ∧
    KVStore.bloomCheck (((BloomFilter.new 100 10).insert 12345).insert 67890).updateData.data
      ((BloomFilter.new NUM_ENTRIES BITS_PER_ENTRY).getHashValues 12345) = false := by
  refine ⟨by decide, by decide, by decide, by decide, by decide⟩

/-- C32 as amended (the serialised filter agrees with the filter in memory): for a filter
of 4096 slots, as the constructor makes every filter, `updateData` leaves a
byte image in which byte `i` is 1 when slot `i` is set and 0 when it is not,
and nothing behind byte 4095; the slots and the answers of `query` are not
changed; the test of `Get` on these bytes at the hash positions of the filter
answers as `query` does; so it does at the hash positions that `Get` computes
with its own `BloomFilter(NUM_ENTRIES, BITS_PER_ENTRY)` when the filter has as
many hash functions, which is the case of the filter of every SST: for an SST
built by `addPage` calls and written by `writeToFile`, the block that `Get`
reads at offset 24 is complete and its test answers as `mightContain`. -/
theorem C32_serialised_filter (f : BloomFilter) (hb : f.numBits = PAGE_SIZE) :
    (∀ i, i < PAGE_SIZE → f.updateData.data i = if f.bitArray i then 1 else 0) ∧
    (∀ i, PAGE_SIZE ≤ i → f.updateData.data i = 0) ∧
    (∀ key, f.updateData.query key = f.query key) ∧
    (∀ key, KVStore.bloomCheck f.updateData.data (f.getHashValues key) = f.query key) ∧
    (f.numHashFunctions = (BloomFilter.new NUM_ENTRIES BITS_PER_ENTRY).numHashFunctions →
      ∀ key, KVStore.bloomCheck f.updateData.data
        ((BloomFilter.new NUM_ENTRIES BITS_PER_ENTRY).getHashValues key) = f.query key) ∧
    (∀ (pages : List Page) (s : SST) (fd : File), SST.addPages pages SST.new = .ok s →
      s.writeToFile = .ok fd →
      (fd.pread zeroBytes PAGE_SIZE SST_METADATA_SIZE).1 = PAGE_SIZE ∧
      ∀ key, KVStore.bloomCheck (fd.pread zeroBytes PAGE_SIZE SST_METADATA_SIZE).2
        ((BloomFilter.new NUM_ENTRIES BITS_PER_ENTRY).getHashValues key) = s.mightContain key) := by
  have hpos : 0 < f.numBits := by rw [hb]; decide
  have own : ∀ key, KVStore.bloomCheck f.updateData.data (f.getHashValues key) = f.query key :=
    fun key => KVStore.bloomCheck_image f _ _ hb (fun _ _ => rfl)
      (BloomFilter.getHashValues_lt f key hpos)
  refine ⟨fun i hi => ?_, fun i hi => ?_, BloomFilter.updateData_query f, own, fun hk key => ?_, ?_⟩
  · rw [BloomFilter.updateData_data, hb]
    by_cases hs : f.bitArray i = true
    · rw [if_pos ⟨hi, hi, hs⟩, if_pos hs]
    · rw [if_neg (fun h => hs h.2.2), if_neg hs]
  · rw [BloomFilter.updateData_data, if_neg (fun h => by omega)]
  · rw [BloomFilter.getHashValues_congr f (BloomFilter.new NUM_ENTRIES BITS_PER_ENTRY)
      (by rw [hb]; rfl) hk.symm]
    exact own key
  · intro pages s fd hs hw
    have hf := SST.addPages_new_filter pages s hs
    have hfile := SST.writeToFile_filter s fd hw
    have hn : (fd.pread zeroBytes PAGE_SIZE SST_METADATA_SIZE).1 = PAGE_SIZE := by
      have := hfile.1
      simp only [File.pread, SST_METADATA_SIZE, PAGE_SIZE] at this ⊢
      rw [if_neg (by omega)]
      simp only [Int.toNat_ofNat]
      omega
    refine ⟨hn, fun key => ?_⟩
    rw [BloomFilter.getHashValues_congr s.bloomFilter (BloomFilter.new NUM_ENTRIES BITS_PER_ENTRY)
      (by rw [hf.1]; rfl) hf.2.symm]
    refine KVStore.bloomCheck_image s.bloomFilter _ _ hf.1 (fun i hi => ?_)
      (BloomFilter.getHashValues_lt _ key (by rw [hf.1]; decide))
    have := hfile.1
    rw [← hfile.2 i hi]
    simp only [File.pread, SST_METADATA_SIZE, PAGE_SIZE] at this hi ⊢
    rw [if_neg (by omega)]
    simp only [Int.toNat_ofNat]
    rw [if_pos (by omega)]

/-- C32 at the keys of `testBloomfilterUpdateData`, in a filter as an SST holds
it (eight hash functions): the test of `Get` on the bytes answers true for
12345, as `query` does. -/
theorem C32_serialised_filter_witness :
    (((BloomFilter.new NUM_ENTRIES BITS_PER_ENTRY).insert 12345).insert 67890).numBits = PAGE_SIZE ∧
    KVStore.bloomCheck (((BloomFilter.new NUM_ENTRIES BITS_PER_ENTRY).insert 12345).insert 67890).updateData.data
      ((BloomFilter.new NUM_ENTRIES BITS_PER_ENTRY).getHashValues 12345) =
      (((BloomFilter.new NUM_ENTRIES BITS_PER_ENTRY).insert 12345).insert 67890).query 12345 ∧
    (((BloomFilter.new NUM_ENTRIES BITS_PER_ENTRY).insert 12345).insert 67890).query 12345 = true :=
  ⟨by decide,
   (C32_serialised_filter (((BloomFilter.new NUM_ENTRIES BITS_PER_ENTRY).insert 12345).insert 67890)
     (by decide)).2.2.2.2.1 (by decide) 12345,
   by decide⟩

/-- C33 (binary search and B-tree lookup agree), evaluated where it fails.  The
search inside a page of `binarySearchSST` starts with `high` at the number of
entries, one slot behind the directory, where `searchInPage` starts at the
last slot.  On the file of the entries (-2, 20), (-1, 10) the slot behind the
directory is blank, so for the target 0, which is not stored, the key read
there matches, and the value is read at offset 0, the header of the page; the
B-tree lookup returns -1.  On a full page of 204 entries the slot behind the
directory is the value area: for the target 1000, not stored as a key, the
binary search returns 1, the B-tree lookup -1.  For the stored keys -1 and 204
both return the stored value. -/
theorem C33_binary_search_reads_slot_behind_directory :
    KVStore.searchBoth [(-2, 20), (-1, 10)] 0 = some (.ok (-8589934590), .ok (-1)) ∧
    KVStore.searchBoth [(-2, 20), (-1, 10)] (-1) = some (.ok 10, .ok 10) ∧
    fullPage.length = 204 ∧ fullPage.Pairwise (fun a b => a.1 < b.1) ∧
    (∀ kv ∈ fullPage, kv.1 ≠ 1000) ∧
    KVStore.searchBoth fullPage 1000 = some (.ok 1, .ok (-1)) ∧
    KVStore.searchBoth fullPage 204 = some (.ok 1000, .ok 1000) := by
  refine ⟨by decide!, by decide!, by decide!, by decide!, by decide!, by decide!, by decide!⟩

/-- C34 as worded fails for two values other than the tombstone: when the
memtable holds -1 or INT64_MIN for a key, `Get` takes the key for absent from
the memtable and goes on to the SSTs, here returning the older value 7. -/
theorem C34_memtable_minus_one_is_not_found :
    (-1 : Int) ≠ TOMBSTONE ∧ INT64_MIN ≠ TOMBSTONE ∧
    KVStore.getAfter (KVStore.openAndRun 2 "db" [.put 1 7, .put 2 8, .put 1 (-1)]) pool0 1 = .ok 7 ∧
    KVStore.getAfter (KVStore.openAndRun 2 "db" [.put 1 7, .put 2 8, .put 1 INT64_MIN]) pool0 1 =
      .ok 7 := by
  refine ⟨by decide, by decide, by decide!, by decide!⟩

/-- C34 (the memtable is authoritative for `Get`), for the values that `Get`
can tell from "not found": in every store whose memtable is a search tree that
holds the key `k` with a value `v` other than the tombstone, -1 and INT64_MIN,
on every disk and with every page cache, `Get(k)` returns `v` and leaves the
page cache as it was (no block of an SST is looked up or cached). -/
theorem C34_memtable_authoritative (s : KVStore) (fs : FileSystem) (pool : BufferPool)
    (k v : Int) (ho : AVLTree.Ordered s.memtable.root)
    (hm : (k, v) ∈ AVLTree.toList s.memtable.root)
    (hT : v ≠ TOMBSTONE) (h1 : v ≠ -1) (hmin : v ≠ INT64_MIN) :
    s.Get fs pool k = (.ok v, pool) := by
  have hg : s.memtable.get k = v := by
    unfold AVLTree.get
    rw [AVLTree.getNode_of_mem _ _ _ ho hm]
    simp [hmin]
  unfold KVStore.Get
  simp only [hg]
  rw [if_pos h1, if_neg hT]

/-- C34 in a store with an older value on disk: the memtable of `heldStore`
holds (1, 9) and `Get(1)` returns 9, where the same store with an empty
memtable returns the value 10 of the file in level 1. -/
theorem C34_memtable_authoritative_witness :
    AVLTree.Ordered heldStore.memtable.root ∧
    ((1 : Int), (9 : Int)) ∈ AVLTree.toList heldStore.memtable.root ∧
    heldStore.Get cascadeDisk pool0 1 = (.ok 9, pool0) ∧
    ({ heldStore with memtable := AVLTree.new 3 }.Get cascadeDisk pool0 1).1 = .ok 10 :=
  ⟨AVLTree.ordered_ofWrites [(1, 9)], by decide,
   C34_memtable_authoritative heldStore cascadeDisk pool0 1 9 (AVLTree.ordered_ofWrites [(1, 9)])
     (by decide) (by decide) (by decide) (by decide),
   by decide!⟩

/-- C35 (compaction output is never empty), evaluated where it fails: merging
the one-entry files of (1, 5) and of the tombstone of key 1 with
`isLargestLevel = true` drops the only key, so the SST returned has no page
and a null B-tree pointer, and `writeToFile` dereferences it.  With threshold
1 the calls `Put(1, 5)`, `Put(2, 6)`, `Put(3, 7)` leave one file in level 0
and one in level 1; `Del(3)` then flushes a file holding the tombstone of key
3 alone and the merge of level 0, the level above the last, does just that. -/
theorem C35_bottom_merge_of_key_and_tombstone_is_empty :
    (SST.fileOf [(1, 5)]).isSome = true ∧ (SST.fileOf [(1, TOMBSTONE)]).isSome = true ∧
    LSMTree.mergedShape [(1, 5)] [(1, TOMBSTONE)] true = .ok (0, false) ∧
    LSMTree.mergedWrite [(1, 5)] [(1, TOMBSTONE)] true = .error .nullDeref ∧
    KVStore.indexAfter (KVStore.openAndRun 1 "db" [.put 1 5, .put 2 6, .put 3 7]) =
      some (3, [["../db/sst_3.sst"], ["../db/sst_1_2.sst"]]) ∧
    faultOf (KVStore.openAndRun 1 "db" [.put 1 5, .put 2 6, .put 3 7, .del 3]) =
      some .nullDeref := by
  refine ⟨by decide!, by decide!, by decide!, by decide!, by decide!, by decide!⟩

/-- C36 (index safety of `splitChild`), which holds for a leaf child and fails
for an internal one.  For every `t ≥ 1` and every full leaf child the call
returns, every read being inside its vector.  For every `t` and every full
internal child, the key to promote is read at index `t - 1` after
`resize(t - 1)` left `t - 1` keys: the read is outside the vector.  With
`t = 2`: the child with the keys 2, 4, 6 over four leaves. -/
theorem C36_internal_split_reads_behind_resized_keys :
    (∀ (t : Nat) (pLeaf : Bool) (pKeys : List Int) (pChildren : List BTree.Node)
      (pOffsets : List Int) (pData : Bytes) (index : Nat) (cKeys : List Int)
      (cChildren : List BTree.Node) (cOffsets : List Int) (cData : Bytes),
      1 ≤ t → pChildren[index]? = some (.mk true cKeys cChildren cOffsets cData) →
      cKeys.length = 2 * t - 1 → cOffsets.length = 2 * t - 1 →
      faultOf (BTree.splitChild t (.mk pLeaf pKeys pChildren pOffsets pData) index) = none) ∧
    (∀ (t : Nat) (pLeaf : Bool) (pKeys : List Int) (pChildren : List BTree.Node)
      (pOffsets : List Int) (pData : Bytes) (index : Nat) (cKeys : List Int)
      (cChildren : List BTree.Node) (cOffsets : List Int) (cData : Bytes),
      pChildren[index]? = some (.mk false cKeys cChildren cOffsets cData) →
      cKeys.length = 2 * t - 1 →
      BTree.splitChild t (.mk pLeaf pKeys pChildren pOffsets pData) index = .error .outOfBounds) ∧
    resizeInts [2, 4, 6] (2 - 1) = [2] ∧
    readAt (resizeInts [2, 4, 6] (2 - 1)) (2 - 1) = .error .outOfBounds ∧
    faultOf (BTree.splitChild 2 (.mk false [] [.mk false [2, 4, 6]
      [.mk true [1, 2] [] [10, 20] zeroBytes, .mk true [3, 4] [] [30, 40] zeroBytes,
       .mk true [5, 6] [] [50, 60] zeroBytes, .mk true [7, 8] [] [70, 80] zeroBytes]
      [] zeroBytes] [] zeroBytes) 0) = some .outOfBounds := by
  refine ⟨?_, ?_, by decide, by decide, by decide⟩
  · intro t pLeaf pKeys pChildren pOffsets pData index cKeys cChildren cOffsets cData ht hc hk ho
    rw [BTree.splitChild_leaf t ht pLeaf pKeys pChildren pOffsets pData index cKeys cChildren
      cOffsets cData hc hk ho]
    rfl
  · intro t pLeaf pKeys pChildren pOffsets pData index cKeys cChildren cOffsets cData hc hk
    exact BTree.splitChild_internal t pLeaf pKeys pChildren pOffsets pData index cKeys cChildren
      cOffsets cData hc hk

/-- C37 (the AVL invariant of the memtable): after every sequence of `put`,
`del` and `clear` calls on a new memtable, the keys of the tree in in-order are
strictly ascending, so pairwise distinct, and every node has the keys of its
left subtree below its key and those of its right subtree above it; the height
stored in every node is one more than the larger of the heights of its two
subtrees (`updateHeight`), and the balance factor of every node is -1, 0 or 1.
Three ascending keys make the rotation visible: the root holds the middle
one. -/
theorem C37_avl_invariant (n : Int) (cs : List AVLTree.Call) :
    AVLTree.Ordered (AVLTree.calls cs (AVLTree.new n)).root ∧
    (AVLTree.keys (AVLTree.calls cs (AVLTree.new n)).root).Nodup ∧
    (∀ k v l r h, Node.mk k v l r h ∈ AVLTree.subtrees (AVLTree.calls cs (AVLTree.new n)).root →
      (∀ a ∈ AVLTree.keys l, a < k) ∧ (∀ b ∈ AVLTree.keys r, k < b)) ∧
    (∀ x ∈ AVLTree.subtrees (AVLTree.calls cs (AVLTree.new n)).root,
      AVLTree.height x = AVLTree.updateHeight x ∧
      -1 ≤ AVLTree.balanceFactor x ∧ AVLTree.balanceFactor x ≤ 1) ∧
    (AVLTree.calls [.put 1 10, .put 2 20, .put 3 30] (AVLTree.new 5)).root =
      .mk 2 20 (.mk 1 10 .null .null 1) (.mk 3 30 .null .null 1) 2 := by
  have ho : AVLTree.Ordered (AVLTree.calls cs (AVLTree.new n)).root :=
    AVLTree.ordered_calls cs (AVLTree.new n) (by simp [AVLTree.Ordered, AVLTree.keys,
      AVLTree.toList, AVLTree.new])
  have ha : AVLTree.Avl (AVLTree.calls cs (AVLTree.new n)).root :=
    AVLTree.avl_calls cs (AVLTree.new n) trivial
  exact ⟨ho, List.Pairwise.imp (fun h => ne_of_lt h) ho, AVLTree.ordered_subtrees _ ho,
    AVLTree.avl_subtrees _ ha, by decide⟩

/-- C38 (eviction terminates): on a pool that satisfies the invariant of the
page cache and holds `n ≥ 1` entries, the loop of `evictPage` run with any
bound above `n` makes the iterations of `evictPage` itself: it moves the hand
past at most `n` entries and then evicts.  One entry `v` leaves the list (the
page IDs before are those after and `v`; the list is one shorter), its page ID
alone leaves the page map (the lookup of `v` succeeded before and fails after,
every other lookup is unchanged, the map is one smaller), `currentSize` drops
by one, and the hand is on an entry that is left, or null when none is. -/
theorem C38_eviction_terminates (p : BufferPool) (h : BufferPool.Inv p) (hne : 0 < p.ring.length)
    (fuel : Nat) (hf : p.ring.length < fuel) :
    BufferPool.evictLoop fuel p = p.evictPage ∧
    (∃ k, k ≤ p.ring.length ∧ BufferPool.sweepLength fuel p = some k) ∧
    (∃ v, v ∈ p.ring ∧ p.pageIDs.Perm (v.pageID :: p.evictPage.pageIDs) ∧
      p.evictPage.pageMap = p.pageMap.remove v.pageID ∧
      (p.pageMap.get v.pageID).isSome = true ∧ p.evictPage.pageMap.get v.pageID = none ∧
      ∀ x, x ≠ v.pageID → p.evictPage.pageMap.get x = p.pageMap.get x) ∧
    p.evictPage.ring.length + 1 = p.ring.length ∧
    p.evictPage.pageMap.size + 1 = p.pageMap.size ∧
    p.evictPage.currentSize + 1 = p.currentSize ∧
    (p.ring.length = 1 → p.evictPage.clockHand = none ∧ p.evictPage.ring = []) ∧
    (1 < p.ring.length → ∃ k, p.evictPage.clockHand = some k ∧ k < p.evictPage.ring.length) := by
  have hh := BufferPool.hand_of_nonempty p h.hand hne
  have hs := BufferPool.sweep_spec p hh fuel hf
  obtain ⟨v, hv, -, hm, hsz, -, hlen, hhand⟩ := BufferPool.evictPage_spec p hh
  have hperm := BufferPool.evictPage_pageIDs p v hh hv
  have hvin : v.pageID ∈ p.pageIDs := hperm.mem_iff.2 (List.mem_cons_self _ _)
  have hvr : v ∈ p.ring :=
    (BufferPool.fromHand_perm p).mem_iff.1 (BufferPool.victim_mem p.fromHand v hv)
  have hcached := (h.cached v.pageID).2 hvin
  obtain ⟨pg, hpg⟩ := Option.isSome_iff_exists.1 hcached
  have hcur : 1 ≤ p.currentSize := by rw [← h.size_eq]; exact hne
  refine ⟨hs.1, hs.2, ⟨v, hvr, hperm, hm, hcached, ?_, ?_⟩, by omega, ?_, by omega, ?_, ?_⟩
  · rw [hm, HashMap.get_remove _ _ _ h.chained, if_pos rfl]
  · intro x hx
    rw [hm, HashMap.get_remove _ _ _ h.chained, if_neg hx]
  · rw [hm, HashMap.size_remove _ _ pg hpg, h.map_size]
    omega
  · intro h1
    have hz : p.evictPage.ring.length = 0 := by omega
    have hnil : p.evictPage.ring = [] := List.length_eq_zero.1 hz
    refine ⟨?_, hnil⟩
    unfold BufferPool.HandOk at hhand
    cases hc : p.evictPage.clockHand with
    | none => rfl
    | some k =>
      rw [hc] at hhand
      simp only at hhand
      omega
  · intro h1
    exact BufferPool.hand_of_nonempty _ hhand (by omega)

/-- C38 at the pool of the unit test `testBufferPoolEviction`: two entries,
the hand on `page1`, whose bit is set; the hand passes one entry, `page2` is
evicted and one entry is left. -/
theorem C38_eviction_terminates_witness :
    0 < poolOfTest.ring.length ∧ poolOfTest.ring.length < 3 ∧
    BufferPool.evictLoop 3 poolOfTest = poolOfTest.evictPage ∧
    BufferPool.sweepLength 3 poolOfTest = some 1 ∧
    poolOfTest.evictPage.ring = [{ pageID := "page1", referenceBit := 0 }] ∧
    poolOfTest.evictPage.clockHand = some 0 ∧
    poolOfTest.evictPage.currentSize = 1 :=
  ⟨by decide, by decide,
   (C38_eviction_terminates poolOfTest
     (BufferPool.inv_calls _ _ (BufferPool.inv_new (fun _ => 0) 2 (by decide)))
     (by decide) 3 (by decide)).1,
   by decide, by decide, by decide, by decide⟩

/-- C39 (the levels behave as a binary counter): when `n` calls of `addSST` on
an empty LSM manager of size ratio 2 have returned, whatever the disk each of
them found, level `i` holds as many filenames as bit `i` of `n` says, one or
none: so for every level, allocated or not, through `getSSTFilesByLevel`, and
for the allocated levels in the lists themselves.  No sequence of calls
exhausts the bounds of the loops of the compaction. -/
theorem C39_levels_binary_counter (db_name : String) (calls : List (FileSystem × String))
    (t : LSMTree) (h : LSMTree.addSSTs calls (LSMTree.new db_name 2) = .ok t) :
    (∀ i, (t.getSSTFilesByLevel i).length = calls.length / 2 ^ i % 2) ∧
    (∀ i, i < t.getNumLevels →
      (calls.length / 2 ^ i % 2 = 1 → ∃ name, t.levels.getD i [] = [name]) ∧
      (calls.length / 2 ^ i % 2 = 0 → t.levels.getD i [] = [])) ∧
    (∀ cs, LSMTree.addSSTs cs (LSMTree.new db_name 2) ≠ .error .outOfFuel) := by
  have hnew : ∀ l ∈ (LSMTree.new db_name 2).levels, l.length < 2 := by
    intro l hl
    simp only [LSMTree.new, LSMTree.ensureLevelExists] at hl
    simp at hl
    subst hl
    decide
  obtain ⟨-, hinv, hw⟩ := LSMTree.addSSTs_spec calls (LSMTree.new db_name 2) t rfl hnew h
  have hw0 : LSMTree.weight (LSMTree.new db_name 2).levels = 0 := rfl
  rw [hw0, Nat.zero_add] at hw
  have hd := LSMTree.weight_digit t.levels hinv
  rw [hw] at hd
  refine ⟨fun i => ?_, fun i _ => ⟨fun h1 => ?_, fun h0 => ?_⟩,
    fun cs => LSMTree.addSSTs_fuel cs _ rfl hnew⟩
  · unfold LSMTree.getSSTFilesByLevel
    split
    · exact hd i
    · rename_i hi
      rw [← hd i, List.getD_eq_getElem?_getD, List.getElem?_eq_none (by omega)]
      rfl
  · have := hd i
    rw [h1] at this
    exact List.length_eq_one.1 this
  · have := hd i
    rw [h0] at this
    exact List.length_eq_zero.1 this

/-- C39 at three calls: the second call merges the two files of level 0 into
level 1, the third leaves its file in level 0; three is 11 in binary. -/
theorem C39_levels_binary_counter_witness :
    LSMTree.addSSTs
      [(LSMTree.diskOf [("../db/sst_1.sst", 1)], "../db/sst_1.sst"),
       (LSMTree.diskOf [("../db/sst_1.sst", 1), ("../db/sst_2.sst", 2)], "../db/sst_2.sst"),
       (LSMTree.diskOf [("../db/sst_1_2.sst", 1), ("../db/sst_3.sst", 3)], "../db/sst_3.sst")]
      (LSMTree.new "../db" 2) =
      .ok (LSMTree.mk 2 "../db" [["../db/sst_3.sst"], ["../db/sst_1_2.sst"]]) ∧
    (∀ i, ((LSMTree.mk 2 "../db" [["../db/sst_3.sst"], ["../db/sst_1_2.sst"]]).getSSTFilesByLevel
      i).length = 3 / 2 ^ i % 2) :=
  ⟨by decide!,
   (C39_levels_binary_counter "../db"
     [(LSMTree.diskOf [("../db/sst_1.sst", 1)], "../db/sst_1.sst"),
      (LSMTree.diskOf [("../db/sst_1.sst", 1), ("../db/sst_2.sst", 2)], "../db/sst_2.sst"),
      (LSMTree.diskOf [("../db/sst_1_2.sst", 1), ("../db/sst_3.sst", 3)], "../db/sst_3.sst")]
     (LSMTree.mk 2 "../db" [["../db/sst_3.sst"], ["../db/sst_1_2.sst"]]) (by decide!)).1⟩

/-- C40 (the hash map refines a finite map): for every bucket function, every
capacity `c ≥ 1` and every sequence of `insert` and `remove` calls on the
empty map, `get(k)` returns the value of the last `insert` of `k` when no
`remove` of `k` came after it, and null when `k` was never inserted or was
removed since; a further call on another key leaves the result of `get(k)` as
it was; and a call on `k` itself makes it the value inserted, or null. -/
theorem C40_hashmap_refines_map {V : Type} (hash : String → Nat) (c : Nat) (hc : 1 ≤ c)
    (cs : List (HashMap.Call V)) (k : String) :
    (HashMap.calls cs (HashMap.new hash c)).get k = HashMap.bound k cs ∧
    (HashMap.calls cs (HashMap.new hash c)).capacity = c ∧
    (∀ call : HashMap.Call V, call.key ≠ k →
      ((HashMap.calls cs (HashMap.new hash c)).call call).get k =
        (HashMap.calls cs (HashMap.new hash c)).get k) ∧
    (∀ v, ((HashMap.calls cs (HashMap.new hash c)).insert k v).get k = some v) ∧
    ((HashMap.calls cs (HashMap.new hash c)).remove k).get k = none := by
  have _ := hc
  have hch := HashMap.chained_calls cs (HashMap.new hash c) (HashMap.chained_new hash c)
  refine ⟨?_, ?_, ?_, ?_, ?_⟩
  · rw [HashMap.get_calls cs _ k (HashMap.chained_new hash c)]
    rfl
  · rw [HashMap.capacity_after_calls]
    rfl
  · intro call hk
    rw [HashMap.get_call _ call k hch]
    cases call with
    | insert key value => exact if_neg (fun e => hk e.symm)
    | remove key => exact if_neg (fun e => hk e.symm)
  · intro v
    rw [HashMap.get_insert, if_pos rfl]
  · rw [HashMap.get_remove _ _ _ hch, if_pos rfl]

/-- C40 at the unit tests with capacity 1, where all keys share one bucket:
after `insert("key1", 42)`, `insert("key2", 84)` the lookups return 42 and 84;
after `remove("key1")` the lookup of `key1` returns null and that of `key2`
still 84. -/
theorem C40_hashmap_refines_map_witness :
    (1 ≤ 1) ∧
    (HashMap.calls [.insert "key1" (42 : Int), .insert "key2" 84, .remove "key1"]
      (HashMap.new (fun s => s.length) 1)).get "key2" =
      HashMap.bound "key2" [.insert "key1" (42 : Int), .insert "key2" 84, .remove "key1"] ∧
    HashMap.bound "key2" [.insert "key1" (42 : Int), .insert "key2" 84, .remove "key1"] = some 84 ∧
    HashMap.bound "key1" [.insert "key1" (42 : Int), .insert "key2" 84, .remove "key1"] = none ∧
    HashMap.bound "key1" [.insert "key1" (42 : Int), .insert "key2" 84] = some 42 ∧
    (HashMap.calls [.insert "key1" (42 : Int), .insert "key2" 84]
      (HashMap.new (fun s => s.length) 1)).table 0 = [("key1", 42), ("key2", 84)] :=
  ⟨by decide,
   (C40_hashmap_refines_map (fun s => s.length) 1 (by decide)
     [.insert "key1" (42 : Int), .insert "key2" 84, .remove "key1"] "key2").1,
   by decide, by decide, by decide, by decide⟩

end MimicDB
